import Mathlib

/-!
# mina86 :: Array  (src/array.hpp)

A shallow embedding of the copy-on-write dynamic array.

* `unsigned` is a natural number below `2^32`; every addition and subtraction
  the source performs on `unsigned` is reduced modulo `2^32` (`uadd`, `usub`).
* A `Data` body carries its reference counter, its allocated slots (`data`,
  one list entry per slot of the `new T[c]` block), `size` and `capacity`.
* A block that `new T[c]` returns holds unspecified values (`RawStorage.raw`):
  nothing is assumed about them.
* A parameter `const T &element` is either an object outside the block of the
  array or a slot of that block (`Element`), read when the source reads it.
* The free store is a list of cells (`none` = deleted body); a pointer to a
  body is the index of its cell.  `new Data` appends a cell.
* An `Array` handle is a variable holding one pointer (`World.vars`); every
  method takes the world and the index `self` of the handle it is called on.
* `throw BadIndex(..)` is the error side of `Except`; the error carries the
  requested index and the world as it is when the exception leaves the method.
* Reading a slot outside the allocated block yields `default`, writing there
  is dropped (both are undefined behaviour in the source and are never reached
  from a well-formed world below 32-bit overflow).
-/

set_option linter.unusedSectionVars false
set_option linter.unusedVariables false

namespace mina86

variable {T : Type} [Inhabited T]

/-- Addition on `unsigned`. -/
def uadd (a b : Nat) : Nat := (a + b) % 4294967296

/-- Subtraction on `unsigned` (operands below `2^32`). -/
def usub (a b : Nat) : Nat := (a + 4294967296 - b) % 4294967296

/-- The class `Array<T>::Data`. -/
structure Data (T : Type) where
  references : Nat
  data : List T
  size : Nat
  capacity : Nat

/-- What storage holds before a value is assigned to it.  `new T[c]` default-initialises
its `c` elements, which leaves the elements of a scalar type with indeterminate values;
`raw i` is the value slot `i` of a block holds when `new T[c]` returns it.  Nothing is
assumed about `raw`. -/
class RawStorage (T : Type) where
  raw : Nat → T

/-- The content of fresh blocks in the worlds of natural numbers used as examples. -/
instance : RawStorage Nat := ⟨fun i => 1431655765 + i⟩

section ArrayModel

variable [RawStorage T]

/-- The block `new T[c]`: `c` slots holding what the storage held. -/
def newArr (c : Nat) : List T := (List.range c).map RawStorage.raw

/-- The constructor `Data()`. -/
def Data.empty : Data T := ⟨0, [], 0, 0⟩

/-- The constructor `Data(unsigned c)`. -/
def Data.ofCapacity (c : Nat) : Data T := ⟨0, newArr c, 0, c⟩

/-- The loop `for (T *d = data + idx; s; --s) *d++ = *array++;`. -/
def copyLoop : List T → Nat → List T → Nat → List T
  | buf, _, _, 0 => buf
  | buf, idx, array, s + 1 => copyLoop (buf.set idx (array.headD default)) (idx + 1) array.tail s

/-- The method `Data::copyAt(idx, array, s)`. -/
def Data.copyAt (d : Data T) (idx : Nat) (array : List T) (s : Nat) : Data T :=
  { d with size := uadd s idx, data := copyLoop d.data idx array s }

/-- The method `Data::copy(array, s)`. -/
def Data.copy (d : Data T) (array : List T) (s : Nat) : Data T :=
  d.copyAt 0 array s

/-- The copy constructor `Data(const Data &d)`. -/
def Data.copyCtor (d : Data T) : Data T :=
  if d.capacity = 0 then ⟨0, [], d.size, d.capacity⟩
  else (⟨0, newArr d.capacity, d.size, d.capacity⟩ : Data T).copy d.data d.size

/-- The method `Data::isOwn()`. -/
def Data.isOwn (d : Data T) : Bool := d.references == 1

/-- The free store together with the `data` pointer of every `Array` handle. -/
structure World (T : Type) where
  heap : List (Option (Data T))
  vars : List Nat

/-- The exception `Array<T>::BadIndex`. -/
structure BadIndex (T : Type) where
  index : Nat
  world : World T

/-- The method `BadIndex::getIndex()`. -/
def BadIndex.getIndex (e : BadIndex T) : Nat := e.index

/-- The body stored in a cell of the free store. -/
def cell (h : List (Option (Data T))) (p : Nat) : Data T :=
  match h.getD p none with
  | some d => d
  | none => Data.empty

/-- The function `Data::inc(d)`. -/
def heapInc (h : List (Option (Data T))) (p : Nat) : List (Option (Data T)) :=
  match h.getD p none with
  | some d => h.set p (some { d with references := uadd d.references 1 })
  | none => h

/-- The function `Data::dec(d)`: the body is deleted when the counter reaches zero. -/
def heapDec (h : List (Option (Data T))) (p : Nat) : List (Option (Data T)) :=
  match h.getD p none with
  | some d =>
    if usub d.references 1 = 0 then h.set p none
    else h.set p (some { d with references := usub d.references 1 })
  | none => h

namespace World

/-- The pointer `this->data` of handle `self`. -/
def ptr (w : World T) (self : Nat) : Nat := w.vars.getD self 0

/-- The body `*this->data` of handle `self`. -/
def body (w : World T) (self : Nat) : Data T := cell w.heap (w.ptr self)

/-- Writes the fields of `*this->data` in place. -/
def store (w : World T) (self : Nat) (d : Data T) : World T :=
  { w with heap := w.heap.set (w.ptr self) (some d) }

/-- The idiom `Data *d = new Data(..); ..; Data::dec(data); Data::inc(data = d);`
with `nd` the freshly built body. -/
def rebind (w : World T) (self : Nat) (nd : Data T) : World T :=
  let p := w.heap.length
  let h1 := w.heap ++ [some nd]
  let h2 := heapDec h1 (w.ptr self)
  let h3 := heapInc h2 p
  ⟨h3, w.vars.set self p⟩

/-- The temporary `Array<T>(c)` that `BadIndex(data->size, pos)` builds through the
converting constructor and destroys at the end of the throw expression. -/
def temporary (w : World T) (c : Nat) : World T :=
  let p := w.heap.length
  let h1 := w.heap ++ [some (Data.ofCapacity c)]
  let h2 := heapInc h1 p
  { w with heap := heapDec h2 p }

end World

/-- What a parameter `const T &element` is bound to: an object that is not stored in the
block of the array (a temporary, a variable, an element of another block), or slot `i` of
the block of the array itself, as in `a.insert(pos, a[i])`. -/
inductive Element (T : Type) where
  | value (x : T)
  | slot (i : Nat)

/-- The value read through the reference while the block of the array holds `block`. -/
def Element.read (block : List T) : Element T → T
  | .value x => x
  | .slot i => block.getD i default

namespace Array

/-- The constructor `Array(unsigned capacity = 0)`; the new handle is the last variable. -/
def ctor (w : World T) (capacity : Nat) : World T :=
  let p := w.heap.length
  ⟨heapInc (w.heap ++ [some (Data.ofCapacity capacity)]) p, w.vars ++ [p]⟩

/-- The copy constructor `Array(const Array &array)`; the new handle is the last variable. -/
def copyCtor (w : World T) (array : Nat) : World T :=
  ⟨heapInc w.heap (w.ptr array), w.vars ++ [w.ptr array]⟩

/-- The method `size()`. -/
def size (w : World T) (self : Nat) : Nat := (w.body self).size

/-- The method `getCapacity()`. -/
def getCapacity (w : World T) (self : Nat) : Nat := (w.body self).capacity

/-- The method `operator[]`. -/
def get (w : World T) (self : Nat) (pos : Nat) : T := (w.body self).data.getD pos default

/-- The elements `begin() .. end()`. -/
def elems (w : World T) (self : Nat) : List T :=
  (List.range (size w self)).map (fun i => get w self i)

/-- The method `makeOwn()`.  The source calls `Data::dec(data)` before `new Data(*data)`;
`dec` cannot delete the body here (its counter is not 1), so the copy reads the same body
and the resulting world is that of `rebind`. -/
def makeOwn (w : World T) (self : Nat) : World T :=
  if !(w.body self).isOwn then w.rebind self (w.body self).copyCtor else w

/-- The method `set(const Array<T> &array)`. -/
def set (w : World T) (self : Nat) (array : Nat) : World T :=
  if w.ptr array ≠ w.ptr self then
    let h1 := heapDec w.heap (w.ptr self)
    ⟨heapInc h1 (w.ptr array), w.vars.set self (w.ptr array)⟩
  else w

/-- The method `operator=`. -/
def assign (w : World T) (self : Nat) (array : Nat) : World T := set w self array

/-- The shifting loop of `insert`:
`for (left = size - pos; left; --el, --left) *el = *(el - 1);`, returning the block and `el`. -/
def shiftUp : List T → Nat → Nat → List T × Nat
  | buf, el, 0 => (buf, el)
  | buf, el, left + 1 => shiftUp (buf.set el (buf.getD (el - 1) default)) (el - 1) left

/-- The method `insert(unsigned pos, const T &element)`.  The parameter is a reference:
the two paths that build a new block read it while the old block is as it was
(`copyAt(pos, &element, 1)`), and the path that shifts the elements in place reads it
after the shift (`*el = element;`). -/
def insertFrom (w : World T) (self : Nat) (pos : Nat) (element : Element T) :
    Except (BadIndex T) (World T) :=
  let d := w.body self
  if pos > d.size then
    .error ⟨pos, w.temporary d.size⟩
  else
    let capacity :=
      if d.size ≥ d.capacity then
        (if d.capacity > 30 then uadd d.capacity (d.capacity / 2) else 32)
      else d.capacity
    if !d.isOwn then
      let n0 : Data T := Data.ofCapacity capacity
      let n1 := n0.copyAt 0 d.data pos
      let n2 := n1.copyAt pos [element.read d.data] 1
      let n3 := n2.copyAt (uadd pos 1) (d.data.drop pos) (usub d.size pos)
      .ok (w.rebind self n3)
    else if d.capacity ≥ capacity then
      let r := shiftUp d.data d.size (usub d.size pos)
      .ok (w.store self
        { d with data := r.1.set r.2 (element.read r.1), size := uadd d.size 1 })
    else
      let n0 : Data T := { d with data := newArr capacity, capacity := capacity }
      let n1 := n0.copyAt 0 d.data pos
      let n2 := n1.copyAt pos [element.read d.data] 1
      let n3 := n2.copyAt (uadd pos 1) (d.data.drop pos) (usub d.size pos)
      .ok (w.store self n3)

/-- The call `insert(pos, element)` with an `element` that is not stored in the block of
the array. -/
def insert (w : World T) (self : Nat) (pos : Nat) (element : T) :
    Except (BadIndex T) (World T) :=
  insertFrom w self pos (.value element)

/-- The shifting loop of `remove`: `for (; el != last; ++el) el[0] = el[1];`,
run for the `last - el` rounds it takes when `el <= last`. -/
def shiftDown : List T → Nat → Nat → List T
  | buf, _, 0 => buf
  | buf, el, left + 1 => shiftDown (buf.set el (buf.getD (el + 1) default)) (el + 1) left

/-- The method `remove(pos, order)`. -/
def remove (w : World T) (self : Nat) (pos : Nat) (order : Bool) :
    Except (BadIndex T) (World T) :=
  let d := w.body self
  if pos ≥ d.size then
    .error ⟨pos, w.temporary d.size⟩
  else if !d.isOwn then
    let n0 : Data T := Data.ofCapacity (uadd d.capacity 31)
    let n1 := n0.copyAt 0 d.data pos
    let n2 := n1.copyAt pos (d.data.drop (pos + 1)) (usub (usub d.size pos) 1)
    .ok (w.rebind self n2)
  else if usub d.capacity d.size ≥ 256 then
    let n0 : Data T := { d with data := newArr (uadd d.size 31), capacity := uadd d.size 31 }
    let n1 := n0.copyAt 0 d.data pos
    let n2 := n1.copyAt pos (d.data.drop (pos + 1)) (usub (usub d.size pos) 1)
    .ok (w.store self n2)
  else
    let d1 : Data T := { d with size := usub d.size 1 }
    if pos = d1.size then
      .ok (w.store self d1)
    else if !order then
      .ok (w.store self { d1 with data := d1.data.set pos (d1.data.getD d1.size default) })
    else
      .ok (w.store self { d1 with data := shiftDown d1.data pos (d1.size - pos) })

/-- The method `resize(_size, capacity)`. -/
def resize (w : World T) (self : Nat) (_size : Nat) (capacity : Nat) : World T :=
  let d := w.body self
  if _size = d.size ∧ d.capacity ≥ capacity ∧ d.capacity ≤ uadd capacity 256
      ∧ d.capacity ≤ uadd d.size 256 then
    w
  else
    let capacity := if capacity < _size then uadd _size 8 else capacity
    if !d.isOwn then
      let n0 : Data T := Data.ofCapacity capacity
      let n1 := n0.copy d.data (if _size ≤ d.size then _size else d.size)
      w.rebind self { n1 with size := _size }
    else if capacity ≥ d.capacity ∨ uadd capacity 256 ≤ d.capacity then
      let n0 : Data T := { d with data := newArr capacity, capacity := capacity }
      let n1 := n0.copy d.data (if _size ≤ d.size then _size else d.size)
      w.store self { n1 with size := _size }
    else
      w.store self { d with size := _size }

/-- The method `reserve(capacity)`. -/
def reserve (w : World T) (self : Nat) (capacity : Nat) : World T :=
  resize w self (size w self) capacity

/-- The method `clear()`. -/
def clear (w : World T) (self : Nat) : World T := resize w self 0 0

/-- The method `shrink(_size)`. -/
def shrink (w : World T) (self : Nat) (_size : Nat) : World T :=
  if _size < size w self then resize w self _size 0 else w

/-- The method `shrinkBy(by)`. -/
def shrinkBy (w : World T) (self : Nat) (n : Nat) : World T :=
  if n ≥ size w self then clear w self else resize w self (usub (size w self) n) 0

/-- The method `enlargeBy(by)`. -/
def enlargeBy (w : World T) (self : Nat) (n : Nat) : World T :=
  resize w self (uadd (size w self) n) 0

/-- The method `set(const T *array, _size, capacity)`. -/
def setRaw (w : World T) (self : Nat) (array : List T) (_size : Nat) (capacity : Nat) :
    World T :=
  let w1 := reserve w self (if capacity < _size then uadd _size 8 else capacity)
  let w2 := makeOwn w1 self
  w2.store self ((w2.body self).copy array _size)

/-- The method `set_no_copy(arrays, _size, capacity)`; `arrays` is the caller's block
(`delete[] data->data` frees the old block and leaves the fields as they are). -/
def set_no_copy (w : World T) (self : Nat) (arrays : List T) (_size : Nat) (capacity : Nat) :
    World T :=
  let w1 := if (w.body self).isOwn then w else w.rebind self Data.empty
  w1.store self { w1.body self with
    data := arrays, size := _size,
    capacity := if capacity < _size then uadd _size 8 else capacity }

/-- The method `push(element)`, which is `insert(data->size, element)`: nothing is shifted
at this position, so what is stored is the value the argument has at the call. -/
def push (w : World T) (self : Nat) (element : T) : Except (BadIndex T) (World T) :=
  insert w self (size w self) element

/-- The method `T pop()`. -/
def pop (w : World T) (self : Nat) : Except (BadIndex T) (T × World T) :=
  if size w self = 0 then .error ⟨0, w⟩
  else
    let element := get w self (usub (size w self) 1)
    .ok (element, shrinkBy w self 1)

/-- The method `const T &peek()`. -/
def peek (w : World T) (self : Nat) : Except (BadIndex T) T :=
  if size w self = 0 then .error ⟨0, w⟩
  else .ok (get w self (usub (size w self) 1))

/-- The method `unshift(element)`, which is `insert(0, element)`, with an `element` that is
not stored in the block of the array. -/
def unshift (w : World T) (self : Nat) (element : T) : Except (BadIndex T) (World T) :=
  insert w self 0 element

/-- The method `T shift()`. -/
def shift (w : World T) (self : Nat) : Except (BadIndex T) (T × World T) :=
  if size w self = 0 then .error ⟨0, w⟩
  else
    let element := get w self 0
    match remove w self 0 true with
    | .ok w1 => .ok (element, w1)
    | .error e => .error e

/-- The method `const T &at(pos)`. -/
def at_ (w : World T) (self : Nat) (pos : Nat) : Except (BadIndex T) T :=
  if pos ≥ size w self then .error ⟨pos, w⟩ else .ok (get w self pos)

/-- The method `T &rw_at(pos)`: the world after `makeOwn()`; the reference returned
designates slot `pos` of the handle's body. -/
def rw_at (w : World T) (self : Nat) (pos : Nat) : Except (BadIndex T) (World T) :=
  if pos ≥ size w self then .error ⟨pos, w⟩ else .ok (makeOwn w self)

/-- An assignment through the reference to slot `pos` of the handle's body. -/
def writeRef (w : World T) (self : Nat) (pos : Nat) (element : T) : World T :=
  w.store self { w.body self with data := (w.body self).data.set pos element }

/-- The method `T &at(pos, element)`. -/
def at_put (w : World T) (self : Nat) (pos : Nat) (element : T) : Except (BadIndex T) (World T) :=
  if pos ≥ size w self then .error ⟨pos, w⟩
  else .ok (writeRef (makeOwn w self) self pos element)

/-- The method `swap(pos1, pos2)`. -/
def swap (w : World T) (self : Nat) (pos1 pos2 : Nat) : Except (BadIndex T) (World T) :=
  if pos1 ≥ size w self then .error ⟨pos1, w⟩
  else if pos2 ≥ size w self then .error ⟨pos2, w⟩
  else
    let w1 := makeOwn w self
    let d := w1.body self
    let tmp := d.data.getD pos1 default
    let b1 := d.data.set pos1 (d.data.getD pos2 default)
    .ok (w1.store self { d with data := b1.set pos2 tmp })

/-- The loop of `reverse`: `for (i = 0, j = size - 1; i < j; ++i, --j) swap d[i], d[j]`;
the last argument bounds the number of rounds (`size` is enough). -/
def reverseLoop : List T → Nat → Nat → Nat → List T
  | buf, _, _, 0 => buf
  | buf, i, j, fuel + 1 =>
    if i < j then
      let tmp := buf.getD i default
      let b1 := buf.set i (buf.getD j default)
      reverseLoop (b1.set j tmp) (i + 1) (j - 1) fuel
    else buf

/-- The method `reverse()`. -/
def reverse (w : World T) (self : Nat) : World T :=
  if size w self = 0 then w
  else
    let w1 := makeOwn w self
    let d := w1.body self
    w1.store self { d with data := reverseLoop d.data 0 (usub d.size 1) d.size }

end Array

/-- A body whose counters and block agree and fit `unsigned`. -/
def Data.wf (d : Data T) : Prop :=
  d.size ≤ d.capacity ∧ d.data.length = d.capacity ∧ d.capacity < 4294967296

instance (d : Data T) : Decidable d.wf := by
  unfold Data.wf; infer_instance

/-- Handle `self` exists and points to a live, well-formed body that counts it. -/
def Array.valid (w : World T) (self : Nat) : Prop :=
  self < w.vars.length ∧ (w.heap.getD (w.ptr self) none).isSome = true ∧ (w.body self).wf
    ∧ 1 ≤ (w.body self).references ∧ (w.body self).references < 4294967296

instance (w : World T) (self : Nat) : Decidable (Array.valid w self) := by
  unfold Array.valid; infer_instance

/-- A uniquely owned array `[5, 6]` with one free slot (handle 0). -/
def ownRoom : World Nat := ⟨[some ⟨1, [5, 6, 0], 2, 3⟩], [0]⟩

/-- A uniquely owned full array `[5, 6]` (handle 0). -/
def ownFull : World Nat := ⟨[some ⟨1, [5, 6], 2, 2⟩], [0]⟩

/-- Two handles (0 and 1) sharing the body of the array `[5, 6, 7]`. -/
def sharedPair : World Nat := ⟨[some ⟨2, [5, 6, 7, 0], 3, 4⟩], [0, 0]⟩

/-- The reference counters are exact: every handle points to a live body whose counter is
the number of handles pointing to it. -/
def World.counted (w : World T) : Prop :=
  w.vars.length < 4294967296 ∧
    ∀ v ∈ w.vars, (w.heap.getD v none).isSome = true ∧ (cell w.heap v).references = w.vars.count v

instance (w : World T) : Decidable w.counted := by
  unfold World.counted; infer_instance

/-- The world a call leaves behind: the result, or the world at the throw. -/
def after : Except (BadIndex T) (World T) → World T
  | .ok w => w
  | .error e => e.world

/-- The world a value-returning call leaves behind. -/
def afterValue : Except (BadIndex T) (T × World T) → World T
  | .ok r => r.2
  | .error e => e.world

/-- The mutating operations of `Array`; `rw_at` stands for `rw_at(pos) = x`. -/
inductive MutOp (T : Type) where
  | push (x : T)
  | pop
  | unshift (x : T)
  | shift
  | insert (pos : Nat) (x : T)
  | remove (pos : Nat) (order : Bool)
  | resize (n c : Nat)
  | reserve (c : Nat)
  | clear
  | shrinkBy (n : Nat)
  | enlargeBy (n : Nat)
  | at_put (pos : Nat) (x : T)
  | rw_at (pos : Nat) (x : T)
  | swap (p1 p2 : Nat)
  | reverse
  | setRaw (array : List T) (n c : Nat)

/-- Performs a mutating operation on handle `self`. -/
def MutOp.run (w : World T) (self : Nat) : MutOp T → World T
  | .push x => after (Array.push w self x)
  | .pop => afterValue (Array.pop w self)
  | .unshift x => after (Array.unshift w self x)
  | .shift => afterValue (Array.shift w self)
  | .insert pos x => after (Array.insert w self pos x)
  | .remove pos order => after (Array.remove w self pos order)
  | .resize n c => Array.resize w self n c
  | .reserve c => Array.reserve w self c
  | .clear => Array.clear w self
  | .shrinkBy n => Array.shrinkBy w self n
  | .enlargeBy n => Array.enlargeBy w self n
  | .at_put pos x => after (Array.at_put w self pos x)
  | .rw_at pos x =>
    match Array.rw_at w self pos with
    | .ok w1 => Array.writeRef w1 self pos x
    | .error e => e.world
  | .swap p1 p2 => after (Array.swap w self p1 p2)
  | .reverse => Array.reverse w self
  | .setRaw array n c => Array.setRaw w self array n c

/-- Handle `a` points to the live body at `p`, which holds the block, size and capacity of
`c`; if handle `b` points there too, the body counts at least two handles. -/
def Keeps (p a b : Nat) (c : Data T) (w : World T) : Prop :=
  a ≠ b ∧ b < w.vars.length ∧ w.ptr a = p ∧ p < w.heap.length ∧
    ∃ d, w.heap.getD p none = some d ∧ d.data = c.data ∧ d.size = c.size
      ∧ d.capacity = c.capacity
      ∧ (w.ptr b = p → 2 ≤ d.references ∧ d.references < 4294967296)

/-- Calls `push` with each value in turn. -/
def pushAll (w : World T) (self : Nat) : List T → Except (BadIndex T) (World T)
  | [] => .ok w
  | x :: xs =>
    match Array.push w self x with
    | .ok w1 => pushAll w1 self xs
    | .error e => .error e

/-- Calls `pop()` `n` times, collecting the values returned in call order. -/
def popN (w : World T) (self : Nat) : Nat → Except (BadIndex T) (List T × World T)
  | 0 => .ok ([], w)
  | n + 1 =>
    match Array.pop w self with
    | .ok r =>
      match popN r.2 self n with
      | .ok rs => .ok (r.1 :: rs.1, rs.2)
      | .error e => .error e
    | .error e => .error e

/-- A fresh world holding one empty array (handle 0) built by `Array()`. -/
def fresh : World Nat := Array.ctor ⟨[], []⟩ 0

/-- A uniquely owned full array of forty zeros (handle 0). -/
def fullForty : World Nat := ⟨[some ⟨1, List.replicate 40 0, 40, 40⟩], [0]⟩

/-- The world after `Array<T> a(8); a.push(1); ..; a.push(8); Array<T> b(a);`:
handles 0 (`a`) and 1 (`b`) share the body of the full array `[1, .., 8]`. -/
def sharedEight : World Nat :=
  Array.copyCtor (after (pushAll (Array.ctor ⟨[], []⟩ 8) 0 [1, 2, 3, 4, 5, 6, 7, 8])) 0

/-- The world after `Array<T> a(30);` and thirty `a.push(0)`: a full array of capacity 30. -/
def fullThirty : World Nat :=
  after (pushAll (Array.ctor ⟨[], []⟩ 30) 0 (List.replicate 30 0))

/-- The branch test of `resize` under which a new block is allocated: the call does not
return early, and the body is shared or
`capacity >= data->capacity || capacity + 256 <= data->capacity` holds for the adjusted
`capacity`. -/
def Array.resizeReallocates (w : World T) (self : Nat) (_size capacity : Nat) : Prop :=
  let d := w.body self
  ¬ (_size = d.size ∧ d.capacity ≥ capacity ∧ d.capacity ≤ uadd capacity 256
      ∧ d.capacity ≤ uadd d.size 256)
  ∧ ((!d.isOwn) = true
      ∨ (if capacity < _size then uadd _size 8 else capacity) ≥ d.capacity
      ∨ uadd (if capacity < _size then uadd _size 8 else capacity) 256 ≤ d.capacity)

instance (w : World T) (self _size capacity : Nat) :
    Decidable (Array.resizeReallocates w self _size capacity) := by
  unfold Array.resizeReallocates; infer_instance

/-- A uniquely owned array `[5, 6]` in a block of 300 slots (handle 0). -/
def ownSlack : World Nat := ⟨[some ⟨1, 5 :: 6 :: List.replicate 298 0, 2, 300⟩], [0]⟩

end ArrayModel

/-- A comparison policy: the static members `eq`, `ge` and `gt` of a policy class. -/
structure CmpPolicy (T : Type) where
  eq : T → T → Bool
  ge : T → T → Bool
  gt : T → T → Bool

/-- The primary template `default_cmp_policy<T>` for an ordered integral type. -/
def default_cmp_policy : CmpPolicy Nat where
  eq a b := a == b
  ge a b := decide (a ≥ b)
  gt a b := decide (a > b)

/-- The class `Pair<T1, T2>`. -/
structure Pair (T1 T2 : Type) where
  a : T1
  b : T2
deriving DecidableEq

/-- The method `Pair::left()`. -/
def Pair.left {T1 T2 : Type} (p : Pair T1 T2) : T1 := p.a

/-- The method `Pair::right()`. -/
def Pair.right {T1 T2 : Type} (p : Pair T1 T2) : T2 := p.b

/-- The policy `Pair<T1, T2>::cmp_policy<cmp1, cmp2>`. -/
def Pair.cmp_policy {T1 T2 : Type} (cmp1 : CmpPolicy T1) (cmp2 : CmpPolicy T2) :
    CmpPolicy (Pair T1 T2) where
  eq a b := cmp1.eq a.left b.left && cmp2.eq a.right b.right
  ge a b := cmp1.gt a.left b.left || (cmp1.eq a.left b.left && cmp2.ge a.right b.right)
  gt a b := cmp1.gt a.left b.left || (cmp1.eq a.left b.left && cmp2.gt a.right b.right)

/-! ## BigInt  (src/bigint.hpp, src/bigint.cpp)

The member `Array<char> digits` is represented by the list of its live elements, least
significant digit first: by the theorems on `Array` above a handle behaves as a value
(writes through one handle never reach another, `resize` keeps the common prefix, `push`
appends), for arrays below the 32-bit limits.  A `char` is a natural number.

* Slots that `resize` adds hold whatever the block held before; they are the values of a
  function `junk` that every method takes as a parameter.
* Loops over raw pointers (`begin()`, `rw_begin()`) are recursions over the element list
  and an index.
* The argument `const BigInt &n` of a method may be `*this`; `Alias` says so, and in that
  case every read of `n` reads the current state of `*this`.
* `abs_sub` calls itself on a temporary; the recursion is bounded by a `fuel` argument and
  the theorems show that two levels always suffice.
-/

/-- The class `BigInt`: `sign` and the elements of `digits`. -/
structure BigInt where
  sign : Int
  digits : List Nat
deriving DecidableEq

/-- How the argument `n` of a method relates to `*this`. -/
inductive Alias where
  /-- The argument is another object (its digit block may be shared with `*this`). -/
  | distinct
  /-- The argument is `*this` and the digit block is uniquely owned: `rw_begin()` returns
  the block that `n.digits.begin()` addresses. -/
  | sameBlock
  /-- The argument is `*this` and the digit block is shared with a third handle:
  `rw_begin()` copies it and `n.digits.begin()` keeps addressing the old block. -/
  | sameCopied
deriving DecidableEq

/-- The object that `n` designates when `*this` is in state `a`. -/
def cur (al : Alias) (a n : BigInt) : BigInt :=
  match al with
  | .distinct => n
  | _ => a

/-- The elements after `digits.resize(n)`. -/
def resizeDigits (junk : Nat → Nat) (l : List Nat) (n : Nat) : List Nat :=
  (List.range n).map (fun i => if i < l.length then l.getD i 0 else junk i)

/-- The method `BigInt::zero()`. -/
def BigInt.zero (_a : BigInt) : BigInt := ⟨0, []⟩

/-- The loop of `set_digits`: `for (..; begin != end; *d++ = (*--end & 15));`, over the
characters from `end` backwards. -/
def setDigitsLoop : List Nat → Nat → List Char → List Nat
  | buf, _, [] => buf
  | buf, k, c :: rest => setDigitsLoop (buf.set k (c.toNat &&& 15)) (k + 1) rest

/-- The method `BigInt::set_digits(begin, end)`; `s` holds the characters of
`[begin, end)`. -/
def BigInt.set_digits (junk : Nat → Nat) (a : BigInt) (s : List Char) : BigInt :=
  { a with digits := setDigitsLoop (resizeDigits junk a.digits s.length) 0 s.reverse }

/-- The test `*str==' ' || *str=='\t' || *str=='\n' || *str=='\r' || *str=='\v' ||
*str=='\f'`. -/
def isSpaceChar (c : Char) : Bool :=
  c == ' ' || c == Char.ofNat 9 || c == Char.ofNat 10 || c == Char.ofNat 13
    || c == Char.ofNat 11 || c == Char.ofNat 12

/-- The test `*end>='0' && *end<='9'`. -/
def isDigitChar (c : Char) : Bool := decide ('0' ≤ c) && decide (c ≤ '9')

/-- The character `*str` of a C string: the terminating NUL when `str` is at the end. -/
def peekChar (str : List Char) : Char := str.headD (Char.ofNat 0)

/-- The method `BigInt::set(const char *str)`: the value returned and the new state. -/
def BigInt.setStr (junk : Nat → Nat) (a : BigInt) (str : List Char) : Bool × BigInt :=
  let str1 := str.dropWhile isSpaceChar
  let s : Int := if peekChar str1 = '-' then -1 else 1
  let str2 := if peekChar str1 = '-' then str1.tail
    else if peekChar str1 = '+' then str1.tail else str1
  let got := peekChar str2 == '0'
  let str3 := str2.dropWhile (fun c => c == '0')
  let run := str3.takeWhile isDigitChar
  if run ≠ [] then (true, ({ a with sign := s } : BigInt).set_digits junk run)
  else if got then (true, a.zero)
  else (false, a)

/-- The text written by `operator<<(std::ostream&, const BigInt&)`. -/
def BigInt.toText (n : BigInt) : List Char :=
  if n.sign = 0 then ['0']
  else (if n.sign < 0 then ['-'] else [])
    ++ n.digits.reverse.map (fun d => Char.ofNat (d ||| 48))

/-- The loop `while (i && *--d == *--nd) --i;` started at the ends of two blocks; the
result is the final `i`, and `d`, `nd` then address index `i - 1`. -/
def cmpLoop (d nd : List Nat) : Nat → Nat
  | 0 => 0
  | i + 1 => if d.getD i 0 = nd.getD i 0 then cmpLoop d nd i else i + 1

/-- The method `BigInt::cmp(n)`. -/
def BigInt.cmp (a n : BigInt) : Int :=
  if a.sign < n.sign then -1
  else if a.sign > n.sign then 1
  else if a.sign = 0 then 0
  else if a.digits.length < n.digits.length then -a.sign
  else if a.digits.length > n.digits.length then a.sign
  else
    let i := cmpLoop a.digits n.digits a.digits.length
    if i ≠ 0 then
      (if a.digits.getD (i - 1) 0 < n.digits.getD (i - 1) 0 then -a.sign else a.sign)
    else 0

/-- The loop `do *d++ = 0; while (--i);` of `abs_add`. -/
def zeroFill : List Nat → Nat → Nat → List Nat
  | buf, _, 0 => buf
  | buf, k, i + 1 => zeroFill (buf.set k 0) (k + 1) i

/-- The adding loop of `abs_add`,
`do { tmp = *d + *nd++ + memory; *d++ = tmp % 10; memory = tmp / 10; } while (--len);`,
for `len >= 1`; with `same` the pointer `nd` addresses the block that `d` writes.
The result is the block, the index of `d` and `memory`. -/
def addLoop (same : Bool) : List Nat → List Nat → Nat → Nat → Nat → List Nat × Nat × Nat
  | dbuf, _, k, memory, 0 => (dbuf, k, memory)
  | dbuf, nbuf, k, memory, len + 1 =>
    let tmp := dbuf.getD k 0 + (if same then dbuf else nbuf).getD k 0 + memory
    addLoop same (dbuf.set k (tmp % 10)) nbuf (k + 1) (tmp / 10) len

/-- The loop `for (..; len && *d==9; --len) *d++ = 0;` of `abs_add`; the result is the
block, the index of `d` and the final `len`. -/
def carryLoop : List Nat → Nat → Nat → List Nat × Nat × Nat
  | dbuf, k, 0 => (dbuf, k, 0)
  | dbuf, k, len + 1 =>
    if dbuf.getD k 0 = 9 then carryLoop (dbuf.set k 0) (k + 1) len else (dbuf, k, len + 1)

/-- The method `BigInt::abs_add(n)`. -/
def BigInt.abs_add (al : Alias) (junk : Nat → Nat) (a n : BigInt) : BigInt :=
  let n0 := cur al a n
  let d0 :=
    if a.digits.length < n0.digits.length then
      zeroFill (resizeDigits junk a.digits n0.digits.length) a.digits.length
        (n0.digits.length - a.digits.length)
    else a.digits
  let r := addLoop (al == .sameBlock) d0 n0.digits 0 0 n0.digits.length
  let digits :=
    if r.2.2 ≠ 0 then
      let c := carryLoop r.1 r.2.1 (d0.length - n0.digits.length)
      if c.2.2 ≠ 0 then c.1.set c.2.1 (c.1.getD c.2.1 0 + 1) else c.1 ++ [1]
    else r.1
  { a with digits := digits }

/-- The comparison at the head of `abs_sub`: the value of `c`. -/
def absCompare (a n : BigInt) : Int :=
  if a.sign = 0 then (if n.sign ≠ 0 then -1 else 0)
  else if n.sign = 0 then 1
  else if a.digits.length > n.digits.length then 1
  else if a.digits.length < n.digits.length then -1
  else
    let i := cmpLoop a.digits n.digits a.digits.length
    if i ≠ 0 then (if a.digits.getD (i - 1) 0 < n.digits.getD (i - 1) 0 then -1 else 1)
    else 0

/-- The subtracting loop of `abs_sub`,
`do { tmp = memory + *nd++; *d -= (memory = tmp > *d) ? tmp - 10 : tmp; ++d; }
while (nd != end);`, for a non-empty `n`. -/
def subLoop : List Nat → List Nat → Nat → Nat → Nat → List Nat × Nat × Nat
  | dbuf, _, k, memory, 0 => (dbuf, k, memory)
  | dbuf, nbuf, k, memory, cnt + 1 =>
    let tmp := memory + nbuf.getD k 0
    if tmp > dbuf.getD k 0 then
      subLoop (dbuf.set k (dbuf.getD k 0 + 10 - tmp)) nbuf (k + 1) 1 cnt
    else
      subLoop (dbuf.set k (dbuf.getD k 0 - tmp)) nbuf (k + 1) 0 cnt

/-- The loop `while (!*d) *d++ = 9;` of `abs_sub`, bounded by the length of the block. -/
def borrowLoop : List Nat → Nat → Nat → List Nat × Nat
  | dbuf, k, 0 => (dbuf, k)
  | dbuf, k, fuel + 1 =>
    if dbuf.getD k 0 = 0 then borrowLoop (dbuf.set k 9) (k + 1) fuel else (dbuf, k)

/-- The loop `while (!*--nd);` of `abs_sub`: the index of the highest non-zero element
below index `i`. -/
def scanDown (buf : List Nat) : Nat → Nat
  | 0 => 0
  | i + 1 => if buf.getD i 0 ≠ 0 then i else scanDown buf i

/-- The method `BigInt::abs_sub(n)`. -/
def BigInt.abs_sub : Nat → Alias → (Nat → Nat) → BigInt → BigInt → Option BigInt
  | 0, _, _, _, _ => none
  | fuel + 1, al, junk, a, n =>
    let n0 := cur al a n
    let c := absCompare a n0
    if c = 0 then some a.zero
    else if c = -1 then
      BigInt.abs_sub fuel .distinct junk n0 a
    else
      let r := subLoop a.digits n0.digits 0 0 n0.digits.length
      let b :=
        if r.2.2 ≠ 0 then
          let q := borrowLoop r.1 r.2.1 r.1.length
          q.1.set q.2 (q.1.getD q.2 0 - 1)
        else r.1
      let digits :=
        if b.getD (b.length - 1) 0 = 0 then
          resizeDigits junk b (scanDown b (b.length - 1) + 1)
        else b
      some { a with digits := digits }

/-- The method `BigInt::add(n)`. -/
def BigInt.add (fuel : Nat) (al : Alias) (junk : Nat → Nat) (a n : BigInt) : Option BigInt :=
  if (cur al a n).sign = 0 then some a
  else if a.sign = 0 then some (cur al a n)
  else if a.sign * (cur al a n).sign > 0 then some (a.abs_add al junk n)
  else a.abs_sub fuel al junk n

/-- The method `BigInt::sub(n)`. -/
def BigInt.sub (fuel : Nat) (al : Alias) (junk : Nat → Nat) (a n : BigInt) : Option BigInt :=
  if (cur al a n).sign = 0 then some a
  else if a.sign = 0 then some ⟨-(cur al a n).sign, (cur al a n).digits⟩
  else if a.sign * (cur al a n).sign < 0 then some (a.abs_add al junk n)
  else
    match BigInt.abs_sub fuel al junk { a with sign := a.sign * -1 } n with
    | some r => some { r with sign := r.sign * -1 }
    | none => none

/-- The inner loop of `mul`,
`for (; ni<nl; ++ni) { tmp = vec[i + ni] + d[i] * nd[ni] + memory; vec[i + ni] = tmp % 10;
memory = tmp / 10; }` with `tmp` an `unsigned char`; the result is the block, `ni` and
`memory`. -/
def mulInner : List Nat → Nat → List Nat → Nat → Nat → Nat → Nat → List Nat × Nat × Nat
  | vec, _, _, _, ni, memory, 0 => (vec, ni, memory)
  | vec, di, nd, i, ni, memory, cnt + 1 =>
    let tmp := (vec.getD (i + ni) 0 + di * nd.getD ni 0 + memory) % 256
    mulInner (vec.set (i + ni) (tmp % 10)) di nd i (ni + 1) (tmp / 10) cnt

/-- The carry loop of `mul`,
`for (ni += i; memory; ++ni) { tmp = vec[ni] + memory; vec[ni] = tmp % 10;
memory = tmp / 10; }`, bounded by the length of the block. -/
def mulCarry : List Nat → Nat → Nat → Nat → List Nat
  | vec, _, _, 0 => vec
  | vec, ni, memory, fuel + 1 =>
    if memory ≠ 0 then
      let tmp := (vec.getD ni 0 + memory) % 256
      mulCarry (vec.set ni (tmp % 10)) (ni + 1) (tmp / 10) fuel
    else vec

/-- The outer loop of `mul`: `for (i = 0; i<l; ++i)`. -/
def mulOuter : List Nat → List Nat → List Nat → Nat → Nat → List Nat
  | vec, _, _, _, 0 => vec
  | vec, d, nd, i, cnt + 1 =>
    if d.getD i 0 = 0 then mulOuter vec d nd (i + 1) cnt
    else
      let r := mulInner vec (d.getD i 0) nd i 0 0 nd.length
      mulOuter (mulCarry r.1 (r.2.1 + i) r.2.2 vec.length) d nd (i + 1) cnt

/-- The method `BigInt::mul(n)`. -/
def BigInt.mul (al : Alias) (a n : BigInt) : BigInt :=
  if a.sign = 0 then a
  else if (cur al a n).sign = 0 then ⟨0, []⟩
  else
    let l := a.digits.length
    let nl := (cur al a n).digits.length
    let vec := mulOuter (List.replicate (l + nl) 0) a.digits (cur al a n).digits 0 l
    let i := if vec.getD (l + nl - 1) 0 = 0 then l + nl - 1 else l + nl
    ⟨a.sign * (cur al a n).sign, vec.take i⟩

/-- The value of a digit sequence, least significant digit first. -/
def digitsVal : List Nat → Nat
  | [] => 0
  | d :: ds => d + 10 * digitsVal ds

/-- The integer a `BigInt` denotes. -/
def BigInt.value (a : BigInt) : Int := a.sign * (digitsVal a.digits : Int)

/-- The representation invariant: the sign is -1, 0 or 1, every digit is in `0 .. 9`,
there are no digits exactly when the sign is 0, and the most significant digit is not 0. -/
def BigInt.inv (a : BigInt) : Prop :=
  (a.sign = -1 ∨ a.sign = 0 ∨ a.sign = 1) ∧ (∀ d ∈ a.digits, d ≤ 9)
    ∧ (a.digits = [] ↔ a.sign = 0) ∧ a.digits.getLast? ≠ some 0

instance (a : BigInt) : Decidable a.inv := by
  unfold BigInt.inv; infer_instance

/-- The digits of a decimal numeral, most significant first, as a `BigInt` digit list. -/
def ofDigitsMS (l : List Nat) : List Nat := l.reverse

/-- The text that remains after leading whitespace and at most one `+` or `-`. -/
def afterSign (str : List Char) : List Char :=
  if peekChar (str.dropWhile isSpaceChar) = '-' then (str.dropWhile isSpaceChar).tail
  else if peekChar (str.dropWhile isSpaceChar) = '+' then (str.dropWhile isSpaceChar).tail
  else str.dropWhile isSpaceChar

/-- The sign a text spells: -1 when the first character after the whitespace is `-`. -/
def signOf (str : List Char) : Int :=
  if peekChar (str.dropWhile isSpaceChar) = '-' then -1 else 1

/-- The maximal run of decimal digits at the head of a text. -/
def digitRun (str : List Char) : List Char := str.takeWhile isDigitChar

/-- The number that a run of decimal digits spells, most significant digit first. -/
def decimalValue (run : List Char) : Nat :=
  run.foldl (fun acc c => acc * 10 + (c.toNat - 48)) 0

/-- The decimal digits of `n`, least significant first; `fuel` bounds their number. -/
def decimalDigits : Nat → Nat → List Nat
  | 0, _ => []
  | fuel + 1, n => if n = 0 then [] else (n % 10) :: decimalDigits fuel (n / 10)

/-- The characters `sprintf(buffer, "%lu", num)` writes. -/
def sprintfLu (num : Nat) : List Char :=
  if num = 0 then ['0']
  else (decimalDigits num num).reverse.map (fun d => Char.ofNat (d + 48))

/-- The characters `sprintf(buffer, "%+ld", num)` writes. -/
def sprintfPlusLd (num : Int) : List Char :=
  (if num < 0 then '-' else '+') :: sprintfLu num.natAbs

/-- The method `BigInt::set(long num)`:
`if (!num) { sign = 0; } else { sign = num < 0 ? -1 : 1; len = sprintf(buffer, "%+ld", num);
set_digits(buffer + 1, buffer + len); }`. -/
def BigInt.setLong (junk : Nat → Nat) (a : BigInt) (num : Int) : BigInt :=
  if num = 0 then { a with sign := 0 }
  else ({ a with sign := if num < 0 then -1 else 1 } : BigInt).set_digits junk
    ((sprintfPlusLd num).drop 1)

/-- The method `BigInt::set(unsigned long num)`:
`if ((sign = !!num)) { len = sprintf(buffer, "%lu", num); set_digits(buffer, buffer + len); }`. -/
def BigInt.setULong (junk : Nat → Nat) (a : BigInt) (num : Nat) : BigInt :=
  if num ≠ 0 then ({ a with sign := 1 } : BigInt).set_digits junk (sprintfLu num)
  else { a with sign := 0 }

/-- The method `BigInt::set(const BigInt &n)` and `operator=`: `digits = n.digits;
sign = n.sign;`. -/
def BigInt.set (_a n : BigInt) : BigInt := ⟨n.sign, n.digits⟩

/-- The method `BigInt::neg()`. -/
def BigInt.neg (a : BigInt) : BigInt := { a with sign := -a.sign }

/-- The method `BigInt::abs()`. -/
def BigInt.abs (a : BigInt) : BigInt := if a.sign < 0 then { a with sign := 1 } else a

/-- The objects that the constructors `BigInt()`, `BigInt(const BigInt&)`,
`BigInt(const char*)`, `BigInt(std::string)` and the public operations on integers and text
produce.  The constructors from text start from `sign(0), digits()` and call `set(str)`; the
copy constructor yields an object that is already in the set. -/
inductive BigInt.Reachable : BigInt → Prop
  | ctor : BigInt.Reachable ⟨0, []⟩
  | setLong (junk : Nat → Nat) (a : BigInt) (num : Int) :
      BigInt.Reachable a → BigInt.Reachable (a.setLong junk num)
  | setULong (junk : Nat → Nat) (a : BigInt) (num : Nat) :
      BigInt.Reachable a → BigInt.Reachable (a.setULong junk num)
  | setStr (junk : Nat → Nat) (a : BigInt) (str : List Char) :
      BigInt.Reachable a → BigInt.Reachable (a.setStr junk str).2
  | set (a n : BigInt) : BigInt.Reachable a → BigInt.Reachable n → BigInt.Reachable (a.set n)
  | zero (a : BigInt) : BigInt.Reachable a → BigInt.Reachable a.zero
  | add (fuel : Nat) (al : Alias) (junk : Nat → Nat) (a n r : BigInt) :
      BigInt.Reachable a → BigInt.Reachable n → a.add fuel al junk n = some r →
      BigInt.Reachable r
  | sub (fuel : Nat) (al : Alias) (junk : Nat → Nat) (a n r : BigInt) :
      BigInt.Reachable a → BigInt.Reachable n → a.sub fuel al junk n = some r →
      BigInt.Reachable r
  | mul (al : Alias) (a n : BigInt) :
      BigInt.Reachable a → BigInt.Reachable n → BigInt.Reachable (a.mul al n)
  | neg (a : BigInt) : BigInt.Reachable a → BigInt.Reachable a.neg
  | abs (a : BigInt) : BigInt.Reachable a → BigInt.Reachable a.abs

/-- The part of the representation invariant that holds whatever `set(0L)` left in the
digit array: the sign is -1, 0 or 1, and a non-zero sign comes with valid digits. -/
def BigInt.signInv (a : BigInt) : Prop :=
  (a.sign = -1 ∨ a.sign = 0 ∨ a.sign = 1) ∧ (a.sign ≠ 0 → a.inv)

/-! ## Set  (src/set.hpp)

The member `Array<T> arr` is represented by the list of its elements, as `digits` is for
`BigInt`: `insert(pos, x)` puts `x` before index `pos`, `remove(pos)` erases index `pos`,
`push` appends, `shrinkBy` keeps a prefix, the slots `enlargeBy` adds hold the values of a
function `junk`, and indices are natural numbers (arrays stay below the 32-bit limits,
where no index computation wraps and no `BadIndex` is thrown).

The set forms of `add`, `sub` and `mul` write to the block of `arr` while they read the
block of their argument.  The flag `same` tells that the argument is the object itself and
its block is not shared, so that both are one block; otherwise the argument's elements
are the list `set`, which the writes do not reach. -/

/-- The elements after `arr.resize(n)`; a new slot `i` holds `junk i`. -/
def resizeElems (junk : Nat → T) (l : List T) (n : Nat) : List T :=
  (List.range n).map (fun i => if i < l.length then l.getD i default else junk i)

/-- The elements after `arr.insert(pos, element)`, for `pos ≤ size`. -/
def insertAt (arr : List T) (pos : Nat) (element : T) : List T :=
  arr.take pos ++ element :: arr.drop pos

/-- The elements after `arr.shrinkBy(n)`: `if (by>=data->size) clear(); else
resize(data->size - by);`. -/
def shrinkByElems (arr : List T) (n : Nat) : List T :=
  if n ≥ arr.length then [] else arr.take (arr.length - n)

/-- The block the argument of a set operation is read from. -/
def operand (same : Bool) (arr set : List T) : List T := if same then arr else set

/-- The loop of `Set::find`: `while (from<to) { middle = (from + to) >> 1; ... }`, with the
sum taken in `unsigned`; `from_` and `to_` are the variables `from` and `to`.  The result is the value returned and `pos`. -/
def findLoop (cmp : CmpPolicy T) (data : List T) (element : T) : Nat → Nat → Nat → Bool × Nat
  | 0, from_, _ => (false, from_)
  | fuel + 1, from_, to_ =>
    if from_ < to_ then
      if cmp.eq (data.getD (uadd from_ to_ / 2) default) element = true then
        (true, uadd from_ to_ / 2)
      else if cmp.gt (data.getD (uadd from_ to_ / 2) default) element = true then
        findLoop cmp data element fuel from_ (uadd from_ to_ / 2)
      else findLoop cmp data element fuel (uadd from_ to_ / 2 + 1) to_
    else (false, from_)

/-- The method `Set::find(element, pos)`: the value returned and `pos`. -/
def Set.find (cmp : CmpPolicy T) (arr : List T) (element : T) : Bool × Nat :=
  findLoop cmp arr element (arr.length + 1) 0 arr.length

/-- The method `Set::exists(element)`. -/
def Set.exists_ (cmp : CmpPolicy T) (arr : List T) (element : T) : Bool :=
  (Set.find cmp arr element).1

/-- The method `Set::add(const T &element)`. -/
def Set.add (cmp : CmpPolicy T) (arr : List T) (element : T) : List T :=
  if (Set.find cmp arr element).1 = false then insertAt arr (Set.find cmp arr element).2 element
  else arr

/-- The method `Set::sub(const T &element)`. -/
def Set.sub (cmp : CmpPolicy T) (arr : List T) (element : T) : List T :=
  if (Set.find cmp arr element).1 = true then arr.eraseIdx (Set.find cmp arr element).2
  else arr

/-- The constructor `Set(const T *array, unsigned num)`:
`for (; num; --num) add(*array++);` on an empty array. -/
def Set.ofArray (cmp : CmpPolicy T) (array : List T) : List T :=
  array.foldl (Set.add cmp) []

/-- The method `Set::clear()`. -/
def Set.clear (_arr : List T) : List T := []

/-- The inner loop of the union: `while (pos<_size && cmp::gt(*s_begin, data[pos])) ++pos;`. -/
def unionSkip (cmp : CmpPolicy T) (data : List T) (s : T) (_size : Nat) : Nat → Nat → Nat
  | 0, pos => pos
  | fuel + 1, pos =>
    if pos < _size ∧ cmp.gt s (data.getD pos default) = true then
      unionSkip cmp data s _size fuel (pos + 1)
    else pos

/-- The `do ... while (++s_begin!=s_end)` loop of the union; the result is the array, `pos`
and the index of `s_begin`. -/
def unionLoop (cmp : CmpPolicy T) (same : Bool) (set : List T) (s_end : Nat) :
    Nat → List T → Nat → Nat → Nat → List T × Nat × Nat
  | 0, arr, pos, _, s_begin => (arr, pos, s_begin)
  | fuel + 1, arr, pos, _size, s_begin =>
    let s := (operand same arr set).getD s_begin default
    let pos1 := unionSkip cmp arr s _size (_size + 1) pos
    if pos1 = _size then (arr, pos1, s_begin)
    else
      let arr1 := if cmp.eq s (arr.getD pos1 default) = true then arr else insertAt arr pos1 s
      let size1 := if cmp.eq s (arr.getD pos1 default) = true then _size else _size + 1
      if s_begin + 1 ≠ s_end then
        unionLoop cmp same set s_end fuel arr1 (pos1 + 1) size1 (s_begin + 1)
      else (arr1, pos1 + 1, s_begin + 1)

/-- The loop `do { *it++ = *s_begin++; } while (s_begin!=s_end);` run `n` times. -/
def copyRest (same : Bool) (set : List T) : Nat → List T → Nat → Nat → List T
  | 0, arr, _, _ => arr
  | n + 1, arr, it, s_begin =>
    copyRest same set n (arr.set it ((operand same arr set).getD s_begin default)) (it + 1)
      (s_begin + 1)

/-- The method `Set::add(const Set &set)`, the union. -/
def Set.addSet (cmp : CmpPolicy T) (same : Bool) (junk : Nat → T) (arr set : List T) :
    List T :=
  if (operand same arr set).length = 0 then arr
  else if arr.length = 0 then operand same arr set
  else
    let s_end := (operand same arr set).length
    let r := unionLoop cmp same set s_end s_end arr 0 arr.length 0
    if r.2.2 ≠ s_end then
      copyRest same set (s_end - r.2.2) (resizeElems junk r.1 (r.1.length + (s_end - r.2.2)))
        r.2.1 r.2.2
    else r.1

/-- The `do ... while (s_begin!=s_end && data!=data_end)` loop of the complement; the
result is the block and the indices of `it`, `data` and `s_begin`. -/
def complementLoop (cmp : CmpPolicy T) (same : Bool) (set : List T) (s_end data_end : Nat) :
    Nat → List T → Nat → Nat → Nat → List T × Nat × Nat × Nat
  | 0, buf, it, data, s_begin => (buf, it, data, s_begin)
  | fuel + 1, buf, it, data, s_begin =>
    let d := buf.getD data default
    let s := (operand same buf set).getD s_begin default
    let st : List T × Nat × Nat × Nat :=
      if cmp.gt d s = true then (buf, it, data, s_begin + 1)
      else if cmp.eq d s = true then (buf, it, data + 1, s_begin + 1)
      else (if it ≠ data then buf.set it d else buf, it + 1, data + 1, s_begin)
    if st.2.2.2 ≠ s_end ∧ st.2.2.1 ≠ data_end then
      complementLoop cmp same set s_end data_end fuel st.1 st.2.1 st.2.2.1 st.2.2.2
    else st

/-- The loop `while (data!=data_end) { *it++ = *data++; }` run `n` times; the result is the
block and the index of `it`. -/
def moveDown : Nat → List T → Nat → Nat → List T × Nat
  | 0, buf, it, _ => (buf, it)
  | n + 1, buf, it, data => moveDown n (buf.set it (buf.getD data default)) (it + 1) (data + 1)

/-- The method `Set::sub(const Set &set)`, the complement. -/
def Set.subSet (cmp : CmpPolicy T) (same : Bool) (arr set : List T) : List T :=
  if arr.length = 0 ∨ (operand same arr set).length = 0 then arr
  else
    let r := complementLoop cmp same set (operand same arr set).length arr.length
      (arr.length + (operand same arr set).length) arr 0 0 0
    if r.2.1 = r.2.2.1 then r.1
    else
      let m := moveDown (arr.length - r.2.2.1) r.1 r.2.1 r.2.2.1
      shrinkByElems m.1 (arr.length - m.2)

/-- The `do ... while (s_begin!=s_end && data!=data_end)` loop of the intersection; the
result is the block and the indices of `it`, `data` and `s_begin`. -/
def intersectLoop (cmp : CmpPolicy T) (same : Bool) (set : List T) (s_end data_end : Nat) :
    Nat → List T → Nat → Nat → Nat → List T × Nat × Nat × Nat
  | 0, buf, it, data, s_begin => (buf, it, data, s_begin)
  | fuel + 1, buf, it, data, s_begin =>
    let d := buf.getD data default
    let s := (operand same buf set).getD s_begin default
    let st : List T × Nat × Nat × Nat :=
      if cmp.gt d s = true then (buf, it, data, s_begin + 1)
      else if cmp.eq d s = true then
        (if it ≠ data then buf.set it d else buf, it + 1, data + 1, s_begin + 1)
      else (buf, it, data + 1, s_begin)
    if st.2.2.2 ≠ s_end ∧ st.2.2.1 ≠ data_end then
      intersectLoop cmp same set s_end data_end fuel st.1 st.2.1 st.2.2.1 st.2.2.2
    else st

/-- The method `Set::mul(const Set &set)`, the intersection. -/
def Set.mul (cmp : CmpPolicy T) (same : Bool) (arr set : List T) : List T :=
  if arr.length = 0 ∨ (operand same arr set).length = 0 then []
  else
    let r := intersectLoop cmp same set (operand same arr set).length arr.length
      (arr.length + (operand same arr set).length) arr 0 0 0
    shrinkByElems r.1 (arr.length - r.2.1)

/-- The `do ... while (s_begin!=s_end && data!=data_end)` loop of the symmetric difference;
the result is `tmp` and the indices of `data` and `s_begin`. -/
def diffLoop (cmp : CmpPolicy T) (arr set : List T) :
    Nat → List T → Nat → Nat → List T × Nat × Nat
  | 0, tmp, data, s_begin => (tmp, data, s_begin)
  | fuel + 1, tmp, data, s_begin =>
    let d := arr.getD data default
    let s := set.getD s_begin default
    let st : List T × Nat × Nat :=
      if cmp.gt d s = true then (tmp ++ [s], data, s_begin + 1)
      else if cmp.eq d s = true then (tmp, data + 1, s_begin + 1)
      else (tmp ++ [d], data + 1, s_begin)
    if st.2.2 ≠ set.length ∧ st.2.1 ≠ arr.length then
      diffLoop cmp arr set fuel st.1 st.2.1 st.2.2
    else st

/-- The method `Set::diff(const Set &set)`, the symmetric difference.  It reads both blocks
and writes only to the local `tmp`, so an argument that is the object itself is the case
`set = arr`. -/
def Set.diff (cmp : CmpPolicy T) (junk : Nat → T) (arr set : List T) : List T :=
  if set.length = 0 then arr
  else if arr.length = 0 then set
  else
    let r := diffLoop cmp arr set (arr.length + set.length) [] 0 0
    if r.2.2 ≠ set.length then
      copyRest false set (set.length - r.2.2)
        (resizeElems junk r.1 (r.1.length + (set.length - r.2.2))) r.1.length r.2.2
    else if r.2.1 ≠ arr.length then
      copyRest false arr (arr.length - r.2.1)
        (resizeElems junk r.1 (r.1.length + (arr.length - r.2.1))) r.1.length r.2.1
    else r.1

/-- The loop `while (d!=limit && cmp::eq(*s, *d)) ++s, ++d;` of `isSubsetOf`; `s` and `d`
have the same index, which is the result. -/
def subsetEqRun (cmp : CmpPolicy T) (arr set : List T) : Nat → Nat → Nat
  | 0, d => d
  | fuel + 1, d =>
    if d ≠ arr.length ∧ cmp.eq (set.getD d default) (arr.getD d default) = true then
      subsetEqRun cmp arr set fuel (d + 1)
    else d

/-- The loop `while (s!=s_limit && cmp::gt(*d, *s)) ++s;` of `isSubsetOf`. -/
def subsetSkip (cmp : CmpPolicy T) (set : List T) (d : T) : Nat → Nat → Nat
  | 0, s => s
  | fuel + 1, s =>
    if s ≠ set.length ∧ cmp.gt d (set.getD s default) = true then
      subsetSkip cmp set d fuel (s + 1)
    else s

/-- The `do ... while (d!=limit)` loop of `isSubsetOf`. -/
def subsetLoop (cmp : CmpPolicy T) (arr set : List T) : Nat → Nat → Nat → Bool
  | 0, _, _ => false
  | fuel + 1, d, s =>
    if subsetSkip cmp set (arr.getD d default) (set.length + 1) s = set.length
        ∨ cmp.eq (arr.getD d default)
            (set.getD (subsetSkip cmp set (arr.getD d default) (set.length + 1) s) default)
          = false then false
    else if d + 1 ≠ arr.length then
      subsetLoop cmp arr set fuel (d + 1)
        (subsetSkip cmp set (arr.getD d default) (set.length + 1) s + 1)
    else true

/-- The method `Set::isSubsetOf(set)`. -/
def Set.isSubsetOf (cmp : CmpPolicy T) (arr set : List T) : Bool :=
  if arr.length = 0 then true
  else if set.length < arr.length then false
  else if set.length = arr.length then
    decide (subsetEqRun cmp arr set (arr.length + 1) 0 = arr.length)
  else subsetLoop cmp arr set arr.length 0 0

/-- The method `Set::isProperSubsetOf(set)`. -/
def Set.isProperSubsetOf (cmp : CmpPolicy T) (arr set : List T) : Bool :=
  decide (arr.length < set.length) && Set.isSubsetOf cmp arr set

/-- A comparison policy that is a linear order: `gt` is a strict order in which any two
elements are comparable unless `eq` holds, and `eq` is compatible with `gt`. -/
structure CmpPolicy.Linear (cmp : CmpPolicy T) : Prop where
  eq_refl : ∀ a, cmp.eq a a = true
  eq_symm : ∀ a b, cmp.eq a b = true → cmp.eq b a = true
  gt_asymm : ∀ a b, cmp.gt a b = true → cmp.gt b a = false
  gt_ne : ∀ a b, cmp.gt a b = true → cmp.eq a b = false
  total : ∀ a b, cmp.eq a b = false → cmp.gt a b = false → cmp.gt b a = true
  gt_trans : ∀ a b c, cmp.gt a b = true → cmp.gt b c = true → cmp.gt a c = true
  gt_eq : ∀ a b c, cmp.gt a b = true → cmp.eq b c = true → cmp.gt a c = true
  eq_gt : ∀ a b c, cmp.eq a b = true → cmp.gt b c = true → cmp.gt a c = true

/-- A policy under which only identical elements compare equal. -/
def CmpPolicy.Exact (cmp : CmpPolicy T) : Prop := ∀ a b, cmp.eq a b = true → a = b

/-- The ordering invariant of a set: the elements are strictly ascending under the
policy. -/
def Ascending (cmp : CmpPolicy T) (arr : List T) : Prop :=
  arr.Pairwise (fun x y => cmp.gt y x = true)

instance (cmp : CmpPolicy T) (arr : List T) : Decidable (Ascending cmp arr) := by
  unfold Ascending; infer_instance

/-- Membership under the policy: some stored element compares equal to `x`. -/
def Member (cmp : CmpPolicy T) (arr : List T) (x : T) : Prop :=
  ∃ y ∈ arr, cmp.eq y x = true

instance (cmp : CmpPolicy T) (arr : List T) (x : T) : Decidable (Member cmp arr x) := by
  unfold Member; infer_instance

/-- The invariant of the merge loops of `sub(set)` and `mul(set)` on the array `a` with the
argument `b`: the block has the length of `a`; its first `it` slots hold the elements among
the first `data` of `a` that are to be kept; the slots from `data` on are untouched; and the
elements of `b` already passed lie below the elements of `a` still to come. -/
def MergeInv (cmp : CmpPolicy T) (keep : T → Bool) (a b buf : List T)
    (it data s_begin : Nat) : Prop :=
  buf.length = a.length ∧ it ≤ data ∧ data ≤ a.length ∧ s_begin ≤ b.length
    ∧ buf.take it = (a.take data).filter keep
    ∧ buf.drop data = a.drop data
    ∧ ∀ y ∈ b.take s_begin, ∀ x ∈ a.drop data, cmp.gt x y = true

/-- The invariant of the merge loop of `diff(set)` on the array `a` with the argument `b`:
`tmp` is ascending and lies below what is still to come of both arrays; the parts already
passed of each array lie below what is still to come of the other; and the members of `tmp`
are the members of the part passed of one array that are not members of the other array. -/
def DiffInv (cmp : CmpPolicy T) (a b tmp : List T) (data s_begin : Nat) : Prop :=
  data ≤ a.length ∧ s_begin ≤ b.length
    ∧ Ascending cmp tmp
    ∧ (∀ t ∈ tmp, (∀ x ∈ a.drop data, cmp.gt x t = true)
        ∧ (∀ y ∈ b.drop s_begin, cmp.gt y t = true))
    ∧ (∀ y ∈ b.take s_begin, ∀ x ∈ a.drop data, cmp.gt x y = true)
    ∧ (∀ x ∈ a.take data, ∀ y ∈ b.drop s_begin, cmp.gt y x = true)
    ∧ (∀ x, Member cmp tmp x ↔
        ((Member cmp (a.take data) x ∧ ¬ Member cmp b x)
          ∨ (Member cmp (b.take s_begin) x ∧ ¬ Member cmp a x)))

/-- The sets that the constructors `Set()` and `Set(const T*, unsigned)` and the methods
`add`, `sub` (element and set forms), `mul`, `diff` and `clear` produce; the arguments of the
set forms are such sets too.  An array that `find` searches is below 2^31 elements. -/
inductive Set.Reachable (cmp : CmpPolicy T) : List T → Prop
  | ctor : Set.Reachable cmp []
  | ofArray (array : List T) : array.length < 2147483648 →
      Set.Reachable cmp (Set.ofArray cmp array)
  | add (arr : List T) (element : T) : Set.Reachable cmp arr → arr.length < 2147483648 →
      Set.Reachable cmp (Set.add cmp arr element)
  | sub (arr : List T) (element : T) : Set.Reachable cmp arr → arr.length < 2147483648 →
      Set.Reachable cmp (Set.sub cmp arr element)
  | addSet (same : Bool) (junk : Nat → T) (arr set : List T) :
      Set.Reachable cmp arr → Set.Reachable cmp set →
      Set.Reachable cmp (Set.addSet cmp same junk arr set)
  | subSet (same : Bool) (arr set : List T) :
      Set.Reachable cmp arr → Set.Reachable cmp set →
      Set.Reachable cmp (Set.subSet cmp same arr set)
  | mul (same : Bool) (arr set : List T) :
      Set.Reachable cmp arr → Set.Reachable cmp set →
      Set.Reachable cmp (Set.mul cmp same arr set)
  | diff (junk : Nat → T) (arr set : List T) :
      Set.Reachable cmp arr → Set.Reachable cmp set →
      Set.Reachable cmp (Set.diff cmp junk arr set)
  | clear (arr : List T) : Set.Reachable cmp arr → Set.Reachable cmp (Set.clear arr)

/-! ## Relation  (src/relation.hpp)

A relation is the record of its members: the element lists of the sets `X`, `Y` and `G` and
the two cache words.  A mutator returns the exception it throws, if any, together with the
state it leaves. -/

instance {T1 T2 : Type} [Inhabited T1] [Inhabited T2] : Inhabited (Pair T1 T2) :=
  ⟨⟨default, default⟩⟩

/-- The members of `Relation<T1, T2, cmp1, cmp2>`: the domain `X`, the codomain `Y`, the
graph `G`, and `flags` and `checked` of the base class `RelationFlags`. -/
structure Relation (T1 T2 : Type) where
  X : List T1
  Y : List T2
  G : List (Pair T1 T2)
  flags : Nat
  checked : Nat
deriving DecidableEq

/-- The exceptions `BadPair`, `BadSet<T1, cmp1>` and `BadSet<T2, cmp2>` with the pair and the
set they carry. -/
inductive RelationError (T1 T2 : Type) where
  | BadPair (pair : Pair T1 T2)
  | BadSetX (pair : Pair T1 T2) (x : List T1)
  | BadSetY (pair : Pair T1 T2) (y : List T2)
deriving DecidableEq

/-- The constructor `Relation()`: empty sets; the base class constructor leaves `flags` and
`checked` as they are. -/
def Relation.ctor {T1 T2 : Type} (flags checked : Nat) : Relation T1 T2 :=
  ⟨[], [], [], flags, checked⟩

/-- The method `Relation::checkPair(pair)`; the result is the exception thrown. -/
def Relation.checkPair {T1 T2 : Type} [Inhabited T1] [Inhabited T2] (cmp1 : CmpPolicy T1)
    (cmp2 : CmpPolicy T2) (r : Relation T1 T2) (pair : Pair T1 T2) :
    Option (RelationError T1 T2) :=
  if Set.exists_ cmp1 r.X pair.left = false ∨ Set.exists_ cmp2 r.Y pair.right = false then
    some (.BadPair pair)
  else none

/-- The method `Relation::checkGraph(graph)`: `for (; p!=limit; ++p) checkPair(*p);`. -/
def Relation.checkGraph {T1 T2 : Type} [Inhabited T1] [Inhabited T2] (cmp1 : CmpPolicy T1)
    (cmp2 : CmpPolicy T2) (r : Relation T1 T2) :
    List (Pair T1 T2) → Option (RelationError T1 T2)
  | [] => none
  | p :: rest =>
    match r.checkPair cmp1 cmp2 p with
    | some e => some e
    | none => Relation.checkGraph cmp1 cmp2 r rest

/-- The loop of `setDomain`: the first pair of the graph whose left element is not in `x`. -/
def setDomainLoop {T1 T2 : Type} [Inhabited T1] (cmp1 : CmpPolicy T1) (x : List T1) :
    List (Pair T1 T2) → Option (Pair T1 T2)
  | [] => none
  | p :: rest => if Set.exists_ cmp1 x p.left = false then some p
    else setDomainLoop cmp1 x rest

/-- The loop of `setCodomain`: the first pair of the graph whose right element is not in
`y`. -/
def setCodomainLoop {T1 T2 : Type} [Inhabited T2] (cmp2 : CmpPolicy T2) (y : List T2) :
    List (Pair T1 T2) → Option (Pair T1 T2)
  | [] => none
  | p :: rest => if Set.exists_ cmp2 y p.right = false then some p
    else setCodomainLoop cmp2 y rest

/-- The method `Relation::setDomain(x)`. -/
def Relation.setDomain {T1 T2 : Type} [Inhabited T1] (cmp1 : CmpPolicy T1)
    (r : Relation T1 T2) (x : List T1) : Option (RelationError T1 T2) × Relation T1 T2 :=
  match setDomainLoop cmp1 x r.G with
  | some p => (some (.BadSetX p x), r)
  | none => (none, { r with X := x, checked := 0 })

/-- The method `Relation::setCodomain(y)`. -/
def Relation.setCodomain {T1 T2 : Type} [Inhabited T2] (cmp2 : CmpPolicy T2)
    (r : Relation T1 T2) (y : List T2) : Option (RelationError T1 T2) × Relation T1 T2 :=
  match setCodomainLoop cmp2 y r.G with
  | some p => (some (.BadSetY p y), r)
  | none => (none, { r with Y := y, checked := 0 })

/-- The method `Relation::setGraph(graph)`: `checkGraph(graph); checked = 0; G = graph;`. -/
def Relation.setGraph {T1 T2 : Type} [Inhabited T1] [Inhabited T2] (cmp1 : CmpPolicy T1)
    (cmp2 : CmpPolicy T2) (r : Relation T1 T2) (graph : List (Pair T1 T2)) :
    Option (RelationError T1 T2) × Relation T1 T2 :=
  match r.checkGraph cmp1 cmp2 graph with
  | some e => (some e, r)
  | none => (none, { r with checked := 0, G := graph })

/-- The method `Relation::clear()`: `G.clear(); checked = 0;`. -/
def Relation.clear {T1 T2 : Type} (r : Relation T1 T2) :
    Option (RelationError T1 T2) × Relation T1 T2 :=
  (none, { r with G := Set.clear r.G, checked := 0 })

/-- The method `Relation::add(const ThePair &pair)`; `add(left, right)` calls it with
`ThePair(left, right)`. -/
def Relation.add {T1 T2 : Type} [Inhabited T1] [Inhabited T2] (cmp1 : CmpPolicy T1)
    (cmp2 : CmpPolicy T2) (r : Relation T1 T2) (pair : Pair T1 T2) :
    Option (RelationError T1 T2) × Relation T1 T2 :=
  match r.checkPair cmp1 cmp2 pair with
  | some e => (some e, r)
  | none => (none, { r with G := Set.add (Pair.cmp_policy cmp1 cmp2) r.G pair, checked := 0 })

/-- The method `Relation::sub(const ThePair &pair)`; `sub(left, right)` calls it with
`ThePair(left, right)`. -/
def Relation.sub {T1 T2 : Type} [Inhabited T1] [Inhabited T2] (cmp1 : CmpPolicy T1)
    (cmp2 : CmpPolicy T2) (r : Relation T1 T2) (pair : Pair T1 T2) :
    Option (RelationError T1 T2) × Relation T1 T2 :=
  (none, { r with G := Set.sub (Pair.cmp_policy cmp1 cmp2) r.G pair, checked := 0 })

/-- The method `Relation::add(const Graph &graph)`; `same` tells that `graph` is the graph
of the relation itself. -/
def Relation.addGraph {T1 T2 : Type} [Inhabited T1] [Inhabited T2] (cmp1 : CmpPolicy T1)
    (cmp2 : CmpPolicy T2) (same : Bool) (junk : Nat → Pair T1 T2) (r : Relation T1 T2)
    (graph : List (Pair T1 T2)) : Option (RelationError T1 T2) × Relation T1 T2 :=
  match r.checkGraph cmp1 cmp2 (operand same r.G graph) with
  | some e => (some e, r)
  | none =>
    (none, { r with G := Set.addSet (Pair.cmp_policy cmp1 cmp2) same junk r.G graph,
                    checked := 0 })

/-- The method `Relation::sub(const Graph &graph)`. -/
def Relation.subGraph {T1 T2 : Type} [Inhabited T1] [Inhabited T2] (cmp1 : CmpPolicy T1)
    (cmp2 : CmpPolicy T2) (same : Bool) (r : Relation T1 T2)
    (graph : List (Pair T1 T2)) : Option (RelationError T1 T2) × Relation T1 T2 :=
  (none, { r with G := Set.subSet (Pair.cmp_policy cmp1 cmp2) same r.G graph, checked := 0 })

/-- The method `Relation::mul(const Graph &graph)`. -/
def Relation.mulGraph {T1 T2 : Type} [Inhabited T1] [Inhabited T2] (cmp1 : CmpPolicy T1)
    (cmp2 : CmpPolicy T2) (same : Bool) (r : Relation T1 T2)
    (graph : List (Pair T1 T2)) : Option (RelationError T1 T2) × Relation T1 T2 :=
  (none, { r with G := Set.mul (Pair.cmp_policy cmp1 cmp2) same r.G graph, checked := 0 })

/-- The method `Relation::diff(const Graph &graph)`. -/
def Relation.diffGraph {T1 T2 : Type} [Inhabited T1] [Inhabited T2] (cmp1 : CmpPolicy T1)
    (cmp2 : CmpPolicy T2) (same : Bool) (junk : Nat → Pair T1 T2) (r : Relation T1 T2)
    (graph : List (Pair T1 T2)) : Option (RelationError T1 T2) × Relation T1 T2 :=
  match r.checkGraph cmp1 cmp2 (operand same r.G graph) with
  | some e => (some e, r)
  | none =>
    (none, { r with G := Set.diff (Pair.cmp_policy cmp1 cmp2) junk r.G
                      (operand same r.G graph),
                    checked := 0 })

/-- A call of a public mutator of `Relation`. -/
inductive RelationOp (T1 T2 : Type) where
  | setDomain (x : List T1)
  | setCodomain (y : List T2)
  | setGraph (graph : List (Pair T1 T2))
  | clear
  | add (pair : Pair T1 T2)
  | sub (pair : Pair T1 T2)
  | addGraph (same : Bool) (junk : Nat → Pair T1 T2) (graph : List (Pair T1 T2))
  | subGraph (same : Bool) (graph : List (Pair T1 T2))
  | mulGraph (same : Bool) (graph : List (Pair T1 T2))
  | diffGraph (same : Bool) (junk : Nat → Pair T1 T2) (graph : List (Pair T1 T2))

/-- The effect of a call: the exception thrown, if any, and the state left. -/
def RelationOp.run {T1 T2 : Type} [Inhabited T1] [Inhabited T2] (cmp1 : CmpPolicy T1)
    (cmp2 : CmpPolicy T2) (op : RelationOp T1 T2) (r : Relation T1 T2) :
    Option (RelationError T1 T2) × Relation T1 T2 :=
  match op with
  | .setDomain x => r.setDomain cmp1 x
  | .setCodomain y => r.setCodomain cmp2 y
  | .setGraph graph => r.setGraph cmp1 cmp2 graph
  | .clear => r.clear
  | .add pair => r.add cmp1 cmp2 pair
  | .sub pair => r.sub cmp1 cmp2 pair
  | .addGraph same junk graph => r.addGraph cmp1 cmp2 same junk graph
  | .subGraph same graph => r.subGraph cmp1 cmp2 same graph
  | .mulGraph same graph => r.mulGraph cmp1 cmp2 same graph
  | .diffGraph same junk graph => r.diffGraph cmp1 cmp2 same junk graph

/-- The state after a sequence of calls, each of which may throw. -/
def Relation.runAll {T1 T2 : Type} [Inhabited T1] [Inhabited T2] (cmp1 : CmpPolicy T1)
    (cmp2 : CmpPolicy T2) (ops : List (RelationOp T1 T2)) (r : Relation T1 T2) :
    Relation T1 T2 :=
  ops.foldl (fun s op => (op.run cmp1 cmp2 s).2) r

/-- The invariant of a relation: every pair of the graph has its left element in the
domain and its right element in the codomain, as `checkPair` tests it. -/
def Relation.inv {T1 T2 : Type} [Inhabited T1] [Inhabited T2] (cmp1 : CmpPolicy T1)
    (cmp2 : CmpPolicy T2) (r : Relation T1 T2) : Prop :=
  ∀ p ∈ r.G, Set.exists_ cmp1 r.X p.left = true ∧ Set.exists_ cmp2 r.Y p.right = true

instance {T1 T2 : Type} [Inhabited T1] [Inhabited T2] (cmp1 : CmpPolicy T1)
    (cmp2 : CmpPolicy T2) (r : Relation T1 T2) : Decidable (r.inv cmp1 cmp2) := by
  unfold Relation.inv; infer_instance

/-! ## Array worlds for `resize` and `pop`  (src/array.hpp) -/

/-- The world after `Array<T> a; a.push(5); a.push(6); a.pop();`: the array `[5]`, whose
slot 1 still holds the 6 stored earlier. -/
def staleSlot : World Nat := afterValue (Array.pop (after (pushAll fresh 0 [5, 6])) 0)

/-- The world after `Array<T> a(2); a.push(5); a.push(6);`: a full array of capacity 2. -/
def fullTwo : World Nat := after (pushAll (Array.ctor ⟨[], []⟩ 2) 0 [5, 6])

/-! ## Floating-point policy  (src/policy-compare.hpp)

The specialisations of `default_cmp_policy` for `double`, `float` and `long double` have the
same three bodies; they are read here over exact rational numbers, with the constant `1e-9`
as the rational `1 / 10^9`. -/

/-- The specialisation `default_cmp_policy<double>`: `eq` is `fabs(a-b) < 1e-9`, `ge` is
`a + 1e-9 >= b` and `gt` is `a - 1e-9 > b`. -/
def default_cmp_policy_double : CmpPolicy ℚ where
  eq a b := decide (|a - b| < 1 / 1000000000)
  ge a b := decide (a + 1 / 1000000000 ≥ b)
  gt a b := decide (a - 1 / 1000000000 > b)

/-! ## Array ordering policy  (src/array.hpp, `Array::cmp_policy`)

The policy compares two handles of one world; `a.data == b.data` is the test that both
handles point to the same body.  The second size test of `ge` and `gt` is written
`a.size>b.size()` in the source (the call parentheses after `a.size` are missing, so the
member cannot be instantiated as written); it is read as `a.size() > b.size()`.  The
parameters of `gt` are declared as `const T &`; they are read as arrays, as in `eq` and
`ge`. -/

section ArrayOrder

variable [RawStorage T]

/-- The loop `while (e1!=end && cmp::eq(*e1, *e2)) ++e1, ++e2;` of `eq` and `ge`: the
index at which it stops. -/
def eqRun (cmp : CmpPolicy T) (w : World T) (a b : Nat) : Nat → Nat → Nat
  | 0, e => e
  | fuel + 1, e =>
    if e ≠ Array.size w a ∧ cmp.eq (Array.get w a e) (Array.get w b e) = true then
      eqRun cmp w a b fuel (e + 1)
    else e

/-- The loop `while (e1!=end && cmp::eq(*e1, *e1)) ++e1, ++e2;` of `gt`, which compares
every element of `a` with itself: the index at which it stops. -/
def selfEqRun (cmp : CmpPolicy T) (w : World T) (a : Nat) : Nat → Nat → Nat
  | 0, e => e
  | fuel + 1, e =>
    if e ≠ Array.size w a ∧ cmp.eq (Array.get w a e) (Array.get w a e) = true then
      selfEqRun cmp w a fuel (e + 1)
    else e

/-- The policy `Array<T>::cmp_policy<cmp>` on the handles of the world `w`.  The last line
of `ge` is `return e1==end || cmp::gt(*e1, *e1);`, that of `gt` is
`return e1!=end && cmp::gt(*e1, *e2);`. -/
def Array.cmp_policy (cmp : CmpPolicy T) (w : World T) : CmpPolicy Nat where
  eq a b :=
    if w.ptr a = w.ptr b then true
    else if Array.size w a ≠ Array.size w b then false
    else eqRun cmp w a b (Array.size w a) 0 == Array.size w a
  ge a b :=
    if Array.size w a < Array.size w b then false
    else if Array.size w a > Array.size w b then true
    else if w.ptr a = w.ptr b then true
    else
      eqRun cmp w a b (Array.size w a) 0 == Array.size w a
        || cmp.gt (Array.get w a (eqRun cmp w a b (Array.size w a) 0))
            (Array.get w a (eqRun cmp w a b (Array.size w a) 0))
  gt a b :=
    if Array.size w a < Array.size w b then false
    else if Array.size w a > Array.size w b then true
    else if w.ptr a = w.ptr b then false
    else
      selfEqRun cmp w a (Array.size w a) 0 != Array.size w a
        && cmp.gt (Array.get w a (selfEqRun cmp w a (Array.size w a) 0))
            (Array.get w b (selfEqRun cmp w a (Array.size w a) 0))

/-- Two arrays with bodies of their own: `x = [2]` (handle 0) and `y = [1]` (handle 1). -/
def twoArrays : World Nat := ⟨[some ⟨1, [2], 1, 1⟩, some ⟨1, [1], 1, 1⟩], [0, 1]⟩

end ArrayOrder

/-! ## The assignments of `BigInt::mul`  (src/bigint.cpp)

The loops of `mul` once more, this time collecting every assignment to `vec`. -/

/-- One round of the inner loop or of the carry loop of `mul`: the index of `vec` that is
read and written, the sum as computed in `int` (before it is narrowed to the
`unsigned char tmp`), the value stored (`tmp % 10`) and the carry kept (`tmp / 10`). -/
structure MulStep where
  index : Nat
  sum : Nat
  stored : Nat
  carry : Nat
deriving DecidableEq

/-- The rounds of the inner loop of `mul` (see `mulInner`). -/
def mulInnerSteps : List Nat → Nat → List Nat → Nat → Nat → Nat → Nat → List MulStep
  | _, _, _, _, _, _, 0 => []
  | vec, di, nd, i, ni, memory, cnt + 1 =>
    let tmp := (vec.getD (i + ni) 0 + di * nd.getD ni 0 + memory) % 256
    ⟨i + ni, vec.getD (i + ni) 0 + di * nd.getD ni 0 + memory, tmp % 10, tmp / 10⟩
      :: mulInnerSteps (vec.set (i + ni) (tmp % 10)) di nd i (ni + 1) (tmp / 10) cnt

/-- The rounds of the carry loop of `mul` (see `mulCarry`); `none` when `memory` is still
not zero after as many rounds as the block has slots, that is when the loop walks past
the end of the block. -/
def mulCarrySteps : List Nat → Nat → Nat → Nat → Option (List MulStep)
  | _, _, memory, 0 => if memory ≠ 0 then none else some []
  | vec, ni, memory, fuel + 1 =>
    if memory ≠ 0 then
      let tmp := (vec.getD ni 0 + memory) % 256
      (mulCarrySteps (vec.set ni (tmp % 10)) (ni + 1) (tmp / 10) fuel).map
        (fun rest => ⟨ni, vec.getD ni 0 + memory, tmp % 10, tmp / 10⟩ :: rest)
    else some []

/-- The rounds of all loops of `mul` in the order they run (see `mulOuter`). -/
def mulOuterSteps : List Nat → List Nat → List Nat → Nat → Nat → Option (List MulStep)
  | _, _, _, _, 0 => some []
  | vec, d, nd, i, cnt + 1 =>
    if d.getD i 0 = 0 then mulOuterSteps vec d nd (i + 1) cnt
    else
      let r := mulInner vec (d.getD i 0) nd i 0 0 nd.length
      match mulCarrySteps r.1 (r.2.1 + i) r.2.2 vec.length with
      | none => none
      | some cs =>
        (mulOuterSteps (mulCarry r.1 (r.2.1 + i) r.2.2 vec.length) d nd (i + 1) cnt).map
          (fun rest => mulInnerSteps vec (d.getD i 0) nd i 0 0 nd.length ++ cs ++ rest)

/-- The assignments to `vec` that `BigInt::mul(n)` performs. -/
def BigInt.mulSteps (al : Alias) (a n : BigInt) : Option (List MulStep) :=
  if a.sign = 0 then some []
  else if (cur al a n).sign = 0 then some []
  else
    mulOuterSteps (List.replicate (a.digits.length + (cur al a n).digits.length) 0)
      a.digits (cur al a n).digits 0 a.digits.length

/-- A round that stays in a block of `len` slots and in the range of the digit
arithmetic. -/
def MulStep.ok (len : Nat) (s : MulStep) : Prop :=
  s.index < len ∧ s.sum ≤ 99 ∧ s.carry ≤ 9 ∧ s.stored ≤ 9

instance (len : Nat) (s : MulStep) : Decidable (s.ok len) := by
  unfold MulStep.ok; infer_instance

/-! ## Relation properties  (src/relation.hpp)

The cache words `flags` and `checked` are `unsigned short`; a property query returns its
answer together with the relation it leaves (both words are `mutable`). -/

/-- The flag `FL_SAME_SETS = 1 << 0`. -/
def FL_SAME_SETS : Nat := 1

/-- The flag `FL_LEFT_TOTAL = 1 << 1`. -/
def FL_LEFT_TOTAL : Nat := 2

/-- The flag `FL_RIGHT_TOTAL = 1 << 2`. -/
def FL_RIGHT_TOTAL : Nat := 4

/-- The flag `FL_FUNCTIONAL = 1 << 3`. -/
def FL_FUNCTIONAL : Nat := 8

/-- The flag `FL_INJECTIVE = 1 << 4`. -/
def FL_INJECTIVE : Nat := 16

/-- The flag `FL_BIJECTIVE = 1 << 5`. -/
def FL_BIJECTIVE : Nat := 32

/-- The flag `FL_REFLEXIVE = 1 << 6`. -/
def FL_REFLEXIVE : Nat := 64

/-- The flag `FL_IRREFLEXIVE = 1 << 7`. -/
def FL_IRREFLEXIVE : Nat := 128

/-- The flag `FL_COREFLEXIVE = 1 << 8`. -/
def FL_COREFLEXIVE : Nat := 256

/-- The flag `FL_SYMMETRIC = 1 << 9`. -/
def FL_SYMMETRIC : Nat := 512

/-- The flag `FL_ANTISYMMETRIC = 1 << 10`. -/
def FL_ANTISYMMETRIC : Nat := 1024

/-- The flag `FL_ASYMMETRIC = 1 << 11`. -/
def FL_ASYMMETRIC : Nat := 2048

/-- The flag `FL_TRANSITIVE = 1 << 12`. -/
def FL_TRANSITIVE : Nat := 4096

/-- The flag `FL_LINEAR = 1 << 13`. -/
def FL_LINEAR : Nat := 8192

/-- The flag `FL_TRICHOTOMOUS = 1 << 14`. -/
def FL_TRICHOTOMOUS : Nat := 16384

/-- The flag `FL_EUCLIDEAN = 1 << 15`. -/
def FL_EUCLIDEAN : Nat := 32768

/-- The table `RelationFlags::flags_impl_array[16][2][2]`: for the flag `1 << n` in state
`s`, entry `[n][s][0]` holds the flags implied to be set and entry `[n][s][1]` those implied
to be unset. -/
def flags_impl_array : List (List (List Nat)) :=
  [ [[0, FL_SAME_SETS], [FL_SAME_SETS, 0]],
    [[0, FL_LEFT_TOTAL ||| FL_REFLEXIVE], [FL_LEFT_TOTAL, 0]],
    [[0, FL_RIGHT_TOTAL ||| FL_REFLEXIVE], [FL_RIGHT_TOTAL, 0]],
    [[0, FL_FUNCTIONAL ||| FL_COREFLEXIVE], [FL_FUNCTIONAL, 0]],
    [[0, FL_INJECTIVE ||| FL_COREFLEXIVE], [FL_INJECTIVE, 0]],
    [[0, FL_BIJECTIVE], [FL_BIJECTIVE, 0]],
    [[0, FL_REFLEXIVE],
     [FL_REFLEXIVE ||| FL_LEFT_TOTAL ||| FL_RIGHT_TOTAL,
      FL_IRREFLEXIVE ||| FL_ASYMMETRIC ||| FL_TRICHOTOMOUS]],
    [[0, FL_IRREFLEXIVE], [FL_IRREFLEXIVE, FL_REFLEXIVE ||| FL_COREFLEXIVE]],
    [[0, FL_COREFLEXIVE], [FL_COREFLEXIVE ||| FL_FUNCTIONAL ||| FL_INJECTIVE, 0]],
    [[0, FL_SYMMETRIC], [FL_SYMMETRIC, FL_ASYMMETRIC]],
    [[0, FL_ANTISYMMETRIC], [FL_ANTISYMMETRIC, 0]],
    [[0, FL_ASYMMETRIC], [FL_ASYMMETRIC, FL_REFLEXIVE ||| FL_COREFLEXIVE ||| FL_SYMMETRIC]],
    [[0, FL_TRANSITIVE], [FL_TRANSITIVE, 0]],
    [[0, FL_LINEAR], [FL_LINEAR, FL_TRANSITIVE]],
    [[0, FL_TRICHOTOMOUS],
     [FL_TRICHOTOMOUS, FL_REFLEXIVE ||| FL_COREFLEXIVE ||| FL_LINEAR]],
    [[0, FL_EUCLIDEAN], [FL_EUCLIDEAN, 0]] ]

/-- The entry `flags_impl_array[num][state][k]`. -/
def implEntry (num : Nat) (state : Bool) (k : Nat) : Nat :=
  ((flags_impl_array.getD num []).getD (if state then 1 else 0) []).getD k 0

/-- The loop `for (unsigned f = flag; f != 1; f >>= 1) ++num;` of `setFlag`, bounded by the
width of `unsigned`. -/
def flagNum : Nat → Nat → Nat
  | 0, _ => 0
  | fuel + 1, f => if f ≠ 1 then flagNum fuel (f / 2) + 1 else 0

/-- The method `RelationFlags::setFlag(flag, state)`: the value returned and the object
left.  `flags &= ~mask` clears the bits of `mask` in the 16-bit word. -/
def Relation.setFlag {T1 T2 : Type} (r : Relation T1 T2) (flag : Nat) (state : Bool) :
    Bool × Relation T1 T2 :=
  (state,
    { r with
      flags := (r.flags ||| implEntry (flagNum 32 flag) state 0)
        &&& (65535 - implEntry (flagNum 32 flag) state 1),
      checked := r.checked ||| (implEntry (flagNum 32 flag) state 0
        ||| implEntry (flagNum 32 flag) state 1) })

/-- The method `RelationFlags::unsetFlag(flag)`: `setFlag(flag, 0)`. -/
def Relation.unsetFlag {T1 T2 : Type} (r : Relation T1 T2) (flag : Nat) : Relation T1 T2 :=
  (r.setFlag flag false).2

/-- The loop `while (p!=limit && !cmp1::ge(p->left(), *x)) ++p;` of `isLeftTotal`: the
position at which it stops. -/
def leftTotalSkip {T1 T2 : Type} [Inhabited T1] [Inhabited T2] (cmp1 : CmpPolicy T1)
    (G : List (Pair T1 T2)) (x : T1) : Nat → Nat → Nat
  | 0, p => p
  | fuel + 1, p =>
    if p ≠ G.length ∧ cmp1.ge (G.getD p default).left x = false then
      leftTotalSkip cmp1 G x fuel (p + 1)
    else p

/-- The loop `for (; x != x_end && p!=limit; ++x)` of `isLeftTotal` with the body
`while (..) ++p; p = cmp1::eq(p->left(), *x) ? p+1 : limit;`: the position `p` at its end,
or `none` when the body evaluates `p->left()` with `p == limit`, which reads the graph one
position past its end. -/
def leftTotalLoop {T1 T2 : Type} [Inhabited T1] [Inhabited T2] (cmp1 : CmpPolicy T1)
    (X : List T1) (G : List (Pair T1 T2)) : Nat → Nat → Nat → Option Nat
  | 0, _, p => some p
  | fuel + 1, x, p =>
    if x ≠ X.length ∧ p ≠ G.length then
      if leftTotalSkip cmp1 G (X.getD x default) G.length p = G.length then none
      else
        leftTotalLoop cmp1 X G fuel (x + 1)
          (if cmp1.eq (G.getD (leftTotalSkip cmp1 G (X.getD x default) G.length p)
                default).left (X.getD x default) = true
            then leftTotalSkip cmp1 G (X.getD x default) G.length p + 1
            else G.length)
    else some p

/-- The method `Relation::isLeftTotal()`; `none` when it reads the graph past its end. -/
def Relation.isLeftTotal {T1 T2 : Type} [Inhabited T1] [Inhabited T2]
    (cmp1 : CmpPolicy T1) (r : Relation T1 T2) : Option (Bool × Relation T1 T2) :=
  if r.X.length = 0 then some (true, r)
  else if r.checked &&& FL_LEFT_TOTAL ≠ 0 then
    some (decide (r.flags &&& FL_LEFT_TOTAL ≠ 0), r)
  else if r.G.length < r.X.length then some (false, r.unsetFlag FL_LEFT_TOTAL)
  else
    match leftTotalLoop cmp1 r.X r.G r.X.length 0 0 with
    | none => none
    | some p => some (r.setFlag FL_LEFT_TOTAL (decide (p ≠ r.G.length)))

/-- The loop `for (; y && p!=limit; ++p) y.sub(p->right());` of `isRightTotal`: the set
`y` at its end. -/
def rightTotalLoop {T1 T2 : Type} [Inhabited T1] [Inhabited T2] (cmp2 : CmpPolicy T2)
    (G : List (Pair T1 T2)) : Nat → Nat → List T2 → List T2
  | 0, _, y => y
  | fuel + 1, p, y =>
    if y.length ≠ 0 ∧ p ≠ G.length then
      rightTotalLoop cmp2 G fuel (p + 1) (Set.sub cmp2 y (G.getD p default).right)
    else y

/-- The method `Relation::isRightTotal()`.  When the graph has fewer pairs than the
codomain has elements the source calls `unsetFlag(FL_LEFT_TOTAL)`. -/
def Relation.isRightTotal {T1 T2 : Type} [Inhabited T1] [Inhabited T2]
    (cmp2 : CmpPolicy T2) (r : Relation T1 T2) : Bool × Relation T1 T2 :=
  if r.Y.length = 0 then (true, r)
  else if r.checked &&& FL_RIGHT_TOTAL ≠ 0 then
    (decide (r.flags &&& FL_RIGHT_TOTAL ≠ 0), r)
  else if r.G.length < r.Y.length then (false, r.unsetFlag FL_LEFT_TOTAL)
  else
    r.setFlag FL_RIGHT_TOTAL
      (decide ((rightTotalLoop cmp2 r.G r.G.length 0 r.Y).length = 0))

/-- The loop `while (e1!=end && cmp::eq(*e1, *e2)) ++e1, ++e2;` of
`Array::cmp_policy::eq` on the element lists of two sets. -/
def setEqRun (cmp : CmpPolicy T) (arr set : List T) : Nat → Nat → Nat
  | 0, e => e
  | fuel + 1, e =>
    if e ≠ arr.length ∧ cmp.eq (arr.getD e default) (set.getD e default) = true then
      setEqRun cmp arr set fuel (e + 1)
    else e

/-- The method `Set::eq(set)`, that is `arr == set.arr`, which `operator==` of `Array`
answers with `Array<T>::cmp_policy<default_cmp_policy<T> >::eq`; `dflt` is the default
policy of the element type and `shared` tells that both arrays share one body. -/
def Set.eq (dflt : CmpPolicy T) (shared : Bool) (arr set : List T) : Bool :=
  if shared then true
  else if arr.length ≠ set.length then false
  else setEqRun dflt arr set arr.length 0 == arr.length

/-- The method `Relation::checkSetsAreEqual()`: the relation it leaves, or `none` when it
throws `BadSets`.  `X != Y` compiles only when domain and codomain are sets of one type, so
the relation has one element type. -/
def Relation.checkSetsAreEqual (dflt : CmpPolicy T) (shared : Bool) (r : Relation T T) :
    Option (Relation T T) :=
  if r.checked &&& FL_SAME_SETS ≠ 0 then
    if r.flags &&& FL_SAME_SETS = 0 then none else some r
  else if (!Set.eq dflt shared r.X r.Y) = true then none
  else some { r with checked := r.checked ||| FL_SAME_SETS, flags := r.flags ||| FL_SAME_SETS }

/-- The loop `while (p!=limit && cmp_policy<cmp1, cmp2>::gt(pair, *p)) ++p;` of
`isReflexive`: the position at which it stops. -/
def reflexiveSkip (cmp : CmpPolicy T) (G : List (Pair T T)) (pair : Pair T T) :
    Nat → Nat → Nat
  | 0, p => p
  | fuel + 1, p =>
    if p ≠ G.length ∧ (Pair.cmp_policy cmp cmp).gt pair (G.getD p default) = true then
      reflexiveSkip cmp G pair fuel (p + 1)
    else p

/-- The loop `for (; el!=e_limit; ++el)` of `isReflexive` with the body
`pair.set(*el, *el); while (..) ++p; if (p==limit || !eq(pair, *p)) break;`: the
position `el` at its end. -/
def reflexiveLoop (cmp : CmpPolicy T) (X : List T) (G : List (Pair T T)) :
    Nat → Nat → Nat → Nat
  | 0, el, _ => el
  | fuel + 1, el, p =>
    if el ≠ X.length then
      if reflexiveSkip cmp G ⟨X.getD el default, X.getD el default⟩ G.length p = G.length
          ∨ (Pair.cmp_policy cmp cmp).eq ⟨X.getD el default, X.getD el default⟩
              (G.getD (reflexiveSkip cmp G ⟨X.getD el default, X.getD el default⟩
                G.length p) default) = false then
        el
      else
        reflexiveLoop cmp X G fuel (el + 1)
          (reflexiveSkip cmp G ⟨X.getD el default, X.getD el default⟩ G.length p)
    else el

/-- The method `Relation::isReflexive()`: the answer and the relation left, or `none` when
`checkSetsAreEqual` throws `BadSets`. -/
def Relation.isReflexive (dflt cmp : CmpPolicy T) (shared : Bool) (r : Relation T T) :
    Option (Bool × Relation T T) :=
  if r.X.length = 0 ∧ r.Y.length = 0 then some (true, r)
  else if r.checked &&& FL_REFLEXIVE ≠ 0 then
    some (decide (r.flags &&& FL_REFLEXIVE ≠ 0), r)
  else
    match r.checkSetsAreEqual dflt shared with
    | none => none
    | some r1 =>
      some (r1.setFlag FL_REFLEXIVE
        (decide (reflexiveLoop cmp r.X r.G r.X.length 0 0 = r.X.length)))

/-- The relation with domain `{1}`, codomain `{1}` and graph `{(1, 1)}`, cache empty. -/
def oneLoop : Relation Nat Nat := ⟨[1], [1], [⟨1, 1⟩], 0, 0⟩

/-- The relation with domain `{1, 3}`, codomain `{1, 2}` and graph `{(1, 1), (1, 2)}`,
cache empty. -/
def oneToTwo : Relation Nat Nat := ⟨[1, 3], [1, 2], [⟨1, 1⟩, ⟨1, 2⟩], 0, 0⟩

/-- The relation with domain `{1}`, codomain `{1, 2, 3}` and graph `{(1, 1), (1, 2)}`,
cache empty. -/
def oneToThree : Relation Nat Nat := ⟨[1], [1, 2, 3], [⟨1, 1⟩, ⟨1, 2⟩], 0, 0⟩

/-! ## Theorems -/

section Loops

variable [RawStorage T]

theorem getD_set_eq (buf : List T) (i j : Nat) (x : T) (hi : i < buf.length) :
    (buf.set j x).getD i default = if j = i then x else buf.getD i default := by
  simp only [List.getD_eq_getElem?_getD, List.getElem?_set]
  by_cases h : j = i
  · subst h; simp [hi]
  · simp [h]

theorem copyLoop_length (buf : List T) (idx : Nat) (arr : List T) (s : Nat) :
    (copyLoop buf idx arr s).length = buf.length := by
  induction s generalizing buf idx arr with
  | zero => rfl
  | succ s ih => simp [copyLoop, ih]

theorem copyLoop_getD (buf : List T) (idx : Nat) (arr : List T) (s i : Nat)
    (hi : i < buf.length) :
    (copyLoop buf idx arr s).getD i default =
      if idx ≤ i ∧ i < idx + s then arr.getD (i - idx) default else buf.getD i default := by
  induction s generalizing buf idx arr with
  | zero => rw [copyLoop, if_neg (by omega)]
  | succ s ih =>
    rw [copyLoop, ih _ _ _ (by simpa using hi), getD_set_eq _ _ _ _ hi]
    by_cases h1 : idx + 1 ≤ i ∧ i < idx + 1 + s
    · have e : i - idx = (i - (idx + 1)) + 1 := by omega
      rw [if_pos h1, if_pos (by omega), e]
      cases arr <;> simp
    · rw [if_neg h1]
      by_cases h2 : idx = i
      · subst h2
        rw [if_pos rfl, if_pos (by omega)]
        cases arr <;> simp
      · rw [if_neg h2, if_neg (by omega)]

theorem shiftUp_length (buf : List T) (el left : Nat) :
    (Array.shiftUp buf el left).1.length = buf.length := by
  induction left generalizing buf el with
  | zero => rfl
  | succ s ih => simp [Array.shiftUp, ih]

theorem shiftUp_snd (buf : List T) (el left : Nat) :
    (Array.shiftUp buf el left).2 = el - left := by
  induction left generalizing buf el with
  | zero => rfl
  | succ s ih => rw [Array.shiftUp, ih]; omega

theorem shiftUp_getD (buf : List T) (el left i : Nat) (hl : left ≤ el) (hi : i < buf.length) :
    (Array.shiftUp buf el left).1.getD i default =
      if el - left < i ∧ i ≤ el then buf.getD (i - 1) default else buf.getD i default := by
  induction left generalizing buf el with
  | zero => rw [Array.shiftUp, if_neg (by omega)]
  | succ s ih =>
    rw [Array.shiftUp, ih _ _ (by omega) (by simpa using hi), getD_set_eq _ _ _ _ hi]
    by_cases h1 : el - 1 - s < i ∧ i ≤ el - 1
    · rw [if_pos h1, if_pos (by omega)]
      have hi1 : i - 1 < buf.length := by omega
      rw [getD_set_eq _ _ _ _ hi1, if_neg (by omega)]
    · rw [if_neg h1]
      by_cases h2 : el = i
      · subst h2; rw [if_pos rfl, if_pos (by omega)]
      · rw [if_neg h2, if_neg (by omega)]

theorem shiftDown_length (buf : List T) (el left : Nat) :
    (Array.shiftDown buf el left).length = buf.length := by
  induction left generalizing buf el with
  | zero => rfl
  | succ s ih => simp [Array.shiftDown, ih]

theorem shiftDown_getD (buf : List T) (el left i : Nat) (hi : i < buf.length) :
    (Array.shiftDown buf el left).getD i default =
      if el ≤ i ∧ i < el + left then buf.getD (i + 1) default else buf.getD i default := by
  induction left generalizing buf el with
  | zero => rw [Array.shiftDown, if_neg (by omega)]
  | succ s ih =>
    rw [Array.shiftDown, ih _ _ (by simpa using hi), getD_set_eq _ _ _ _ hi]
    by_cases h1 : el + 1 ≤ i ∧ i < el + 1 + s
    · rw [if_pos h1, if_pos (by omega)]
      by_cases h3 : i + 1 < buf.length
      · rw [getD_set_eq _ _ _ _ h3, if_neg (by omega)]
      · simp only [List.getD_eq_getElem?_getD]
        rw [List.getElem?_eq_none (by simp; omega), List.getElem?_eq_none (by omega)]
    · rw [if_neg h1]
      by_cases h2 : el = i
      · subst h2; rw [if_pos rfl, if_pos (by omega)]
      · rw [if_neg h2, if_neg (by omega)]

end Loops

section Store

variable [RawStorage T]

theorem cell_set_same (h : List (Option (Data T))) (p : Nat) (d : Data T) (hp : p < h.length) :
    cell (h.set p (some d)) p = d := by
  simp [cell, List.getD_eq_getElem?_getD, hp]

theorem cell_set_ne (h : List (Option (Data T))) (p q : Nat) (o : Option (Data T)) (hq : q ≠ p) :
    cell (h.set q o) p = cell h p := by
  simp [cell, List.getD_eq_getElem?_getD, List.getElem?_set, hq]

theorem getD_set_ne (h : List (Option (Data T))) (p q : Nat) (o : Option (Data T)) (hq : q ≠ p) :
    (h.set q o).getD p none = h.getD p none := by
  simp [List.getD_eq_getElem?_getD, List.getElem?_set, hq]

theorem cell_append (h : List (Option (Data T))) (p : Nat) (o : Option (Data T))
    (hp : p < h.length) : cell (h ++ [o]) p = cell h p := by
  simp [cell, List.getD_eq_getElem?_getD, List.getElem?_append_left hp]

theorem getD_append (h : List (Option (Data T))) (p : Nat) (o : Option (Data T))
    (hp : p < h.length) : (h ++ [o]).getD p none = h.getD p none := by
  simp [List.getD_eq_getElem?_getD, List.getElem?_append_left hp]

theorem heapDec_length (h : List (Option (Data T))) (p : Nat) :
    (heapDec h p).length = h.length := by
  unfold heapDec; split
  · split <;> simp
  · rfl

theorem heapInc_length (h : List (Option (Data T))) (p : Nat) :
    (heapInc h p).length = h.length := by
  unfold heapInc; split <;> simp

theorem heapDec_getD_ne (h : List (Option (Data T))) (p q : Nat) (hq : q ≠ p) :
    (heapDec h q).getD p none = h.getD p none := by
  unfold heapDec; split
  · split <;> exact getD_set_ne _ _ _ _ hq
  · rfl

theorem heapInc_getD_ne (h : List (Option (Data T))) (p q : Nat) (hq : q ≠ p) :
    (heapInc h q).getD p none = h.getD p none := by
  unfold heapInc; split
  · exact getD_set_ne _ _ _ _ hq
  · rfl

theorem heapInc_getD_same (h : List (Option (Data T))) (p : Nat) (d : Data T)
    (hd : h.getD p none = some d) :
    (heapInc h p).getD p none = some { d with references := uadd d.references 1 } := by
  have hp : p < h.length := by
    by_contra hc
    rw [List.getD_eq_getElem?_getD, List.getElem?_eq_none (by omega)] at hd
    simp at hd
  unfold heapInc; rw [hd]
  simp [List.getD_eq_getElem?_getD, hp]

end Store

section Handles

variable [RawStorage T]

theorem valid_ptr_lt {w : World T} {self : Nat} (hv : Array.valid w self) :
    w.ptr self < w.heap.length := by
  obtain ⟨_, h2, _⟩ := hv
  by_contra hc
  rw [List.getD_eq_getElem?_getD, List.getElem?_eq_none (by omega)] at h2
  simp at h2

theorem valid_cell {w : World T} {self : Nat} (hv : Array.valid w self) :
    w.heap.getD (w.ptr self) none = some (w.body self) := by
  obtain ⟨_, h2, _⟩ := hv
  unfold World.body cell
  cases h : w.heap.getD (w.ptr self) none with
  | none => rw [h] at h2; simp at h2
  | some d => rfl

theorem ptr_store (w : World T) (self i : Nat) (d : Data T) :
    (w.store self d).ptr i = w.ptr i := rfl

theorem body_store {w : World T} {self : Nat} (d : Data T) (hp : w.ptr self < w.heap.length) :
    (w.store self d).body self = d := by
  unfold World.body; rw [ptr_store]; exact cell_set_same _ _ _ hp

theorem valid_store {w : World T} {self : Nat} (d : Data T) (hv : Array.valid w self)
    (hd : d.wf) (h1 : 1 ≤ d.references) (h2 : d.references < 4294967296) :
    Array.valid (w.store self d) self := by
  have hp := valid_ptr_lt hv
  refine ⟨hv.1, ?_, ?_, ?_, ?_⟩
  · rw [ptr_store]; simp [World.store, List.getD_eq_getElem?_getD, hp]
  all_goals rw [body_store d hp]; assumption

theorem ptr_rebind {w : World T} {self : Nat} (nd : Data T) (hs : self < w.vars.length) :
    (w.rebind self nd).ptr self = w.heap.length := by
  simp [World.rebind, World.ptr, List.getD_eq_getElem?_getD, hs]

theorem ptr_rebind_ne (w : World T) {self i : Nat} (nd : Data T) (hs : i ≠ self) :
    (w.rebind self nd).ptr i = w.ptr i := by
  simp [World.rebind, World.ptr, List.getD_eq_getElem?_getD, List.getElem?_set, Ne.symm hs]

theorem heap_rebind_new {w : World T} {self : Nat} (nd : Data T)
    (hp : w.ptr self < w.heap.length) :
    (w.rebind self nd).heap.getD w.heap.length none
      = some { nd with references := uadd nd.references 1 } := by
  unfold World.rebind
  apply heapInc_getD_same
  rw [heapDec_getD_ne _ _ _ (by omega)]
  simp [List.getD_eq_getElem?_getD]

theorem body_rebind {w : World T} {self : Nat} (nd : Data T) (hv : Array.valid w self) :
    (w.rebind self nd).body self = { nd with references := uadd nd.references 1 } := by
  unfold World.body cell
  rw [ptr_rebind nd hv.1, heap_rebind_new nd (valid_ptr_lt hv)]

theorem valid_rebind {w : World T} {self : Nat} (nd : Data T) (hv : Array.valid w self)
    (hd : nd.wf) (hr : nd.references = 0) : Array.valid (w.rebind self nd) self := by
  have hb := body_rebind nd hv
  refine ⟨?_, ?_, ?_, ?_, ?_⟩
  · simpa [World.rebind] using hv.1
  · rw [ptr_rebind nd hv.1, heap_rebind_new nd (valid_ptr_lt hv)]; rfl
  · rw [hb]; exact hd
  · rw [hb, hr]; simp [uadd]
  · rw [hb, hr]; simp [uadd]

/-- What a method leaves in the body of its handle: either the body was rewritten in
place (`store`) or a fresh body was bound (`rebind`); in both cases the handle stays valid
and the body holds the block, size and capacity of `n`. -/
theorem body_store_fields {w : World T} {self : Nat} (n : Data T) (hv : Array.valid w self)
    (hd : n.wf) (hr : n.references = (w.body self).references) :
    Array.valid (w.store self n) self ∧ ((w.store self n).body self).data = n.data
      ∧ Array.size (w.store self n) self = n.size
      ∧ Array.getCapacity (w.store self n) self = n.capacity := by
  have hb := body_store n (valid_ptr_lt hv)
  refine ⟨valid_store n hv hd (hr ▸ hv.2.2.2.1) (hr ▸ hv.2.2.2.2), ?_, ?_, ?_⟩
  · rw [hb]
  · unfold Array.size; rw [hb]
  · unfold Array.getCapacity; rw [hb]

theorem body_rebind_fields {w : World T} {self : Nat} (n : Data T) (hv : Array.valid w self)
    (hd : n.wf) (hr : n.references = 0) :
    Array.valid (w.rebind self n) self ∧ ((w.rebind self n).body self).data = n.data
      ∧ Array.size (w.rebind self n) self = n.size
      ∧ Array.getCapacity (w.rebind self n) self = n.capacity := by
  have hb := body_rebind n hv
  refine ⟨valid_rebind n hv hd hr, ?_, ?_, ?_⟩
  · rw [hb]
  · unfold Array.size; rw [hb]
  · unfold Array.getCapacity; rw [hb]

end Handles

section Insert

variable [RawStorage T]

theorem newArr_length (c : Nat) : (newArr c : List T).length = c := by
  simp [newArr]

/-- The three `copyAt` calls of `insert` on a block of at least `n + 1` slots. -/
theorem insert_copy_getD (buf old : List T) (pos n i : Nat) (x : T)
    (hpos : pos ≤ n) (hn : n < buf.length) (hi : i ≤ n) :
    (copyLoop (copyLoop (copyLoop buf 0 old pos) pos [x] 1) (pos + 1) (old.drop pos)
        (n - pos)).getD i default
      = if i < pos then old.getD i default else if i = pos then x
        else old.getD (i - 1) default := by
  have hi1 : i < (copyLoop (copyLoop buf 0 old pos) pos [x] 1).length := by
    rw [copyLoop_length, copyLoop_length]; omega
  have hi2 : i < (copyLoop buf 0 old pos).length := by rw [copyLoop_length]; omega
  rw [copyLoop_getD _ _ _ _ _ hi1, copyLoop_getD _ _ _ _ _ hi2,
    copyLoop_getD _ _ _ _ _ (by omega : i < buf.length)]
  by_cases h1 : i < pos
  · rw [if_neg (by omega), if_neg (by omega), if_pos (by omega), if_pos h1]; simp
  · rw [if_neg h1]
    by_cases h2 : i = pos
    · subst h2; rw [if_neg (by omega), if_pos (by omega), if_pos rfl]; simp
    · rw [if_pos (by omega), if_neg h2]
      simp only [List.getD_eq_getElem?_getD, List.getElem?_drop]
      congr 2; omega

theorem insert_spec {w : World T} {self : Nat} (pos : Nat) (x : T)
    (hv : Array.valid w self) (hpos : pos ≤ Array.size w self)
    (hfit : Array.size w self + Array.size w self / 2 < 4294967296) :
    ∃ w1, Array.insert w self pos x = .ok w1 ∧ Array.valid w1 self
      ∧ Array.size w1 self = Array.size w self + 1
      ∧ Array.getCapacity w1 self =
          (if Array.size w self = Array.getCapacity w self then
            (if Array.getCapacity w self > 30 then
              Array.getCapacity w self + Array.getCapacity w self / 2 else 32)
           else Array.getCapacity w self)
      ∧ (w1.body self).references = 1
      ∧ ∀ i, i ≤ Array.size w self → Array.get w1 self i =
          if i < pos then Array.get w self i else if i = pos then x
          else Array.get w self (i - 1) := by
  obtain ⟨hs, hlive, ⟨hsc, hlen, hcap⟩, hr1, hr2⟩ := id hv
  unfold Array.size Array.getCapacity Array.get at *
  generalize hd : w.body self = d at *
  unfold Array.insert Array.insertFrom
  simp only [hd, Element.read]
  rw [if_neg (by omega)]
  have hcapv : (if d.size ≥ d.capacity then
        (if d.capacity > 30 then uadd d.capacity (d.capacity / 2) else 32)
      else d.capacity) = (if d.size = d.capacity then
        (if d.capacity > 30 then d.capacity + d.capacity / 2 else 32) else d.capacity) := by
    unfold uadd; split_ifs <;> omega
  simp only [hcapv]
  generalize hc : (if d.size = d.capacity then
        (if d.capacity > 30 then d.capacity + d.capacity / 2 else 32) else d.capacity) = c
  have hc1 : d.size + 1 ≤ c := by rw [← hc]; split_ifs <;> omega
  have hc2 : c < 4294967296 := by rw [← hc]; split_ifs <;> omega
  have hc3 : d.capacity ≥ c ↔ d.size < d.capacity := by rw [← hc]; split_ifs <;> omega
  have hu1 : uadd pos 1 = pos + 1 := by unfold uadd; omega
  have hu2 : usub d.size pos = d.size - pos := by unfold usub; omega
  have hu3 : uadd (d.size - pos) (pos + 1) = d.size + 1 := by unfold uadd; omega
  have hu4 : uadd d.size 1 = d.size + 1 := by unfold uadd; omega
  by_cases hown : d.references = 1
  · have ho : d.isOwn = true := by simp [Data.isOwn, hown]
    simp only [ho, Bool.not_true, Bool.false_eq_true, if_false]
    by_cases hroom : d.size < d.capacity
    · rw [if_pos (hc3.2 hroom)]
      have hceq : c = d.capacity := by rw [← hc, if_neg (by omega)]
      refine ⟨_, rfl, ?_⟩
      rw [body_store _ (valid_ptr_lt hv)]
      refine ⟨valid_store _ hv ⟨?_, ?_, hcap⟩ hr1 hr2, hu4, hceq.symm, hown, ?_⟩
      · show uadd d.size 1 ≤ d.capacity
        omega
      · show (List.set _ _ _).length = d.capacity
        rw [List.length_set, shiftUp_length, hlen]
      · intro i hi
        show (List.set _ _ _).getD i default = _
        rw [hu2, getD_set_eq _ _ _ _ (by rw [shiftUp_length]; omega), shiftUp_snd,
          shiftUp_getD _ _ _ _ (by omega) (by omega)]
        split_ifs <;> first | rfl | omega
    · rw [if_neg (fun h => hroom (hc3.1 h))]
      refine ⟨_, rfl, ?_⟩
      rw [body_store _ (valid_ptr_lt hv)]
      simp only [Data.copyAt, hu1, hu2, hu3]
      refine ⟨valid_store _ hv ⟨hc1, ?_, hc2⟩ hr1 hr2, trivial, trivial, hown, ?_⟩
      · show (copyLoop _ _ _ _).length = c
        rw [copyLoop_length, copyLoop_length, copyLoop_length, newArr_length]
      · intro i hi
        exact insert_copy_getD _ _ _ _ _ _ hpos (by rw [newArr_length]; omega) hi
  · have ho : d.isOwn = false := by simp [Data.isOwn, hown]
    simp only [ho, Bool.not_false, if_true]
    refine ⟨_, rfl, ?_⟩
    rw [body_rebind _ hv]
    simp only [Data.copyAt, Data.ofCapacity, hu1, hu2, hu3]
    refine ⟨valid_rebind _ hv ⟨hc1, ?_, hc2⟩ rfl, trivial, trivial, ?_, ?_⟩
    · show (copyLoop _ _ _ _).length = c
      rw [copyLoop_length, copyLoop_length, copyLoop_length, newArr_length]
    · simp [uadd]
    · intro i hi
      exact insert_copy_getD _ _ _ _ _ _ hpos (by rw [newArr_length]; omega) hi

end Insert

section Remove

variable [RawStorage T]

/-- The two `copyAt` calls of `remove` on a block of at least `n - 1` slots. -/
theorem remove_copy_getD (buf old : List T) (pos n i : Nat)
    (hpos : pos < n) (hn : n - 1 ≤ buf.length) (hi : i < n - 1) :
    (copyLoop (copyLoop buf 0 old pos) pos (old.drop (pos + 1)) (n - pos - 1)).getD i default
      = if i < pos then old.getD i default else old.getD (i + 1) default := by
  have hi2 : i < (copyLoop buf 0 old pos).length := by rw [copyLoop_length]; omega
  rw [copyLoop_getD _ _ _ _ _ hi2, copyLoop_getD _ _ _ _ _ (by omega : i < buf.length)]
  by_cases h1 : i < pos
  · rw [if_neg (by omega), if_pos (by omega), if_pos h1]; simp
  · rw [if_pos (by omega), if_neg h1]
    simp only [List.getD_eq_getElem?_getD, List.getElem?_drop]
    congr 2; omega

theorem remove_spec {w : World T} {self : Nat} (pos : Nat)
    (hv : Array.valid w self) (hpos : pos < Array.size w self)
    (hfit : (w.body self).references = 1 ∨ Array.getCapacity w self + 31 < 4294967296) :
    ∃ w1, Array.remove w self pos true = .ok w1 ∧ Array.valid w1 self
      ∧ Array.size w1 self = Array.size w self - 1
      ∧ Array.getCapacity w1 self =
          (if (w.body self).references = 1 then
            (if Array.getCapacity w self - Array.size w self ≥ 256 then Array.size w self + 31
             else Array.getCapacity w self)
           else Array.getCapacity w self + 31)
      ∧ (w1.body self).references = 1
      ∧ ∀ i, i < Array.size w self - 1 → Array.get w1 self i =
          if i < pos then Array.get w self i else Array.get w self (i + 1) := by
  obtain ⟨hs, hlive, ⟨hsc, hlen, hcap⟩, hr1, hr2⟩ := id hv
  unfold Array.size Array.getCapacity Array.get at *
  generalize hd : w.body self = d at *
  unfold Array.remove
  simp only [hd]
  rw [if_neg (by omega)]
  have hu2 : usub (usub d.size pos) 1 = d.size - pos - 1 := by unfold usub; omega
  have hu3 : uadd (d.size - pos - 1) pos = d.size - 1 := by unfold uadd; omega
  have hu4 : usub d.size 1 = d.size - 1 := by unfold usub; omega
  have hu5 : usub d.capacity d.size = d.capacity - d.size := by unfold usub; omega
  by_cases hown : d.references = 1
  · have ho : d.isOwn = true := by simp [Data.isOwn, hown]
    simp only [ho, Bool.not_true, Bool.false_eq_true, if_false]
    rw [hu5, if_pos hown]
    by_cases hslack : d.capacity - d.size ≥ 256
    · rw [if_pos hslack, if_pos hslack]
      have hu1 : uadd d.size 31 = d.size + 31 := by unfold uadd; omega
      refine ⟨_, rfl, ?_⟩
      rw [body_store _ (valid_ptr_lt hv)]
      simp only [Data.copyAt, hu1, hu2, hu3]
      refine ⟨valid_store _ hv ⟨?_, ?_, ?_⟩ hr1 hr2, trivial, trivial, hown, ?_⟩
      · show d.size - 1 ≤ d.size + 31
        omega
      · show (copyLoop _ _ _ _).length = d.size + 31
        rw [copyLoop_length, copyLoop_length, newArr_length]
      · show d.size + 31 < 4294967296
        omega
      · intro i hi
        exact remove_copy_getD _ _ _ _ _ hpos (by rw [newArr_length]; omega) hi
    · rw [if_neg hslack, if_neg hslack]
      simp only [hu4]
      by_cases hlast : pos = d.size - 1
      · rw [if_pos hlast]
        refine ⟨_, rfl, ?_⟩
        rw [body_store _ (valid_ptr_lt hv)]
        refine ⟨valid_store _ hv ⟨?_, hlen, hcap⟩ hr1 hr2, rfl, rfl, hown, ?_⟩
        · show d.size - 1 ≤ d.capacity
          omega
        · intro i hi
          rw [if_pos (by omega)]
      · rw [if_neg hlast]
        refine ⟨_, rfl, ?_⟩
        rw [body_store _ (valid_ptr_lt hv)]
        refine ⟨valid_store _ hv ⟨?_, ?_, hcap⟩ hr1 hr2, rfl, rfl, hown, ?_⟩
        · show d.size - 1 ≤ d.capacity
          omega
        · show (Array.shiftDown _ _ _).length = d.capacity
          rw [shiftDown_length, hlen]
        · intro i hi
          show (Array.shiftDown _ _ _).getD i default = _
          rw [shiftDown_getD _ _ _ _ (by omega)]
          split_ifs <;> first | rfl | omega
  · have ho : d.isOwn = false := by simp [Data.isOwn, hown]
    have hfit2 : d.capacity + 31 < 4294967296 := by
      rcases hfit with h | h
      · exact absurd h hown
      · exact h
    have hu1 : uadd d.capacity 31 = d.capacity + 31 := by unfold uadd; omega
    simp only [ho, Bool.not_false, if_true]
    rw [if_neg hown]
    refine ⟨_, rfl, ?_⟩
    rw [body_rebind _ hv]
    simp only [Data.copyAt, Data.ofCapacity, hu1, hu2, hu3]
    refine ⟨valid_rebind _ hv ⟨?_, ?_, hfit2⟩ rfl, trivial, trivial, ?_, ?_⟩
    · show d.size - 1 ≤ d.capacity + 31
      omega
    · show (copyLoop _ _ _ _).length = d.capacity + 31
      rw [copyLoop_length, copyLoop_length, newArr_length]
    · simp [uadd]
    · intro i hi
      exact remove_copy_getD _ _ _ _ _ hpos (by rw [newArr_length]; omega) hi

end Remove

section Resize

variable [RawStorage T]

theorem resize_size {w : World T} {self : Nat} (n c : Nat) (hv : Array.valid w self) :
    Array.size (Array.resize w self n c) self = n := by
  unfold Array.resize Array.size
  simp only []
  generalize (if c < n then uadd n 8 else c) = c1
  by_cases h1 : n = (w.body self).size ∧ (w.body self).capacity ≥ c
      ∧ (w.body self).capacity ≤ uadd c 256
      ∧ (w.body self).capacity ≤ uadd (w.body self).size 256
  · rw [if_pos h1]; exact h1.1.symm
  · rw [if_neg h1]
    by_cases h2 : (!(w.body self).isOwn) = true
    · rw [if_pos h2, body_rebind _ hv]
    · rw [if_neg h2]
      by_cases h3 : c1 ≥ (w.body self).capacity ∨ uadd c1 256 ≤ (w.body self).capacity
      · rw [if_pos h3, body_store _ (valid_ptr_lt hv)]
      · rw [if_neg h3, body_store _ (valid_ptr_lt hv)]

theorem resize_spec {w : World T} {self : Nat} (n c : Nat)
    (hv : Array.valid w self) (hc : c < 4294967296) (hfit : c < n → n + 8 < 4294967296) :
    Array.valid (Array.resize w self n c) self
      ∧ Array.size (Array.resize w self n c) self = n
      ∧ ∀ i, i < n → i < Array.size w self →
          Array.get (Array.resize w self n c) self i = Array.get w self i := by
  refine ⟨?_, resize_size n c hv, ?_⟩
  all_goals
    obtain ⟨hs, hlive, ⟨hsc, hlen, hcap⟩, hr1, hr2⟩ := id hv
    unfold Array.resize
    try unfold Array.size Array.get
    generalize hd : w.body self = d at *
    simp only []
    have hc1 : n ≤ (if c < n then uadd n 8 else c) := by
      unfold uadd; split_ifs with h
      · have := hfit h; omega
      · omega
    have hc2 : (if c < n then uadd n 8 else c) < 4294967296 := by
      unfold uadd; split_ifs <;> omega
    generalize (if c < n then uadd n 8 else c) = c1 at *
    have hmin : (if n ≤ d.size then n else d.size) ≤ c1 := by split_ifs <;> omega
    by_cases h1 : n = d.size ∧ d.capacity ≥ c ∧ d.capacity ≤ uadd c 256
      ∧ d.capacity ≤ uadd d.size 256
  · rw [if_pos h1]; exact hv
  · rw [if_neg h1]
    by_cases h2 : (!d.isOwn) = true
    · rw [if_pos h2]
      refine valid_rebind _ hv ⟨hc1, ?_, hc2⟩ rfl
      show (copyLoop _ _ _ _).length = c1
      rw [Data.ofCapacity, copyLoop_length, newArr_length]
    · rw [if_neg h2]
      by_cases h3 : c1 ≥ d.capacity ∨ uadd c1 256 ≤ d.capacity
      · rw [if_pos h3]
        refine valid_store _ hv ⟨hc1, ?_, hc2⟩ hr1 hr2
        show (copyLoop _ _ _ _).length = c1
        rw [copyLoop_length, newArr_length]
      · rw [if_neg h3]
        exact valid_store _ hv ⟨by show n ≤ d.capacity; omega, hlen, hcap⟩ hr1 hr2
  · rw [if_pos h1]; intro i _ _; rw [hd]
  · rw [if_neg h1]
    intro i hi1 hi2
    by_cases h2 : (!d.isOwn) = true
    · rw [if_pos h2, body_rebind _ hv]
      show (copyLoop _ _ _ _).getD i default = _
      rw [Data.ofCapacity, copyLoop_getD _ _ _ _ _ (by rw [newArr_length]; omega),
        if_pos (by split_ifs <;> omega)]
      rfl
    · rw [if_neg h2]
      by_cases h3 : c1 ≥ d.capacity ∨ uadd c1 256 ≤ d.capacity
      · rw [if_pos h3, body_store _ (valid_ptr_lt hv)]
        show (copyLoop _ _ _ _).getD i default = _
        rw [copyLoop_getD _ _ _ _ _ (by rw [newArr_length]; omega),
          if_pos (by split_ifs <;> omega)]
        rfl
      · rw [if_neg h3, body_store _ (valid_ptr_lt hv)]

end Resize

section Elems

variable [RawStorage T]

theorem elems_length (w : World T) (self : Nat) :
    (Array.elems w self).length = Array.size w self := by
  simp [Array.elems]

theorem elems_getElem? (w : World T) (self i : Nat) :
    (Array.elems w self)[i]? =
      if i < Array.size w self then some (Array.get w self i) else none := by
  unfold Array.elems
  rw [List.getElem?_map]
  by_cases h : i < Array.size w self
  · rw [List.getElem?_range h, if_pos h]; rfl
  · rw [List.getElem?_eq_none (by simpa using h), if_neg h]; rfl

theorem elems_insert {w w1 : World T} {self : Nat} (pos : Nat) (x : T)
    (hpos : pos ≤ Array.size w self)
    (hsize : Array.size w1 self = Array.size w self + 1)
    (hget : ∀ i, i ≤ Array.size w self → Array.get w1 self i =
          if i < pos then Array.get w self i else if i = pos then x
          else Array.get w self (i - 1)) :
    Array.elems w1 self =
      (Array.elems w self).take pos ++ x :: (Array.elems w self).drop pos := by
  apply List.ext_getElem?
  intro i
  have hl : ((Array.elems w self).take pos).length = pos := by
    rw [List.length_take, elems_length]; omega
  rw [elems_getElem?, hsize]
  by_cases h1 : i < pos
  · rw [List.getElem?_append_left (by rw [hl]; exact h1), List.getElem?_take_of_lt h1,
      elems_getElem?, if_pos (show i < Array.size w self + 1 by omega),
      if_pos (show i < Array.size w self by omega), hget i (by omega), if_pos h1]
  · rw [List.getElem?_append_right (by rw [hl]; omega), hl, List.getElem?_cons]
    by_cases h2 : i = pos
    · subst h2
      rw [if_pos (show i < Array.size w self + 1 by omega), if_pos (show i - i = 0 by omega),
        hget i hpos, if_neg h1, if_pos rfl]
    · rw [if_neg (show ¬ (i - pos = 0) by omega), List.getElem?_drop, elems_getElem?]
      have e : pos + (i - pos - 1) = i - 1 := by omega
      rw [e]
      by_cases h3 : i < Array.size w self + 1
      · rw [if_pos h3, if_pos (show i - 1 < Array.size w self by omega), hget i (by omega),
          if_neg h1, if_neg h2]
      · rw [if_neg h3, if_neg (show ¬ (i - 1 < Array.size w self) by omega)]

theorem elems_remove {w w1 : World T} {self : Nat} (pos : Nat)
    (hpos : pos < Array.size w self)
    (hsize : Array.size w1 self = Array.size w self - 1)
    (hget : ∀ i, i < Array.size w self - 1 → Array.get w1 self i =
          if i < pos then Array.get w self i else Array.get w self (i + 1)) :
    Array.elems w1 self = (Array.elems w self).eraseIdx pos := by
  apply List.ext_getElem?
  intro i
  rw [elems_getElem?, hsize, List.getElem?_eraseIdx]
  by_cases h3 : i < Array.size w self - 1
  · rw [if_pos h3, hget i h3]
    by_cases h1 : i < pos
    · rw [if_pos h1, if_pos h1, elems_getElem?, if_pos (by omega)]
    · rw [if_neg h1, if_neg h1, elems_getElem?, if_pos (by omega)]
  · rw [if_neg h3]
    by_cases h1 : i < pos
    · omega
    · rw [if_neg h1, elems_getElem?, if_neg (by omega)]

theorem elems_take {w w1 : World T} {self : Nat} (n : Nat)
    (hn : n ≤ Array.size w self)
    (hsize : Array.size w1 self = n)
    (hget : ∀ i, i < n → Array.get w1 self i = Array.get w self i) :
    Array.elems w1 self = (Array.elems w self).take n := by
  apply List.ext_getElem?
  intro i
  rw [elems_getElem?, hsize]
  by_cases h1 : i < n
  · rw [if_pos h1, List.getElem?_take_of_lt h1, elems_getElem?, if_pos (by omega), hget i h1]
  · rw [if_neg h1, List.getElem?_take_eq_none (by omega)]

end Elems

section Claims

variable [RawStorage T]

theorem body_temporary {w : World T} {self : Nat} (c : Nat)
    (hp : w.ptr self < w.heap.length) : (w.temporary c).body self = w.body self := by
  have h : (w.temporary c).heap.getD (w.ptr self) none = w.heap.getD (w.ptr self) none := by
    unfold World.temporary
    simp only []
    rw [heapDec_getD_ne _ _ _ (by omega), heapInc_getD_ne _ _ _ (by omega),
      getD_append _ _ _ hp]
  have hp2 : (w.temporary c).ptr self = w.ptr self := rfl
  unfold World.body cell
  rw [hp2, h]

theorem elems_congr {w w1 : World T} {self : Nat} (h : w1.body self = w.body self) :
    Array.elems w1 self = Array.elems w self := by
  unfold Array.elems Array.size Array.get; rw [h]

/-- The call `insert(pos, x)` with an `x` that is not stored in the block of the array, on
a valid array of size `n` (growth below `2^32`): it throws `BadIndex` exactly when
`pos > n`, and then size, capacity and elements are what they were; when `pos <= n` it
returns with size `n + 1` and the elements
`first pos old elements, x, remaining old elements`, whichever of the three code paths
(shared body, unique with room, unique and regrown) is taken. -/
theorem insert_value_spec (w : World T) (self pos : Nat) (x : T)
    (hv : Array.valid w self)
    (hfit : Array.size w self + Array.size w self / 2 < 4294967296) :
    ((∃ e, Array.insert w self pos x = .error e) ↔ pos > Array.size w self)
    ∧ (∀ e, Array.insert w self pos x = .error e →
        e.getIndex = pos ∧ Array.size e.world self = Array.size w self
        ∧ Array.getCapacity e.world self = Array.getCapacity w self
        ∧ Array.elems e.world self = Array.elems w self)
    ∧ (pos ≤ Array.size w self →
        ∃ w1, Array.insert w self pos x = .ok w1
          ∧ Array.size w1 self = Array.size w self + 1
          ∧ Array.elems w1 self =
              (Array.elems w self).take pos ++ x :: (Array.elems w self).drop pos) := by
  have hok : pos ≤ Array.size w self →
      ∃ w1, Array.insert w self pos x = .ok w1
        ∧ Array.size w1 self = Array.size w self + 1
        ∧ Array.elems w1 self =
            (Array.elems w self).take pos ++ x :: (Array.elems w self).drop pos := by
    intro hpos
    obtain ⟨w1, h1, _, h3, _, _, h6⟩ := insert_spec pos x hv hpos hfit
    exact ⟨w1, h1, h3, elems_insert pos x hpos h3 h6⟩
  have herr : pos > Array.size w self →
      Array.insert w self pos x = .error ⟨pos, w.temporary (w.body self).size⟩ := by
    intro hpos
    unfold Array.insert Array.insertFrom
    simp only []
    rw [if_pos (show pos > (w.body self).size from hpos)]
  refine ⟨⟨?_, fun h => ⟨_, herr h⟩⟩, ?_, hok⟩
  · rintro ⟨e, he⟩
    by_contra hc
    obtain ⟨w1, h1, _⟩ := hok (by omega)
    rw [h1] at he
    cases he
  · intro e he
    by_cases hpos : pos > Array.size w self
    · rw [herr hpos] at he
      cases he
      have hb := body_temporary (w.body self).size (valid_ptr_lt hv)
      refine ⟨rfl, ?_, ?_, elems_congr hb⟩
      · show ((w.temporary _).body self).size = _
        rw [hb]; rfl
      · show ((w.temporary _).body self).capacity = _
        rw [hb]; rfl
    · obtain ⟨w1, h1, _⟩ := hok (by omega)
      rw [h1] at he
      cases he

/-- The three code paths of `insert` on concrete arrays: shared body, unique with room,
unique and regrown. -/
theorem insert_value_examples :
    (Array.valid sharedPair 1 ∧ Array.size sharedPair 1 + Array.size sharedPair 1 / 2 < 4294967296
      ∧ ∃ w1, Array.insert sharedPair 1 1 9 = .ok w1 ∧ Array.size w1 1 = 3 + 1
          ∧ Array.elems w1 1 = [5, 9, 6, 7])
    ∧ (∃ w1, Array.insert ownRoom 0 2 9 = .ok w1 ∧ Array.elems w1 0 = [5, 6, 9])
    ∧ (∃ w1, Array.insert ownFull 0 0 9 = .ok w1 ∧ Array.elems w1 0 = [9, 5, 6]) := by
  refine ⟨⟨by decide, by decide, ?_⟩, ?_, ?_⟩
  · obtain ⟨w1, h1, h2, h3⟩ :=
      (insert_value_spec sharedPair 1 1 9 (by decide) (by decide)).2.2 (by decide)
    exact ⟨w1, h1, h2, h3⟩
  · obtain ⟨w1, h1, h2, h3⟩ :=
      (insert_value_spec ownRoom 0 2 9 (by decide) (by decide)).2.2 (by decide)
    exact ⟨w1, h1, h3⟩
  · obtain ⟨w1, h1, h2, h3⟩ :=
      (insert_value_spec ownFull 0 0 9 (by decide) (by decide)).2.2 (by decide)
    exact ⟨w1, h1, h3⟩

/-- The call `insert(pos, a[i])`, whose argument is slot `i` of the block of the array
itself, stores at `pos` what slot `i` holds when the argument is read: the old `a[i]` on
the two paths that build a new block, and on the path that shifts in place the value the
shift has moved into slot `i`, which is the old `a[i - 1]` when `pos < i <= size`. -/
theorem insertFrom_slot (w : World T) (self pos i : Nat) (hv : Array.valid w self)
    (hfit : Array.size w self + Array.size w self / 2 < 4294967296)
    (hi : i < Array.getCapacity w self) :
    Array.insertFrom w self pos (.slot i)
      = Array.insert w self pos
          (if (w.body self).isOwn = true ∧ Array.size w self < Array.getCapacity w self
              ∧ pos < i ∧ i ≤ Array.size w self
            then Array.get w self (i - 1) else Array.get w self i) := by
  obtain ⟨hs, hlive, ⟨hsc, hlen, hcap⟩, hr1, hr2⟩ := id hv
  unfold Array.size Array.getCapacity Array.get at *
  generalize hd : w.body self = d at *
  unfold Array.insert Array.insertFrom
  simp only [hd, Element.read]
  by_cases h1 : pos > d.size
  · rw [if_pos h1, if_pos h1]
  · rw [if_neg h1, if_neg h1]
    by_cases h2 : (!d.isOwn) = true
    · have hown : ¬ d.isOwn = true := by
        intro h; rw [h] at h2; cases h2
      have hval : (if d.isOwn = true ∧ d.size < d.capacity ∧ pos < i ∧ i ≤ d.size
          then d.data.getD (i - 1) default else d.data.getD i default)
          = d.data.getD i default := if_neg (fun h => hown h.1)
      rw [if_pos h2, if_pos h2, hval]
    · rw [if_neg h2, if_neg h2]
      have hown : d.isOwn = true := by
        cases hq : d.isOwn with
        | true => rfl
        | false => rw [hq] at h2; exact absurd rfl h2
      by_cases h3 : d.size < d.capacity
      · have hcapv : (if d.size ≥ d.capacity then
            (if d.capacity > 30 then uadd d.capacity (d.capacity / 2) else 32)
          else d.capacity) = d.capacity := if_neg (by omega)
        rw [hcapv, if_pos (Nat.le_refl _), if_pos (Nat.le_refl _)]
        have hu : usub d.size pos = d.size - pos := by unfold usub; omega
        rw [hu, shiftUp_getD d.data d.size (d.size - pos) i (by omega) (by omega)]
        have e1 : d.size - (d.size - pos) = pos := by omega
        rw [e1]
        have hval : (if d.isOwn = true ∧ d.size < d.capacity ∧ pos < i ∧ i ≤ d.size
            then d.data.getD (i - 1) default else d.data.getD i default)
            = (if pos < i ∧ i ≤ d.size then d.data.getD (i - 1) default
                else d.data.getD i default) := by
          by_cases h4 : pos < i ∧ i ≤ d.size
          · rw [if_pos h4, if_pos ⟨hown, h3, h4⟩]
          · rw [if_neg h4, if_neg (fun h => h4 h.2.2)]
        rw [hval]
      · have hcapv : (if d.size ≥ d.capacity then
            (if d.capacity > 30 then uadd d.capacity (d.capacity / 2) else 32)
          else d.capacity) = (if d.capacity > 30 then d.capacity + d.capacity / 2 else 32) := by
          rw [if_pos (by omega)]
          unfold uadd
          split_ifs
          · exact Nat.mod_eq_of_lt (by omega)
          · rfl
        have hval : (if d.isOwn = true ∧ d.size < d.capacity ∧ pos < i ∧ i ≤ d.size
            then d.data.getD (i - 1) default else d.data.getD i default)
            = d.data.getD i default := if_neg (fun h => h3 h.2.1)
        have hge : ¬ d.capacity ≥ (if d.capacity > 30 then d.capacity + d.capacity / 2
            else 32) := by
          split_ifs <;> omega
        rw [hcapv, if_neg hge, if_neg hge, hval]

/-- C3: `insert` does not insert the value it is given when the argument is an element of
the array itself.  On a valid, uniquely owned array with room (`size < capacity`), the
call `a.insert(pos, a[i])` with `pos < i < size` returns with size `n + 1` and the
elements `first pos old elements, old a[i - 1], remaining old elements`: the element at
`pos` is the old `a[i - 1]` and not the old `a[i]`, because `element` is a reference into
the block and is read after the loop has shifted the block. -/
theorem C3_insert_reads_shifted_element (w : World T) (self pos i : Nat)
    (hv : Array.valid w self) (hown : (w.body self).isOwn = true)
    (hroom : Array.size w self < Array.getCapacity w self)
    (hpos : pos < i) (hi : i < Array.size w self)
    (hfit : Array.size w self + Array.size w self / 2 < 4294967296) :
    ∃ w1, Array.insertFrom w self pos (.slot i) = .ok w1
      ∧ Array.size w1 self = Array.size w self + 1
      ∧ Array.elems w1 self =
          (Array.elems w self).take pos ++ Array.get w self (i - 1)
            :: (Array.elems w self).drop pos
      ∧ Array.get w1 self pos = Array.get w self (i - 1) := by
  have hs := insertFrom_slot w self pos i hv hfit (by omega)
  rw [if_pos ⟨hown, hroom, hpos, by omega⟩] at hs
  obtain ⟨w1, h1, _, h3, _, _, h6⟩ :=
    insert_spec pos (Array.get w self (i - 1)) hv (by omega) hfit
  refine ⟨w1, by rw [hs, h1], h3, elems_insert pos _ (by omega) h3 h6, ?_⟩
  rw [h6 pos (by omega), if_neg (by omega), if_pos rfl]

/-- After `Array<T> a(3); a.push(5); a.push(6);` the call `a.insert(0, a[1])` leaves
`[5, 5, 6]`, where inserting the value 6 of `a[1]` at position 0 gives `[6, 5, 6]`. -/
theorem C3_insert_reads_shifted_element_witness :
    Array.elems ownRoom 0 = [5, 6] ∧ Array.get ownRoom 0 1 = 6
      ∧ (∃ w1, Array.insertFrom ownRoom 0 0 (.slot 1) = .ok w1
          ∧ Array.elems w1 0 = [5, 5, 6] ∧ Array.get w1 0 0 = 5)
      ∧ (∃ w1, Array.insert ownRoom 0 0 6 = .ok w1 ∧ Array.elems w1 0 = [6, 5, 6]) := by
  refine ⟨by decide, by decide, ?_, ?_⟩
  · obtain ⟨w1, h1, _, h3, h4⟩ :=
      C3_insert_reads_shifted_element ownRoom 0 0 1 (by decide) (by decide) (by decide)
        (by decide) (by decide) (by decide)
    exact ⟨w1, h1, h3.trans (by decide), h4.trans (by decide)⟩
  · obtain ⟨w1, h1, _, h3⟩ :=
      (insert_value_spec ownRoom 0 0 6 (by decide) (by decide)).2.2 (by decide)
    exact ⟨w1, h1, h3.trans (by decide)⟩

end Claims

section ClaimsRemove

variable [RawStorage T]

/-- C4: `remove(pos)` with order preserved on a valid array of size `n` throws `BadIndex`
exactly when `pos >= n` (so also for `pos = n`), leaving size, capacity and elements as
they were; when `pos < n` it returns with size `n - 1` and the old elements without the one
at index `pos`, the others in their old order, on every code path (shared body, shrinking
reallocation, last element, shift).  The capacity bound is only needed on the shared path,
which allocates `capacity + 31` slots. -/
theorem C4_remove (w : World T) (self pos : Nat)
    (hv : Array.valid w self)
    (hfit : (w.body self).references = 1 ∨ Array.getCapacity w self + 31 < 4294967296) :
    ((∃ e, Array.remove w self pos true = .error e) ↔ pos ≥ Array.size w self)
    ∧ (∀ e, Array.remove w self pos true = .error e →
        e.getIndex = pos ∧ Array.size e.world self = Array.size w self
        ∧ Array.getCapacity e.world self = Array.getCapacity w self
        ∧ Array.elems e.world self = Array.elems w self)
    ∧ (pos < Array.size w self →
        ∃ w1, Array.remove w self pos true = .ok w1
          ∧ Array.size w1 self = Array.size w self - 1
          ∧ Array.elems w1 self = (Array.elems w self).eraseIdx pos) := by
  have hok : pos < Array.size w self →
      ∃ w1, Array.remove w self pos true = .ok w1
        ∧ Array.size w1 self = Array.size w self - 1
        ∧ Array.elems w1 self = (Array.elems w self).eraseIdx pos := by
    intro hpos
    obtain ⟨w1, h1, _, h3, _, _, h6⟩ := remove_spec pos hv hpos hfit
    exact ⟨w1, h1, h3, elems_remove pos hpos h3 h6⟩
  have herr : pos ≥ Array.size w self →
      Array.remove w self pos true = .error ⟨pos, w.temporary (w.body self).size⟩ := by
    intro hpos
    unfold Array.remove
    simp only []
    rw [if_pos (show pos ≥ (w.body self).size from hpos)]
  refine ⟨⟨?_, fun h => ⟨_, herr h⟩⟩, ?_, hok⟩
  · rintro ⟨e, he⟩
    by_contra hc
    obtain ⟨w1, h1, _⟩ := hok (by omega)
    rw [h1] at he
    cases he
  · intro e he
    by_cases hpos : pos ≥ Array.size w self
    · rw [herr hpos] at he
      cases he
      have hb := body_temporary (w.body self).size (valid_ptr_lt hv)
      refine ⟨rfl, ?_, ?_, elems_congr hb⟩
      · show ((w.temporary _).body self).size = _
        rw [hb]; rfl
      · show ((w.temporary _).body self).capacity = _
        rw [hb]; rfl
    · obtain ⟨w1, h1, _⟩ := hok (by omega)
      rw [h1] at he
      cases he

/-- The code paths of `remove` on concrete arrays: shared body, last element, shift, and
the throw at `pos = size`. -/
theorem C4_remove_witness :
    (Array.valid sharedPair 1
      ∧ ((sharedPair.body 1).references = 1 ∨ Array.getCapacity sharedPair 1 + 31 < 4294967296)
      ∧ ∃ w1, Array.remove sharedPair 1 1 true = .ok w1 ∧ Array.size w1 1 = 3 - 1
          ∧ Array.elems w1 1 = [5, 7])
    ∧ (∃ w1, Array.remove ownRoom 0 1 true = .ok w1 ∧ Array.elems w1 0 = [5])
    ∧ (∃ w1, Array.remove ownRoom 0 0 true = .ok w1 ∧ Array.elems w1 0 = [6])
    ∧ (∃ e, Array.remove ownRoom 0 2 true = .error e) := by
  refine ⟨⟨by decide, by decide, ?_⟩, ?_, ?_, ?_⟩
  · obtain ⟨w1, h1, h2, h3⟩ :=
      (C4_remove sharedPair 1 1 (by decide) (by decide)).2.2 (by decide)
    exact ⟨w1, h1, h2, h3⟩
  · obtain ⟨w1, h1, h2, h3⟩ := (C4_remove ownRoom 0 1 (by decide) (by decide)).2.2 (by decide)
    exact ⟨w1, h1, h3⟩
  · obtain ⟨w1, h1, h2, h3⟩ := (C4_remove ownRoom 0 0 (by decide) (by decide)).2.2 (by decide)
    exact ⟨w1, h1, h3⟩
  · exact (C4_remove ownRoom 0 2 (by decide) (by decide)).1.2 (by decide)

/-- C5: `at(pos)`, `rw_at(pos)` and `at(pos, value)` throw `BadIndex` exactly when
`pos >= size()`; `swap(p1, p2)` throws exactly when `p1 >= size()` or `p2 >= size()`;
`pop()` and `peek()` throw exactly when the array is empty.  `getIndex()` of the exception
is the offending index (`p1` if it is out of range, else `p2`, for `swap`; `0` for `pop`
and `peek`), and the world at the throw is the world before the call, so size, capacity and
elements are unchanged. -/
theorem C5_checked_indexing (w : World T) (self pos p1 p2 : Nat) (x : T) :
    (((∃ e, Array.at_ w self pos = .error e) ↔ pos ≥ Array.size w self)
      ∧ ∀ e, Array.at_ w self pos = .error e → e.getIndex = pos ∧ e.world = w)
    ∧ (((∃ e, Array.rw_at w self pos = .error e) ↔ pos ≥ Array.size w self)
      ∧ ∀ e, Array.rw_at w self pos = .error e → e.getIndex = pos ∧ e.world = w)
    ∧ (((∃ e, Array.at_put w self pos x = .error e) ↔ pos ≥ Array.size w self)
      ∧ ∀ e, Array.at_put w self pos x = .error e → e.getIndex = pos ∧ e.world = w)
    ∧ (((∃ e, Array.swap w self p1 p2 = .error e) ↔
          (p1 ≥ Array.size w self ∨ p2 ≥ Array.size w self))
      ∧ ∀ e, Array.swap w self p1 p2 = .error e →
          e.getIndex = (if p1 ≥ Array.size w self then p1 else p2)
          ∧ e.getIndex ≥ Array.size w self ∧ e.world = w)
    ∧ (((∃ e, Array.pop w self = .error e) ↔ Array.size w self = 0)
      ∧ ∀ e, Array.pop w self = .error e → e.getIndex = 0 ∧ e.world = w)
    ∧ (((∃ e, Array.peek w self = .error e) ↔ Array.size w self = 0)
      ∧ ∀ e, Array.peek w self = .error e → e.getIndex = 0 ∧ e.world = w) := by
  refine ⟨?_, ?_, ?_, ?_, ?_, ?_⟩
  · unfold Array.at_
    by_cases h : pos ≥ Array.size w self
    · rw [if_pos h]
      exact ⟨⟨fun _ => h, fun _ => ⟨_, rfl⟩⟩, fun e he => by cases he; exact ⟨rfl, rfl⟩⟩
    · rw [if_neg h]
      exact ⟨⟨(fun ⟨e, he⟩ => by cases he), fun h' => absurd h' h⟩, fun e he => by cases he⟩
  · unfold Array.rw_at
    by_cases h : pos ≥ Array.size w self
    · rw [if_pos h]
      exact ⟨⟨fun _ => h, fun _ => ⟨_, rfl⟩⟩, fun e he => by cases he; exact ⟨rfl, rfl⟩⟩
    · rw [if_neg h]
      exact ⟨⟨(fun ⟨e, he⟩ => by cases he), fun h' => absurd h' h⟩, fun e he => by cases he⟩
  · unfold Array.at_put
    by_cases h : pos ≥ Array.size w self
    · rw [if_pos h]
      exact ⟨⟨fun _ => h, fun _ => ⟨_, rfl⟩⟩, fun e he => by cases he; exact ⟨rfl, rfl⟩⟩
    · rw [if_neg h]
      exact ⟨⟨(fun ⟨e, he⟩ => by cases he), fun h' => absurd h' h⟩, fun e he => by cases he⟩
  · unfold Array.swap
    by_cases h : p1 ≥ Array.size w self
    · rw [if_pos h, if_pos h]
      exact ⟨⟨fun _ => Or.inl h, fun _ => ⟨_, rfl⟩⟩,
        fun e he => by cases he; exact ⟨rfl, h, rfl⟩⟩
    · rw [if_neg h, if_neg h]
      by_cases h' : p2 ≥ Array.size w self
      · rw [if_pos h']
        exact ⟨⟨fun _ => Or.inr h', fun _ => ⟨_, rfl⟩⟩,
          fun e he => by cases he; exact ⟨rfl, h', rfl⟩⟩
      · rw [if_neg h']
        exact ⟨⟨(fun ⟨e, he⟩ => by cases he), fun hh => by rcases hh with hh | hh <;> omega⟩,
          fun e he => by cases he⟩
  · unfold Array.pop
    by_cases h : Array.size w self = 0
    · rw [if_pos h]
      exact ⟨⟨fun _ => h, fun _ => ⟨_, rfl⟩⟩, fun e he => by cases he; exact ⟨rfl, rfl⟩⟩
    · rw [if_neg h]
      exact ⟨⟨(fun ⟨e, he⟩ => by cases he), fun h' => absurd h' h⟩, fun e he => by cases he⟩
  · unfold Array.peek
    by_cases h : Array.size w self = 0
    · rw [if_pos h]
      exact ⟨⟨fun _ => h, fun _ => ⟨_, rfl⟩⟩, fun e he => by cases he; exact ⟨rfl, rfl⟩⟩
    · rw [if_neg h]
      exact ⟨⟨(fun ⟨e, he⟩ => by cases he), fun h' => absurd h' h⟩, fun e he => by cases he⟩

end ClaimsRemove

section Isolation

variable [RawStorage T]

theorem keeps_store {p a b : Nat} {c : Data T} {w : World T} (d : Data T)
    (hk : Keeps p a b c w) (hne : w.ptr b ≠ p) : Keeps p a b c (w.store b d) := by
  obtain ⟨h1, h2, h3, h4, d0, h5, h6⟩ := hk
  refine ⟨h1, h2, h3, ?_, d0, ?_, h6⟩
  · simpa [World.store] using h4
  · show (w.heap.set (w.ptr b) (some d)).getD p none = some d0
    rw [getD_set_ne _ _ _ _ hne, h5]

theorem keeps_own {p a b : Nat} {c : Data T} {w : World T}
    (hk : Keeps p a b c w) (ho : (w.body b).isOwn = true) : w.ptr b ≠ p := by
  obtain ⟨h1, h2, h3, h4, d0, h5, _, _, _, h9⟩ := hk
  intro he
  have hb : w.body b = d0 := by unfold World.body cell; rw [he, h5]
  have := (h9 he).1
  rw [hb] at ho
  simp [Data.isOwn] at ho
  omega

theorem heapDec_keeps (h : List (Option (Data T))) (p q : Nat) (d : Data T)
    (hd : h.getD p none = some d) (hq : q = p → 2 ≤ d.references ∧ d.references < 4294967296) :
    ∃ d1, (heapDec h q).getD p none = some d1 ∧ d1.data = d.data ∧ d1.size = d.size
      ∧ d1.capacity = d.capacity ∧ (q ≠ p → d1 = d) := by
  by_cases hqp : q = p
  · subst hqp
    have hp : q < h.length := by
      by_contra hc
      rw [List.getD_eq_getElem?_getD, List.getElem?_eq_none (by omega)] at hd
      simp at hd
    obtain ⟨hr1, hr2⟩ := hq rfl
    unfold heapDec
    rw [hd]
    have hu : usub d.references 1 ≠ 0 := by unfold usub; omega
    simp only [hu, if_false]
    refine ⟨{ d with references := usub d.references 1 }, ?_, rfl, rfl, rfl,
      fun h => absurd rfl h⟩
    simp [List.getD_eq_getElem?_getD, hp]
  · exact ⟨d, by rw [heapDec_getD_ne _ _ _ hqp, hd], rfl, rfl, rfl, fun _ => rfl⟩

theorem keeps_rebind {p a b : Nat} {c : Data T} {w : World T} (nd : Data T)
    (hk : Keeps p a b c w) :
    Keeps p a b c (w.rebind b nd) ∧ (w.rebind b nd).ptr b ≠ p := by
  obtain ⟨h1, h2, h3, h4, d0, h5, h6, h7, h8, h9⟩ := hk
  have hpb : (w.rebind b nd).ptr b = w.heap.length := ptr_rebind nd h2
  have hne : (w.rebind b nd).ptr b ≠ p := by rw [hpb]; omega
  refine ⟨⟨h1, ?_, ?_, ?_, ?_⟩, hne⟩
  · simpa [World.rebind] using h2
  · rw [ptr_rebind_ne w nd h1, h3]
  · simp only [World.rebind, heapInc_length, heapDec_length, List.length_append]; omega
  · obtain ⟨d1, hd1, e1, e2, e3, _⟩ :=
      heapDec_keeps (w.heap ++ [some nd]) p (w.ptr b) d0
        (by rw [getD_append _ _ _ h4, h5]) h9
    refine ⟨d1, ?_, e1.trans h6, e2.trans h7, e3.trans h8, fun h => absurd h hne⟩
    show (heapInc (heapDec (w.heap ++ [some nd]) (w.ptr b)) w.heap.length).getD p none = _
    rw [heapInc_getD_ne _ _ _ (by omega), hd1]

theorem keeps_temporary {p a b : Nat} {c : Data T} {w : World T} (n : Nat)
    (hk : Keeps p a b c w) : Keeps p a b c (w.temporary n) := by
  obtain ⟨h1, h2, h3, h4, d0, h5, h6⟩ := hk
  refine ⟨h1, h2, h3, ?_, d0, ?_, h6⟩
  · simp only [World.temporary, heapInc_length, heapDec_length, List.length_append]; omega
  · show (heapDec (heapInc (w.heap ++ [some (Data.ofCapacity n)]) w.heap.length)
      w.heap.length).getD p none = _
    rw [heapDec_getD_ne _ _ _ (by omega), heapInc_getD_ne _ _ _ (by omega),
      getD_append _ _ _ h4, h5]

theorem keeps_makeOwn {p a b : Nat} {c : Data T} {w : World T}
    (hk : Keeps p a b c w) :
    Keeps p a b c (Array.makeOwn w b) ∧ (Array.makeOwn w b).ptr b ≠ p := by
  unfold Array.makeOwn
  by_cases ho : (w.body b).isOwn = true
  · simp only [ho, Bool.not_true, Bool.false_eq_true, if_false]
    exact ⟨hk, keeps_own hk ho⟩
  · have ho2 : (w.body b).isOwn = false := by simpa using ho
    simp only [ho2, Bool.not_false, if_true]
    exact keeps_rebind _ hk

theorem keeps_insert {p a b : Nat} {c : Data T} {w : World T} (pos : Nat) (x : T)
    (hk : Keeps p a b c w) : Keeps p a b c (after (Array.insert w b pos x)) := by
  unfold Array.insert Array.insertFrom
  simp only [Element.read]
  by_cases h1 : pos > (w.body b).size
  · rw [if_pos h1]; exact keeps_temporary _ hk
  · rw [if_neg h1]
    by_cases h2 : (!(w.body b).isOwn) = true
    · rw [if_pos h2]; exact (keeps_rebind _ hk).1
    · rw [if_neg h2]
      have ho := keeps_own hk (by simpa using h2)
      split_ifs <;> exact keeps_store _ hk ho

theorem keeps_remove {p a b : Nat} {c : Data T} {w : World T} (pos : Nat) (order : Bool)
    (hk : Keeps p a b c w) : Keeps p a b c (after (Array.remove w b pos order)) := by
  unfold Array.remove
  simp only []
  by_cases h1 : pos ≥ (w.body b).size
  · rw [if_pos h1]; exact keeps_temporary _ hk
  · rw [if_neg h1]
    by_cases h2 : (!(w.body b).isOwn) = true
    · rw [if_pos h2]; exact (keeps_rebind _ hk).1
    · rw [if_neg h2]
      have ho := keeps_own hk (by simpa using h2)
      split_ifs <;> exact keeps_store _ hk ho

theorem keeps_resize {p a b : Nat} {c : Data T} {w : World T} (n cap : Nat)
    (hk : Keeps p a b c w) : Keeps p a b c (Array.resize w b n cap) := by
  unfold Array.resize
  simp only []
  by_cases h1 : n = (w.body b).size ∧ (w.body b).capacity ≥ cap
      ∧ (w.body b).capacity ≤ uadd cap 256
      ∧ (w.body b).capacity ≤ uadd (w.body b).size 256
  · rw [if_pos h1]; exact hk
  · rw [if_neg h1]
    by_cases h2 : (!(w.body b).isOwn) = true
    · rw [if_pos h2]; exact (keeps_rebind _ hk).1
    · rw [if_neg h2]
      have ho := keeps_own hk (by simpa using h2)
      split_ifs <;> exact keeps_store _ hk ho

end Isolation

section IsolationClaim

variable [RawStorage T]

theorem keeps_writeRef {p a b : Nat} {c : Data T} {w : World T} (pos : Nat) (x : T)
    (hk : Keeps p a b c w) (hne : w.ptr b ≠ p) : Keeps p a b c (Array.writeRef w b pos x) :=
  keeps_store _ hk hne

theorem keeps_shrinkBy {p a b : Nat} {c : Data T} {w : World T} (n : Nat)
    (hk : Keeps p a b c w) : Keeps p a b c (Array.shrinkBy w b n) := by
  unfold Array.shrinkBy Array.clear
  split_ifs <;> exact keeps_resize _ _ hk

theorem keeps_setRaw {p a b : Nat} {c : Data T} {w : World T} (array : List T) (n cap : Nat)
    (hk : Keeps p a b c w) : Keeps p a b c (Array.setRaw w b array n cap) := by
  unfold Array.setRaw Array.reserve
  simp only []
  have h1 := keeps_makeOwn (keeps_resize (Array.size w b) (if cap < n then uadd n 8 else cap) hk)
  exact keeps_store _ h1.1 h1.2

theorem keeps_run {p a b : Nat} {c : Data T} {w : World T} (op : MutOp T)
    (hk : Keeps p a b c w) : Keeps p a b c (op.run w b) := by
  cases op with
  | push x => exact keeps_insert _ _ hk
  | pop =>
    show Keeps p a b c (afterValue (Array.pop w b))
    unfold Array.pop
    split_ifs
    · exact hk
    · exact keeps_shrinkBy _ hk
  | unshift x => exact keeps_insert _ _ hk
  | shift =>
    show Keeps p a b c (afterValue (Array.shift w b))
    unfold Array.shift
    split_ifs
    · exact hk
    · have h := keeps_remove 0 true hk
      simp only []
      cases hr : Array.remove w b 0 true with
      | ok w1 => rw [hr] at h; exact h
      | error e => rw [hr] at h; exact h
  | insert pos x => exact keeps_insert _ _ hk
  | remove pos order => exact keeps_remove _ _ hk
  | resize n c => exact keeps_resize _ _ hk
  | reserve c => exact keeps_resize _ _ hk
  | clear => exact keeps_resize _ _ hk
  | shrinkBy n => exact keeps_shrinkBy _ hk
  | enlargeBy n => exact keeps_resize _ _ hk
  | at_put pos x =>
    show Keeps p a b c (after (Array.at_put w b pos x))
    unfold Array.at_put
    split_ifs
    · exact hk
    · exact keeps_writeRef _ _ (keeps_makeOwn hk).1 (keeps_makeOwn hk).2
  | rw_at pos x =>
    show Keeps p a b c (match Array.rw_at w b pos with
      | .ok w1 => Array.writeRef w1 b pos x
      | .error e => e.world)
    unfold Array.rw_at
    split_ifs
    · exact hk
    · exact keeps_writeRef _ _ (keeps_makeOwn hk).1 (keeps_makeOwn hk).2
  | swap p1 p2 =>
    show Keeps p a b c (after (Array.swap w b p1 p2))
    unfold Array.swap
    split_ifs
    · exact hk
    · exact hk
    · exact keeps_store _ (keeps_makeOwn hk).1 (keeps_makeOwn hk).2
  | reverse =>
    show Keeps p a b c (Array.reverse w b)
    unfold Array.reverse
    split_ifs
    · exact hk
    · exact keeps_store _ (keeps_makeOwn hk).1 (keeps_makeOwn hk).2
  | setRaw array n c => exact keeps_setRaw _ _ _ hk

theorem count_two (l : List Nat) (p a b : Nat) (hab : a ≠ b)
    (ha : a < l.length) (hb : b < l.length)
    (h1 : l.getD a 0 = p) (h2 : l.getD b 0 = p) : 2 ≤ l.count p := by
  induction l generalizing a b with
  | nil => simp at ha
  | cons x xs ih =>
    rw [List.count_cons]
    cases a with
    | zero =>
      cases b with
      | zero => exact absurd rfl hab
      | succ b =>
        have hx : x = p := by simpa using h1
        have hm : p ∈ xs := by
          have hb' : b < xs.length := by simpa using hb
          have : xs[b] = p := by simpa [List.getD_eq_getElem?_getD, hb'] using h2
          exact this ▸ List.getElem_mem hb'
        have := List.count_pos_iff.2 hm
        simp only [hx, beq_self_eq_true, if_true]
        omega
    | succ a =>
      cases b with
      | zero =>
        have hx : x = p := by simpa using h2
        have hm : p ∈ xs := by
          have ha' : a < xs.length := by simpa using ha
          have : xs[a] = p := by simpa [List.getD_eq_getElem?_getD, ha'] using h1
          exact this ▸ List.getElem_mem ha'
        have := List.count_pos_iff.2 hm
        simp only [hx, beq_self_eq_true, if_true]
        omega
      | succ b =>
        have := ih a b (by omega) (by simpa using ha) (by simpa using hb)
          (by simpa using h1) (by simpa using h2)
        omega

theorem keeps_of_counted {w : World T} {a b : Nat} (hw : w.counted)
    (ha : a < w.vars.length) (hb : b < w.vars.length) (hab : a ≠ b)
    (hshare : w.ptr a = w.ptr b) : Keeps (w.ptr a) a b (w.body a) w := by
  have hmem : w.ptr a ∈ w.vars := by
    unfold World.ptr
    rw [List.getD_eq_getElem?_getD, List.getElem?_eq_getElem ha]
    exact List.getElem_mem ha
  obtain ⟨hlive, hcnt⟩ := hw.2 _ hmem
  have hp : w.ptr a < w.heap.length := by
    by_contra hc
    rw [List.getD_eq_getElem?_getD, List.getElem?_eq_none (by omega)] at hlive
    simp at hlive
  have hcell : w.heap.getD (w.ptr a) none = some (w.body a) := by
    unfold World.body cell
    cases h : w.heap.getD (w.ptr a) none with
    | none => rw [h] at hlive; simp at hlive
    | some d => rfl
  refine ⟨hab, hb, rfl, hp, w.body a, hcell, rfl, rfl, rfl, fun _ => ?_⟩
  have h2 := count_two w.vars (w.ptr a) a b hab ha hb rfl hshare.symm
  have h3 := List.count_le_length (w.ptr a) w.vars
  have h4 := hw.1
  show 2 ≤ (cell w.heap (w.ptr a)).references ∧ (cell w.heap (w.ptr a)).references < 4294967296
  rw [hcnt]
  omega

/-- C1: copy-on-write isolation.  In a world whose reference counters are exact, let `a`
and `b` be two distinct handles sharing one body (`b` made from `a` by the copy constructor,
`operator=` or `set(const Array&)`).  After any one mutating operation on `b` (whether it
returns or throws), `a.size()`, `a.getCapacity()` and every element of `a` are what they
were before. -/
theorem C1_copy_on_write_isolation (w : World T) (a b : Nat) (op : MutOp T)
    (hw : w.counted) (ha : a < w.vars.length) (hb : b < w.vars.length) (hab : a ≠ b)
    (hshare : w.ptr a = w.ptr b) :
    Array.size (op.run w b) a = Array.size w a
    ∧ Array.getCapacity (op.run w b) a = Array.getCapacity w a
    ∧ (∀ i, Array.get (op.run w b) a i = Array.get w a i)
    ∧ Array.elems (op.run w b) a = Array.elems w a := by
  obtain ⟨_, _, h3, _, d, h5, h6, h7, h8, _⟩ :=
    keeps_run op (keeps_of_counted hw ha hb hab hshare)
  have hbody : (op.run w b).body a = d := by
    unfold World.body cell; rw [h3, h5]
  unfold Array.elems Array.size Array.getCapacity Array.get
  rw [hbody, h6, h7, h8]
  exact ⟨rfl, rfl, fun _ => rfl, rfl⟩

end IsolationClaim

section IsolationWitness

variable [RawStorage T]

/-- Handle 1 is a copy of handle 0 (`Array b(a)`); `b.push(9)`, `b.at(7, 9)` (which
throws) and `b.reverse()` leave `a` at `[5, 6]` with capacity 3. -/
theorem C1_copy_on_write_isolation_witness :
    (Array.copyCtor ownRoom 0).counted
    ∧ (Array.copyCtor ownRoom 0).ptr 0 = (Array.copyCtor ownRoom 0).ptr 1
    ∧ Array.elems ((MutOp.push 9).run (Array.copyCtor ownRoom 0) 1) 0 = [5, 6]
    ∧ Array.elems ((MutOp.push 9).run (Array.copyCtor ownRoom 0) 1) 1 = [5, 6, 9]
    ∧ Array.getCapacity ((MutOp.at_put 7 9).run (Array.copyCtor ownRoom 0) 1) 0 = 3
    ∧ Array.elems ((MutOp.reverse).run (Array.copyCtor ownRoom 0) 1) 0 = [5, 6] := by
  refine ⟨by decide, by decide, ?_, by decide, ?_, ?_⟩
  · exact (C1_copy_on_write_isolation (Array.copyCtor ownRoom 0) 0 1 (MutOp.push 9)
      (by decide) (by decide) (by decide) (by decide) (by decide)).2.2.2.trans (by decide)
  · exact (C1_copy_on_write_isolation (Array.copyCtor ownRoom 0) 0 1 (MutOp.at_put 7 9)
      (by decide) (by decide) (by decide) (by decide) (by decide)).2.1.trans (by decide)
  · exact (C1_copy_on_write_isolation (Array.copyCtor ownRoom 0) 0 1 MutOp.reverse
      (by decide) (by decide) (by decide) (by decide) (by decide)).2.2.2.trans (by decide)

end IsolationWitness

section PushPop

variable [RawStorage T]

theorem elems_ext {w w1 : World T} {self : Nat}
    (hsize : Array.size w1 self = Array.size w self)
    (hget : ∀ i, i < Array.size w self → Array.get w1 self i = Array.get w self i) :
    Array.elems w1 self = Array.elems w self := by
  have h := elems_take (Array.size w self) (Nat.le_refl _) hsize hget
  rw [h, List.take_of_length_le (by rw [elems_length])]

theorem push_spec {w : World T} {self : Nat} (x : T) (hv : Array.valid w self)
    (hfit : Array.size w self + Array.size w self / 2 < 4294967296) :
    ∃ w1, Array.push w self x = .ok w1 ∧ Array.valid w1 self
      ∧ Array.elems w1 self = Array.elems w self ++ [x] := by
  obtain ⟨w1, h1, h2, h3, _, _, h6⟩ := insert_spec (Array.size w self) x hv (Nat.le_refl _) hfit
  refine ⟨w1, h1, h2, ?_⟩
  rw [elems_insert _ x (Nat.le_refl _) h3 h6, List.take_of_length_le (by rw [elems_length]),
    List.drop_of_length_le (by rw [elems_length])]

theorem pop_spec {w : World T} {self : Nat} (xs : List T) (x : T) (hv : Array.valid w self)
    (he : Array.elems w self = xs ++ [x]) (hfit : Array.size w self + 8 < 4294967296) :
    ∃ w1, Array.pop w self = .ok (x, w1) ∧ Array.valid w1 self
      ∧ Array.elems w1 self = xs := by
  have hsz : Array.size w self = xs.length + 1 := by
    rw [← elems_length, he]; simp
  have hx : Array.get w self xs.length = x := by
    have := elems_getElem? w self xs.length
    rw [he, if_pos (by omega)] at this
    simpa using this.symm
  have hu : usub (Array.size w self) 1 = xs.length := by unfold usub; omega
  have hshr : Array.shrinkBy w self 1 = Array.resize w self xs.length 0 := by
    unfold Array.shrinkBy Array.clear
    by_cases h1 : 1 ≥ Array.size w self
    · rw [if_pos h1]
      have : xs.length = 0 := by omega
      rw [this]
    · rw [if_neg h1, hu]
  obtain ⟨r1, r2, r3⟩ := resize_spec xs.length 0 hv (by decide) (fun _ => by omega)
  refine ⟨Array.resize w self xs.length 0, ?_, r1, ?_⟩
  · unfold Array.pop
    rw [if_neg (by omega)]
    simp only [hu, hx, hshr]
  · rw [elems_take xs.length (by omega) r2 (fun i hi => r3 i hi (by omega)), he]
    simp

theorem pushAll_spec (vals : List T) {w : World T} {self : Nat} (hv : Array.valid w self)
    (hfit : (Array.size w self + vals.length)
      + (Array.size w self + vals.length) / 2 < 4294967296) :
    ∃ w1, pushAll w self vals = .ok w1 ∧ Array.valid w1 self
      ∧ Array.elems w1 self = Array.elems w self ++ vals := by
  induction vals generalizing w with
  | nil => exact ⟨w, rfl, hv, by simp⟩
  | cons x xs ih =>
    have hl : (x :: xs).length = xs.length + 1 := rfl
    rw [hl] at hfit
    obtain ⟨w1, h1, h2, h3⟩ := push_spec x hv (by omega)
    have hs1 : Array.size w1 self = Array.size w self + 1 := by
      rw [← elems_length, h3, List.length_append, elems_length]; rfl
    obtain ⟨w2, k1, k2, k3⟩ := ih h2 (by rw [hs1]; omega)
    refine ⟨w2, ?_, k2, ?_⟩
    · unfold pushAll; rw [h1]; exact k1
    · rw [k3, h3]; simp

theorem popN_spec (r : List T) {w : World T} {self : Nat} (base : List T)
    (hv : Array.valid w self) (he : Array.elems w self = base ++ r.reverse)
    (hfit : Array.size w self + 8 < 4294967296) :
    ∃ w1, popN w self r.length = .ok (r, w1) ∧ Array.valid w1 self
      ∧ Array.elems w1 self = base := by
  induction r generalizing w with
  | nil => exact ⟨w, rfl, hv, by simpa using he⟩
  | cons x xs ih =>
    have he2 : Array.elems w self = (base ++ xs.reverse) ++ [x] := by
      rw [he]; simp
    obtain ⟨w1, h1, h2, h3⟩ := pop_spec (base ++ xs.reverse) x hv he2 hfit
    have hs1 : Array.size w1 self ≤ Array.size w self := by
      rw [← elems_length, ← elems_length, h3, he2]; simp
    obtain ⟨w2, k1, k2, k3⟩ := ih h2 h3 (by omega)
    refine ⟨w2, ?_, k2, k3⟩
    show popN w self (xs.length + 1) = _
    unfold popN; rw [h1]
    simp only [k1]

/-- C7: push/pop inverse.  On a valid array, when the size after the pushes stays below the
32-bit growth limit, pushing the values of `vals` in order and then calling `pop()`
`vals.length` times never throws, returns the values in reverse order, and leaves the array
with the size and the elements it had before the first push. -/
theorem C7_push_pop_inverse (w : World T) (self : Nat) (vals : List T)
    (hv : Array.valid w self)
    (hfit : (Array.size w self + vals.length)
      + (Array.size w self + vals.length) / 2 < 4294967296) :
    ∃ w1 w2, pushAll w self vals = .ok w1
      ∧ popN w1 self vals.length = .ok (vals.reverse, w2)
      ∧ Array.size w2 self = Array.size w self
      ∧ Array.elems w2 self = Array.elems w self := by
  obtain ⟨w1, h1, h2, h3⟩ := pushAll_spec vals hv hfit
  have hs1 : Array.size w1 self = Array.size w self + vals.length := by
    rw [← elems_length, h3, List.length_append, elems_length]
  obtain ⟨w2, k1, k2, k3⟩ := popN_spec vals.reverse (Array.elems w self) h2
    (by rw [h3]; simp) (by rw [hs1]; omega)
  refine ⟨w1, w2, h1, ?_, ?_, k3⟩
  · rw [List.length_reverse] at k1; exact k1
  · rw [← elems_length, k3, elems_length]

/-- The scenario of the specification: `[]`, push 10, 20, 30, then three `pop()` return
30, 20, 10 and leave the array empty. -/
theorem C7_push_pop_inverse_witness :
    Array.valid fresh 0
    ∧ (Array.size fresh 0 + [10, 20, 30].length)
        + (Array.size fresh 0 + [10, 20, 30].length) / 2 < 4294967296
    ∧ ∃ w1 w2, pushAll fresh 0 [10, 20, 30] = .ok w1
      ∧ popN w1 0 3 = .ok ([30, 20, 10], w2)
      ∧ Array.size w2 0 = 0 ∧ Array.elems w2 0 = [] := by
  refine ⟨by decide, by decide, ?_⟩
  obtain ⟨w1, w2, h1, h2, h3, h4⟩ :=
    C7_push_pop_inverse fresh 0 [10, 20, 30] (by decide) (by decide)
  exact ⟨w1, w2, h1, h2, h3.trans (by decide), h4.trans (by decide)⟩

end PushPop

section Growth

variable [RawStorage T]

/-- C8: insert/remove inverse.  On a valid array (growth below `2^32`), for every index
`i <= size()` and value `x`, `insert(i, x)` followed by `remove(i)` (order preserved) both
return, and the array then has the size it had before and the same element at every
index. -/
theorem C8_insert_remove_inverse (w : World T) (self i : Nat) (x : T)
    (hv : Array.valid w self) (hi : i ≤ Array.size w self)
    (hfit : Array.size w self + Array.size w self / 2 < 4294967296) :
    ∃ w1 w2, Array.insert w self i x = .ok w1 ∧ Array.remove w1 self i true = .ok w2
      ∧ Array.size w2 self = Array.size w self
      ∧ (∀ k, k < Array.size w self → Array.get w2 self k = Array.get w self k)
      ∧ Array.elems w2 self = Array.elems w self := by
  obtain ⟨w1, h1, h2, h3, _, h5, h6⟩ := insert_spec i x hv hi hfit
  obtain ⟨w2, k1, _, k3, _, _, k6⟩ := remove_spec i h2 (by omega) (Or.inl h5)
  have hs : Array.size w2 self = Array.size w self := by omega
  have hg : ∀ k, k < Array.size w self → Array.get w2 self k = Array.get w self k := by
    intro k hk
    rw [k6 k (by omega)]
    by_cases hki : k < i
    · rw [if_pos hki, h6 k (by omega), if_pos hki]
    · rw [if_neg hki, h6 (k + 1) (by omega), if_neg (by omega), if_neg (by omega)]
      rfl
  exact ⟨w1, w2, h1, k1, hs, hg, elems_ext hs hg⟩

/-- Inserting 9 at index 1 of the shared array `[5, 6, 7]` and removing index 1 again. -/
theorem C8_insert_remove_inverse_witness :
    Array.valid sharedPair 1 ∧ 1 ≤ Array.size sharedPair 1
    ∧ Array.size sharedPair 1 + Array.size sharedPair 1 / 2 < 4294967296
    ∧ ∃ w1 w2, Array.insert sharedPair 1 1 9 = .ok w1 ∧ Array.remove w1 1 1 true = .ok w2
      ∧ Array.size w2 1 = 3 ∧ Array.elems w2 1 = [5, 6, 7] := by
  refine ⟨by decide, by decide, by decide, ?_⟩
  obtain ⟨w1, w2, h1, h2, h3, _, h5⟩ :=
    C8_insert_remove_inverse sharedPair 1 1 9 (by decide) (by decide) (by decide)
  exact ⟨w1, w2, h1, h2, h3.trans (by decide), h5.trans (by decide)⟩

/-- C9: growth monotonicity.  On a valid array, shared or uniquely owned, whose capacity
stays below 32-bit overflow (`capacity + capacity / 2 < 2^32`), `push(x)` returns and the
capacity afterwards is at least the capacity before and at least the new size. -/
theorem C9_growth_monotone (w : World T) (self : Nat) (x : T)
    (hv : Array.valid w self)
    (hfit : Array.getCapacity w self + Array.getCapacity w self / 2 < 4294967296) :
    ∃ w1, Array.push w self x = .ok w1
      ∧ Array.getCapacity w self ≤ Array.getCapacity w1 self
      ∧ Array.size w1 self ≤ Array.getCapacity w1 self
      ∧ Array.size w1 self = Array.size w self + 1 := by
  have hsc : Array.size w self ≤ Array.getCapacity w self := hv.2.2.1.1
  obtain ⟨w1, h1, h2, h3, h4, _, _⟩ :=
    insert_spec (Array.size w self) x hv (Nat.le_refl _) (by omega)
  refine ⟨w1, h1, ?_, h2.2.2.1.1, h3⟩
  rw [h4]; split_ifs <;> omega

/-- Pushing onto the full array `[5, 6]` (capacity 2 becomes 32) and onto a shared one. -/
theorem C9_growth_monotone_witness :
    Array.valid ownFull 0
    ∧ Array.getCapacity ownFull 0 + Array.getCapacity ownFull 0 / 2 < 4294967296
    ∧ (∃ w1, Array.push ownFull 0 9 = .ok w1 ∧ 2 ≤ Array.getCapacity w1 0
        ∧ Array.size w1 0 ≤ Array.getCapacity w1 0 ∧ Array.size w1 0 = 2 + 1)
    ∧ (∃ w1, Array.push sharedPair 1 9 = .ok w1 ∧ 4 ≤ Array.getCapacity w1 1) := by
  refine ⟨by decide, by decide, ?_, ?_⟩
  · exact C9_growth_monotone ownFull 0 9 (by decide) (by decide)
  · obtain ⟨w1, h1, h2, _⟩ := C9_growth_monotone sharedPair 1 9 (by decide) (by decide)
    exact ⟨w1, h1, h2⟩

/-- C10: growth table.  On a valid array of capacity `c` (with `c + c / 2` below `2^32`,
the range of `unsigned`), `insert` at any valid position, and so `push`, returns; when the
size equals `c` the capacity afterwards is `c + c / 2` if `c > 30` and `32` otherwise; when
the size is below `c` the capacity afterwards is `c`; in both cases whether or not the body
is shared. -/
theorem C10_growth_table (w : World T) (self pos : Nat) (x : T)
    (hv : Array.valid w self) (hpos : pos ≤ Array.size w self)
    (hfit : Array.getCapacity w self + Array.getCapacity w self / 2 < 4294967296) :
    (∃ w1, Array.insert w self pos x = .ok w1
      ∧ (Array.size w self = Array.getCapacity w self →
          Array.getCapacity w1 self =
            if Array.getCapacity w self > 30 then
              Array.getCapacity w self + Array.getCapacity w self / 2 else 32)
      ∧ (Array.size w self < Array.getCapacity w self →
          Array.getCapacity w1 self = Array.getCapacity w self))
    ∧ (∃ w1, Array.push w self x = .ok w1
      ∧ (Array.size w self = Array.getCapacity w self →
          Array.getCapacity w1 self =
            if Array.getCapacity w self > 30 then
              Array.getCapacity w self + Array.getCapacity w self / 2 else 32)
      ∧ (Array.size w self < Array.getCapacity w self →
          Array.getCapacity w1 self = Array.getCapacity w self)) := by
  have hsc : Array.size w self ≤ Array.getCapacity w self := hv.2.2.1.1
  have key : ∀ p, p ≤ Array.size w self → ∃ w1, Array.insert w self p x = .ok w1
      ∧ (Array.size w self = Array.getCapacity w self →
          Array.getCapacity w1 self =
            if Array.getCapacity w self > 30 then
              Array.getCapacity w self + Array.getCapacity w self / 2 else 32)
      ∧ (Array.size w self < Array.getCapacity w self →
          Array.getCapacity w1 self = Array.getCapacity w self) := by
    intro p hp
    obtain ⟨w1, h1, _, _, h4, _, _⟩ := insert_spec p x hv hp (by omega)
    refine ⟨w1, h1, fun he => ?_, fun hl => ?_⟩
    · rw [h4, if_pos he]
    · rw [h4, if_neg (by omega)]
  exact ⟨key pos hpos, key _ (Nat.le_refl _)⟩

/-- The table on concrete arrays: full with capacity 2 (becomes 32), full with capacity 40
(becomes 60), and with a free slot, unique or shared (unchanged). -/
theorem C10_growth_table_witness :
    (Array.valid ownFull 0 ∧ 0 ≤ Array.size ownFull 0
      ∧ Array.getCapacity ownFull 0 + Array.getCapacity ownFull 0 / 2 < 4294967296
      ∧ ∃ w1, Array.push ownFull 0 9 = .ok w1 ∧ Array.getCapacity w1 0 = 32)
    ∧ (∃ w1, Array.insert ownRoom 0 1 9 = .ok w1 ∧ Array.getCapacity w1 0 = 3)
    ∧ (∃ w1, Array.push sharedPair 1 9 = .ok w1 ∧ Array.getCapacity w1 1 = 4)
    ∧ (∃ w1, Array.push fullForty 0 9 = .ok w1 ∧ Array.getCapacity w1 0 = 60) := by
  refine ⟨⟨by decide, by decide, by decide, ?_⟩, ?_, ?_, ?_⟩
  · obtain ⟨w1, h1, h2, _⟩ :=
      (C10_growth_table ownFull 0 0 9 (by decide) (by decide) (by decide)).2
    exact ⟨w1, h1, (h2 (by decide)).trans (by decide)⟩
  · obtain ⟨w1, h1, _, h3⟩ :=
      (C10_growth_table ownRoom 0 1 9 (by decide) (by decide) (by decide)).1
    exact ⟨w1, h1, (h3 (by decide)).trans (by decide)⟩
  · obtain ⟨w1, h1, _, h3⟩ :=
      (C10_growth_table sharedPair 1 0 9 (by decide) (by decide) (by decide)).2
    exact ⟨w1, h1, (h3 (by decide)).trans (by decide)⟩
  · obtain ⟨w1, h1, h2, _⟩ :=
      (C10_growth_table fullForty 0 0 9 (by decide) (by decide) (by decide)).2
    exact ⟨w1, h1, (h2 (by decide)).trans (by decide)⟩

end Growth

section Overflow

variable [RawStorage T]

/-- C2 (failing input): `Array<T> a; a.resize(4294967295);`.  In `resize` the statement
`capacity = _size + 8` wraps to 7, a block of 7 slots is allocated and the size is set to
4294967295: the array is reachable from a constructor by a public operation and has
`size() > getCapacity()`. -/
theorem C2_size_exceeds_capacity :
    Array.valid fresh 0
    ∧ Array.size (Array.resize fresh 0 4294967295 0) 0 = 4294967295
    ∧ Array.getCapacity (Array.resize fresh 0 4294967295 0) 0 = 7
    ∧ ¬ (Array.size (Array.resize fresh 0 4294967295 0) 0
          ≤ Array.getCapacity (Array.resize fresh 0 4294967295 0) 0) := by
  decide

/-- C6 (failing input): `b` shares the full array `[1, .., 8]`; `b.resize(4294967295)`.
The new body is built with `_size + 8 = 7` slots (wrapped) and `copy` is asked to store
`min(8, 4294967295) = 8` elements in it, so slot 7 does not exist in the new block: the
element at index 7 (which was 8) is not kept. -/
theorem C6_resize_loses_element :
    Array.valid sharedEight 1
    ∧ Array.size sharedEight 1 = 8
    ∧ Array.get sharedEight 1 7 = 8
    ∧ Array.size (Array.resize sharedEight 1 4294967295 0) 1 = 4294967295
    ∧ Array.getCapacity (Array.resize sharedEight 1 4294967295 0) 1 = 7
    ∧ ((Array.resize sharedEight 1 4294967295 0).body 1).data.length = 7
    ∧ Array.get (Array.resize sharedEight 1 4294967295 0) 1 7 ≠ 8 := by
  decide

end Overflow

section Sharing

variable [RawStorage T]

theorem ptr_mem {w : World T} {a : Nat} (ha : a < w.vars.length) : w.ptr a ∈ w.vars := by
  unfold World.ptr
  rw [List.getD_eq_getElem?_getD, List.getElem?_eq_getElem ha]
  exact List.getElem_mem ha

theorem cell_of_getD (h : List (Option (Data T))) (p : Nat) (d : Data T)
    (hd : h.getD p none = some d) : cell h p = d := by
  unfold cell; rw [hd]

theorem getD_live (h : List (Option (Data T))) (p : Nat)
    (hl : (h.getD p none).isSome = true) : h.getD p none = some (cell h p) := by
  unfold cell
  cases hc : h.getD p none with
  | none => rw [hc] at hl; simp at hl
  | some d => rfl

/-- The copy constructor keeps the reference counters exact, and the new handle (the last
variable) shares the body of the handle it was copied from. -/
theorem copyCtor_shares (w : World T) (a : Nat) (hw : w.counted) (ha : a < w.vars.length)
    (hroom : w.vars.length + 1 < 4294967296) :
    (Array.copyCtor w a).counted
    ∧ (Array.copyCtor w a).ptr w.vars.length = (Array.copyCtor w a).ptr a
    ∧ (Array.copyCtor w a).vars.length = w.vars.length + 1 := by
  have hpa := ptr_mem ha
  refine ⟨⟨?_, ?_⟩, ?_, ?_⟩
  · simp only [Array.copyCtor, List.length_append, List.length_singleton]; exact hroom
  · intro v hv
    have hv' : v ∈ w.vars := by
      simp only [Array.copyCtor, List.mem_append, List.mem_singleton] at hv
      rcases hv with h | h
      · exact h
      · exact h ▸ hpa
    obtain ⟨hl, hc⟩ := hw.2 v hv'
    have hcell := getD_live _ _ hl
    show ((heapInc w.heap (w.ptr a)).getD v none).isSome = true
      ∧ (cell (heapInc w.heap (w.ptr a)) v).references = (w.vars ++ [w.ptr a]).count v
    rw [List.count_append, List.count_singleton]
    by_cases hvp : w.ptr a = v
    · subst hvp
      have h1 := heapInc_getD_same _ _ _ hcell
      refine ⟨by rw [h1]; rfl, ?_⟩
      rw [cell_of_getD _ _ _ h1]
      have := List.count_le_length (w.ptr a) w.vars
      simp only [beq_self_eq_true, if_true]
      show uadd (cell w.heap (w.ptr a)).references 1 = _
      rw [hc]; unfold uadd; omega
    · have h1 := heapInc_getD_ne w.heap v (w.ptr a) hvp
      refine ⟨by rw [h1]; exact hl, ?_⟩
      have hb : (w.ptr a == v) = false := by simpa using hvp
      unfold cell
      rw [h1, hb]
      simpa [cell] using hc
  · simp [Array.copyCtor, World.ptr, List.getD_eq_getElem?_getD, List.getElem?_append_left ha,
      List.getElem?_append_right]
  · simp [Array.copyCtor]

end Sharing

section SharingSet

variable [RawStorage T]

theorem heapDec_getD_same (h : List (Option (Data T))) (p : Nat) (d : Data T)
    (hd : h.getD p none = some d) (hr : usub d.references 1 ≠ 0) :
    (heapDec h p).getD p none = some { d with references := usub d.references 1 } := by
  have hp : p < h.length := by
    by_contra hc
    rw [List.getD_eq_getElem?_getD, List.getElem?_eq_none (by omega)] at hd
    simp at hd
  unfold heapDec; rw [hd]
  simp only [hr, if_false]
  simp [List.getD_eq_getElem?_getD, hp]

/-- The method `set(const Array&)`, and so `operator=`, keeps the reference counters exact and leaves
the assigned handle sharing the body of its argument. -/
theorem set_shares (w : World T) (b a : Nat) (hw : w.counted) (ha : a < w.vars.length)
    (hb : b < w.vars.length) (hab : a ≠ b) :
    (Array.set w b a).counted
    ∧ (Array.set w b a).ptr b = (Array.set w b a).ptr a
    ∧ (Array.set w b a).vars.length = w.vars.length := by
  unfold Array.set
  by_cases hp : w.ptr a ≠ w.ptr b
  · rw [if_pos hp]
    simp only []
    have hpa := ptr_mem ha
    have hgb : w.vars[b] = w.ptr b := by
      unfold World.ptr
      rw [List.getD_eq_getElem?_getD, List.getElem?_eq_getElem hb]; rfl
    refine ⟨⟨?_, ?_⟩, ?_, ?_⟩
    · simpa using hw.1
    · intro v hv
      have hv' : v ∈ w.vars := by
        rcases List.mem_or_eq_of_mem_set hv with h | h
        · exact h
        · exact h ▸ hpa
      obtain ⟨hl, hc⟩ := hw.2 v hv'
      have hcell := getD_live _ _ hl
      have hcnt : (w.vars.set b (w.ptr a)).count v
          = w.vars.count v - (if w.ptr b == v then 1 else 0)
            + (if w.ptr a == v then 1 else 0) := by
        rw [List.count_set _ _ _ _ hb, hgb]
      have hpos : 0 < (w.vars.set b (w.ptr a)).count v := List.count_pos_iff.2 hv
      have hle := List.count_le_length v w.vars
      have hle2 := List.count_le_length v (w.vars.set b (w.ptr a))
      rw [List.length_set] at hle2
      have hlen := hw.1
      show ((heapInc (heapDec w.heap (w.ptr b)) (w.ptr a)).getD v none).isSome = true
        ∧ (cell (heapInc (heapDec w.heap (w.ptr b)) (w.ptr a)) v).references
            = (w.vars.set b (w.ptr a)).count v
      by_cases hva : w.ptr a = v
      · subst hva
        have hbf : (w.ptr b == w.ptr a) = false := by simpa using Ne.symm hp
        rw [hbf] at hcnt
        simp only [beq_self_eq_true, if_true, Bool.false_eq_true, if_false, Nat.sub_zero] at hcnt
        have h0 : (heapDec w.heap (w.ptr b)).getD (w.ptr a) none = some (cell w.heap (w.ptr a)) := by
          rw [heapDec_getD_ne _ _ _ (Ne.symm hp), hcell]
        have h1 := heapInc_getD_same _ _ _ h0
        refine ⟨by rw [h1]; rfl, ?_⟩
        rw [cell_of_getD _ _ _ h1, hcnt]
        show uadd (cell w.heap (w.ptr a)).references 1 = _
        rw [hc]; unfold uadd; omega
      · have haf : (w.ptr a == v) = false := by simpa using hva
        rw [haf] at hcnt
        simp only [Bool.false_eq_true, if_false, Nat.add_zero] at hcnt
        rw [heapInc_getD_ne _ _ _ hva]
        by_cases hvb : w.ptr b = v
        · subst hvb
          simp only [beq_self_eq_true, if_true] at hcnt
          have hr : usub (cell w.heap (w.ptr b)).references 1 ≠ 0 := by
            rw [hc]; unfold usub; omega
          have h1 := heapDec_getD_same _ _ _ hcell hr
          refine ⟨by rw [h1]; rfl, ?_⟩
          unfold cell
          rw [heapInc_getD_ne _ _ _ hva, h1, hcnt]
          show usub (cell w.heap (w.ptr b)).references 1 = _
          rw [hc]; unfold usub; omega
        · have hbf : (w.ptr b == v) = false := by simpa using hvb
          rw [hbf] at hcnt
          simp only [Bool.false_eq_true, if_false, Nat.sub_zero] at hcnt
          rw [heapDec_getD_ne _ _ _ hvb]
          refine ⟨hl, ?_⟩
          unfold cell
          rw [heapInc_getD_ne _ _ _ hva, heapDec_getD_ne _ _ _ hvb, hcnt]
          simpa [cell] using hc
    · simp [World.ptr, List.getD_eq_getElem?_getD, List.getElem?_set, hb, ha, Ne.symm hab]
    · simp
  · rw [if_neg hp]
    exact ⟨hw, (not_not.1 hp).symm, rfl⟩

end SharingSet

section Capacity

variable [RawStorage T]

/-- C11 (counterexample): `Array<T> a(30)` filled by thirty pushes is full with capacity
30; the next `push` leaves capacity 32, not `max(32, 30 + 30 / 2) = 45`. -/
theorem C11_full_thirty_grows_to_32 :
    Array.valid fullThirty 0
    ∧ Array.size fullThirty 0 = 30 ∧ Array.getCapacity fullThirty 0 = 30
    ∧ Array.getCapacity (after (Array.push fullThirty 0 7)) 0 = 32
    ∧ Array.getCapacity (after (Array.push fullThirty 0 7)) 0 ≠ max 32 (30 + 30 / 2) := by
  decide

/-- C11 (amended): when `push` is called on a valid full array of capacity `c` (with
`c + c / 2` below `2^32`), the new capacity is `c + c / 2` if `c > 30` and `32` otherwise;
this is `max(32, c + c / 2)` exactly when `c` is not in `22 .. 30`. -/
theorem C11_push_full_capacity (w : World T) (self : Nat) (x : T)
    (hv : Array.valid w self)
    (hfull : Array.size w self = Array.getCapacity w self)
    (hfit : Array.getCapacity w self + Array.getCapacity w self / 2 < 4294967296) :
    ∃ w1, Array.push w self x = .ok w1
      ∧ Array.getCapacity w1 self =
          (if Array.getCapacity w self > 30 then
            Array.getCapacity w self + Array.getCapacity w self / 2 else 32)
      ∧ (Array.getCapacity w1 self
            = max 32 (Array.getCapacity w self + Array.getCapacity w self / 2)
          ↔ ¬ (22 ≤ Array.getCapacity w self ∧ Array.getCapacity w self ≤ 30)) := by
  obtain ⟨w1, h1, _, _, h4, _, _⟩ :=
    insert_spec (Array.size w self) x hv (Nat.le_refl _) (by omega)
  rw [if_pos hfull] at h4
  refine ⟨w1, h1, h4, ?_⟩
  rw [h4]
  split_ifs with h
  · constructor
    · intro _; omega
    · intro _; omega
  · constructor
    · intro he; omega
    · intro hn; omega

/-- A full array of capacity 40 grows to 60, one of capacity 2 to 32. -/
theorem C11_push_full_capacity_witness :
    Array.valid fullForty 0 ∧ Array.size fullForty 0 = Array.getCapacity fullForty 0
    ∧ Array.getCapacity fullForty 0 + Array.getCapacity fullForty 0 / 2 < 4294967296
    ∧ (∃ w1, Array.push fullForty 0 9 = .ok w1 ∧ Array.getCapacity w1 0 = 60)
    ∧ (∃ w1, Array.push ownFull 0 9 = .ok w1 ∧ Array.getCapacity w1 0 = 32) := by
  refine ⟨by decide, by decide, by decide, ?_, ?_⟩
  · obtain ⟨w1, h1, h2, _⟩ :=
      C11_push_full_capacity fullForty 0 9 (by decide) (by decide) (by decide)
    exact ⟨w1, h1, h2.trans (by decide)⟩
  · obtain ⟨w1, h1, h2, _⟩ :=
      C11_push_full_capacity ownFull 0 9 (by decide) (by decide) (by decide)
    exact ⟨w1, h1, h2.trans (by decide)⟩

theorem resize_capacity {w : World T} {self : Nat} (n c : Nat) (hv : Array.valid w self)
    (hr : Array.resizeReallocates w self n c) :
    Array.getCapacity (Array.resize w self n c) self = if c < n then uadd n 8 else c := by
  obtain ⟨h1, h2⟩ := hr
  unfold Array.resize Array.getCapacity
  simp only []
  rw [if_neg h1]
  by_cases ho : (!(w.body self).isOwn) = true
  · rw [if_pos ho, body_rebind _ hv]; rfl
  · rw [if_neg ho]
    have h3 : (if c < n then uadd n 8 else c) ≥ (w.body self).capacity
        ∨ uadd (if c < n then uadd n 8 else c) 256 ≤ (w.body self).capacity := by
      rcases h2 with h | h
      · exact absurd h ho
      · exact h
    rw [if_pos h3, body_store _ (valid_ptr_lt hv)]; rfl

/-- C12 (counterexample): `Array<T> a; a.reserve(10);` ends with capacity 10, not
`max(10, 0) + 8 = 18`. -/
theorem C12_reserve_ten :
    Array.valid fresh 0 ∧ Array.getCapacity fresh 0 < 10
    ∧ Array.getCapacity (Array.reserve fresh 0 10) 0 = 10
    ∧ Array.getCapacity (Array.reserve fresh 0 10) 0 ≠ max 10 (Array.size fresh 0) + 8 := by
  decide

/-- C12 (amended): `reserve(requested)` on a valid array whose capacity is below
`requested` ends with capacity exactly `requested`; and a `resize(newSize, requested)`
that reallocates ends with capacity `requested` when `requested >= newSize` and
`newSize + 8` otherwise (for `newSize + 8` below `2^32`). -/
theorem C12_reserve_capacity (w : World T) (self newSize requested : Nat)
    (hv : Array.valid w self) (hfit : newSize + 8 < 4294967296) :
    (Array.getCapacity w self < requested →
        Array.getCapacity (Array.reserve w self requested) self = requested)
    ∧ (Array.resizeReallocates w self newSize requested →
        Array.getCapacity (Array.resize w self newSize requested) self
          = if requested ≥ newSize then requested else newSize + 8) := by
  have hsc : Array.size w self ≤ Array.getCapacity w self := hv.2.2.1.1
  constructor
  · intro hlt
    unfold Array.reserve
    have hr : Array.resizeReallocates w self (Array.size w self) requested := by
      unfold Array.resizeReallocates
      unfold Array.size Array.getCapacity at *
      simp only []
      refine ⟨fun h => by omega, ?_⟩
      rw [if_neg (by omega)]
      exact Or.inr (Or.inl (by omega))
    rw [resize_capacity _ _ hv hr, if_neg (by omega)]
  · intro hr
    rw [resize_capacity _ _ hv hr]
    unfold uadd
    split_ifs <;> omega

/-- Reserving 10 slots in an empty array, and growing the shared array `[5, 6, 7]` to six
elements (capacity `6 + 8`). -/
theorem C12_reserve_capacity_witness :
    Array.valid fresh 0 ∧ Array.getCapacity fresh 0 < 10
    ∧ Array.getCapacity (Array.reserve fresh 0 10) 0 = 10
    ∧ Array.resizeReallocates sharedPair 1 6 0
    ∧ Array.getCapacity (Array.resize sharedPair 1 6 0) 1 = 14 := by
  refine ⟨by decide, by decide, ?_, by decide, ?_⟩
  · exact (C12_reserve_capacity fresh 0 0 10 (by decide) (by decide)).1 (by decide)
  · exact ((C12_reserve_capacity sharedPair 1 6 0 (by decide) (by decide)).2
      (by decide)).trans (by decide)

end Capacity

section ShrinkAndPair

variable [RawStorage T]

/-- C13: shrink on remove.  For a valid, uniquely owned array with capacity `c` and size
`n` and a valid index `pos`, `remove(pos, order)` returns (for either value of `order`) and
ends with capacity `n + 31` when `c - n >= 256` and with capacity `c` when `c - n < 256`. -/
theorem C13_remove_shrinks (w : World T) (self pos : Nat) (order : Bool)
    (hv : Array.valid w self) (hown : (w.body self).references = 1)
    (hpos : pos < Array.size w self) :
    ∃ w1, Array.remove w self pos order = .ok w1
      ∧ (Array.getCapacity w self - Array.size w self ≥ 256 →
          Array.getCapacity w1 self = Array.size w self + 31)
      ∧ (Array.getCapacity w self - Array.size w self < 256 →
          Array.getCapacity w1 self = Array.getCapacity w self) := by
  obtain ⟨hs, hlive, ⟨hsc, hlen, hcap⟩, hr1, hr2⟩ := id hv
  unfold Array.size Array.getCapacity at *
  generalize hd : w.body self = d at *
  unfold Array.remove
  simp only [hd]
  rw [if_neg (by omega)]
  have hu5 : usub d.capacity d.size = d.capacity - d.size := by unfold usub; omega
  have ho : d.isOwn = true := by simp [Data.isOwn, hown]
  simp only [ho, Bool.not_true, Bool.false_eq_true, if_false]
  rw [hu5]
  by_cases hslack : d.capacity - d.size ≥ 256
  · rw [if_pos hslack]
    have hu1 : uadd d.size 31 = d.size + 31 := by unfold uadd; omega
    refine ⟨_, rfl, fun _ => ?_, fun h => by omega⟩
    rw [body_store _ (valid_ptr_lt hv)]
    exact hu1
  · rw [if_neg hslack]
    split_ifs
    all_goals
      refine ⟨_, rfl, fun h => absurd h hslack, fun _ => ?_⟩
      rw [body_store _ (valid_ptr_lt hv)]

set_option maxRecDepth 100000 in
/-- Removing from a block of 300 slots holding two elements shrinks it to `2 + 31`
slots; removing from a block without that slack keeps the capacity. -/
theorem C13_remove_shrinks_witness :
    Array.valid ownSlack 0 ∧ (ownSlack.body 0).references = 1 ∧ 0 < Array.size ownSlack 0
    ∧ (∃ w1, Array.remove ownSlack 0 0 true = .ok w1 ∧ Array.getCapacity w1 0 = 33)
    ∧ (∃ w1, Array.remove ownRoom 0 0 false = .ok w1 ∧ Array.getCapacity w1 0 = 3) := by
  refine ⟨by decide, by decide, by decide, ?_, ?_⟩
  · obtain ⟨w1, h1, h2, _⟩ :=
      C13_remove_shrinks ownSlack 0 0 true (by decide) (by decide) (by decide)
    exact ⟨w1, h1, (h2 (by decide)).trans (by decide)⟩
  · obtain ⟨w1, h1, _, h3⟩ :=
      C13_remove_shrinks ownRoom 0 0 false (by decide) (by decide) (by decide)
    exact ⟨w1, h1, (h3 (by decide)).trans (by decide)⟩

/-- C14: pair comparison policy.  If the component policies satisfy
`ge(a, b) == (gt(a, b) || eq(a, b))`, so does `Pair::cmp_policy<cmp1, cmp2>`; and the order
is lexicographic: when the left fields do not compare equal the left fields alone decide
(`ge` and `gt` are `cmp1::gt` of the left fields, `eq` is false, whatever the right fields
are), and when the left fields compare equal and neither is greater the right fields
decide. -/
theorem C14_pair_policy {T1 T2 : Type} (cmp1 : CmpPolicy T1) (cmp2 : CmpPolicy T2)
    (h1 : ∀ a b, cmp1.ge a b = (cmp1.gt a b || cmp1.eq a b))
    (h2 : ∀ a b, cmp2.ge a b = (cmp2.gt a b || cmp2.eq a b))
    (p q : Pair T1 T2) :
    (Pair.cmp_policy cmp1 cmp2).ge p q
        = ((Pair.cmp_policy cmp1 cmp2).gt p q || (Pair.cmp_policy cmp1 cmp2).eq p q)
    ∧ (cmp1.eq p.left q.left = false →
        (Pair.cmp_policy cmp1 cmp2).ge p q = cmp1.gt p.left q.left
        ∧ (Pair.cmp_policy cmp1 cmp2).gt p q = cmp1.gt p.left q.left
        ∧ (Pair.cmp_policy cmp1 cmp2).eq p q = false)
    ∧ (cmp1.eq p.left q.left = true → cmp1.gt p.left q.left = false →
        (Pair.cmp_policy cmp1 cmp2).ge p q = cmp2.ge p.right q.right
        ∧ (Pair.cmp_policy cmp1 cmp2).gt p q = cmp2.gt p.right q.right
        ∧ (Pair.cmp_policy cmp1 cmp2).eq p q = cmp2.eq p.right q.right) := by
  simp only [Pair.cmp_policy]
  refine ⟨?_, ?_, ?_⟩
  · rw [h2]
    cases cmp1.gt p.left q.left <;> cases cmp1.eq p.left q.left <;>
      cases cmp2.gt p.right q.right <;> cases cmp2.eq p.right q.right <;> rfl
  · intro he
    rw [he]
    simp
  · intro he hg
    rw [he, hg]
    simp

/-- The default policy of an integral type satisfies the law, and pairs of naturals are
ordered lexicographically: `(2, 1) >= (1, 9)`, `(1, 3) >= (1, 3)`, not `(1, 3) > (1, 3)`. -/
theorem C14_pair_policy_witness :
    (∀ a b, default_cmp_policy.ge a b = (default_cmp_policy.gt a b || default_cmp_policy.eq a b))
    ∧ (Pair.cmp_policy default_cmp_policy default_cmp_policy).ge ⟨2, 1⟩ ⟨1, 9⟩
        = ((Pair.cmp_policy default_cmp_policy default_cmp_policy).gt ⟨2, 1⟩ ⟨1, 9⟩
            || (Pair.cmp_policy default_cmp_policy default_cmp_policy).eq ⟨2, 1⟩ ⟨1, 9⟩)
    ∧ (Pair.cmp_policy default_cmp_policy default_cmp_policy).ge ⟨2, 1⟩ ⟨1, 9⟩ = true
    ∧ (Pair.cmp_policy default_cmp_policy default_cmp_policy).gt ⟨1, 3⟩ ⟨1, 3⟩ = false := by
  have hlaw : ∀ a b : Nat,
      default_cmp_policy.ge a b = (default_cmp_policy.gt a b || default_cmp_policy.eq a b) := by
    intro a b
    simp only [default_cmp_policy]
    by_cases h1 : a > b
    · simp [h1, Nat.le_of_lt h1]
    · by_cases h2 : a = b
      · simp [h2]
      · have h3 : ¬ a ≥ b := by omega
        simp [h1, h2, h3]
  refine ⟨hlaw, ?_, by decide, by decide⟩
  exact (C14_pair_policy default_cmp_policy default_cmp_policy hlaw hlaw ⟨2, 1⟩ ⟨1, 9⟩).1

end ShrinkAndPair

section DigitValues

theorem digitsVal_append (l m : List Nat) :
    digitsVal (l ++ m) = digitsVal l + 10 ^ l.length * digitsVal m := by
  induction l with
  | nil => simp [digitsVal]
  | cons d ds ih =>
    show digitsVal (d :: (ds ++ m)) = digitsVal (d :: ds) + 10 ^ (ds.length + 1) * digitsVal m
    rw [digitsVal, digitsVal, ih, pow_succ]
    ring

theorem digitsVal_replicate_zero (n : Nat) : digitsVal (List.replicate n 0) = 0 := by
  induction n with
  | zero => rfl
  | succ n ih => simp [List.replicate_succ, digitsVal, ih]

theorem digitsVal_lt (l : List Nat) (h : ∀ d ∈ l, d ≤ 9) : digitsVal l < 10 ^ l.length := by
  induction l with
  | nil => simp [digitsVal]
  | cons d ds ih =>
    have h1 := h d (List.mem_cons_self _ _)
    have h2 := ih (fun x hx => h x (List.mem_cons_of_mem _ hx))
    simp only [digitsVal, List.length_cons, pow_succ]
    omega

theorem getD_nat (l : List Nat) (k : Nat) (hk : k < l.length) : l.getD k 0 = l[k] := by
  simp [List.getD_eq_getElem?_getD, hk]

theorem digitsVal_split (l : List Nat) (k : Nat) :
    digitsVal l = digitsVal (l.take k) + 10 ^ (min k l.length) * digitsVal (l.drop k) := by
  conv_lhs => rw [← List.take_append_drop k l]
  rw [digitsVal_append, List.length_take]

theorem drop_eq_getD_cons (l : List Nat) (k : Nat) (hk : k < l.length) :
    l.drop k = l.getD k 0 :: l.drop (k + 1) := by
  rw [getD_nat l k hk]
  exact List.drop_eq_getElem_cons hk

/-- Writing `v` at index `k` changes the value by `10^k * (v - old)`. -/
theorem digitsVal_set (l : List Nat) (k v : Nat) (hk : k < l.length) :
    digitsVal (l.set k v) + 10 ^ k * l.getD k 0 = digitsVal l + 10 ^ k * v := by
  induction l generalizing k with
  | nil => simp at hk
  | cons d ds ih =>
    cases k with
    | zero => simp [digitsVal]; omega
    | succ k =>
      have hk' : k < ds.length := by simpa using hk
      have := ih k hk'
      simp only [List.set_cons_succ, digitsVal, List.getD_cons_succ, pow_succ]
      nlinarith [this]

theorem digits_ok_set (l : List Nat) (k v : Nat) (h : ∀ d ∈ l, d ≤ 9) (hv : v ≤ 9) :
    ∀ d ∈ l.set k v, d ≤ 9 := by
  intro d hd
  rcases List.mem_or_eq_of_mem_set hd with h1 | h1
  · exact h d h1
  · exact h1 ▸ hv

theorem getD_le_nine (l : List Nat) (k : Nat) (h : ∀ d ∈ l, d ≤ 9) : l.getD k 0 ≤ 9 := by
  by_cases hk : k < l.length
  · rw [getD_nat l k hk]; exact h _ (List.getElem_mem hk)
  · rw [List.getD_eq_getElem?_getD, List.getElem?_eq_none (by omega)]; simp

/-- With a non-zero most significant digit the value is at least `10^(length - 1)`. -/
theorem digitsVal_ge_of_top (l : List Nat) (hne : l ≠ [])
    (htop : l.getLast? ≠ some 0) : 10 ^ (l.length - 1) ≤ digitsVal l := by
  obtain ⟨init, t, rfl⟩ : ∃ init t, l = init ++ [t] := by
    rcases List.eq_nil_or_concat l with h | ⟨i, t, h⟩
    · exact absurd h hne
    · exact ⟨i, t, by simpa using h⟩
  have ht : t ≠ 0 := by
    intro h0
    apply htop
    simp [h0]
  rw [digitsVal_append]
  simp only [List.length_append, List.length_singleton, Nat.add_sub_cancel, digitsVal]
  have : 10 ^ init.length ≤ 10 ^ init.length * (t + 10 * 0) :=
    Nat.le_mul_of_pos_right _ (by omega)
  omega

/-- A sequence of digits whose value reaches `10^(length - 1)` has a non-zero most
significant digit. -/
theorem top_of_digitsVal_ge (l : List Nat) (h : ∀ d ∈ l, d ≤ 9)
    (hv : 10 ^ (l.length - 1) ≤ digitsVal l) : l.getLast? ≠ some 0 := by
  rcases List.eq_nil_or_concat l with h0 | ⟨init, t, h0⟩
  · subst h0; simp
  · have hl : l = init ++ [t] := by simpa using h0
    subst hl
    intro hc
    have ht : t = 0 := by simpa using hc
    subst ht
    rw [digitsVal_append] at hv
    simp only [List.length_append, List.length_singleton, Nat.add_sub_cancel, digitsVal] at hv
    have := digitsVal_lt init (fun d hd => h d (List.mem_append_left _ hd))
    omega

end DigitValues

section AbsAdd

theorem resizeDigits_length (junk : Nat → Nat) (l : List Nat) (n : Nat) :
    (resizeDigits junk l n).length = n := by
  simp [resizeDigits]

theorem resizeDigits_getElem? (junk : Nat → Nat) (l : List Nat) (n i : Nat) :
    (resizeDigits junk l n)[i]? =
      if i < n then some (if i < l.length then l.getD i 0 else junk i) else none := by
  unfold resizeDigits
  rw [List.getElem?_map]
  by_cases h : i < n
  · rw [List.getElem?_range h, if_pos h]; rfl
  · rw [List.getElem?_eq_none (by simpa using h), if_neg h]; rfl

theorem resizeDigits_shrink (junk : Nat → Nat) (l : List Nat) (n : Nat) (h : n ≤ l.length) :
    resizeDigits junk l n = l.take n := by
  apply List.ext_getElem?
  intro i
  rw [resizeDigits_getElem?, List.getElem?_take]
  by_cases hi : i < n
  · rw [if_pos hi, if_pos hi, if_pos (by omega), getD_nat l i (by omega),
      List.getElem?_eq_getElem (by omega)]
  · rw [if_neg hi, if_neg hi]

theorem zeroFill_length (buf : List Nat) (k c : Nat) :
    (zeroFill buf k c).length = buf.length := by
  induction c generalizing buf k with
  | zero => rfl
  | succ c ih => simp [zeroFill, ih]

theorem zeroFill_getElem? (buf : List Nat) (k c i : Nat) :
    (zeroFill buf k c)[i]? =
      if k ≤ i ∧ i < k + c ∧ i < buf.length then some 0 else buf[i]? := by
  induction c generalizing buf k with
  | zero => rw [zeroFill, if_neg (by omega)]
  | succ c ih =>
    rw [zeroFill, ih, List.length_set, List.getElem?_set]
    by_cases h1 : k + 1 ≤ i ∧ i < k + 1 + c ∧ i < buf.length
    · rw [if_pos h1, if_pos (by omega)]
    · rw [if_neg h1]
      by_cases h2 : k = i
      · subst h2
        by_cases h3 : k < buf.length
        · rw [if_pos rfl, if_pos h3, if_pos (by omega)]
        · rw [if_pos rfl, if_neg h3, if_neg (by omega), List.getElem?_eq_none (by omega)]
      · rw [if_neg h2, if_neg (by omega)]

/-- Extending a block to `n` elements and zero-filling the new ones gives the old elements
followed by zeros. -/
theorem zeroFill_resize (junk : Nat → Nat) (l : List Nat) (n : Nat) (h : l.length ≤ n) :
    zeroFill (resizeDigits junk l n) l.length (n - l.length)
      = l ++ List.replicate (n - l.length) 0 := by
  apply List.ext_getElem?
  intro i
  rw [zeroFill_getElem?, resizeDigits_length, resizeDigits_getElem?, List.getElem?_append]
  by_cases h1 : i < l.length
  · rw [if_neg (show ¬ (l.length ≤ i ∧ i < l.length + (n - l.length) ∧ i < n) by omega),
      if_pos (show i < n by omega), if_pos h1, if_pos h1, getD_nat l i h1,
      List.getElem?_eq_getElem h1]
  · rw [if_neg h1, List.getElem?_replicate]
    by_cases h2 : i < n
    · rw [if_pos (show l.length ≤ i ∧ i < l.length + (n - l.length) ∧ i < n by omega),
        if_pos (show i - l.length < n - l.length by omega), if_neg h1]
    · rw [if_neg (show ¬ (l.length ≤ i ∧ i < l.length + (n - l.length) ∧ i < n) by omega),
        if_neg h2, if_neg (show ¬ (i - l.length < n - l.length) by omega), if_neg h1]

theorem take_succ_drop (l : List Nat) (k len : Nat) :
    digitsVal ((l.drop k).take (len + 1))
      = l.getD k 0 + 10 * digitsVal ((l.drop (k + 1)).take len) := by
  by_cases hk : k < l.length
  · rw [drop_eq_getD_cons l k hk, List.take_succ_cons, digitsVal]
  · rw [List.drop_eq_nil_of_le (by omega), List.drop_eq_nil_of_le (by omega),
      List.getD_eq_getElem?_getD, List.getElem?_eq_none (by omega)]
    simp [digitsVal]

/-- The adding loop: `len` digits of `nbuf` from index `k` on, and `memory`, are added
into `dbuf`; the carry out is `memory` of the result. -/
theorem addLoop_spec (same : Bool) (nbuf : List Nat) (hn : ∀ d ∈ nbuf, d ≤ 9) (len : Nat) :
    ∀ (dbuf : List Nat) (k memory : Nat), k + len ≤ dbuf.length → memory ≤ 1 →
      (∀ d ∈ dbuf, d ≤ 9) →
      (same = true → ∀ i, k ≤ i → dbuf.getD i 0 = nbuf.getD i 0) →
      (addLoop same dbuf nbuf k memory len).2.1 = k + len
      ∧ (addLoop same dbuf nbuf k memory len).1.length = dbuf.length
      ∧ (addLoop same dbuf nbuf k memory len).2.2 ≤ 1
      ∧ (∀ d ∈ (addLoop same dbuf nbuf k memory len).1, d ≤ 9)
      ∧ digitsVal (addLoop same dbuf nbuf k memory len).1
          + 10 ^ (k + len) * (addLoop same dbuf nbuf k memory len).2.2
        = digitsVal dbuf + 10 ^ k * (digitsVal ((nbuf.drop k).take len) + memory) := by
  induction len with
  | zero =>
    intro dbuf k memory hk hm hd hs
    refine ⟨rfl, rfl, hm, hd, ?_⟩
    simp [addLoop, digitsVal]
  | succ len ih =>
    intro dbuf k memory hk hm hd hs
    have hsrc : (if same = true then dbuf else nbuf).getD k 0 = nbuf.getD k 0 := by
      cases same with
      | true => simpa using hs rfl k (Nat.le_refl _)
      | false => rfl
    have hdk := getD_le_nine dbuf k hd
    have hnk := getD_le_nine nbuf k hn
    rw [addLoop]
    simp only [hsrc]
    generalize htmp : dbuf.getD k 0 + nbuf.getD k 0 + memory = tmp
    have ht : tmp ≤ 19 := by omega
    obtain ⟨i1, i2, i3, i4, i5⟩ := ih (dbuf.set k (tmp % 10)) (k + 1) (tmp / 10)
      (by rw [List.length_set]; omega) (by omega)
      (digits_ok_set _ _ _ hd (by omega))
      (fun hsame i hi => by
        rw [List.getD_eq_getElem?_getD, List.getElem?_set, if_neg (by omega),
          ← List.getD_eq_getElem?_getD]
        exact hs hsame i (by omega))
    refine ⟨by rw [i1]; omega, by rw [i2, List.length_set], i3, i4, ?_⟩
    have hset := digitsVal_set dbuf k (tmp % 10) (by omega)
    have hsplit := take_succ_drop nbuf k len
    have hpow : 10 ^ (k + 1) = 10 ^ k * 10 := pow_succ 10 k
    have hdm : tmp % 10 + 10 * (tmp / 10) = tmp := Nat.mod_add_div tmp 10
    rw [show k + (len + 1) = k + 1 + len by omega, i5, hsplit, hpow]
    generalize tmp % 10 = r at *
    generalize tmp / 10 = q at *
    have key : ((digitsVal (dbuf.set k r) + 10 ^ k * 10
          * (digitsVal ((nbuf.drop (k + 1)).take len) + q) : Nat) : Int)
        = ((digitsVal dbuf + 10 ^ k
          * (nbuf.getD k 0 + 10 * digitsVal ((nbuf.drop (k + 1)).take len) + memory) : Nat)
            : Int) := by
      have hset' : ((digitsVal (dbuf.set k r) + 10 ^ k * dbuf.getD k 0 : Nat) : Int)
          = ((digitsVal dbuf + 10 ^ k * r : Nat) : Int) := by rw [hset]
      have hdm' : ((r + 10 * q : Nat) : Int) = (tmp : Int) := by rw [hdm]
      have htmp' : ((dbuf.getD k 0 + nbuf.getD k 0 + memory : Nat) : Int) = (tmp : Int) := by
        rw [htmp]
      push_cast at hset' hdm' htmp' ⊢
      linear_combination hset' + (10 : Int) ^ k * hdm' - (10 : Int) ^ k * htmp'
    exact_mod_cast key

end AbsAdd

section AbsAdd2

theorem carryLoop_spec (len : Nat) :
    ∀ (dbuf : List Nat) (k : Nat), k + len ≤ dbuf.length → (∀ d ∈ dbuf, d ≤ 9) →
      (carryLoop dbuf k len).2.1 + (carryLoop dbuf k len).2.2 = k + len
      ∧ (carryLoop dbuf k len).1.length = dbuf.length
      ∧ (∀ d ∈ (carryLoop dbuf k len).1, d ≤ 9)
      ∧ ((carryLoop dbuf k len).2.2 ≠ 0 →
          (carryLoop dbuf k len).1.getD (carryLoop dbuf k len).2.1 0 ≤ 8)
      ∧ digitsVal (carryLoop dbuf k len).1 + 10 ^ (carryLoop dbuf k len).2.1
          = digitsVal dbuf + 10 ^ k := by
  induction len with
  | zero =>
    intro dbuf k hk hd
    exact ⟨rfl, rfl, hd, fun h => absurd rfl h, rfl⟩
  | succ len ih =>
    intro dbuf k hk hd
    rw [carryLoop]
    by_cases h9 : dbuf.getD k 0 = 9
    · rw [if_pos h9]
      obtain ⟨i1, i2, i3, i4, i5⟩ := ih (dbuf.set k 0) (k + 1)
        (by rw [List.length_set]; omega) (digits_ok_set _ _ _ hd (by omega))
      refine ⟨by rw [i1]; omega, by rw [i2, List.length_set], i3, i4, ?_⟩
      have hset := digitsVal_set dbuf k 0 (by omega)
      rw [h9] at hset
      rw [i5, pow_succ]
      omega
    · rw [if_neg h9]
      have := getD_le_nine dbuf k hd
      exact ⟨rfl, rfl, hd, fun _ => by show dbuf.getD k 0 ≤ 8; omega, rfl⟩

theorem inv_nonempty {a : BigInt} (ha : a.inv) (hs : a.sign ≠ 0) : a.digits ≠ [] :=
  fun h => hs (ha.2.2.1.1 h)

theorem inv_length_pos {a : BigInt} (ha : a.inv) (hs : a.sign ≠ 0) : 0 < a.digits.length :=
  List.length_pos.2 (inv_nonempty ha hs)

theorem inv_val_ge {a : BigInt} (ha : a.inv) (hs : a.sign ≠ 0) :
    10 ^ (a.digits.length - 1) ≤ digitsVal a.digits :=
  digitsVal_ge_of_top _ (inv_nonempty ha hs) ha.2.2.2

theorem getLast?_ne_nil (l : List Nat) (h : l.getLast? ≠ some 0) (hl : 0 < l.length) :
    l ≠ [] := List.length_pos.1 hl

/-- The method `abs_add` on two non-zero numbers: the digits of the result are valid, have
a non-zero most significant digit and denote the sum of the two magnitudes; the sign is
kept.  This holds whether `n` is another object or `*this` (block owned or shared). -/
theorem abs_add_spec (al : Alias) (junk : Nat → Nat) (a n : BigInt)
    (ha : a.inv) (hn : (cur al a n).inv) (hsa : a.sign ≠ 0) (hsn : (cur al a n).sign ≠ 0) :
    (a.abs_add al junk n).sign = a.sign
    ∧ (∀ d ∈ (a.abs_add al junk n).digits, d ≤ 9)
    ∧ (a.abs_add al junk n).digits ≠ []
    ∧ (a.abs_add al junk n).digits.getLast? ≠ some 0
    ∧ digitsVal (a.abs_add al junk n).digits
        = digitsVal a.digits + digitsVal (cur al a n).digits := by
  have hla := inv_length_pos ha hsa
  have hln := inv_length_pos hn hsn
  have hva := inv_val_ge ha hsa
  have hvn := inv_val_ge hn hsn
  have hoka := ha.2.1
  have hokn := hn.2.1
  unfold BigInt.abs_add
  simp only []
  generalize hn0 : cur al a n = n0 at *
  -- the block after the optional extension
  generalize hd0 : (if a.digits.length < n0.digits.length then
      zeroFill (resizeDigits junk a.digits n0.digits.length) a.digits.length
        (n0.digits.length - a.digits.length)
    else a.digits) = d0
  have hd0len : d0.length = max a.digits.length n0.digits.length := by
    rw [← hd0]; split_ifs with h
    · rw [zeroFill_length, resizeDigits_length]; omega
    · omega
  have hd0val : digitsVal d0 = digitsVal a.digits := by
    rw [← hd0]; split_ifs with h
    · rw [zeroFill_resize _ _ _ (by omega), digitsVal_append, digitsVal_replicate_zero]
      simp
    · rfl
  have hd0ok : ∀ d ∈ d0, d ≤ 9 := by
    rw [← hd0]; split_ifs with h
    · rw [zeroFill_resize _ _ _ (by omega)]
      intro d hd
      rcases List.mem_append.1 hd with h1 | h1
      · exact hoka d h1
      · rw [(List.mem_replicate.1 h1).2]; omega
    · exact hoka
  have hsame : (al == Alias.sameBlock) = true → ∀ i, 0 ≤ i → d0.getD i 0 = n0.digits.getD i 0 := by
    intro h i _
    have hal : al = Alias.sameBlock := by simpa using h
    subst hal
    have : n0 = a := by rw [← hn0]; rfl
    subst this
    rw [← hd0, if_neg (by omega)]
  obtain ⟨r1, r2, r3, r4, r5⟩ := addLoop_spec (al == Alias.sameBlock) n0.digits hokn
    n0.digits.length d0 0 0 (by omega) (by omega) hd0ok hsame
  simp only [Nat.zero_add, List.drop_zero, List.take_length, pow_zero, Nat.one_mul,
    Nat.add_zero] at r1 r5
  generalize addLoop (al == Alias.sameBlock) d0 n0.digits 0 0 n0.digits.length = r at *
  obtain ⟨rb, rk, rm⟩ := r
  simp only at r1 r2 r3 r4 r5
  have hmax : 10 ^ (max a.digits.length n0.digits.length - 1)
      ≤ digitsVal a.digits + digitsVal n0.digits := by
    rcases Nat.le_total a.digits.length n0.digits.length with h | h
    · rw [Nat.max_eq_right h]; omega
    · rw [Nat.max_eq_left h]; omega
  by_cases hm : rm ≠ 0
  · have hm1 : rm = 1 := by omega
    subst hm1
    simp only [ne_eq, one_ne_zero, not_false_eq_true, if_true]
    obtain ⟨c1, c2, c3, c4, c5⟩ := carryLoop_spec (d0.length - n0.digits.length) rb rk
      (by rw [r1, r2]; omega) r4
    generalize carryLoop rb rk (d0.length - n0.digits.length) = c at *
    obtain ⟨cb, ck, cl⟩ := c
    simp only at c1 c2 c3 c4 c5
    by_cases hcl : cl ≠ 0
    · simp only [hcl, ne_eq, not_false_eq_true, if_true]
      have hck : ck < cb.length := by rw [c2, r2]; omega
      have hset := digitsVal_set cb ck (cb.getD ck 0 + 1) hck
      have hval : digitsVal (cb.set ck (cb.getD ck 0 + 1))
          = digitsVal a.digits + digitsVal n0.digits := by
        have e : 10 ^ ck * (cb.getD ck 0 + 1) = 10 ^ ck * cb.getD ck 0 + 10 ^ ck := by ring
        rw [e] at hset
        rw [r1] at c5
        omega
      have hok : ∀ d ∈ cb.set ck (cb.getD ck 0 + 1), d ≤ 9 :=
        digits_ok_set _ _ _ c3 (by have := c4 hcl; omega)
      have hlen : (cb.set ck (cb.getD ck 0 + 1)).length
          = max a.digits.length n0.digits.length := by
        rw [List.length_set, c2, r2, hd0len]
      refine ⟨trivial, hok, ?_, ?_, hval⟩
      · exact List.length_pos.1 (by rw [hlen]; omega)
      · exact top_of_digitsVal_ge _ hok (by rw [hlen, hval]; exact hmax)
    · have hcl0 : cl = 0 := by omega
      subst hcl0
      simp only [ne_eq, not_true_eq_false, if_false]
      refine ⟨trivial, ?_, by simp, by simp, ?_⟩
      · intro d hd
        rcases List.mem_append.1 hd with h1 | h1
        · exact c3 d h1
        · rw [List.mem_singleton.1 h1]; omega
      · rw [digitsVal_append, c2, r2]
        have hck : ck = d0.length := by omega
        rw [hck] at c5
        rw [r1] at c5
        simp only [digitsVal]
        omega
  · have hm0 : rm = 0 := by omega
    subst hm0
    simp only [ne_eq, not_true_eq_false, if_false]
    have hval : digitsVal rb = digitsVal a.digits + digitsVal n0.digits := by
      rw [hd0val] at r5; simpa using r5
    have hlen : rb.length = max a.digits.length n0.digits.length := by rw [r2, hd0len]
    refine ⟨trivial, r4, ?_, ?_, hval⟩
    · exact List.length_pos.1 (by rw [hlen]; omega)
    · exact top_of_digitsVal_ge _ r4 (by rw [hlen, hval]; exact hmax)

end AbsAdd2

section Compare

theorem cmpLoop_zero (d nd : List Nat) (i : Nat) (h : cmpLoop d nd i = 0) :
    ∀ j, j < i → d.getD j 0 = nd.getD j 0 := by
  induction i with
  | zero => intro j hj; omega
  | succ i ih =>
    rw [cmpLoop] at h
    by_cases he : d.getD i 0 = nd.getD i 0
    · rw [if_pos he] at h
      intro j hj
      by_cases hji : j = i
      · subst hji; exact he
      · exact ih h j (by omega)
    · rw [if_neg he] at h; omega

theorem cmpLoop_pos (d nd : List Nat) (i : Nat) (h : cmpLoop d nd i ≠ 0) :
    cmpLoop d nd i ≤ i
    ∧ d.getD (cmpLoop d nd i - 1) 0 ≠ nd.getD (cmpLoop d nd i - 1) 0
    ∧ ∀ j, cmpLoop d nd i - 1 < j → j < i → d.getD j 0 = nd.getD j 0 := by
  induction i with
  | zero => exact absurd rfl h
  | succ i ih =>
    rw [cmpLoop] at h ⊢
    by_cases he : d.getD i 0 = nd.getD i 0
    · rw [if_pos he] at h ⊢
      obtain ⟨h1, h2, h3⟩ := ih h
      refine ⟨by omega, h2, ?_⟩
      intro j hj1 hj2
      by_cases hji : j = i
      · subst hji; exact he
      · exact h3 j hj1 (by omega)
    · rw [if_neg he]
      refine ⟨Nat.le_refl _, by simpa using he, ?_⟩
      intro j hj1 hj2
      simp only [Nat.add_sub_cancel] at hj1
      omega

theorem eq_of_getD_eq (d nd : List Nat) (hl : d.length = nd.length)
    (h : ∀ j, j < d.length → d.getD j 0 = nd.getD j 0) : d = nd := by
  apply List.ext_getElem?
  intro j
  by_cases hj : j < d.length
  · have := h j hj
    rw [getD_nat d j hj, getD_nat nd j (by omega)] at this
    rw [List.getElem?_eq_getElem hj, List.getElem?_eq_getElem (by omega), this]
  · rw [List.getElem?_eq_none (by omega), List.getElem?_eq_none (by omega)]

theorem drop_eq_of_getD_eq (d nd : List Nat) (i : Nat) (hl : d.length = nd.length)
    (h : ∀ j, i ≤ j → j < d.length → d.getD j 0 = nd.getD j 0) : d.drop i = nd.drop i := by
  apply List.ext_getElem?
  intro j
  rw [List.getElem?_drop, List.getElem?_drop]
  by_cases hj : i + j < d.length
  · have := h (i + j) (by omega) hj
    rw [getD_nat d _ hj, getD_nat nd _ (by omega)] at this
    rw [List.getElem?_eq_getElem hj, List.getElem?_eq_getElem (by omega), this]
  · rw [List.getElem?_eq_none (by omega), List.getElem?_eq_none (by omega)]

theorem digitsVal_take_succ (l : List Nat) (i : Nat) (hi : i < l.length) :
    digitsVal (l.take (i + 1)) = digitsVal (l.take i) + 10 ^ i * l.getD i 0 := by
  rw [List.take_succ, digitsVal_append, List.length_take, Nat.min_eq_left (by omega),
    List.getElem?_eq_getElem hi, getD_nat l i hi]
  simp [digitsVal]

theorem digits_ok_take (l : List Nat) (i : Nat) (h : ∀ d ∈ l, d ≤ 9) :
    ∀ d ∈ l.take i, d ≤ 9 := fun d hd => h d (List.mem_of_mem_take hd)

/-- Two digit sequences of one length that agree above index `i` are ordered by their
digits at index `i`. -/
theorem digitsVal_lt_of_digit_lt (d nd : List Nat) (i : Nat) (hl : d.length = nd.length)
    (hi : i < d.length) (hd : ∀ x ∈ d, x ≤ 9)
    (hlt : d.getD i 0 < nd.getD i 0)
    (hsame : ∀ j, i < j → j < d.length → d.getD j 0 = nd.getD j 0) :
    digitsVal d < digitsVal nd := by
  have h1 := digitsVal_split d (i + 1)
  have h2 := digitsVal_split nd (i + 1)
  rw [Nat.min_eq_left (by omega)] at h1 h2
  rw [drop_eq_of_getD_eq d nd (i + 1) hl (fun j hj1 hj2 => hsame j (by omega) hj2)] at h1
  rw [digitsVal_take_succ d i hi] at h1
  rw [digitsVal_take_succ nd i (by omega)] at h2
  have h3 := digitsVal_lt (d.take i) (digits_ok_take d i hd)
  rw [List.length_take, Nat.min_eq_left (by omega)] at h3
  have h4 : 10 ^ i * (d.getD i 0 + 1) ≤ 10 ^ i * nd.getD i 0 := Nat.mul_le_mul_left _ hlt
  have h5 : 10 ^ i * (d.getD i 0 + 1) = 10 ^ i * d.getD i 0 + 10 ^ i := by ring
  omega

theorem digitsVal_lt_of_length_lt (d nd : List Nat) (hl : d.length < nd.length)
    (hd : ∀ x ∈ d, x ≤ 9) (hne : nd ≠ []) (htop : nd.getLast? ≠ some 0) :
    digitsVal d < digitsVal nd := by
  have h1 := digitsVal_lt d hd
  have h2 := digitsVal_ge_of_top nd hne htop
  have h3 : 10 ^ d.length ≤ 10 ^ (nd.length - 1) :=
    Nat.pow_le_pow_right (by omega) (by omega)
  omega

/-- The comparison at the head of `abs_sub`, on two non-zero numbers, orders the
magnitudes. -/
theorem absCompare_spec (a n : BigInt) (ha : a.inv) (hn : n.inv)
    (hsa : a.sign ≠ 0) (hsn : n.sign ≠ 0) :
    (absCompare a n = 1 ∧ digitsVal n.digits < digitsVal a.digits
        ∧ n.digits.length ≤ a.digits.length)
    ∨ (absCompare a n = 0 ∧ a.digits = n.digits)
    ∨ (absCompare a n = -1 ∧ digitsVal a.digits < digitsVal n.digits) := by
  unfold absCompare
  rw [if_neg hsa, if_neg hsn]
  by_cases h1 : a.digits.length > n.digits.length
  · rw [if_pos h1]
    exact Or.inl ⟨rfl, digitsVal_lt_of_length_lt _ _ h1 hn.2.1 (inv_nonempty ha hsa) ha.2.2.2,
      by omega⟩
  · rw [if_neg h1]
    by_cases h2 : a.digits.length < n.digits.length
    · rw [if_pos h2]
      exact Or.inr (Or.inr ⟨rfl,
        digitsVal_lt_of_length_lt _ _ h2 ha.2.1 (inv_nonempty hn hsn) hn.2.2.2⟩)
    · rw [if_neg h2]
      have hl : a.digits.length = n.digits.length := by omega
      simp only []
      by_cases h3 : cmpLoop a.digits n.digits a.digits.length ≠ 0
      · rw [if_pos h3]
        obtain ⟨c1, c2, c3⟩ := cmpLoop_pos _ _ _ h3
        generalize cmpLoop a.digits n.digits a.digits.length = c at *
        by_cases h4 : a.digits.getD (c - 1) 0 < n.digits.getD (c - 1) 0
        · rw [if_pos h4]
          exact Or.inr (Or.inr ⟨rfl,
            digitsVal_lt_of_digit_lt _ _ (c - 1) hl (by omega) ha.2.1 h4 c3⟩)
        · rw [if_neg h4]
          refine Or.inl ⟨rfl, ?_, by omega⟩
          exact digitsVal_lt_of_digit_lt _ _ (c - 1) hl.symm (by omega) hn.2.1 (by omega)
            (fun j hj1 hj2 => (c3 j hj1 (by omega)).symm)
      · rw [if_neg h3]
        have h0 : cmpLoop a.digits n.digits a.digits.length = 0 := by omega
        exact Or.inr (Or.inl ⟨rfl, eq_of_getD_eq _ _ hl (cmpLoop_zero _ _ _ h0)⟩)

end Compare

section AbsSub

theorem sub_step_algebra (P Q valr val1 val V m' dk d' tmp nk mem m1 : Nat)
    (ih : valr + P * 10 * (V + m1) = val1 + Q * m')
    (hset : val1 + P * dk = val + P * d')
    (hdig : d' + tmp = dk + 10 * m1) (htmp : tmp = mem + nk) :
    valr + P * (nk + 10 * V + mem) = val + Q * m' := by
  have ih' : ((valr + P * 10 * (V + m1) : Nat) : Int) = ((val1 + Q * m' : Nat) : Int) := by
    rw [ih]
  have hset' : ((val1 + P * dk : Nat) : Int) = ((val + P * d' : Nat) : Int) := by rw [hset]
  have hdig' : ((d' + tmp : Nat) : Int) = ((dk + 10 * m1 : Nat) : Int) := by rw [hdig]
  have htmp' : ((tmp : Nat) : Int) = ((mem + nk : Nat) : Int) := by rw [htmp]
  have key : ((valr + P * (nk + 10 * V + mem) : Nat) : Int) = ((val + Q * m' : Nat) : Int) := by
    push_cast at ih' hset' hdig' htmp' ⊢
    linear_combination ih' + hset' + (P : Int) * hdig' - (P : Int) * htmp'
  exact_mod_cast key

/-- The subtracting loop: `len` digits of `nbuf` from index `k` on, and `memory`, are
subtracted from `dbuf`; the borrow out is `memory` of the result. -/
theorem subLoop_spec (nbuf : List Nat) (hn : ∀ d ∈ nbuf, d ≤ 9) (len : Nat) :
    ∀ (dbuf : List Nat) (k memory : Nat), k + len ≤ dbuf.length → memory ≤ 1 →
      (∀ d ∈ dbuf, d ≤ 9) →
      (subLoop dbuf nbuf k memory len).2.1 = k + len
      ∧ (subLoop dbuf nbuf k memory len).1.length = dbuf.length
      ∧ (subLoop dbuf nbuf k memory len).2.2 ≤ 1
      ∧ (∀ d ∈ (subLoop dbuf nbuf k memory len).1, d ≤ 9)
      ∧ digitsVal (subLoop dbuf nbuf k memory len).1
          + 10 ^ k * (digitsVal ((nbuf.drop k).take len) + memory)
        = digitsVal dbuf + 10 ^ (k + len) * (subLoop dbuf nbuf k memory len).2.2 := by
  induction len with
  | zero =>
    intro dbuf k memory hk hm hd
    refine ⟨rfl, rfl, hm, hd, ?_⟩
    simp [subLoop, digitsVal]
  | succ len ih =>
    intro dbuf k memory hk hm hd
    have hdk := getD_le_nine dbuf k hd
    have hnk := getD_le_nine nbuf k hn
    have hsplit := take_succ_drop nbuf k len
    have hpow : 10 ^ (k + 1) = 10 ^ k * 10 := pow_succ 10 k
    rw [subLoop]
    by_cases hgt : memory + nbuf.getD k 0 > dbuf.getD k 0
    · rw [if_pos hgt]
      obtain ⟨i1, i2, i3, i4, i5⟩ :=
        ih (dbuf.set k (dbuf.getD k 0 + 10 - (memory + nbuf.getD k 0))) (k + 1) 1
          (by rw [List.length_set]; omega) (by omega)
          (digits_ok_set _ _ _ hd (by omega))
      refine ⟨by rw [i1]; omega, by rw [i2, List.length_set], i3, i4, ?_⟩
      have hset := digitsVal_set dbuf k (dbuf.getD k 0 + 10 - (memory + nbuf.getD k 0))
        (by omega)
      rw [hsplit, show k + (len + 1) = k + 1 + len by omega]
      rw [hpow] at i5
      exact sub_step_algebra _ _ _ _ _ _ _ _ _ (memory + nbuf.getD k 0) _ _ 1 i5 hset
        (by omega) rfl
    · rw [if_neg hgt]
      obtain ⟨i1, i2, i3, i4, i5⟩ :=
        ih (dbuf.set k (dbuf.getD k 0 - (memory + nbuf.getD k 0))) (k + 1) 0
          (by rw [List.length_set]; omega) (by omega)
          (digits_ok_set _ _ _ hd (by omega))
      refine ⟨by rw [i1]; omega, by rw [i2, List.length_set], i3, i4, ?_⟩
      have hset := digitsVal_set dbuf k (dbuf.getD k 0 - (memory + nbuf.getD k 0))
        (by omega)
      rw [hsplit, show k + (len + 1) = k + 1 + len by omega]
      rw [hpow] at i5
      exact sub_step_algebra _ _ _ _ _ _ _ _ _ (memory + nbuf.getD k 0) _ _ 0 i5 hset
        (by omega) rfl

theorem getD_set_ne_nat (l : List Nat) (k j v : Nat) (h : k ≠ j) :
    (l.set k v).getD j 0 = l.getD j 0 := by
  rw [List.getD_eq_getElem?_getD, List.getElem?_set, if_neg h, ← List.getD_eq_getElem?_getD]

theorem getD_set_same_nat (l : List Nat) (k v : Nat) (h : k < l.length) :
    (l.set k v).getD k 0 = v := by
  rw [List.getD_eq_getElem?_getD, List.getElem?_set, if_pos rfl, if_pos h]; rfl

/-- The borrow loop: zeros from index `k` on become 9 up to the first non-zero digit,
which the loop stops at. -/
theorem borrowLoop_spec (fuel : Nat) :
    ∀ (dbuf : List Nat) (k : Nat), dbuf.length ≤ k + fuel → (∀ d ∈ dbuf, d ≤ 9) →
      (∃ j, k ≤ j ∧ j < dbuf.length ∧ dbuf.getD j 0 ≠ 0) →
      (borrowLoop dbuf k fuel).2 < dbuf.length
      ∧ (borrowLoop dbuf k fuel).1.getD (borrowLoop dbuf k fuel).2 0 ≠ 0
      ∧ (borrowLoop dbuf k fuel).1.length = dbuf.length
      ∧ (∀ d ∈ (borrowLoop dbuf k fuel).1, d ≤ 9)
      ∧ digitsVal (borrowLoop dbuf k fuel).1 + 10 ^ k
          = digitsVal dbuf + 10 ^ (borrowLoop dbuf k fuel).2 := by
  induction fuel with
  | zero =>
    intro dbuf k hf hd ⟨j, hj1, hj2, _⟩
    omega
  | succ fuel ih =>
    intro dbuf k hf hd ⟨j, hj1, hj2, hj3⟩
    rw [borrowLoop]
    by_cases h0 : dbuf.getD k 0 = 0
    · rw [if_pos h0]
      have hjk : j ≠ k := fun h => hj3 (h ▸ h0)
      obtain ⟨i1, i2, i3, i4, i5⟩ := ih (dbuf.set k 9) (k + 1)
        (by rw [List.length_set]; omega) (digits_ok_set _ _ _ hd (by omega))
        ⟨j, by omega, by rw [List.length_set]; exact hj2,
          by rw [getD_set_ne_nat _ _ _ _ (Ne.symm hjk)]; exact hj3⟩
      rw [List.length_set] at i1 i3
      refine ⟨i1, i2, i3, i4, ?_⟩
      have hset := digitsVal_set dbuf k 9 (by omega)
      rw [h0] at hset
      rw [pow_succ] at i5
      omega
    · rw [if_neg h0]
      exact ⟨by omega, h0, rfl, hd, rfl⟩

theorem scanDown_spec (buf : List Nat) (i : Nat) (h : ∃ j, j < i ∧ buf.getD j 0 ≠ 0) :
    scanDown buf i < i ∧ buf.getD (scanDown buf i) 0 ≠ 0
    ∧ ∀ j, scanDown buf i < j → j < i → buf.getD j 0 = 0 := by
  induction i with
  | zero => obtain ⟨j, hj, _⟩ := h; omega
  | succ i ih =>
    rw [scanDown]
    by_cases hz : buf.getD i 0 ≠ 0
    · rw [if_pos hz]
      exact ⟨by omega, hz, fun j h1 h2 => by omega⟩
    · rw [if_neg hz]
      obtain ⟨j, hj, hjn⟩ := h
      have hji : j ≠ i := fun he => hz (he ▸ hjn)
      obtain ⟨i1, i2, i3⟩ := ih ⟨j, by omega, hjn⟩
      refine ⟨by omega, i2, fun x h1 h2 => ?_⟩
      by_cases hx : x = i
      · subst hx; simpa using hz
      · exact i3 x h1 (by omega)

/-- Digits that are all zero from index `k` on do not count. -/
theorem digitsVal_take_of_zero (l : List Nat) (k : Nat)
    (h : ∀ j, k ≤ j → j < l.length → l.getD j 0 = 0) :
    digitsVal (l.take k) = digitsVal l := by
  have hd : l.drop k = List.replicate (l.length - k) 0 := by
    apply List.ext_getElem?
    intro j
    rw [List.getElem?_drop, List.getElem?_replicate]
    by_cases hj : k + j < l.length
    · have := h (k + j) (by omega) hj
      rw [getD_nat l _ hj] at this
      rw [List.getElem?_eq_getElem hj, this, if_pos (by omega)]
    · rw [List.getElem?_eq_none (by omega), if_neg (by omega)]
  have := digitsVal_split l k
  rw [hd, digitsVal_replicate_zero] at this
  omega

theorem exists_nonzero_of_val_ge (l : List Nat) (k : Nat) (hd : ∀ d ∈ l, d ≤ 9)
    (hv : 10 ^ k ≤ digitsVal l) : ∃ j, k ≤ j ∧ j < l.length ∧ l.getD j 0 ≠ 0 := by
  by_contra hc
  have hz : ∀ j, k ≤ j → j < l.length → l.getD j 0 = 0 := by
    intro j h1 h2
    by_contra h3
    exact hc ⟨j, h1, h2, h3⟩
  have h1 := digitsVal_take_of_zero l k hz
  have h2 := digitsVal_lt (l.take k) (digits_ok_take l k hd)
  rw [List.length_take] at h2
  have h3 : 10 ^ (min k l.length) ≤ 10 ^ k := Nat.pow_le_pow_right (by omega) (Nat.min_le_left _ _)
  omega

end AbsSub

section AbsSub2

theorem getLast?_eq_getD (l : List Nat) (h : 0 < l.length) :
    l.getLast? = some (l.getD (l.length - 1) 0) := by
  rw [List.getLast?_eq_getElem?, List.getElem?_eq_getElem (by omega), getD_nat l _ (by omega)]

/-- Removing the zeros above the highest non-zero digit, as the end of `abs_sub` does. -/
theorem trim_spec (junk : Nat → Nat) (b : List Nat) (hok : ∀ d ∈ b, d ≤ 9)
    (hpos : 1 ≤ digitsVal b) :
    let digits :=
      if b.getD (b.length - 1) 0 = 0 then resizeDigits junk b (scanDown b (b.length - 1) + 1)
      else b
    (∀ d ∈ digits, d ≤ 9) ∧ digits ≠ [] ∧ digits.getLast? ≠ some 0
      ∧ digitsVal digits = digitsVal b := by
  intro digits
  have hlen : 0 < b.length := by
    rcases b with _ | ⟨x, xs⟩
    · simp [digitsVal] at hpos
    · simp
  by_cases htop : b.getD (b.length - 1) 0 = 0
  · obtain ⟨j, _, hj2, hj3⟩ := exists_nonzero_of_val_ge b 0 hok (by simpa using hpos)
    have hj : j < b.length - 1 := by
      by_contra hc
      have : j = b.length - 1 := by omega
      exact hj3 (this ▸ htop)
    obtain ⟨s1, s2, s3⟩ := scanDown_spec b (b.length - 1) ⟨j, hj, hj3⟩
    have hd : digits = b.take (scanDown b (b.length - 1) + 1) := by
      show (if b.getD (b.length - 1) 0 = 0 then _ else _) = _
      rw [if_pos htop, resizeDigits_shrink _ _ _ (by omega)]
    rw [hd]
    generalize scanDown b (b.length - 1) = idx at *
    have hl : (b.take (idx + 1)).length = idx + 1 := by
      rw [List.length_take]; omega
    refine ⟨digits_ok_take b _ hok, List.length_pos.1 (by omega), ?_, ?_⟩
    · rw [getLast?_eq_getD _ (by omega), hl, Nat.add_sub_cancel,
        List.getD_eq_getElem?_getD, List.getElem?_take_of_lt (by omega),
        ← List.getD_eq_getElem?_getD]
      intro h
      exact s2 (Option.some.inj h)
    · apply digitsVal_take_of_zero
      intro x hx1 hx2
      by_cases hx : x = b.length - 1
      · rw [hx]; exact htop
      · exact s3 x (by omega) (by omega)
  · have hd : digits = b := by
      show (if b.getD (b.length - 1) 0 = 0 then _ else _) = _
      rw [if_neg htop]
    rw [hd]
    refine ⟨hok, List.length_pos.1 hlen, ?_, rfl⟩
    rw [getLast?_eq_getD _ hlen]
    intro h
    exact htop (Option.some.inj h)

/-- The subtracting branch of `abs_sub`: when the magnitude of `*this` is the larger one,
the result keeps the sign and its digits, valid and without leading zero, denote the
difference of the magnitudes. -/
theorem abs_sub_gt (fuel : Nat) (al : Alias) (junk : Nat → Nat) (a n : BigInt)
    (ha : a.inv) (hn : (cur al a n).inv)
    (hc : absCompare a (cur al a n) = 1)
    (hlt : digitsVal (cur al a n).digits < digitsVal a.digits)
    (hlen : (cur al a n).digits.length ≤ a.digits.length) :
    ∃ r, BigInt.abs_sub (fuel + 1) al junk a n = some r ∧ r.sign = a.sign
      ∧ (∀ d ∈ r.digits, d ≤ 9) ∧ r.digits ≠ [] ∧ r.digits.getLast? ≠ some 0
      ∧ digitsVal r.digits + digitsVal (cur al a n).digits = digitsVal a.digits := by
  rw [BigInt.abs_sub]
  simp only [hc]
  rw [if_neg (by decide), if_neg (by decide)]
  generalize cur al a n = n0 at *
  obtain ⟨r1, r2, r3, r4, r5⟩ := subLoop_spec n0.digits hn.2.1 n0.digits.length a.digits 0 0
    (by omega) (by omega) ha.2.1
  simp only [Nat.zero_add, List.drop_zero, List.take_length, pow_zero, Nat.one_mul,
    Nat.add_zero] at r1 r5
  generalize subLoop a.digits n0.digits 0 0 n0.digits.length = r at *
  obtain ⟨rb, rk, rm⟩ := r
  simp only at r1 r2 r3 r4 r5
  -- the block after the pending borrow
  have hb : ∃ b, (if rm ≠ 0 then
        (borrowLoop rb rk rb.length).1.set (borrowLoop rb rk rb.length).2
          ((borrowLoop rb rk rb.length).1.getD (borrowLoop rb rk rb.length).2 0 - 1)
      else rb) = b ∧ (∀ d ∈ b, d ≤ 9)
      ∧ digitsVal b + digitsVal n0.digits = digitsVal a.digits := by
    by_cases hm : rm ≠ 0
    · have hm1 : rm = 1 := by omega
      subst hm1
      rw [if_pos hm]
      have hex := exists_nonzero_of_val_ge rb rk r4 (by rw [r1]; omega)
      obtain ⟨q1, q2, q3, q4, q5⟩ := borrowLoop_spec rb.length rb rk (by omega) r4 hex
      generalize borrowLoop rb rk rb.length = q at *
      obtain ⟨qb, qk⟩ := q
      simp only at q1 q2 q3 q4 q5 ⊢
      refine ⟨_, rfl, digits_ok_set _ _ _ q4 (by have := getD_le_nine qb qk q4; omega), ?_⟩
      have hset := digitsVal_set qb qk (qb.getD qk 0 - 1) (by omega)
      have e : 10 ^ qk * qb.getD qk 0 = 10 ^ qk * (qb.getD qk 0 - 1) + 10 ^ qk := by
        have : qb.getD qk 0 = (qb.getD qk 0 - 1) + 1 := by omega
        conv_lhs => rw [this]
        ring
      rw [r1] at q5
      omega
    · have hm0 : rm = 0 := by omega
      subst hm0
      rw [if_neg hm]
      exact ⟨rb, rfl, r4, by omega⟩
  obtain ⟨b, hbeq, hbok, hbval⟩ := hb
  simp only [hbeq]
  obtain ⟨t1, t2, t3, t4⟩ := trim_spec junk b hbok (by omega)
  exact ⟨_, rfl, rfl, t1, t2, t3, by rw [t4]; exact hbval⟩

/-- The method `abs_sub` on two non-zero numbers returns with two levels of recursion.
The result is valid; it keeps the sign of the operand with the larger magnitude and denotes
the difference of the magnitudes, or is zero when they are equal. -/
theorem abs_sub_spec (fuel : Nat) (al : Alias) (junk : Nat → Nat) (a n : BigInt)
    (ha : a.inv) (hn : (cur al a n).inv) (hsa : a.sign ≠ 0) (hsn : (cur al a n).sign ≠ 0) :
    ∃ r, BigInt.abs_sub (fuel + 2) al junk a n = some r
      ∧ (∀ d ∈ r.digits, d ≤ 9) ∧ r.digits.getLast? ≠ some 0
      ∧ (r.digits = [] ↔ r.sign = 0)
      ∧ (digitsVal (cur al a n).digits < digitsVal a.digits →
          r.sign = a.sign ∧ digitsVal r.digits + digitsVal (cur al a n).digits
            = digitsVal a.digits)
      ∧ (digitsVal a.digits = digitsVal (cur al a n).digits → r = ⟨0, []⟩)
      ∧ (digitsVal a.digits < digitsVal (cur al a n).digits →
          r.sign = (cur al a n).sign ∧ digitsVal r.digits + digitsVal a.digits
            = digitsVal (cur al a n).digits) := by
  rcases absCompare_spec a (cur al a n) ha hn hsa hsn with ⟨hc, hlt, hlen⟩ | ⟨hc, heq⟩ | ⟨hc, hlt⟩
  · obtain ⟨r, h1, h2, h3, h4, h5, h6⟩ := abs_sub_gt (fuel + 1) al junk a n ha hn hc hlt hlen
    refine ⟨r, h1, h3, h5, ?_, fun _ => ⟨h2, h6⟩, fun h => by omega, fun h => by omega⟩
    constructor
    · intro h; exact absurd h h4
    · intro h; rw [h2] at h; exact absurd h hsa
  · refine ⟨⟨0, []⟩, ?_, by simp, by simp, by simp, fun h => ?_, fun _ => rfl, fun h => ?_⟩
    · rw [BigInt.abs_sub]
      simp only [hc]
      rfl
    · rw [heq] at h; omega
    · rw [heq] at h; omega
  · have hc2 : absCompare (cur al a n) a = 1 := by
      rcases absCompare_spec (cur al a n) a hn ha hsn hsa with ⟨h, _, _⟩ | ⟨_, h⟩ | ⟨_, h⟩
      · exact h
      · rw [h] at hlt; omega
      · omega
    have hlen2 : a.digits.length ≤ (cur al a n).digits.length := by
      rcases absCompare_spec (cur al a n) a hn ha hsn hsa with ⟨_, _, h⟩ | ⟨_, h⟩ | ⟨_, h⟩
      · exact h
      · rw [h] at hlt; omega
      · omega
    obtain ⟨r, h1, h2, h3, h4, h5, h6⟩ :=
      abs_sub_gt fuel Alias.distinct junk (cur al a n) a hn ha hc2 hlt hlen2
    refine ⟨r, ?_, h3, h5, ?_, fun h => by omega, fun h => by omega, fun _ => ⟨h2, h6⟩⟩
    · rw [BigInt.abs_sub]
      simp only [hc]
      rw [if_neg (by decide), if_pos (by decide)]
      exact h1
    · constructor
      · intro h; exact absurd h h4
      · intro h; rw [h2] at h; exact absurd h hsn

end AbsSub2

section AddClaim

theorem inv_sign_cases {a : BigInt} (ha : a.inv) (hs : a.sign ≠ 0) :
    a.sign = -1 ∨ a.sign = 1 := by
  rcases ha.1 with h | h | h
  · exact Or.inl h
  · exact absurd h hs
  · exact Or.inr h

theorem inv_of_parts (r : BigInt) (hs : r.sign = -1 ∨ r.sign = 0 ∨ r.sign = 1)
    (hok : ∀ d ∈ r.digits, d ≤ 9) (he : r.digits = [] ↔ r.sign = 0)
    (ht : r.digits.getLast? ≠ some 0) : r.inv := ⟨hs, hok, he, ht⟩

/-- The method `add` on valid operands: it returns, the result is valid and denotes the
sum. -/
theorem add_spec (fuel : Nat) (al : Alias) (junk : Nat → Nat) (a b : BigInt)
    (ha : a.inv) (hb : (cur al a b).inv) :
    ∃ r, BigInt.add (fuel + 2) al junk a b = some r ∧ r.inv
      ∧ r.value = a.value + (cur al a b).value := by
  unfold BigInt.add
  generalize hn0 : cur al a b = n0 at *
  by_cases hsn : n0.sign = 0
  · rw [if_pos hsn]
    exact ⟨a, rfl, ha, by simp [BigInt.value, hsn]⟩
  · rw [if_neg hsn]
    by_cases hsa : a.sign = 0
    · rw [if_pos hsa]
      exact ⟨n0, rfl, hb, by simp [BigInt.value, hsa]⟩
    · rw [if_neg hsa]
      have hca := inv_sign_cases ha hsa
      have hcn := inv_sign_cases hb hsn
      by_cases hprod : a.sign * n0.sign > 0
      · rw [if_pos hprod]
        have hb' : (cur al a b).inv := hn0 ▸ hb
        have hsn' : (cur al a b).sign ≠ 0 := hn0 ▸ hsn
        obtain ⟨s1, s2, s3, s4, s5⟩ := abs_add_spec al junk a b ha hb' hsa hsn'
        rw [hn0] at s5
        refine ⟨_, rfl, inv_of_parts _ (by rw [s1]; exact ha.1) s2
          ⟨fun h => absurd h s3, fun h => by rw [s1] at h; exact absurd h hsa⟩ s4, ?_⟩
        have hsame : n0.sign = a.sign := by
          rcases hca with h1 | h1 <;> rcases hcn with h2 | h2 <;> rw [h1, h2] at hprod <;>
            omega
        unfold BigInt.value
        rw [s1, s5, hsame]
        push_cast
        ring
      · rw [if_neg hprod]
        have hopp : n0.sign = -a.sign := by
          rcases hca with h1 | h1 <;> rcases hcn with h2 | h2 <;> rw [h1, h2] at hprod <;>
            omega
        have hb' : (cur al a b).inv := hn0 ▸ hb
        have hsn' : (cur al a b).sign ≠ 0 := hn0 ▸ hsn
        obtain ⟨r, h1, h2, h3, h4, h5, h6, h7⟩ := abs_sub_spec fuel al junk a b ha hb' hsa hsn'
        rw [hn0] at h5 h6 h7
        refine ⟨r, h1, ?_, ?_⟩
        · refine inv_of_parts r ?_ h2 h4 h3
          rcases Nat.lt_trichotomy (digitsVal n0.digits) (digitsVal a.digits) with h | h | h
          · rw [(h5 h).1]; exact ha.1
          · rw [h6 h.symm]; exact Or.inr (Or.inl rfl)
          · rw [(h7 h).1]; exact hb.1
        · unfold BigInt.value
          rcases Nat.lt_trichotomy (digitsVal n0.digits) (digitsVal a.digits) with h | h | h
          · obtain ⟨e1, e2⟩ := h5 h
            rw [e1, hopp]
            have : (digitsVal a.digits : Int) = digitsVal r.digits + digitsVal n0.digits := by
              exact_mod_cast e2.symm
            rw [this]; ring
          · rw [h6 h.symm, hopp, h]
            simp [digitsVal]
          · obtain ⟨e1, e2⟩ := h7 h
            rw [e1, hopp]
            have : (digitsVal n0.digits : Int) = digitsVal r.digits + digitsVal a.digits := by
              exact_mod_cast e2.symm
            rw [this]; ring

/-- C15: BigInt addition.  For `a` and `b` satisfying the representation invariant,
`a.add(b)` returns (two levels of the recursion in `abs_sub` suffice) and leaves `a`
satisfying the invariant and denoting `value(a) + value(b)`, for every combination of signs
and magnitudes and every content of uninitialised slots; `b` may be another object (which
may share the digit block: it is only read) or `a` itself (`cur al a b` is then `a`),
whether the digit block is uniquely owned or shared. -/
theorem C15_bigint_add (fuel : Nat) (al : Alias) (junk : Nat → Nat) (a b : BigInt)
    (ha : a.inv) (hb : b.inv) :
    ∃ r, BigInt.add (fuel + 2) al junk a b = some r ∧ r.inv
      ∧ r.value = a.value + (cur al a b).value
      ∧ (al = Alias.distinct → r.value = a.value + b.value)
      ∧ (al ≠ Alias.distinct → r.value = a.value + a.value) := by
  have hcur : (cur al a b).inv := by cases al <;> first | exact hb | exact ha
  obtain ⟨r, h1, h2, h3⟩ := add_spec fuel al junk a b ha hcur
  refine ⟨r, h1, h2, h3, fun h => ?_, fun h => ?_⟩
  · subst h; exact h3
  · cases al with
    | distinct => exact absurd rfl h
    | sameBlock => exact h3
    | sameCopied => exact h3

/-- The scenario of the specification, `123 + (-23) = 100`, and `95 + 95 = 190` with the
argument being the object itself. -/
theorem C15_bigint_add_witness :
    (⟨1, [3, 2, 1]⟩ : BigInt).inv ∧ (⟨-1, [3, 2]⟩ : BigInt).inv
    ∧ BigInt.add 2 Alias.distinct (fun _ => 7) ⟨1, [3, 2, 1]⟩ ⟨-1, [3, 2]⟩
        = some ⟨1, [0, 0, 1]⟩
    ∧ BigInt.add 2 Alias.sameBlock (fun _ => 7) ⟨1, [5, 9]⟩ ⟨1, [5, 9]⟩
        = some ⟨1, [0, 9, 1]⟩
    ∧ ∃ r, BigInt.add 2 Alias.distinct (fun _ => 7) ⟨1, [3, 2, 1]⟩ ⟨-1, [3, 2]⟩ = some r
        ∧ r.inv ∧ r.value = 100 := by
  refine ⟨by decide, by decide, by decide, by decide, ?_⟩
  obtain ⟨r, h1, h2, h3, _⟩ :=
    C15_bigint_add 0 Alias.distinct (fun _ => 7) ⟨1, [3, 2, 1]⟩ ⟨-1, [3, 2]⟩
      (by decide) (by decide)
  exact ⟨r, h1, h2, h3.trans (by decide)⟩

end AddClaim

section CmpClaim

theorem inv_val_pos {a : BigInt} (ha : a.inv) (hs : a.sign ≠ 0) : 1 ≤ digitsVal a.digits := by
  have h := inv_val_ge ha hs
  have : 1 ≤ 10 ^ (a.digits.length - 1) := Nat.one_le_pow _ _ (by omega)
  omega

theorem inv_val_zero {a : BigInt} (ha : a.inv) (hs : a.sign = 0) : a.value = 0 := by
  simp [BigInt.value, hs]

/-- For two non-zero numbers of one sign, `cmp` is the sign times the comparison of the
magnitudes. -/
theorem cmp_same_sign (a n : BigInt) (hs : a.sign = n.sign) (hsa : a.sign ≠ 0) :
    a.cmp n = a.sign * absCompare a n := by
  have hsn : n.sign ≠ 0 := hs ▸ hsa
  unfold BigInt.cmp absCompare
  rw [if_neg (by omega), if_neg (by omega), if_neg hsa, if_neg hsa, if_neg hsn]
  by_cases h1 : a.digits.length < n.digits.length
  · rw [if_pos h1, if_neg (by omega), if_pos h1]; ring
  · rw [if_neg h1, if_neg h1]
    by_cases h2 : a.digits.length > n.digits.length
    · rw [if_pos h2, if_pos h2]; ring
    · rw [if_neg h2, if_neg h2]
      simp only []
      split_ifs <;> ring

/-- The method `cmp` orders two valid numbers by the integers they denote. -/
theorem cmp_spec (a n : BigInt) (ha : a.inv) (hn : n.inv) :
    a.cmp n = if a.value < n.value then -1 else if a.value = n.value then 0 else 1 := by
  by_cases hsa : a.sign = 0
  · -- a is zero
    have hva := inv_val_zero ha hsa
    by_cases hsn : n.sign = 0
    · have hvn := inv_val_zero hn hsn
      unfold BigInt.cmp
      rw [if_neg (by omega), if_neg (by omega), if_pos hsa, hva, hvn]
      simp
    · have hp := inv_val_pos hn hsn
      rcases inv_sign_cases hn hsn with h | h
      · have hvn : n.value < 0 := by unfold BigInt.value; rw [h]; omega
        unfold BigInt.cmp
        rw [if_neg (by omega), if_pos (by omega), hva, if_neg (by omega), if_neg (by omega)]
      · have hvn : n.value > 0 := by unfold BigInt.value; rw [h]; omega
        unfold BigInt.cmp
        rw [if_pos (by omega), hva, if_pos (by omega)]
  · have hpa := inv_val_pos ha hsa
    by_cases hsn : n.sign = 0
    · have hvn := inv_val_zero hn hsn
      rcases inv_sign_cases ha hsa with h | h
      · have hva : a.value < 0 := by unfold BigInt.value; rw [h]; omega
        unfold BigInt.cmp
        rw [if_pos (by omega), hvn, if_pos (by omega)]
      · have hva : a.value > 0 := by unfold BigInt.value; rw [h]; omega
        unfold BigInt.cmp
        rw [if_neg (by omega), if_pos (by omega), hvn, if_neg (by omega), if_neg (by omega)]
    · have hpn := inv_val_pos hn hsn
      rcases inv_sign_cases ha hsa with h1 | h1 <;> rcases inv_sign_cases hn hsn with h2 | h2
      · -- both negative
        rw [cmp_same_sign a n (by rw [h1, h2]) hsa]
        unfold BigInt.value
        rw [h1, h2]
        rcases absCompare_spec a n ha hn hsa hsn with ⟨c, hlt, _⟩ | ⟨c, heq⟩ | ⟨c, hlt⟩
        · rw [c, if_pos (by omega)]; rfl
        · rw [c, heq, if_neg (by omega), if_pos rfl]; rfl
        · rw [c, if_neg (by omega), if_neg (by omega)]; rfl
      · -- a negative, n positive
        unfold BigInt.cmp BigInt.value
        rw [h1, h2, if_pos (by decide), if_pos (by omega)]
      · -- a positive, n negative
        unfold BigInt.cmp BigInt.value
        rw [h1, h2, if_neg (by decide), if_pos (by decide), if_neg (by omega),
          if_neg (by omega)]
      · -- both positive
        rw [cmp_same_sign a n (by rw [h1, h2]) hsa]
        unfold BigInt.value
        rw [h1, h2]
        rcases absCompare_spec a n ha hn hsa hsn with ⟨c, hlt, _⟩ | ⟨c, heq⟩ | ⟨c, hlt⟩
        · rw [c, if_neg (by omega), if_neg (by omega)]; rfl
        · rw [c, heq, if_neg (by omega), if_pos rfl]; rfl
        · rw [c, if_pos (by omega)]; rfl

/-- C18: BigInt comparison.  For `a` and `b` satisfying the representation invariant,
`a.cmp(b)` is -1 when `value(a) < value(b)`, 0 when the values are equal and 1 when
`value(a) > value(b)`; so `a.cmp(b) == -b.cmp(a)`, and of two negative numbers the one
with the larger magnitude compares lower. -/
theorem C18_bigint_cmp (a b : BigInt) (ha : a.inv) (hb : b.inv) :
    (a.value < b.value → a.cmp b = -1)
    ∧ (a.value = b.value → a.cmp b = 0)
    ∧ (a.value > b.value → a.cmp b = 1)
    ∧ a.cmp b = -b.cmp a
    ∧ (a.sign = -1 → b.sign = -1 → digitsVal a.digits > digitsVal b.digits →
        a.cmp b = -1) := by
  have h1 := cmp_spec a b ha hb
  have h2 := cmp_spec b a hb ha
  refine ⟨fun h => by rw [h1, if_pos h], fun h => by rw [h1, if_neg (by omega), if_pos h],
    fun h => by rw [h1, if_neg (by omega), if_neg (by omega)], ?_, ?_⟩
  · rw [h1, h2]
    split_ifs <;> omega
  · intro hs1 hs2 hgt
    rw [h1, if_pos]
    unfold BigInt.value
    rw [hs1, hs2]
    omega

/-- Comparing -998001 with -998000, and 42 with itself. -/
theorem C18_bigint_cmp_witness :
    (⟨-1, [1, 0, 0, 8, 9, 9]⟩ : BigInt).inv ∧ (⟨-1, [0, 0, 0, 8, 9, 9]⟩ : BigInt).inv
    ∧ BigInt.cmp ⟨-1, [1, 0, 0, 8, 9, 9]⟩ ⟨-1, [0, 0, 0, 8, 9, 9]⟩ = -1
    ∧ BigInt.cmp ⟨1, [2, 4]⟩ ⟨1, [2, 4]⟩ = 0 := by
  refine ⟨by decide, by decide, ?_, ?_⟩
  · exact (C18_bigint_cmp ⟨-1, [1, 0, 0, 8, 9, 9]⟩ ⟨-1, [0, 0, 0, 8, 9, 9]⟩ (by decide)
      (by decide)).2.2.2.2 rfl rfl (by decide)
  · exact (C18_bigint_cmp ⟨1, [2, 4]⟩ ⟨1, [2, 4]⟩ (by decide) (by decide)).2.1 rfl

end CmpClaim

section SubClaim

theorem inv_neg {a : BigInt} (ha : a.inv) : ({ a with sign := a.sign * -1 } : BigInt).inv := by
  obtain ⟨h1, h2, h3, h4⟩ := ha
  refine ⟨?_, h2, ?_, h4⟩
  · show a.sign * -1 = -1 ∨ a.sign * -1 = 0 ∨ a.sign * -1 = 1
    omega
  · show a.digits = [] ↔ a.sign * -1 = 0
    rw [h3]; omega

/-- The method `sub` on valid operands: it returns, the result is valid and denotes the
difference. -/
theorem sub_spec (fuel : Nat) (al : Alias) (junk : Nat → Nat) (a b : BigInt)
    (ha : a.inv) (hb : (cur al a b).inv) :
    ∃ r, BigInt.sub (fuel + 2) al junk a b = some r ∧ r.inv
      ∧ r.value = a.value - (cur al a b).value
      ∧ (a.sign = (cur al a b).sign →
          digitsVal a.digits = digitsVal (cur al a b).digits → r = ⟨0, []⟩) := by
  unfold BigInt.sub
  by_cases hsn : (cur al a b).sign = 0
  · rw [if_pos hsn]
    refine ⟨a, rfl, ha, by simp [BigInt.value, hsn], fun hs hv => ?_⟩
    have hsa : a.sign = 0 := by rw [hs]; exact hsn
    have hd : a.digits = [] := ha.2.2.1.2 hsa
    cases a
    simp only at hsa hd
    subst hsa hd
    rfl
  · rw [if_neg hsn]
    have hcn := inv_sign_cases hb hsn
    by_cases hsa : a.sign = 0
    · rw [if_pos hsa]
      refine ⟨_, rfl, ?_, ?_, fun hs => absurd (hs ▸ hsa) hsn⟩
      · refine inv_of_parts _ ?_ hb.2.1 ?_ hb.2.2.2
        · show -(cur al a b).sign = -1 ∨ -(cur al a b).sign = 0 ∨ -(cur al a b).sign = 1
          omega
        · show (cur al a b).digits = [] ↔ -(cur al a b).sign = 0
          rw [hb.2.2.1]; omega
      · simp [BigInt.value, hsa]
    · rw [if_neg hsa]
      have hca := inv_sign_cases ha hsa
      by_cases hprod : a.sign * (cur al a b).sign < 0
      · rw [if_pos hprod]
        have hopp : (cur al a b).sign = -a.sign := by
          rcases hca with h1 | h1 <;> rcases hcn with h2 | h2 <;> rw [h1, h2] at hprod <;>
            omega
        obtain ⟨s1, s2, s3, s4, s5⟩ := abs_add_spec al junk a b ha hb hsa hsn
        refine ⟨_, rfl, inv_of_parts _ (by rw [s1]; exact ha.1) s2
          ⟨fun h => absurd h s3, fun h => by rw [s1] at h; exact absurd h hsa⟩ s4, ?_,
          fun hs => by omega⟩
        unfold BigInt.value
        rw [s1, s5, hopp]
        push_cast
        ring
      · rw [if_neg hprod]
        have hsame : (cur al a b).sign = a.sign := by
          rcases hca with h1 | h1 <;> rcases hcn with h2 | h2 <;> rw [h1, h2] at hprod <;>
            omega
        -- the operand as `abs_sub` sees it after `sign *= -1`
        have hn' : (cur al { a with sign := a.sign * -1 } b).inv
            ∧ (cur al { a with sign := a.sign * -1 } b).sign ≠ 0
            ∧ (cur al { a with sign := a.sign * -1 } b).digits = (cur al a b).digits
            ∧ (digitsVal a.digits < digitsVal (cur al a b).digits →
                (cur al { a with sign := a.sign * -1 } b).sign = a.sign) := by
          cases al with
          | distinct => exact ⟨hb, hsn, rfl, fun _ => hsame⟩
          | sameBlock =>
            refine ⟨inv_neg ha, ?_, rfl, fun h => absurd h (Nat.lt_irrefl _)⟩
            show a.sign * -1 ≠ 0
            omega
          | sameCopied =>
            refine ⟨inv_neg ha, ?_, rfl, fun h => absurd h (Nat.lt_irrefl _)⟩
            show a.sign * -1 ≠ 0
            omega
        obtain ⟨k1, k2, k3, k4⟩ := hn'
        obtain ⟨r, h1, h2, h3, h4, h5, h6, h7⟩ :=
          abs_sub_spec fuel al junk { a with sign := a.sign * -1 } b (inv_neg ha) k1
            (by show a.sign * -1 ≠ 0; omega) k2
        rw [k3] at h5 h6 h7
        simp only at h5 h6 h7
        rw [h1]
        simp only []
        refine ⟨_, rfl, ?_, ?_, fun _ hv => ?_⟩
        · refine inv_of_parts _ ?_ h2 ?_ h3
          · show r.sign * -1 = -1 ∨ r.sign * -1 = 0 ∨ r.sign * -1 = 1
            rcases Nat.lt_trichotomy (digitsVal (cur al a b).digits) (digitsVal a.digits)
              with h | h | h
            · rw [(h5 h).1]; omega
            · rw [h6 h.symm]; decide
            · rw [(h7 h).1, k4 h]; omega
          · show r.digits = [] ↔ r.sign * -1 = 0
            rw [h4]; omega
        · show r.sign * -1 * (digitsVal r.digits : Int) = a.value - (cur al a b).value
          unfold BigInt.value
          rw [hsame]
          rcases Nat.lt_trichotomy (digitsVal (cur al a b).digits) (digitsVal a.digits)
            with h | h | h
          · obtain ⟨e1, e2⟩ := h5 h
            rw [e1]
            have : (digitsVal a.digits : Int)
                = digitsVal r.digits + digitsVal (cur al a b).digits := by
              exact_mod_cast e2.symm
            rw [this]; ring
          · rw [h6 h.symm, h]
            simp [digitsVal]
          · obtain ⟨e1, e2⟩ := h7 h
            rw [e1, k4 h]
            have : (digitsVal (cur al a b).digits : Int)
                = digitsVal r.digits + digitsVal a.digits := by
              exact_mod_cast e2.symm
            rw [this]; ring
        · rw [h6 hv]; rfl

/-- C16: BigInt subtraction.  For `a` and `b` satisfying the representation invariant
(`b` possibly `a` itself), `a.sub(b)` returns and leaves `a` satisfying the invariant and
denoting `value(a) - value(b)`, also when `|a| < |b|` with equal signs; for equal
magnitudes and signs the result is zero with sign 0 and no digits; and `(a + b) - b`
denotes `value(a)` and compares equal to `a`. -/
theorem C16_bigint_sub (fuel : Nat) (al : Alias) (junk : Nat → Nat) (a b : BigInt)
    (ha : a.inv) (hb : b.inv) :
    (∃ r, BigInt.sub (fuel + 2) al junk a b = some r ∧ r.inv
      ∧ r.value = a.value - (cur al a b).value
      ∧ (a.sign = (cur al a b).sign →
          digitsVal a.digits = digitsVal (cur al a b).digits → r = ⟨0, []⟩))
    ∧ (∃ r1 r2, BigInt.add (fuel + 2) Alias.distinct junk a b = some r1
        ∧ BigInt.sub (fuel + 2) Alias.distinct junk r1 b = some r2
        ∧ r2.inv ∧ r2.value = a.value ∧ r2.cmp a = 0) := by
  have hcur : (cur al a b).inv := by cases al <;> first | exact hb | exact ha
  refine ⟨sub_spec fuel al junk a b ha hcur, ?_⟩
  obtain ⟨r1, a1, a2, a3⟩ := add_spec fuel Alias.distinct junk a b ha hb
  obtain ⟨r2, s1, s2, s3, _⟩ := sub_spec fuel Alias.distinct junk r1 b a2 hb
  have hval : r2.value = a.value := by
    rw [s3, a3]
    show a.value + b.value - b.value = a.value
    omega
  exact ⟨r1, r2, a1, s1, s2, hval, by rw [cmp_spec r2 a s2 ha, if_neg (by omega), if_pos hval]⟩

/-- Subtractions `100 - 1 = 99`, `1 - 100 = -99`, `5 - 5 = 0` with the argument being the
object itself, and `(123 + (-23)) - (-23) = 123`. -/
theorem C16_bigint_sub_witness :
    (⟨1, [3, 2, 1]⟩ : BigInt).inv ∧ (⟨-1, [3, 2]⟩ : BigInt).inv
    ∧ BigInt.sub 2 Alias.distinct (fun _ => 7) ⟨1, [0, 0, 1]⟩ ⟨1, [1]⟩ = some ⟨1, [9, 9]⟩
    ∧ BigInt.sub 2 Alias.distinct (fun _ => 7) ⟨1, [1]⟩ ⟨1, [0, 0, 1]⟩ = some ⟨-1, [9, 9]⟩
    ∧ BigInt.sub 2 Alias.sameBlock (fun _ => 7) ⟨1, [5]⟩ ⟨1, [5]⟩ = some ⟨0, []⟩
    ∧ ∃ r1 r2, BigInt.add 2 Alias.distinct (fun _ => 7) ⟨1, [3, 2, 1]⟩ ⟨-1, [3, 2]⟩ = some r1
        ∧ BigInt.sub 2 Alias.distinct (fun _ => 7) r1 ⟨-1, [3, 2]⟩ = some r2
        ∧ r2.value = 123 := by
  refine ⟨by decide, by decide, by decide, by decide, by decide, ?_⟩
  obtain ⟨r1, r2, h1, h2, _, h4, _⟩ :=
    (C16_bigint_sub 0 Alias.distinct (fun _ => 7) ⟨1, [3, 2, 1]⟩ ⟨-1, [3, 2]⟩
      (by decide) (by decide)).2
  exact ⟨r1, r2, h1, h2, h4.trans (by decide)⟩

end SubClaim

section Mul

theorem mul_step_algebra (P Q valr val1 val V m' v r q t di nk mem : Nat)
    (ih : valr + Q * m' = val1 + P * 10 * (di * V + q))
    (hset : val1 + P * v = val + P * r)
    (hdm : r + 10 * q = t) (htmp : v + di * nk + mem = t) :
    valr + Q * m' = val + P * (di * (nk + 10 * V) + mem) := by
  have ih' : ((valr + Q * m' : Nat) : Int) = ((val1 + P * 10 * (di * V + q) : Nat) : Int) := by
    rw [ih]
  have hset' : ((val1 + P * v : Nat) : Int) = ((val + P * r : Nat) : Int) := by rw [hset]
  have hdm' : ((r + 10 * q : Nat) : Int) = ((t : Nat) : Int) := by rw [hdm]
  have htmp' : ((v + di * nk + mem : Nat) : Int) = ((t : Nat) : Int) := by rw [htmp]
  have key : ((valr + Q * m' : Nat) : Int)
      = ((val + P * (di * (nk + 10 * V) + mem) : Nat) : Int) := by
    push_cast at ih' hset' hdm' htmp' ⊢
    linear_combination ih' + hset' + (P : Int) * hdm' - (P : Int) * htmp'
  exact_mod_cast key

/-- The inner loop of `mul` adds `di` times `cnt` digits of `nd`, shifted by `i`, into
`vec`; every intermediate sum is at most 99. -/
theorem mulInner_spec (di : Nat) (hdi : di ≤ 9) (nd : List Nat) (hn : ∀ d ∈ nd, d ≤ 9)
    (i cnt : Nat) :
    ∀ (vec : List Nat) (ni memory : Nat), i + ni + cnt ≤ vec.length → memory ≤ 9 →
      (∀ d ∈ vec, d ≤ 9) →
      (mulInner vec di nd i ni memory cnt).2.1 = ni + cnt
      ∧ (mulInner vec di nd i ni memory cnt).1.length = vec.length
      ∧ (mulInner vec di nd i ni memory cnt).2.2 ≤ 9
      ∧ (∀ d ∈ (mulInner vec di nd i ni memory cnt).1, d ≤ 9)
      ∧ digitsVal (mulInner vec di nd i ni memory cnt).1
          + 10 ^ (i + ni + cnt) * (mulInner vec di nd i ni memory cnt).2.2
        = digitsVal vec
          + 10 ^ (i + ni) * (di * digitsVal ((nd.drop ni).take cnt) + memory) := by
  induction cnt with
  | zero =>
    intro vec ni memory hk hm hd
    refine ⟨rfl, rfl, hm, hd, ?_⟩
    simp [mulInner, digitsVal]
  | succ cnt ih =>
    intro vec ni memory hk hm hd
    have hv := getD_le_nine vec (i + ni) hd
    have hnk := getD_le_nine nd ni hn
    have hprod : di * nd.getD ni 0 ≤ 81 := by
      have := Nat.mul_le_mul hdi hnk
      omega
    have hsplit := take_succ_drop nd ni cnt
    rw [mulInner]
    generalize ht : vec.getD (i + ni) 0 + di * nd.getD ni 0 + memory = t
    have ht99 : t ≤ 99 := by omega
    have hmod : t % 256 = t := Nat.mod_eq_of_lt (by omega)
    simp only [hmod]
    obtain ⟨i1, i2, i3, i4, i5⟩ := ih (vec.set (i + ni) (t % 10)) (ni + 1) (t / 10)
      (by rw [List.length_set]; omega) (by omega) (digits_ok_set _ _ _ hd (by omega))
    refine ⟨by rw [i1]; omega, by rw [i2, List.length_set], i3, i4, ?_⟩
    have hset := digitsVal_set vec (i + ni) (t % 10) (by omega)
    have hdm : t % 10 + 10 * (t / 10) = t := Nat.mod_add_div t 10
    have hpow : 10 ^ (i + (ni + 1)) = 10 ^ (i + ni) * 10 := by
      rw [← Nat.add_assoc, pow_succ]
    rw [hsplit, show i + ni + (cnt + 1) = i + (ni + 1) + cnt by omega]
    rw [hpow] at i5
    exact mul_step_algebra _ _ _ _ _ _ _ _ _ _ t _ _ _ i5 hset hdm ht

/-- The carry loop of `mul` adds `memory * 10^ni` into `vec` and stays inside the block
when the sum fits the block. -/
theorem mulCarry_spec (fuel : Nat) :
    ∀ (vec : List Nat) (ni memory : Nat), vec.length ≤ ni + fuel → memory ≤ 9 →
      (∀ d ∈ vec, d ≤ 9) →
      digitsVal vec + 10 ^ ni * memory < 10 ^ vec.length →
      (mulCarry vec ni memory fuel).length = vec.length
      ∧ (∀ d ∈ mulCarry vec ni memory fuel, d ≤ 9)
      ∧ digitsVal (mulCarry vec ni memory fuel) = digitsVal vec + 10 ^ ni * memory := by
  have hin : ∀ (vec : List Nat) (ni memory : Nat), memory ≠ 0 →
      digitsVal vec + 10 ^ ni * memory < 10 ^ vec.length → ni < vec.length := by
    intro vec ni memory hm hfit
    by_contra hc
    have h1 : 10 ^ vec.length ≤ 10 ^ ni := Nat.pow_le_pow_right (by omega) (by omega)
    have h2 : 10 ^ ni ≤ 10 ^ ni * memory := Nat.le_mul_of_pos_right _ (by omega)
    omega
  induction fuel with
  | zero =>
    intro vec ni memory hf hm hd hfit
    have hm0 : memory = 0 := by
      by_contra hc
      have := hin vec ni memory hc hfit
      omega
    subst hm0
    exact ⟨rfl, hd, by simp [mulCarry]⟩
  | succ fuel ih =>
    intro vec ni memory hf hm hd hfit
    rw [mulCarry]
    by_cases hm0 : memory ≠ 0
    · rw [if_pos hm0]
      have hni := hin vec ni memory hm0 hfit
      have hv := getD_le_nine vec ni hd
      generalize ht : vec.getD ni 0 + memory = t
      have hmod : t % 256 = t := Nat.mod_eq_of_lt (by omega)
      simp only [hmod]
      have hset := digitsVal_set vec ni (t % 10) hni
      have hdm : t % 10 + 10 * (t / 10) = t := Nat.mod_add_div t 10
      have hpow : 10 ^ (ni + 1) = 10 ^ ni * 10 := pow_succ 10 ni
      have e1 : 10 ^ ni * t = 10 ^ ni * (t % 10) + 10 ^ ni * 10 * (t / 10) := by
        conv_lhs => rw [← hdm]
        ring
      have e2 : 10 ^ ni * t = 10 ^ ni * vec.getD ni 0 + 10 ^ ni * memory := by
        rw [← ht]; ring
      have htot : digitsVal (vec.set ni (t % 10)) + 10 ^ (ni + 1) * (t / 10)
          = digitsVal vec + 10 ^ ni * memory := by
        rw [hpow]; omega
      obtain ⟨i1, i2, i3⟩ := ih (vec.set ni (t % 10)) (ni + 1) (t / 10)
        (by rw [List.length_set]; omega) (by omega) (digits_ok_set _ _ _ hd (by omega))
        (by rw [List.length_set, htot]; exact hfit)
      exact ⟨by rw [i1, List.length_set], i2, by rw [i3, htot]⟩
    · rw [if_neg hm0]
      have : memory = 0 := by omega
      subst this
      exact ⟨rfl, hd, by simp⟩

/-- The outer loop of `mul`: after `cnt` more rounds `vec` holds the product of the first
`i + cnt` digits of `d` with `nd`. -/
theorem mulOuter_spec (d nd : List Nat) (hd : ∀ x ∈ d, x ≤ 9) (hn : ∀ x ∈ nd, x ≤ 9)
    (cnt : Nat) :
    ∀ (vec : List Nat) (i : Nat), i + cnt ≤ d.length → vec.length = d.length + nd.length →
      (∀ x ∈ vec, x ≤ 9) →
      digitsVal vec = digitsVal (d.take i) * digitsVal nd →
      (mulOuter vec d nd i cnt).length = vec.length
      ∧ (∀ x ∈ mulOuter vec d nd i cnt, x ≤ 9)
      ∧ digitsVal (mulOuter vec d nd i cnt) = digitsVal (d.take (i + cnt)) * digitsVal nd := by
  induction cnt with
  | zero =>
    intro vec i hi hl hv hval
    exact ⟨rfl, hv, hval⟩
  | succ cnt ih =>
    intro vec i hi hl hv hval
    have htake := digitsVal_take_succ d i (by omega)
    rw [mulOuter]
    by_cases h0 : d.getD i 0 = 0
    · rw [if_pos h0]
      obtain ⟨i1, i2, i3⟩ := ih vec (i + 1) (by omega) hl hv
        (by rw [htake, h0, hval]; simp)
      exact ⟨i1, i2, by rw [i3, show i + 1 + cnt = i + (cnt + 1) by omega]⟩
    · rw [if_neg h0]
      have hdi := getD_le_nine d i hd
      obtain ⟨r1, r2, r3, r4, r5⟩ := mulInner_spec (d.getD i 0) hdi nd hn i nd.length vec 0 0
        (by omega) (by omega) hv
      simp only [Nat.add_zero, Nat.zero_add, List.drop_zero, List.take_length] at r1 r5
      generalize mulInner vec (d.getD i 0) nd i 0 0 nd.length = r at *
      obtain ⟨rb, rk, rm⟩ := r
      simp only at r1 r2 r3 r4 r5 ⊢
      have hnew : digitsVal rb + 10 ^ (i + nd.length) * rm
          = digitsVal (d.take (i + 1)) * digitsVal nd := by
        rw [r5, hval, htake]; ring
      have hlt1 := digitsVal_lt (d.take (i + 1)) (digits_ok_take d _ hd)
      have hlt2 := digitsVal_lt nd hn
      rw [List.length_take, Nat.min_eq_left (by omega)] at hlt1
      have hfit : digitsVal rb + 10 ^ (rk + i) * rm < 10 ^ rb.length := by
        rw [r1, Nat.add_comm nd.length i, hnew, r2, hl]
        calc digitsVal (d.take (i + 1)) * digitsVal nd
            < 10 ^ (i + 1) * 10 ^ nd.length := Nat.mul_lt_mul'' hlt1 hlt2
          _ = 10 ^ (i + 1 + nd.length) := (pow_add 10 _ _).symm
          _ ≤ 10 ^ (d.length + nd.length) := Nat.pow_le_pow_right (by omega) (by omega)
      obtain ⟨c1, c2, c3⟩ := mulCarry_spec vec.length rb (rk + i) rm (by rw [r2]; omega) r3 r4
        hfit
      obtain ⟨i1, i2, i3⟩ := ih (mulCarry rb (rk + i) rm vec.length) (i + 1) (by omega)
        (by rw [c1, r2, hl]) c2
        (by rw [c3, r1, Nat.add_comm nd.length i, hnew])
      exact ⟨by rw [i1, c1, r2], i2, by rw [i3, show i + 1 + cnt = i + (cnt + 1) by omega]⟩

end Mul

section MulClaim

theorem digits_ok_replicate_zero (n : Nat) : ∀ x ∈ List.replicate n 0, x ≤ 9 := by
  intro x hx
  rw [(List.mem_replicate.1 hx).2]; omega

/-- The digits that `mul` leaves for two non-zero operands. -/
theorem mul_digits_spec (d nd : List Nat) (hd : ∀ x ∈ d, x ≤ 9) (hn : ∀ x ∈ nd, x ≤ 9)
    (hdne : d ≠ []) (hnne : nd ≠ []) (hdt : d.getLast? ≠ some 0) (hnt : nd.getLast? ≠ some 0) :
    let vec := mulOuter (List.replicate (d.length + nd.length) 0) d nd 0 d.length
    let i := if vec.getD (d.length + nd.length - 1) 0 = 0 then d.length + nd.length - 1
      else d.length + nd.length
    (∀ x ∈ vec.take i, x ≤ 9) ∧ vec.take i ≠ [] ∧ (vec.take i).getLast? ≠ some 0
      ∧ digitsVal (vec.take i) = digitsVal d * digitsVal nd
      ∧ ((vec.take i).length = d.length + nd.length
          ∨ (vec.take i).length = d.length + nd.length - 1) := by
  intro vec i
  have hld : 0 < d.length := List.length_pos.2 hdne
  have hln : 0 < nd.length := List.length_pos.2 hnne
  obtain ⟨m1, m2, m3⟩ := mulOuter_spec d nd hd hn d.length
    (List.replicate (d.length + nd.length) 0) 0 (by omega) (by simp)
    (digits_ok_replicate_zero _) (by simp [digitsVal_replicate_zero, digitsVal])
  rw [List.length_replicate] at m1
  simp only [Nat.zero_add, List.take_length] at m3
  have hvec : vec = mulOuter (List.replicate (d.length + nd.length) 0) d nd 0 d.length := rfl
  rw [← hvec] at m1 m2 m3
  have hge : 10 ^ (d.length + nd.length - 2) ≤ digitsVal vec := by
    rw [m3]
    have h1 := digitsVal_ge_of_top d hdne hdt
    have h2 := digitsVal_ge_of_top nd hnne hnt
    calc 10 ^ (d.length + nd.length - 2)
        = 10 ^ (d.length - 1) * 10 ^ (nd.length - 1) := by
          rw [← pow_add]; congr 1; omega
      _ ≤ digitsVal d * digitsVal nd := Nat.mul_le_mul h1 h2
  by_cases htop : vec.getD (d.length + nd.length - 1) 0 = 0
  · have hi : i = d.length + nd.length - 1 := by
      show (if vec.getD (d.length + nd.length - 1) 0 = 0 then _ else _) = _
      rw [if_pos htop]
    rw [hi]
    have hval : digitsVal (vec.take (d.length + nd.length - 1)) = digitsVal vec := by
      apply digitsVal_take_of_zero
      intro j h1 h2
      have : j = d.length + nd.length - 1 := by omega
      rw [this]; exact htop
    have hlen : (vec.take (d.length + nd.length - 1)).length = d.length + nd.length - 1 := by
      rw [List.length_take, m1]; omega
    have hok := digits_ok_take vec (d.length + nd.length - 1) m2
    refine ⟨hok, List.length_pos.1 (by omega), ?_, by rw [hval, m3], Or.inr hlen⟩
    apply top_of_digitsVal_ge _ hok
    rw [hlen, hval]
    exact hge
  · have hi : i = d.length + nd.length := by
      show (if vec.getD (d.length + nd.length - 1) 0 = 0 then _ else _) = _
      rw [if_neg htop]
    rw [hi]
    have ht : vec.take (d.length + nd.length) = vec := by
      rw [← m1]; exact List.take_length vec
    rw [ht]
    refine ⟨m2, List.length_pos.1 (by omega), ?_, m3, Or.inl m1⟩
    rw [getLast?_eq_getD _ (by omega), m1]
    intro h
    exact htop (Option.some.inj h)

/-- C17: BigInt multiplication.  For `a` and `b` satisfying the representation invariant
(`b` possibly `a` itself), `a.mul(b)` leaves `a` satisfying the invariant and denoting
`value(a) * value(b)`; the sign is the product of the signs; for non-zero operands of `l`
and `nl` digits the result has `l + nl` or `l + nl - 1` digits (with non-zero top digit, by
the invariant); and the result is zero with no digits when either operand is zero. -/
theorem C17_bigint_mul (al : Alias) (a b : BigInt) (ha : a.inv) (hb : b.inv) :
    (a.mul al b).inv
    ∧ (a.mul al b).value = a.value * (cur al a b).value
    ∧ (a.mul al b).sign = a.sign * (cur al a b).sign
    ∧ (a.sign ≠ 0 → (cur al a b).sign ≠ 0 →
        ((a.mul al b).digits.length = a.digits.length + (cur al a b).digits.length
          ∨ (a.mul al b).digits.length = a.digits.length + (cur al a b).digits.length - 1)
        ∧ (a.mul al b).digits.getLast? ≠ some 0)
    ∧ (a.sign = 0 ∨ (cur al a b).sign = 0 → a.mul al b = ⟨0, []⟩) := by
  have hcur : (cur al a b).inv := by cases al <;> first | exact hb | exact ha
  unfold BigInt.mul
  generalize cur al a b = n0 at *
  by_cases hsa : a.sign = 0
  · have hd : a.digits = [] := ha.2.2.1.2 hsa
    have ha0 : a = ⟨0, []⟩ := by
      cases a
      simp only at hsa hd
      subst hsa hd
      rfl
    rw [if_pos hsa]
    refine ⟨ha, by simp [BigInt.value, hsa], by rw [hsa]; simp, fun h => absurd hsa h,
      fun _ => ha0⟩
  · rw [if_neg hsa]
    by_cases hsn : n0.sign = 0
    · rw [if_pos hsn]
      refine ⟨by decide, by simp [BigInt.value, hsn], by rw [hsn]; simp,
        fun _ h => absurd hsn h, fun _ => rfl⟩
    · rw [if_neg hsn]
      obtain ⟨p1, p2, p3, p4, p5⟩ := mul_digits_spec a.digits n0.digits ha.2.1 hcur.2.1
        (inv_nonempty ha hsa) (inv_nonempty hcur hsn) ha.2.2.2 hcur.2.2.2
      simp only at p1 p2 p3 p4 p5 ⊢
      have hsign : a.sign * n0.sign = -1 ∨ a.sign * n0.sign = 1 := by
        rcases inv_sign_cases ha hsa with h1 | h1 <;>
          rcases inv_sign_cases hcur hsn with h2 | h2 <;> rw [h1, h2] <;> decide
      refine ⟨inv_of_parts _ ?_ p1 ⟨fun h => absurd h p2, fun h => ?_⟩ p3, ?_, trivial,
        fun _ _ => ⟨p5, p3⟩, fun h => ?_⟩
      · rcases hsign with h | h
        · exact Or.inl h
        · exact Or.inr (Or.inr h)
      · have h' : a.sign * n0.sign = 0 := h
        omega
      · unfold BigInt.value
        simp only [p4]
        push_cast
        ring
      · rcases h with h | h
        · exact absurd h hsa
        · exact absurd h hsn

/-- The scenario of the specification, `999 * 999 = 998001`; `25 * (-4) = -100`;
`12 * 12 = 144` with the argument being the object itself. -/
theorem C17_bigint_mul_witness :
    (⟨1, [9, 9, 9]⟩ : BigInt).inv
    ∧ BigInt.mul Alias.distinct ⟨1, [9, 9, 9]⟩ ⟨1, [9, 9, 9]⟩ = ⟨1, [1, 0, 0, 8, 9, 9]⟩
    ∧ BigInt.mul Alias.distinct ⟨1, [5, 2]⟩ ⟨-1, [4]⟩ = ⟨-1, [0, 0, 1]⟩
    ∧ BigInt.mul Alias.sameBlock ⟨-1, [2, 1]⟩ ⟨1, [7]⟩ = ⟨1, [4, 4, 1]⟩
    ∧ (BigInt.mul Alias.distinct ⟨1, [9, 9, 9]⟩ ⟨1, [9, 9, 9]⟩).value = 998001 := by
  refine ⟨by decide, by decide, by decide, by decide, ?_⟩
  exact (C17_bigint_mul Alias.distinct ⟨1, [9, 9, 9]⟩ ⟨1, [9, 9, 9]⟩ (by decide)
    (by decide)).2.1.trans (by decide)

end MulClaim

section TextClaims

/-- The character `operator<<` writes for a digit reads back as that digit, and is neither
whitespace nor a sign. -/
theorem digit_char_facts (d : Nat) (hd : d ≤ 9) :
    (Char.ofNat (d ||| 48)).toNat &&& 15 = d
    ∧ isDigitChar (Char.ofNat (d ||| 48)) = true
    ∧ isSpaceChar (Char.ofNat (d ||| 48)) = false
    ∧ Char.ofNat (d ||| 48) ≠ '-' ∧ Char.ofNat (d ||| 48) ≠ '+'
    ∧ ((Char.ofNat (d ||| 48) == '0') = (d == 0)) := by
  interval_cases d <;> decide

theorem isDigitChar_iff (c : Char) : isDigitChar c = true ↔ 48 ≤ c.toNat ∧ c.toNat ≤ 57 := by
  unfold isDigitChar
  simp only [Bool.and_eq_true, decide_eq_true_eq]
  constructor
  · rintro ⟨h1, h2⟩; exact ⟨h1, h2⟩
  · rintro ⟨h1, h2⟩; exact ⟨h1, h2⟩

/-- The digit `*--end & 15` stored for a decimal digit character. -/
theorem digit_value_facts (c : Char) (h : isDigitChar c = true) :
    c.toNat &&& 15 = c.toNat - 48 ∧ c.toNat &&& 15 ≤ 9 ∧ (c.toNat &&& 15 = 0 ↔ c = '0') := by
  obtain ⟨h1, h2⟩ := (isDigitChar_iff c).1 h
  have hc : c = Char.ofNat c.toNat := by simp
  generalize c.toNat = n at *
  subst hc
  interval_cases n <;> decide

/-- The loop of `set_digits` fills the block from index `k` with the digits of the
characters it is given. -/
theorem setDigitsLoop_eq : ∀ (s : List Char) (buf : List Nat) (k : Nat),
    k + s.length = buf.length →
    setDigitsLoop buf k s = buf.take k ++ s.map (fun c => c.toNat &&& 15)
  | [], buf, k, h => by
    rw [setDigitsLoop, List.map_nil, List.append_nil, List.take_of_length_le]
    simp only [List.length_nil] at h; omega
  | c :: rest, buf, k, h => by
    have hk : k < buf.length := by simp only [List.length_cons] at h; omega
    rw [setDigitsLoop, setDigitsLoop_eq rest (buf.set k (c.toNat &&& 15)) (k + 1)
      (by simp only [List.length_cons] at h; rw [List.length_set]; omega)]
    rw [List.take_succ, List.set_take, List.set_eq_of_length_le (by rw [List.length_take]; omega),
      List.getElem?_set_self hk]
    simp

/-- The digits `set_digits` leaves are those of the text, least significant first. -/
theorem set_digits_eq (junk : Nat → Nat) (a : BigInt) (s : List Char) :
    a.set_digits junk s = ⟨a.sign, s.reverse.map (fun c => c.toNat &&& 15)⟩ := by
  unfold BigInt.set_digits
  rw [setDigitsLoop_eq s.reverse _ 0 (by rw [resizeDigits_length, List.length_reverse]; omega)]
  simp

/-- What `set(const char*)` does, in terms of the text after the sign. -/
theorem setStr_eq (junk : Nat → Nat) (a : BigInt) (str : List Char) :
    a.setStr junk str =
      if ((afterSign str).dropWhile (fun c => c == '0')).takeWhile isDigitChar ≠ [] then
        (true, ⟨signOf str, ((((afterSign str).dropWhile (fun c => c == '0')).takeWhile
          isDigitChar).reverse).map (fun c => c.toNat &&& 15)⟩)
      else if (peekChar (afterSign str) == '0') = true then (true, ⟨0, []⟩)
      else (false, a) := by
  unfold BigInt.setStr
  simp only [set_digits_eq]
  rfl

theorem foldl_decimal (l : List Char) : ∀ acc : Nat,
    l.foldl (fun acc c => acc * 10 + (c.toNat - 48)) acc = acc * 10 ^ l.length + decimalValue l := by
  induction l with
  | nil => intro acc; simp [decimalValue]
  | cons c rest ih =>
    intro acc
    unfold decimalValue
    rw [List.foldl_cons, List.foldl_cons, ih, ih (0 * 10 + (c.toNat - 48)), List.length_cons,
      pow_succ]
    ring

theorem decimalValue_cons (c : Char) (rest : List Char) :
    decimalValue (c :: rest) = (c.toNat - 48) * 10 ^ rest.length + decimalValue rest := by
  have h := foldl_decimal rest (0 * 10 + (c.toNat - 48))
  unfold decimalValue at h ⊢
  rw [List.foldl_cons, h]
  simp

/-- The stored digits of a run of digit characters have the value the run spells. -/
theorem digitsVal_reverse_map (l : List Char) (h : ∀ c ∈ l, isDigitChar c = true) :
    digitsVal (l.reverse.map (fun c => c.toNat &&& 15)) = decimalValue l := by
  induction l with
  | nil => simp [digitsVal, decimalValue]
  | cons c rest ih =>
    rw [List.reverse_cons, List.map_append, digitsVal_append, ih (fun x hx => h x (List.mem_cons_of_mem _ hx)),
      decimalValue_cons, List.length_map, List.length_reverse]
    have hc := (digit_value_facts c (h c (List.mem_cons_self _ _))).1
    simp only [List.map_cons, List.map_nil, digitsVal]
    rw [hc]
    ring

/-- Leading zeros do not change the number a run of digits spells. -/
theorem decimalValue_skip_zeros (l : List Char) :
    decimalValue ((l.dropWhile (fun c => c == '0')).takeWhile isDigitChar)
      = decimalValue (l.takeWhile isDigitChar) := by
  induction l with
  | nil => rfl
  | cons c t ih =>
    by_cases hc : c = '0'
    · subst hc
      rw [List.dropWhile_cons_of_pos (by decide), List.takeWhile_cons_of_pos (by decide), ih,
        decimalValue_cons]
      simp
    · rw [List.dropWhile_cons_of_neg (by simpa using hc)]

/-- The run left after the leading zeros starts with a digit that is not `0`. -/
theorem run_head (l : List Char) (c : Char) (r : List Char)
    (h : (l.dropWhile (fun c => c == '0')).takeWhile isDigitChar = c :: r) :
    c ≠ '0' ∧ isDigitChar c = true := by
  have h1 := List.head?_dropWhile_not (fun c => c == '0') l
  cases hd : l.dropWhile (fun c => c == '0') with
  | nil => rw [hd] at h; cases h
  | cons x t =>
    rw [hd] at h h1
    by_cases hx : isDigitChar x = true
    · rw [List.takeWhile_cons_of_pos hx] at h
      injection h with h2 h3
      subst h2
      refine ⟨?_, hx⟩
      intro h0
      subst h0
      simp at h1
    · rw [List.takeWhile_cons_of_neg hx] at h; cases h

/-- A digit follows the sign exactly when there is a non-zero run or a leading zero. -/
theorem digit_follows_iff (l : List Char) :
    isDigitChar (peekChar l) = true ↔
      ((l.dropWhile (fun c => c == '0')).takeWhile isDigitChar ≠ [] ∨ (peekChar l == '0') = true) := by
  cases l with
  | nil => simp [peekChar]; decide
  | cons c t =>
    by_cases hc : c = '0'
    · subst hc
      simp [peekChar]; decide
    · rw [List.dropWhile_cons_of_neg (by simpa using hc)]
      have hp : peekChar (c :: t) = c := rfl
      rw [hp]
      by_cases hx : isDigitChar c = true
      · rw [List.takeWhile_cons_of_pos hx]; simp [hx]
      · rw [List.takeWhile_cons_of_neg hx]; simp [hx, hc]

/-- A run that spells zero consists of zeros only, so nothing is left after them. -/
theorem run_empty_of_zero (l : List Char)
    (h : decimalValue (l.takeWhile isDigitChar) = 0) :
    (l.dropWhile (fun c => c == '0')).takeWhile isDigitChar = [] := by
  cases hr : (l.dropWhile (fun c => c == '0')).takeWhile isDigitChar with
  | nil => rfl
  | cons c r =>
    exfalso
    obtain ⟨h0, hd⟩ := run_head l c r hr
    rw [← decimalValue_skip_zeros, hr, decimalValue_cons] at h
    have hv := digit_value_facts c hd
    have : c.toNat - 48 ≠ 0 := by
      intro h3
      exact h0 (hv.2.2.1 (by rw [hv.1]; exact h3))
    have hp : 0 < 10 ^ r.length := pow_pos (by omega) _
    have := Nat.mul_pos (Nat.pos_of_ne_zero this) hp
    omega

/-- C20: BigInt parsing.  `set(const char*)` returns true exactly when, after the leading
whitespace and at most one `+` or `-`, the next character is a decimal digit.  On true the
new state satisfies the representation invariant and denotes the signed number spelled by
the maximal run of digits, and a run that spells zero gives sign 0 and no digits, also
after `-`.  On false the state is the one before the call. -/
theorem C20_bigint_parse (junk : Nat → Nat) (a : BigInt) (str : List Char) :
    ((a.setStr junk str).1 = true ↔ isDigitChar (peekChar (afterSign str)) = true)
    ∧ ((a.setStr junk str).1 = true →
        (a.setStr junk str).2.inv
        ∧ (a.setStr junk str).2.value
            = signOf str * (decimalValue (digitRun (afterSign str)) : Int)
        ∧ (decimalValue (digitRun (afterSign str)) = 0 →
            (a.setStr junk str).2 = ⟨0, []⟩))
    ∧ ((a.setStr junk str).1 = false → (a.setStr junk str).2 = a) := by
  rw [setStr_eq, digit_follows_iff]
  have hz := run_empty_of_zero (afterSign str)
  have hv := decimalValue_skip_zeros (afterSign str)
  unfold digitRun
  generalize hrun : ((afterSign str).dropWhile (fun c => c == '0')).takeWhile isDigitChar = run
    at hz hv
  have hall : ∀ c ∈ run, isDigitChar c = true := by
    intro c hc
    rw [← hrun] at hc
    exact (List.mem_takeWhile_imp hc)
  by_cases hne : run ≠ []
  · rw [if_pos hne]
    refine ⟨⟨fun _ => Or.inl hne, fun _ => rfl⟩, fun _ => ⟨?_, ?_, ?_⟩, fun h => by cases h⟩
    · -- the invariant
      obtain ⟨c, r, hcr⟩ := List.exists_cons_of_ne_nil hne
      obtain ⟨h0, hd⟩ := run_head (afterSign str) c r (hrun.trans hcr)
      refine inv_of_parts _ ?_ ?_ ?_ ?_
      · show signOf str = -1 ∨ signOf str = 0 ∨ signOf str = 1
        unfold signOf
        split_ifs
        · exact Or.inl rfl
        · exact Or.inr (Or.inr rfl)
      · intro d hdm
        obtain ⟨x, hx, rfl⟩ := List.mem_map.1 hdm
        exact (digit_value_facts x (hall x (List.mem_reverse.1 hx))).2.1
      · show run.reverse.map (fun c => c.toNat &&& 15) = [] ↔ signOf str = 0
        have hs : signOf str ≠ 0 := by
          unfold signOf
          split_ifs <;> decide
        constructor
        · intro h
          exfalso
          rw [List.map_eq_nil_iff, List.reverse_eq_nil_iff] at h
          exact hne h
        · intro h; exact absurd h hs
      · show (run.reverse.map (fun c => c.toNat &&& 15)).getLast? ≠ some 0
        have hl : (run.reverse.map (fun c => c.toNat &&& 15)).getLast?
            = some (c.toNat &&& 15) := by
          rw [hcr]; simp
        rw [hl]
        intro h
        injection h with h
        exact h0 ((digit_value_facts c hd).2.2.1 h)
    · show signOf str * ((digitsVal (run.reverse.map (fun c => c.toNat &&& 15)) : Nat) : Int) = _
      rw [digitsVal_reverse_map run hall, hv]
    · intro h
      exact absurd (hz h) hne
  · have he : run = [] := by
      by_cases h : run = []
      · exact h
      · exact absurd h hne
    rw [if_neg hne]
    by_cases hg : (peekChar (afterSign str) == '0') = true
    · rw [if_pos hg]
      refine ⟨⟨fun _ => Or.inr hg, fun _ => rfl⟩, fun _ => ⟨by decide, ?_, fun _ => rfl⟩,
        fun h => by cases h⟩
      show ((0 : Int) * ((digitsVal [] : Nat) : Int)) = _
      rw [← hv, he]
      simp [decimalValue]
    · rw [if_neg hg]
      refine ⟨⟨fun h => (by cases h), fun h => ?_⟩, fun h => (by cases h), fun _ => rfl⟩
      rcases h with h | h
      · exact absurd h hne
      · exact absurd h hg

/-- The text `operator<<` writes for a valid non-zero number, after its sign. -/
theorem toText_digits (a : BigInt) (ha : a.inv) (hs : a.sign ≠ 0) :
    ∃ c r, a.digits.reverse.map (fun d => Char.ofNat (d ||| 48)) = c :: r
      ∧ (∀ x ∈ c :: r, isDigitChar x = true)
      ∧ c ≠ '0' ∧ isSpaceChar c = false ∧ c ≠ '-' ∧ c ≠ '+'
      ∧ (c :: r).reverse.map (fun c => c.toNat &&& 15) = a.digits := by
  obtain ⟨h1, h2, h3, h4⟩ := ha
  have hne : a.digits ≠ [] := fun h => hs (h3.1 h)
  have hall : ∀ x ∈ a.digits.reverse.map (fun d => Char.ofNat (d ||| 48)),
      isDigitChar x = true := by
    intro x hx
    obtain ⟨d, hd, rfl⟩ := List.mem_map.1 hx
    exact (digit_char_facts d (h2 d (List.mem_reverse.1 hd))).2.1
  have hback : (a.digits.reverse.map (fun d => Char.ofNat (d ||| 48))).reverse.map
      (fun c => c.toNat &&& 15) = a.digits := by
    rw [← List.map_reverse, List.reverse_reverse, List.map_map]
    conv_rhs => rw [← List.map_id a.digits]
    apply List.map_congr_left
    intro d hd
    exact (digit_char_facts d (h2 d hd)).1
  obtain ⟨l, t, hlt⟩ : ∃ l t, a.digits = l ++ [t] := by
    rcases List.eq_nil_or_concat a.digits with h | ⟨l, t, h⟩
    · exact absurd h hne
    · exact ⟨l, t, by rw [h]; simp⟩
  have ht9 : t ≤ 9 := h2 t (by rw [hlt]; simp)
  have ht0 : t ≠ 0 := by
    intro h0
    apply h4
    rw [hlt, h0]; simp
  have hf := digit_char_facts t ht9
  refine ⟨Char.ofNat (t ||| 48), l.reverse.map (fun d => Char.ofNat (d ||| 48)), ?_, ?_, ?_,
    hf.2.2.1, hf.2.2.2.1, hf.2.2.2.2.1, ?_⟩
  · rw [hlt]; simp
  · intro x hx
    apply hall
    rw [hlt]; simpa using hx
  · intro h0
    have := hf.2.2.2.2.2
    rw [h0] at this
    have h5 : (t == 0) = true := by rw [← this]; decide
    exact ht0 (by simpa using h5)
  · have : Char.ofNat (t ||| 48) :: l.reverse.map (fun d => Char.ofNat (d ||| 48))
        = a.digits.reverse.map (fun d => Char.ofNat (d ||| 48)) := by
      rw [hlt]; simp
    rw [this, hback]

/-- C19: BigInt text round trip.  For every `a` satisfying the representation invariant,
`set(const char*)` applied to the text `operator<<` writes for `a` returns true and leaves
the sign and the digit sequence of `a`, whatever the object held before; so `cmp` of the
result with `a` is 0. -/
theorem C19_bigint_round_trip (junk : Nat → Nat) (x a : BigInt) (ha : a.inv) :
    x.setStr junk a.toText = (true, a)
    ∧ (x.setStr junk a.toText).2.sign = a.sign
    ∧ (x.setStr junk a.toText).2.digits = a.digits
    ∧ (x.setStr junk a.toText).2.cmp a = 0 := by
  have key : x.setStr junk a.toText = (true, a) := by
    by_cases hs : a.sign = 0
    · have hd : a.digits = [] := ha.2.2.1.2 hs
      have : a = ⟨0, []⟩ := by
        cases a; simp only at hs hd; rw [hs, hd]
      rw [this]
      rfl
    · obtain ⟨c, r, hcr, hall, h0, hsp, hm, hp, hback⟩ := toText_digits a ha hs
      have hdz : (c :: r).dropWhile (fun c => c == '0') = c :: r :=
        List.dropWhile_cons_of_neg (by simpa using h0)
      have htw : (c :: r).takeWhile isDigitChar = c :: r :=
        List.takeWhile_eq_self_iff.2 hall
      rw [setStr_eq]
      rcases inv_sign_cases ha hs with hneg | hpos
      · have htxt : a.toText = '-' :: c :: r := by
          unfold BigInt.toText
          rw [if_neg hs, if_pos (by omega), hcr]; rfl
        have has : afterSign ('-' :: c :: r) = c :: r := rfl
        have hsg : signOf ('-' :: c :: r) = -1 := rfl
        rw [htxt, has, hsg, hdz, htw, if_pos (by simp), hback]
        cases a; simp only at hneg; rw [hneg]
      · have htxt : a.toText = c :: r := by
          unfold BigInt.toText
          rw [if_neg hs, if_neg (by omega), hcr]; rfl
        have hdsp : (c :: r).dropWhile isSpaceChar = c :: r :=
          List.dropWhile_cons_of_neg (by simp [hsp])
        have has : afterSign (c :: r) = c :: r := by
          unfold afterSign
          rw [hdsp]
          have hpk : peekChar (c :: r) = c := rfl
          rw [hpk, if_neg hm, if_neg hp]
        have hsg : signOf (c :: r) = 1 := by
          unfold signOf
          rw [hdsp]
          have hpk : peekChar (c :: r) = c := rfl
          rw [hpk, if_neg hm]
        rw [htxt, has, hsg, hdz, htw, if_pos (by simp), hback]
        cases a; simp only at hpos; rw [hpos]
  rw [key]
  refine ⟨rfl, rfl, rfl, ?_⟩
  show a.cmp a = 0
  rw [cmp_spec a a ha ha, if_neg (by omega), if_pos rfl]

/-- Writing -998001 and reading it back into an object that held 42. -/
theorem C19_bigint_round_trip_witness :
    (⟨-1, [1, 0, 0, 8, 9, 9]⟩ : BigInt).inv
    ∧ BigInt.toText ⟨-1, [1, 0, 0, 8, 9, 9]⟩ = ['-', '9', '9', '8', '0', '0', '1']
    ∧ BigInt.setStr (fun _ => 7) ⟨1, [2, 4]⟩ (BigInt.toText ⟨-1, [1, 0, 0, 8, 9, 9]⟩)
        = (true, ⟨-1, [1, 0, 0, 8, 9, 9]⟩) :=
  ⟨by decide, by decide,
    (C19_bigint_round_trip (fun _ => 7) ⟨1, [2, 4]⟩ ⟨-1, [1, 0, 0, 8, 9, 9]⟩ (by decide)).1⟩

end TextClaims

section InvariantClaim

/-- The digits `decimalDigits` yields are a valid magnitude of `n`. -/
theorem decimalDigits_spec : ∀ (fuel n : Nat), n ≤ fuel →
    (∀ d ∈ decimalDigits fuel n, d ≤ 9) ∧ (decimalDigits fuel n = [] ↔ n = 0)
      ∧ (decimalDigits fuel n).getLast? ≠ some 0 ∧ digitsVal (decimalDigits fuel n) = n
  | 0, n, h => by
    have : n = 0 := by omega
    subst this
    simp [decimalDigits, digitsVal]
  | fuel + 1, n, h => by
    by_cases hn : n = 0
    · subst hn
      simp [decimalDigits, digitsVal]
    · obtain ⟨h1, h2, h3, h4⟩ := decimalDigits_spec fuel (n / 10) (by omega)
      rw [decimalDigits, if_neg hn]
      refine ⟨?_, ?_, ?_, ?_⟩
      · intro d hd
        rcases List.mem_cons.1 hd with h | h
        · omega
        · exact h1 d h
      · simp [hn]
      · cases hl : decimalDigits fuel (n / 10) with
        | nil =>
          have h0 : n / 10 = 0 := h2.1 hl
          simp only [List.getLast?_singleton, ne_eq, Option.some.injEq]
          omega
        | cons x l =>
          rw [hl] at h3
          rw [List.getLast?_cons_cons]
          exact h3
      · rw [digitsVal, h4]
        omega

theorem ascii_digit_facts (d : Nat) (hd : d ≤ 9) : (Char.ofNat (d + 48)).toNat &&& 15 = d := by
  interval_cases d <;> decide

/-- The digits stored from the text `sprintf` writes for a non-zero number. -/
theorem sprintfLu_digits (num : Nat) (h : num ≠ 0) :
    (sprintfLu num).reverse.map (fun c => c.toNat &&& 15) = decimalDigits num num := by
  unfold sprintfLu
  rw [if_neg h, ← List.map_reverse, List.reverse_reverse, List.map_map]
  conv_rhs => rw [← List.map_id (decimalDigits num num)]
  apply List.map_congr_left
  intro d hd
  exact ascii_digit_facts d ((decimalDigits_spec num num (Nat.le_refl _)).1 d hd)

/-- The method `set(long)` with a non-zero argument leaves a valid object of that value. -/
theorem setLong_spec (junk : Nat → Nat) (a : BigInt) (num : Int) (h : num ≠ 0) :
    (a.setLong junk num).inv ∧ (a.setLong junk num).value = num := by
  have hn : num.natAbs ≠ 0 := by omega
  obtain ⟨h1, h2, h3, h4⟩ := decimalDigits_spec num.natAbs num.natAbs (Nat.le_refl _)
  have he : a.setLong junk num = ⟨if num < 0 then -1 else 1, decimalDigits num.natAbs num.natAbs⟩ := by
    unfold BigInt.setLong
    rw [if_neg h, set_digits_eq]
    show (⟨_, ((sprintfLu num.natAbs).reverse).map _⟩ : BigInt) = _
    rw [sprintfLu_digits _ hn]
  rw [he]
  refine ⟨inv_of_parts _ ?_ h1 ?_ h3, ?_⟩
  · show (if num < 0 then (-1 : Int) else 1) = -1 ∨ (if num < 0 then (-1 : Int) else 1) = 0
      ∨ (if num < 0 then (-1 : Int) else 1) = 1
    split_ifs
    · exact Or.inl rfl
    · exact Or.inr (Or.inr rfl)
  · show decimalDigits num.natAbs num.natAbs = [] ↔ (if num < 0 then (-1 : Int) else 1) = 0
    rw [h2]
    split_ifs
    · constructor
      · intro h0; exact absurd h0 hn
      · intro h0; cases h0
    · constructor
      · intro h0; exact absurd h0 hn
      · intro h0; cases h0
  · show (if num < 0 then (-1 : Int) else 1) * ((digitsVal (decimalDigits num.natAbs num.natAbs) : Nat) : Int) = num
    rw [h4]
    split_ifs <;> omega

/-- The method `set(unsigned long)` with a non-zero argument leaves a valid object of that
value. -/
theorem setULong_spec (junk : Nat → Nat) (a : BigInt) (num : Nat) (h : num ≠ 0) :
    (a.setULong junk num).inv ∧ (a.setULong junk num).value = num := by
  obtain ⟨h1, h2, h3, h4⟩ := decimalDigits_spec num num (Nat.le_refl _)
  have he : a.setULong junk num = ⟨1, decimalDigits num num⟩ := by
    unfold BigInt.setULong
    rw [if_pos h, set_digits_eq, sprintfLu_digits _ h]
  rw [he]
  refine ⟨inv_of_parts _ (Or.inr (Or.inr rfl)) h1 ?_ h3, ?_⟩
  · show decimalDigits num num = [] ↔ (1 : Int) = 0
    rw [h2]
    omega
  · show (1 : Int) * ((digitsVal (decimalDigits num num) : Nat) : Int) = num
    rw [h4]
    omega

/-- A successful `set(const char*)` leaves a valid object, a failed one leaves the object
as it was. -/
theorem setStr_inv (junk : Nat → Nat) (a : BigInt) (str : List Char) :
    (a.setStr junk str).2.inv ∨ (a.setStr junk str).2 = a := by
  rw [setStr_eq]
  generalize hrun : ((afterSign str).dropWhile (fun c => c == '0')).takeWhile isDigitChar = run
  have hall : ∀ c ∈ run, isDigitChar c = true := by
    intro c hc
    rw [← hrun] at hc
    exact (List.mem_takeWhile_imp hc)
  by_cases hne : run ≠ []
  · rw [if_pos hne]
    left
    obtain ⟨c, r, hcr⟩ := List.exists_cons_of_ne_nil hne
    obtain ⟨h0, hd⟩ := run_head (afterSign str) c r (hrun.trans hcr)
    refine inv_of_parts _ ?_ ?_ ?_ ?_
    · show signOf str = -1 ∨ signOf str = 0 ∨ signOf str = 1
      unfold signOf
      split_ifs
      · exact Or.inl rfl
      · exact Or.inr (Or.inr rfl)
    · intro d hdm
      obtain ⟨x, hx, rfl⟩ := List.mem_map.1 hdm
      exact (digit_value_facts x (hall x (List.mem_reverse.1 hx))).2.1
    · show run.reverse.map (fun c => c.toNat &&& 15) = [] ↔ signOf str = 0
      have hs : signOf str ≠ 0 := by
        unfold signOf
        split_ifs <;> decide
      constructor
      · intro h
        exfalso
        rw [List.map_eq_nil_iff, List.reverse_eq_nil_iff] at h
        exact hne h
      · intro h; exact absurd h hs
    · show (run.reverse.map (fun c => c.toNat &&& 15)).getLast? ≠ some 0
      have hl : (run.reverse.map (fun c => c.toNat &&& 15)).getLast?
          = some (c.toNat &&& 15) := by
        rw [hcr]; simp
      rw [hl]
      intro h
      injection h with h
      exact h0 ((digit_value_facts c hd).2.2.1 h)
  · rw [if_neg hne]
    by_cases hg : (peekChar (afterSign str) == '0') = true
    · rw [if_pos hg]
      left
      show (⟨0, []⟩ : BigInt).inv
      decide
    · rw [if_neg hg]
      right
      rfl

theorem signInv_of_inv {a : BigInt} (h : a.inv) : a.signInv := ⟨h.1, fun _ => h⟩

/-- More fuel does not change what `abs_sub` returns. -/
theorem abs_sub_mono : ∀ (fuel : Nat) (al : Alias) (junk : Nat → Nat) (a n r : BigInt),
    BigInt.abs_sub fuel al junk a n = some r → BigInt.abs_sub (fuel + 1) al junk a n = some r
  | 0, al, junk, a, n, r, h => by
    rw [BigInt.abs_sub] at h
    cases h
  | fuel + 1, al, junk, a, n, r, h => by
    rw [BigInt.abs_sub] at h ⊢
    simp only at h ⊢
    by_cases h1 : absCompare a (cur al a n) = 0
    · rw [if_pos h1] at h ⊢; exact h
    · rw [if_neg h1] at h ⊢
      by_cases h2 : absCompare a (cur al a n) = -1
      · rw [if_pos h2] at h ⊢
        exact abs_sub_mono fuel _ junk _ _ r h
      · rw [if_neg h2] at h ⊢; exact h

theorem add_mono (fuel : Nat) (al : Alias) (junk : Nat → Nat) (a n r : BigInt)
    (h : a.add fuel al junk n = some r) : a.add (fuel + 1) al junk n = some r := by
  unfold BigInt.add at h ⊢
  split_ifs at h ⊢
  · exact h
  · exact h
  · exact h
  · exact abs_sub_mono fuel al junk a n r h

theorem sub_mono (fuel : Nat) (al : Alias) (junk : Nat → Nat) (a n r : BigInt)
    (h : a.sub fuel al junk n = some r) : a.sub (fuel + 1) al junk n = some r := by
  unfold BigInt.sub at h ⊢
  split_ifs at h ⊢
  · exact h
  · exact h
  · exact h
  · cases h1 : BigInt.abs_sub fuel al junk { a with sign := a.sign * -1 } n with
    | none => rw [h1] at h; cases h
    | some q =>
      rw [h1] at h
      rw [abs_sub_mono fuel al junk _ n q h1]
      exact h

/-- Every operation keeps the sign in -1, 0, 1 and keeps the digits valid while the sign is
not 0. -/
theorem reachable_signInv {a : BigInt} (h : BigInt.Reachable a) : a.signInv := by
  induction h with
  | ctor => exact signInv_of_inv (by decide)
  | setLong junk a num _ ih =>
    by_cases hn : num = 0
    · subst hn
      exact ⟨Or.inr (Or.inl rfl), fun h => absurd rfl h⟩
    · exact signInv_of_inv (setLong_spec junk a num hn).1
  | setULong junk a num _ ih =>
    by_cases hn : num = 0
    · subst hn
      exact ⟨Or.inr (Or.inl rfl), fun h => absurd rfl h⟩
    · exact signInv_of_inv (setULong_spec junk a num hn).1
  | setStr junk a str _ ih =>
    rcases setStr_inv junk a str with h | h
    · exact signInv_of_inv h
    · rw [h]; exact ih
  | set a n _ _ _ ihn => exact ihn
  | zero a _ _ => exact signInv_of_inv (show (⟨0, []⟩ : BigInt).inv by decide)
  | add fuel al junk a n r _ _ hr iha ihn =>
    have hcur : (cur al a n).signInv := by cases al <;> first | exact ihn | exact iha
    by_cases h1 : (cur al a n).sign = 0
    · unfold BigInt.add at hr
      rw [if_pos h1] at hr
      injection hr with hr
      rw [← hr]; exact iha
    · by_cases h2 : a.sign = 0
      · unfold BigInt.add at hr
        rw [if_neg h1, if_pos h2] at hr
        injection hr with hr
        rw [← hr]; exact hcur
      · obtain ⟨r1, e1, i1, _⟩ := add_spec fuel al junk a n (iha.2 h2) (hcur.2 h1)
        rw [add_mono _ al junk a n r (add_mono fuel al junk a n r hr)] at e1
        injection e1 with e1
        rw [e1]; exact signInv_of_inv i1
  | sub fuel al junk a n r _ _ hr iha ihn =>
    have hcur : (cur al a n).signInv := by cases al <;> first | exact ihn | exact iha
    by_cases h1 : (cur al a n).sign = 0
    · unfold BigInt.sub at hr
      rw [if_pos h1] at hr
      injection hr with hr
      rw [← hr]; exact iha
    · by_cases h2 : a.sign = 0
      · unfold BigInt.sub at hr
        rw [if_neg h1, if_pos h2] at hr
        injection hr with hr
        rw [← hr]
        obtain ⟨c1, c2, c3, c4⟩ := hcur.2 h1
        refine signInv_of_inv ⟨?_, c2, ?_, c4⟩
        · show -(cur al a n).sign = -1 ∨ -(cur al a n).sign = 0 ∨ -(cur al a n).sign = 1
          omega
        · show (cur al a n).digits = [] ↔ -(cur al a n).sign = 0
          rw [c3]; omega
      · obtain ⟨r1, e1, i1, _⟩ := sub_spec fuel al junk a n (iha.2 h2) (hcur.2 h1)
        rw [sub_mono _ al junk a n r (sub_mono fuel al junk a n r hr)] at e1
        injection e1 with e1
        rw [e1]; exact signInv_of_inv i1
  | mul al a n _ _ iha ihn =>
    have hcur : (cur al a n).signInv := by cases al <;> first | exact ihn | exact iha
    unfold BigInt.mul
    generalize cur al a n = n0 at *
    by_cases hsa : a.sign = 0
    · rw [if_pos hsa]; exact iha
    · rw [if_neg hsa]
      by_cases hsn : n0.sign = 0
      · rw [if_pos hsn]; exact signInv_of_inv (by decide)
      · rw [if_neg hsn]
        have ha := iha.2 hsa
        have hn := hcur.2 hsn
        obtain ⟨p1, p2, p3, p4, p5⟩ := mul_digits_spec a.digits n0.digits ha.2.1 hn.2.1
          (inv_nonempty ha hsa) (inv_nonempty hn hsn) ha.2.2.2 hn.2.2.2
        simp only at p1 p2 p3 p4 p5 ⊢
        have hsign : a.sign * n0.sign = -1 ∨ a.sign * n0.sign = 1 := by
          rcases inv_sign_cases ha hsa with h1 | h1 <;>
            rcases inv_sign_cases hn hsn with h2 | h2 <;> rw [h1, h2] <;> decide
        refine signInv_of_inv (inv_of_parts _ ?_ p1 ⟨fun h => absurd h p2, fun h => ?_⟩ p3)
        · rcases hsign with h | h
          · exact Or.inl h
          · exact Or.inr (Or.inr h)
        · have h' : a.sign * n0.sign = 0 := h
          omega
  | neg a _ ih =>
    obtain ⟨i1, i2⟩ := ih
    refine ⟨?_, fun h => ?_⟩
    · show -a.sign = -1 ∨ -a.sign = 0 ∨ -a.sign = 1
      omega
    · have h0 : a.sign ≠ 0 := fun h1 => h (by show -a.sign = 0; omega)
      obtain ⟨c1, c2, c3, c4⟩ := i2 h0
      refine ⟨?_, c2, ?_, c4⟩
      · show -a.sign = -1 ∨ -a.sign = 0 ∨ -a.sign = 1
        omega
      · show a.digits = [] ↔ -a.sign = 0
        rw [c3]; omega
  | abs a _ ih =>
    unfold BigInt.abs
    by_cases hs : a.sign < 0
    · rw [if_pos hs]
      obtain ⟨c1, c2, c3, c4⟩ := ih.2 (by omega)
      refine signInv_of_inv ⟨Or.inr (Or.inr rfl), c2, ?_, c4⟩
      show a.digits = [] ↔ (1 : Int) = 0
      rw [c3]; omega
    · rw [if_neg hs]; exact ih

/-- An operation other than `set(0L)` and `set(0UL)` applied to objects that satisfy the
whole representation invariant yields an object that satisfies it. -/
theorem ops_keep_inv (junk : Nat → Nat) (fuel : Nat) (al : Alias) (a n : BigInt)
    (ha : a.inv) (hn : n.inv) :
    (∀ num : Int, num ≠ 0 → (a.setLong junk num).inv)
    ∧ (∀ num : Nat, num ≠ 0 → (a.setULong junk num).inv)
    ∧ (∀ str, (a.setStr junk str).2.inv)
    ∧ (a.set n).inv ∧ a.zero.inv
    ∧ (∀ r, a.add fuel al junk n = some r → r.inv)
    ∧ (∀ r, a.sub fuel al junk n = some r → r.inv)
    ∧ (a.mul al n).inv ∧ a.neg.inv ∧ a.abs.inv := by
  have hcur : (cur al a n).inv := by cases al <;> first | exact hn | exact ha
  refine ⟨fun num h => (setLong_spec junk a num h).1, fun num h => (setULong_spec junk a num h).1,
    fun str => ?_, hn, (show (⟨0, []⟩ : BigInt).inv by decide), fun r hr => ?_,
    fun r hr => ?_, ?_, ?_, ?_⟩
  · rcases setStr_inv junk a str with h | h
    · exact h
    · rw [h]; exact ha
  · obtain ⟨r1, e1, i1, _⟩ := add_spec fuel al junk a n ha hcur
    rw [add_mono _ al junk a n r (add_mono fuel al junk a n r hr)] at e1
    injection e1 with e1
    rw [e1]; exact i1
  · obtain ⟨r1, e1, i1, _⟩ := sub_spec fuel al junk a n ha hcur
    rw [sub_mono _ al junk a n r (sub_mono fuel al junk a n r hr)] at e1
    injection e1 with e1
    rw [e1]; exact i1
  · unfold BigInt.mul
    generalize cur al a n = n0 at *
    by_cases hsa : a.sign = 0
    · rw [if_pos hsa]; exact ha
    · rw [if_neg hsa]
      by_cases hsn : n0.sign = 0
      · rw [if_pos hsn]; decide
      · rw [if_neg hsn]
        obtain ⟨p1, p2, p3, p4, p5⟩ := mul_digits_spec a.digits n0.digits ha.2.1 hcur.2.1
          (inv_nonempty ha hsa) (inv_nonempty hcur hsn) ha.2.2.2 hcur.2.2.2
        simp only at p1 p2 p3 p4 p5 ⊢
        have hsign : a.sign * n0.sign = -1 ∨ a.sign * n0.sign = 1 := by
          rcases inv_sign_cases ha hsa with h1 | h1 <;>
            rcases inv_sign_cases hcur hsn with h2 | h2 <;> rw [h1, h2] <;> decide
        refine inv_of_parts _ ?_ p1 ⟨fun h => absurd h p2, fun h => ?_⟩ p3
        · rcases hsign with h | h
          · exact Or.inl h
          · exact Or.inr (Or.inr h)
        · have h' : a.sign * n0.sign = 0 := h
          omega
  · obtain ⟨c1, c2, c3, c4⟩ := ha
    refine ⟨?_, c2, ?_, c4⟩
    · show -a.sign = -1 ∨ -a.sign = 0 ∨ -a.sign = 1
      omega
    · show a.digits = [] ↔ -a.sign = 0
      rw [c3]; omega
  · unfold BigInt.abs
    by_cases hs : a.sign < 0
    · rw [if_pos hs]
      obtain ⟨c1, c2, c3, c4⟩ := ha
      refine ⟨Or.inr (Or.inr rfl), c2, ?_, c4⟩
      show a.digits = [] ↔ (1 : Int) = 0
      rw [c3]; omega
    · rw [if_neg hs]; exact ha

/-- C21: BigInt representation invariant.  The invariant does not hold for every reachable
object: after `BigInt a("42"); a.set(0L);` the sign is 0 while the digit array still holds
the digits 2 and 4, because `set(long)` and `set(unsigned long)` assign `sign = 0` without
clearing the digits; the same happens with `set(0UL)`. -/
theorem C21_set_zero_keeps_digits :
    BigInt.Reachable
        (BigInt.setLong (fun _ => 0) (BigInt.setStr (fun _ => 0) ⟨0, []⟩ ['4', '2']).2 0)
    ∧ BigInt.setStr (fun _ => 0) ⟨0, []⟩ ['4', '2'] = (true, ⟨1, [2, 4]⟩)
    ∧ BigInt.setLong (fun _ => 0) ⟨1, [2, 4]⟩ 0 = ⟨0, [2, 4]⟩
    ∧ BigInt.setULong (fun _ => 0) ⟨1, [2, 4]⟩ 0 = ⟨0, [2, 4]⟩
    ∧ ¬ (⟨0, [2, 4]⟩ : BigInt).inv :=
  ⟨BigInt.Reachable.setLong _ _ _ (BigInt.Reachable.setStr _ _ _ BigInt.Reachable.ctor),
    by decide, by decide, by decide, by decide⟩

end InvariantClaim

section SetOrder

theorem default_linear : CmpPolicy.Linear default_cmp_policy := by
  refine ⟨?_, ?_, ?_, ?_, ?_, ?_, ?_, ?_⟩ <;> intros <;>
    simp only [default_cmp_policy, beq_iff_eq, decide_eq_true_eq, decide_eq_false_iff_not,
      beq_eq_false_iff_ne, ne_eq] at * <;> omega

theorem default_exact : CmpPolicy.Exact default_cmp_policy := by
  intro a b h
  simpa [default_cmp_policy] using h

theorem CmpPolicy.Linear.gt_irrefl {cmp : CmpPolicy T} (L : cmp.Linear) (a : T) :
    cmp.gt a a = false := by
  cases h : cmp.gt a a with
  | false => rfl
  | true =>
    have := L.gt_ne a a h
    rw [L.eq_refl a] at this
    cases this

theorem CmpPolicy.Linear.eq_not_gt {cmp : CmpPolicy T} (L : cmp.Linear) {a b : T}
    (h : cmp.eq a b = true) : cmp.gt a b = false ∧ cmp.gt b a = false := by
  constructor
  · cases h1 : cmp.gt a b with
    | false => rfl
    | true => rw [L.gt_ne a b h1] at h; cases h
  · cases h1 : cmp.gt b a with
    | false => rfl
    | true =>
      have h2 := L.eq_symm a b h
      rw [L.gt_ne b a h1] at h2; cases h2

theorem CmpPolicy.Linear.eq_trans {cmp : CmpPolicy T} (L : cmp.Linear) {a b c : T}
    (h1 : cmp.eq a b = true) (h2 : cmp.eq b c = true) : cmp.eq a c = true := by
  cases h : cmp.eq a c with
  | true => rfl
  | false =>
    exfalso
    cases hg : cmp.gt a c with
    | true =>
      have := L.gt_eq a c b hg (L.eq_symm b c h2)
      rw [(L.eq_not_gt h1).1] at this; cases this
    | false =>
      have h3 := L.total a c h hg
      have := L.gt_eq c a b h3 h1
      rw [(L.eq_not_gt h2).2] at this; cases this

/-- An element that compares equal to a smaller one is smaller too. -/
theorem CmpPolicy.Linear.gt_of_eq_right {cmp : CmpPolicy T} (L : cmp.Linear) {a b c : T}
    (h1 : cmp.gt a b = true) (h2 : cmp.eq c b = true) : cmp.gt a c = true :=
  L.gt_eq a b c h1 (L.eq_symm c b h2)

/-- The three cases of a comparison. -/
theorem CmpPolicy.Linear.cases3 {cmp : CmpPolicy T} (L : cmp.Linear) (a b : T) :
    (cmp.gt a b = true ∧ cmp.eq a b = false ∧ cmp.gt b a = false)
    ∨ (cmp.gt a b = false ∧ cmp.eq a b = true ∧ cmp.gt b a = false)
    ∨ (cmp.gt a b = false ∧ cmp.eq a b = false ∧ cmp.gt b a = true) := by
  cases h1 : cmp.gt a b with
  | true => exact Or.inl ⟨rfl, L.gt_ne a b h1, L.gt_asymm a b h1⟩
  | false =>
    cases h2 : cmp.eq a b with
    | true => exact Or.inr (Or.inl ⟨rfl, rfl, (L.eq_not_gt h2).2⟩)
    | false => exact Or.inr (Or.inr ⟨rfl, rfl, L.total a b h2 h1⟩)

theorem getD_eq_getElem_T (l : List T) (i : Nat) (h : i < l.length) :
    l.getD i default = l[i] := by
  rw [List.getD_eq_getElem?_getD, List.getElem?_eq_getElem h]; rfl

theorem getD_mem (l : List T) (i : Nat) (h : i < l.length) : l.getD i default ∈ l := by
  rw [getD_eq_getElem_T l i h]; exact List.getElem_mem h

theorem mem_iff_getD (l : List T) (y : T) :
    y ∈ l ↔ ∃ i, i < l.length ∧ l.getD i default = y := by
  constructor
  · intro h
    obtain ⟨i, hi, he⟩ := List.mem_iff_getElem.1 h
    exact ⟨i, hi, by rw [getD_eq_getElem_T l i hi]; exact he⟩
  · rintro ⟨i, hi, rfl⟩
    exact getD_mem l i hi

theorem mem_take_iff_getD (l : List T) (p : Nat) (y : T) :
    y ∈ l.take p ↔ ∃ i, i < p ∧ i < l.length ∧ l.getD i default = y := by
  rw [mem_iff_getD]
  have key : ∀ i, i < p → i < l.length → (l.take p).getD i default = l.getD i default := by
    intro i h1 h2
    have hlt : i < (l.take p).length := by rw [List.length_take]; omega
    rw [getD_eq_getElem_T (l.take p) i hlt, getD_eq_getElem_T l i h2, List.getElem_take]
  constructor
  · rintro ⟨i, hi, he⟩
    rw [List.length_take] at hi
    exact ⟨i, by omega, by omega, by rw [← key i (by omega) (by omega)]; exact he⟩
  · rintro ⟨i, h1, h2, he⟩
    exact ⟨i, by rw [List.length_take]; omega, by rw [key i h1 h2]; exact he⟩

theorem mem_drop_iff_getD (l : List T) (p : Nat) (y : T) :
    y ∈ l.drop p ↔ ∃ i, p ≤ i ∧ i < l.length ∧ l.getD i default = y := by
  rw [mem_iff_getD]
  have key : ∀ i, p + i < l.length → (l.drop p).getD i default = l.getD (p + i) default := by
    intro i h2
    have hlt : i < (l.drop p).length := by rw [List.length_drop]; omega
    rw [getD_eq_getElem_T (l.drop p) i hlt, getD_eq_getElem_T l (p + i) h2, List.getElem_drop]
  constructor
  · rintro ⟨i, hi, he⟩
    rw [List.length_drop] at hi
    exact ⟨p + i, by omega, by omega, by rw [← key i (by omega)]; exact he⟩
  · rintro ⟨i, h1, h2, he⟩
    refine ⟨i - p, by rw [List.length_drop]; omega, ?_⟩
    rw [key (i - p) (by omega)]
    have : p + (i - p) = i := by omega
    rw [this]; exact he

/-- In an ascending array a later element is greater than an earlier one. -/
theorem asc_getD {cmp : CmpPolicy T} {l : List T} (h : Ascending cmp l) (i j : Nat)
    (hij : i < j) (hj : j < l.length) :
    cmp.gt (l.getD j default) (l.getD i default) = true := by
  rw [getD_eq_getElem_T l j hj, getD_eq_getElem_T l i (by omega)]
  exact (List.pairwise_iff_getElem.1 h) i j (by omega) hj hij

theorem asc_take {cmp : CmpPolicy T} {l : List T} (h : Ascending cmp l) (n : Nat) :
    Ascending cmp (l.take n) :=
  List.Pairwise.sublist (List.take_sublist n l) h

theorem asc_drop {cmp : CmpPolicy T} {l : List T} (h : Ascending cmp l) (n : Nat) :
    Ascending cmp (l.drop n) :=
  List.Pairwise.sublist (List.drop_sublist n l) h

/-- Gluing two ascending arrays when the first lies below the second. -/
theorem asc_append {cmp : CmpPolicy T} {l m : List T} (hl : Ascending cmp l)
    (hm : Ascending cmp m) (h : ∀ x ∈ l, ∀ y ∈ m, cmp.gt y x = true) :
    Ascending cmp (l ++ m) :=
  List.pairwise_append.2 ⟨hl, hm, h⟩

theorem asc_cons {cmp : CmpPolicy T} {x : T} {m : List T}
    (hm : Ascending cmp m) (h : ∀ y ∈ m, cmp.gt y x = true) :
    Ascending cmp (x :: m) :=
  List.pairwise_cons.2 ⟨h, hm⟩

/-- In an ascending array no two elements at different indices compare equal. -/
theorem asc_no_duplicates {cmp : CmpPolicy T} (L : cmp.Linear) {l : List T}
    (h : Ascending cmp l) (i j : Nat) (hi : i < l.length) (hj : j < l.length)
    (he : cmp.eq (l.getD i default) (l.getD j default) = true) : i = j := by
  rcases Nat.lt_trichotomy i j with h1 | h1 | h1
  · have := asc_getD h i j h1 hj
    rw [(L.eq_not_gt he).2] at this; cases this
  · exact h1
  · have := asc_getD h j i h1 hi
    rw [(L.eq_not_gt he).1] at this; cases this

end SetOrder

section SetFind

/-- The binary search: started with everything before `from_` below `x` and everything from
`to_` on above `x`, it reports an element equal to `x` or the insertion point. -/
theorem findLoop_spec {cmp : CmpPolicy T} (L : cmp.Linear) (data : List T) (x : T)
    (hasc : Ascending cmp data) (hlen : data.length < 2147483648) :
    ∀ (fuel from_ to_ : Nat), from_ ≤ to_ → to_ ≤ data.length → to_ - from_ < fuel →
      (∀ i, i < from_ → cmp.gt x (data.getD i default) = true) →
      (∀ i, to_ ≤ i → i < data.length → cmp.gt (data.getD i default) x = true) →
      ((findLoop cmp data x fuel from_ to_).1 = true →
          (findLoop cmp data x fuel from_ to_).2 < data.length
          ∧ cmp.eq (data.getD (findLoop cmp data x fuel from_ to_).2 default) x = true)
      ∧ ((findLoop cmp data x fuel from_ to_).1 = false →
          (findLoop cmp data x fuel from_ to_).2 ≤ data.length
          ∧ (∀ i, i < (findLoop cmp data x fuel from_ to_).2 →
              cmp.gt x (data.getD i default) = true)
          ∧ (∀ i, (findLoop cmp data x fuel from_ to_).2 ≤ i → i < data.length →
              cmp.gt (data.getD i default) x = true)) := by
  intro fuel
  induction fuel with
  | zero => intro from_ to_ _ _ h; omega
  | succ fuel ih =>
    intro from_ to_ h1 h2 h3 hlo hhi
    rw [findLoop]
    by_cases hlt : from_ < to_
    · rw [if_pos hlt]
      have hm : uadd from_ to_ / 2 = (from_ + to_) / 2 := by
        unfold uadd
        rw [Nat.mod_eq_of_lt (by omega)]
      rw [hm]
      have hm1 : from_ ≤ (from_ + to_) / 2 := by omega
      have hm2 : (from_ + to_) / 2 < to_ := by omega
      generalize (from_ + to_) / 2 = middle at hm1 hm2
      rcases L.cases3 (data.getD middle default) x with ⟨c1, c2, c3⟩ | ⟨c1, c2, c3⟩ | ⟨c1, c2, c3⟩
      · rw [if_neg (by rw [c2]; simp), if_pos c1]
        apply ih from_ middle hm1 (by omega) (by omega) hlo
        intro i hi hil
        rcases Nat.eq_or_lt_of_le hi with h | h
        · rw [← h]; exact c1
        · exact L.gt_trans _ _ _ (asc_getD hasc middle i h hil) c1
      · rw [if_pos c2]
        exact ⟨fun _ => ⟨by omega, c2⟩, fun h => by cases h⟩
      · rw [if_neg (by rw [c2]; simp), if_neg (by rw [c1]; simp)]
        apply ih (middle + 1) to_ (by omega) h2 (by omega) _ hhi
        intro i hi
        rcases Nat.eq_or_lt_of_le (Nat.le_of_lt_succ hi) with h | h
        · rw [h]; exact c3
        · exact L.gt_trans _ _ _ c3 (asc_getD hasc i middle h (by omega))
    · rw [if_neg hlt]
      refine ⟨fun h => (by cases h), fun _ => ⟨by omega, hlo, ?_⟩⟩
      intro i hi hil
      exact hhi i (by omega) hil

/-- The method `find` on an ascending array: it reports an element that compares equal, or
the insertion point. -/
theorem find_spec {cmp : CmpPolicy T} (L : cmp.Linear) (arr : List T) (x : T)
    (hasc : Ascending cmp arr) (hlen : arr.length < 2147483648) :
    ((Set.find cmp arr x).1 = true →
        (Set.find cmp arr x).2 < arr.length
        ∧ cmp.eq (arr.getD (Set.find cmp arr x).2 default) x = true)
    ∧ ((Set.find cmp arr x).1 = false →
        (Set.find cmp arr x).2 ≤ arr.length
        ∧ (∀ y ∈ arr.take (Set.find cmp arr x).2, cmp.gt x y = true)
        ∧ (∀ y ∈ arr.drop (Set.find cmp arr x).2, cmp.gt y x = true)) := by
  obtain ⟨h1, h2⟩ := findLoop_spec L arr x hasc hlen (arr.length + 1) 0 arr.length
    (Nat.zero_le _) (Nat.le_refl _) (by omega) (fun i hi => by omega)
    (fun i hi hil => by omega)
  refine ⟨h1, fun hf => ?_⟩
  obtain ⟨a1, a2, a3⟩ := h2 hf
  refine ⟨a1, ?_, ?_⟩
  · intro y hy
    obtain ⟨i, b1, b2, b3⟩ := (mem_take_iff_getD arr _ y).1 hy
    rw [← b3]; exact a2 i b1
  · intro y hy
    obtain ⟨i, b1, b2, b3⟩ := (mem_drop_iff_getD arr _ y).1 hy
    rw [← b3]; exact a3 i b1 b2

/-- The method `exists` decides membership under the policy. -/
theorem exists_iff {cmp : CmpPolicy T} (L : cmp.Linear) (arr : List T) (x : T)
    (hasc : Ascending cmp arr) (hlen : arr.length < 2147483648) :
    Set.exists_ cmp arr x = true ↔ Member cmp arr x := by
  obtain ⟨h1, h2⟩ := find_spec L arr x hasc hlen
  unfold Set.exists_
  constructor
  · intro h
    obtain ⟨a1, a2⟩ := h1 h
    exact ⟨_, getD_mem arr _ a1, a2⟩
  · rintro ⟨y, hy, he⟩
    cases hf : (Set.find cmp arr x).1 with
    | true => rfl
    | false =>
      exfalso
      obtain ⟨a1, a2, a3⟩ := h2 hf
      rw [← List.take_append_drop (Set.find cmp arr x).2 arr, List.mem_append] at hy
      rcases hy with hy | hy
      · have := a2 y hy
        rw [(L.eq_not_gt he).2] at this; cases this
      · have := a3 y hy
        rw [(L.eq_not_gt he).1] at this; cases this

theorem member_append {cmp : CmpPolicy T} (l m : List T) (y : T) :
    Member cmp (l ++ m) y ↔ Member cmp l y ∨ Member cmp m y := by
  unfold Member
  constructor
  · rintro ⟨z, hz, he⟩
    rcases List.mem_append.1 hz with h | h
    · exact Or.inl ⟨z, h, he⟩
    · exact Or.inr ⟨z, h, he⟩
  · rintro (⟨z, hz, he⟩ | ⟨z, hz, he⟩)
    · exact ⟨z, List.mem_append_left _ hz, he⟩
    · exact ⟨z, List.mem_append_right _ hz, he⟩

theorem member_cons {cmp : CmpPolicy T} (x : T) (m : List T) (y : T) :
    Member cmp (x :: m) y ↔ cmp.eq x y = true ∨ Member cmp m y := by
  unfold Member
  constructor
  · rintro ⟨z, hz, he⟩
    rcases List.mem_cons.1 hz with h | h
    · subst h; exact Or.inl he
    · exact Or.inr ⟨z, h, he⟩
  · rintro (he | ⟨z, hz, he⟩)
    · exact ⟨x, List.mem_cons_self _ _, he⟩
    · exact ⟨z, List.mem_cons_of_mem _ hz, he⟩

theorem member_nil {cmp : CmpPolicy T} (y : T) : ¬ Member cmp ([] : List T) y := by
  rintro ⟨z, hz, _⟩
  cases hz

/-- Inserting between the elements below `x` and the elements above `x`. -/
theorem insertAt_spec {cmp : CmpPolicy T} (L : cmp.Linear) (arr : List T) (pos : Nat) (x : T)
    (hasc : Ascending cmp arr)
    (hlo : ∀ y ∈ arr.take pos, cmp.gt x y = true)
    (hhi : ∀ y ∈ arr.drop pos, cmp.gt y x = true) :
    Ascending cmp (insertAt arr pos x)
    ∧ ∀ y, Member cmp (insertAt arr pos x) y ↔ (Member cmp arr y ∨ cmp.eq x y = true) := by
  unfold insertAt
  refine ⟨asc_append (asc_take hasc pos) (asc_cons (asc_drop hasc pos) hhi) ?_, fun y => ?_⟩
  · intro a ha b hb
    rcases List.mem_cons.1 hb with h | h
    · rw [h]; exact hlo a ha
    · exact L.gt_trans _ _ _ (hhi b h) (hlo a ha)
  · rw [member_append, member_cons]
    conv_rhs => rw [← List.take_append_drop pos arr, member_append]
    tauto

/-- The method `add(element)` keeps the array ascending and adds `element` to its
members. -/
theorem add_elem_spec {cmp : CmpPolicy T} (L : cmp.Linear) (arr : List T) (x : T)
    (hasc : Ascending cmp arr) (hlen : arr.length < 2147483648) :
    Ascending cmp (Set.add cmp arr x)
    ∧ ∀ y, Member cmp (Set.add cmp arr x) y ↔ (Member cmp arr y ∨ cmp.eq x y = true) := by
  obtain ⟨h1, h2⟩ := find_spec L arr x hasc hlen
  unfold Set.add
  cases hf : (Set.find cmp arr x).1 with
  | false =>
    rw [if_pos rfl]
    obtain ⟨a1, a2, a3⟩ := h2 hf
    exact insertAt_spec L arr _ x hasc a2 a3
  | true =>
    rw [if_neg (by simp)]
    refine ⟨hasc, fun y => ⟨fun h => Or.inl h, fun h => ?_⟩⟩
    rcases h with h | h
    · exact h
    · obtain ⟨a1, a2⟩ := h1 hf
      exact ⟨_, getD_mem arr _ a1, L.eq_trans a2 h⟩

/-- Erasing the element at `pos` from an ascending array removes exactly the elements that
compare equal to it. -/
theorem eraseIdx_eq_filter {cmp : CmpPolicy T} (L : cmp.Linear) (arr : List T) (pos : Nat)
    (x : T) (hasc : Ascending cmp arr) (hpos : pos < arr.length)
    (he : cmp.eq (arr.getD pos default) x = true) :
    arr.eraseIdx pos = arr.filter (fun y => !cmp.eq y x) := by
  have hsplit : arr = arr.take pos ++ arr.getD pos default :: arr.drop (pos + 1) := by
    rw [getD_eq_getElem_T arr pos hpos]
    conv_lhs => rw [← List.take_append_drop pos arr, List.drop_eq_getElem_cons hpos]
  have h1 : ∀ y ∈ arr.take pos, (!cmp.eq y x) = true := by
    intro y hy
    obtain ⟨i, b1, b2, b3⟩ := (mem_take_iff_getD arr _ y).1 hy
    have hg := asc_getD hasc i pos b1 hpos
    rw [b3] at hg
    cases hq : cmp.eq y x with
    | false => rfl
    | true =>
      exfalso
      have h3 := L.eq_trans hq (L.eq_symm _ _ he)
      rw [(L.eq_not_gt h3).2] at hg; cases hg
  have h2 : ∀ y ∈ arr.drop (pos + 1), (!cmp.eq y x) = true := by
    intro y hy
    obtain ⟨i, b1, b2, b3⟩ := (mem_drop_iff_getD arr _ y).1 hy
    have hg := asc_getD hasc pos i (by omega) b2
    rw [b3] at hg
    cases hq : cmp.eq y x with
    | false => rfl
    | true =>
      exfalso
      have h3 := L.eq_trans hq (L.eq_symm _ _ he)
      rw [(L.eq_not_gt h3).1] at hg; cases hg
  rw [List.eraseIdx_eq_take_drop_succ]
  conv_rhs => rw [hsplit, List.filter_append, List.filter_cons]
  rw [List.filter_eq_self.2 h1, List.filter_eq_self.2 h2, he]
  rfl

/-- The method `sub(element)` removes exactly the elements equal to `element` and keeps the
array ascending. -/
theorem sub_elem_spec {cmp : CmpPolicy T} (L : cmp.Linear) (arr : List T) (x : T)
    (hasc : Ascending cmp arr) (hlen : arr.length < 2147483648) :
    Ascending cmp (Set.sub cmp arr x)
    ∧ Set.sub cmp arr x = arr.filter (fun y => !cmp.eq y x) := by
  obtain ⟨h1, h2⟩ := find_spec L arr x hasc hlen
  have key : Set.sub cmp arr x = arr.filter (fun y => !cmp.eq y x) := by
    unfold Set.sub
    cases hf : (Set.find cmp arr x).1 with
    | true =>
      rw [if_pos rfl]
      obtain ⟨a1, a2⟩ := h1 hf
      exact eraseIdx_eq_filter L arr _ x hasc a1 a2
    | false =>
      rw [if_neg (by simp)]
      symm
      apply List.filter_eq_self.2
      intro y hy
      cases hq : cmp.eq y x with
      | false => rfl
      | true =>
        exfalso
        have := (exists_iff L arr x hasc hlen).2 ⟨y, hy, hq⟩
        unfold Set.exists_ at this
        rw [hf] at this; cases this
  rw [key]
  exact ⟨List.Pairwise.sublist (List.filter_sublist arr) hasc, rfl⟩

theorem member_filter {cmp : CmpPolicy T} (arr : List T) (p : T → Bool) (y : T) :
    Member cmp (arr.filter p) y ↔ ∃ z ∈ arr, p z = true ∧ cmp.eq z y = true := by
  unfold Member
  constructor
  · rintro ⟨z, hz, he⟩
    obtain ⟨h1, h2⟩ := List.mem_filter.1 hz
    exact ⟨z, h1, h2, he⟩
  · rintro ⟨z, h1, h2, he⟩
    exact ⟨z, List.mem_filter.2 ⟨h1, h2⟩, he⟩

/-- C23: Set membership by binary search.  For an array that is strictly ascending under a
linear-order policy (below 2^31 elements) and every `x`: `exists(x)` is true exactly when a
stored element compares equal to `x`; when `find` returns true, `pos` is the index of such an
element; when it returns false, `pos` is the insertion point, with every element before it
less than `x` and every element from it on greater than `x`; `add(x)` keeps the array
ascending and makes `x` a member; `sub(x)` keeps it ascending and removes exactly the
elements that compare equal to `x`. -/
theorem C23_set_find {cmp : CmpPolicy T} (L : cmp.Linear) (arr : List T) (x : T)
    (hasc : Ascending cmp arr) (hlen : arr.length < 2147483648) :
    (Set.exists_ cmp arr x = true ↔ Member cmp arr x)
    ∧ ((Set.find cmp arr x).1 = true →
        (Set.find cmp arr x).2 < arr.length
        ∧ cmp.eq (arr.getD (Set.find cmp arr x).2 default) x = true)
    ∧ ((Set.find cmp arr x).1 = false →
        (Set.find cmp arr x).2 ≤ arr.length
        ∧ (∀ y ∈ arr.take (Set.find cmp arr x).2, cmp.gt x y = true)
        ∧ (∀ y ∈ arr.drop (Set.find cmp arr x).2, cmp.gt y x = true))
    ∧ Ascending cmp (Set.add cmp arr x)
    ∧ (∀ y, Member cmp (Set.add cmp arr x) y ↔ (Member cmp arr y ∨ cmp.eq x y = true))
    ∧ Ascending cmp (Set.sub cmp arr x)
    ∧ Set.sub cmp arr x = arr.filter (fun y => !cmp.eq y x)
    ∧ (∀ y, Member cmp (Set.sub cmp arr x) y ↔ (Member cmp arr y ∧ cmp.eq x y = false)) := by
  obtain ⟨f1, f2⟩ := find_spec L arr x hasc hlen
  obtain ⟨a1, a2⟩ := add_elem_spec L arr x hasc hlen
  obtain ⟨s1, s2⟩ := sub_elem_spec L arr x hasc hlen
  refine ⟨exists_iff L arr x hasc hlen, f1, f2, a1, a2, s1, s2, fun y => ?_⟩
  rw [s2, member_filter]
  constructor
  · rintro ⟨z, h1, h2, h3⟩
    refine ⟨⟨z, h1, h3⟩, ?_⟩
    cases hq : cmp.eq x y with
    | false => rfl
    | true =>
      have := L.eq_trans h3 (L.eq_symm _ _ hq)
      rw [this] at h2; cases h2
  · rintro ⟨⟨z, h1, h3⟩, h4⟩
    refine ⟨z, h1, ?_, h3⟩
    cases hq : cmp.eq z x with
    | false => rfl
    | true =>
      have := L.eq_trans (L.eq_symm _ _ hq) h3
      rw [this] at h4; cases h4

/-- The set 1, 3, 5 of the specification: 3 is found at index 1, 4 is absent with insertion
point 2, adding 4 gives 1, 3, 4, 5 and removing 3 gives 1, 5. -/
theorem C23_set_find_witness :
    Ascending default_cmp_policy [1, 3, 5]
    ∧ Set.find default_cmp_policy [1, 3, 5] 3 = (true, 1)
    ∧ Set.find default_cmp_policy [1, 3, 5] 4 = (false, 2)
    ∧ Set.add default_cmp_policy [1, 3, 5] 4 = [1, 3, 4, 5]
    ∧ Set.sub default_cmp_policy [1, 3, 5] 3 = [1, 5]
    ∧ (Set.exists_ default_cmp_policy [1, 3, 5] 4 = true
        ↔ Member default_cmp_policy [1, 3, 5] 4) :=
  ⟨by decide, by decide, by decide, by decide, by decide,
    (C23_set_find default_linear [1, 3, 5] 4 (by decide) (by decide)).1⟩

end SetFind

section SetUnion

theorem operand_false (arr set : List T) : operand false arr set = set := rfl

theorem operand_true (arr set : List T) : operand true arr set = arr := rfl

theorem resizeElems_length (junk : Nat → T) (l : List T) (n : Nat) :
    (resizeElems junk l n).length = n := by
  simp [resizeElems]

theorem resizeElems_getElem? (junk : Nat → T) (l : List T) (n i : Nat) :
    (resizeElems junk l n)[i]? =
      if i < n then some (if i < l.length then l.getD i default else junk i) else none := by
  unfold resizeElems
  rw [List.getElem?_map]
  by_cases h : i < n
  · rw [List.getElem?_range h, if_pos h]; rfl
  · rw [List.getElem?_eq_none (by simpa using h), if_neg h]; rfl

/-- Enlarging keeps the elements that were there. -/
theorem resizeElems_take (junk : Nat → T) (l : List T) (n : Nat) (h : l.length ≤ n) :
    (resizeElems junk l n).take l.length = l := by
  apply List.ext_getElem?
  intro i
  rw [List.getElem?_take]
  by_cases hi : i < l.length
  · rw [if_pos hi, resizeElems_getElem?, if_pos (by omega), if_pos hi,
      getD_eq_getElem_T l i hi, List.getElem?_eq_getElem hi]
  · rw [if_neg hi, List.getElem?_eq_none (by omega)]

/-- The copy loop overwrites `n` slots from index `it` with the elements of the source from
index `s` on. -/
theorem copyRest_eq (set : List T) : ∀ (n : Nat) (buf : List T) (it s : Nat),
    it + n = buf.length → s + n ≤ set.length →
    copyRest false set n buf it s = buf.take it ++ (set.drop s).take n
  | 0, buf, it, s, h1, h2 => by
    rw [copyRest, List.take_zero, List.append_nil, List.take_of_length_le (by omega)]
  | n + 1, buf, it, s, h1, h2 => by
    have hk : it < buf.length := by omega
    have hs : s < set.length := by omega
    rw [copyRest, copyRest_eq set n _ (it + 1) (s + 1) (by rw [List.length_set]; omega)
      (by omega)]
    rw [List.take_succ, List.set_take, List.set_eq_of_length_le (by rw [List.length_take]; omega),
      List.getElem?_set_self hk, operand_false, List.drop_eq_getElem_cons hs,
      List.take_succ_cons, getD_eq_getElem_T set s hs]
    simp

/-- The elements after `enlargeBy` and the copy loop: the rest of the source is appended. -/
theorem copyRest_resize (junk : Nat → T) (set l : List T) (s : Nat) (hs : s ≤ set.length) :
    copyRest false set (set.length - s) (resizeElems junk l (l.length + (set.length - s)))
      l.length s = l ++ set.drop s := by
  rw [copyRest_eq set _ _ _ _ (by rw [resizeElems_length]) (by omega),
    resizeElems_take junk l _ (by omega), List.take_of_length_le (by rw [List.length_drop])]

/-- The inner loop of the union stops at the first element that is not below `s`. -/
theorem unionSkip_spec (cmp : CmpPolicy T) (data : List T) (s : T) (_size : Nat) :
    ∀ (fuel pos : Nat), pos ≤ _size → _size - pos < fuel →
      pos ≤ unionSkip cmp data s _size fuel pos
      ∧ unionSkip cmp data s _size fuel pos ≤ _size
      ∧ (∀ i, pos ≤ i → i < unionSkip cmp data s _size fuel pos →
          cmp.gt s (data.getD i default) = true)
      ∧ (unionSkip cmp data s _size fuel pos < _size →
          cmp.gt s (data.getD (unionSkip cmp data s _size fuel pos) default) = false) := by
  intro fuel
  induction fuel with
  | zero => intro pos _ h; omega
  | succ fuel ih =>
    intro pos h1 h2
    rw [unionSkip]
    by_cases hc : pos < _size ∧ cmp.gt s (data.getD pos default) = true
    · rw [if_pos hc]
      obtain ⟨a1, a2, a3, a4⟩ := ih (pos + 1) (by omega) (by omega)
      refine ⟨by omega, a2, fun i hi hlt => ?_, a4⟩
      rcases Nat.eq_or_lt_of_le hi with h | h
      · rw [← h]; exact hc.2
      · exact a3 i (by omega) hlt
    · rw [if_neg hc]
      refine ⟨Nat.le_refl _, h1, fun i hi hlt => by omega, fun hlt => ?_⟩
      cases hg : cmp.gt s (data.getD pos default) with
      | false => rfl
      | true => exact absurd ⟨hlt, hg⟩ hc

theorem unionLoop_step (cmp : CmpPolicy T) (same : Bool) (set : List T)
    (s_end fuel : Nat) (arr : List T) (pos _size s_begin : Nat) :
    unionLoop cmp same set s_end (fuel + 1) arr pos _size s_begin =
      if unionSkip cmp arr ((operand same arr set).getD s_begin default) _size (_size + 1) pos
          = _size then
        (arr, unionSkip cmp arr ((operand same arr set).getD s_begin default) _size
          (_size + 1) pos, s_begin)
      else if s_begin + 1 ≠ s_end then
        unionLoop cmp same set s_end fuel
          (if cmp.eq ((operand same arr set).getD s_begin default)
              (arr.getD (unionSkip cmp arr ((operand same arr set).getD s_begin default) _size
                (_size + 1) pos) default) = true then arr
            else insertAt arr (unionSkip cmp arr ((operand same arr set).getD s_begin default)
              _size (_size + 1) pos) ((operand same arr set).getD s_begin default))
          (unionSkip cmp arr ((operand same arr set).getD s_begin default) _size
            (_size + 1) pos + 1)
          (if cmp.eq ((operand same arr set).getD s_begin default)
              (arr.getD (unionSkip cmp arr ((operand same arr set).getD s_begin default) _size
                (_size + 1) pos) default) = true then _size else _size + 1)
          (s_begin + 1)
      else
        (if cmp.eq ((operand same arr set).getD s_begin default)
              (arr.getD (unionSkip cmp arr ((operand same arr set).getD s_begin default) _size
                (_size + 1) pos) default) = true then arr
            else insertAt arr (unionSkip cmp arr ((operand same arr set).getD s_begin default)
              _size (_size + 1) pos) ((operand same arr set).getD s_begin default),
          unionSkip cmp arr ((operand same arr set).getD s_begin default) _size
            (_size + 1) pos + 1, s_begin + 1) := rfl

theorem insertAt_length (arr : List T) (pos : Nat) (x : T) (h : pos ≤ arr.length) :
    (insertAt arr pos x).length = arr.length + 1 := by
  unfold insertAt
  rw [List.length_append, List.length_cons, List.length_take, List.length_drop]
  omega

theorem insertAt_take_succ (arr : List T) (pos : Nat) (x : T) (h : pos ≤ arr.length) :
    (insertAt arr pos x).take (pos + 1) = arr.take pos ++ [x] := by
  unfold insertAt
  have hl : (arr.take pos).length = pos := by rw [List.length_take]; omega
  rw [List.take_append_eq_append_take, hl, List.take_of_length_le (by omega)]
  have : pos + 1 - pos = 1 := by omega
  rw [this]
  rfl

theorem take_succ_getD (arr : List T) (pos : Nat) (h : pos < arr.length) :
    arr.take (pos + 1) = arr.take pos ++ [arr.getD pos default] := by
  rw [List.take_succ, List.getElem?_eq_getElem h, getD_eq_getElem_T arr pos h]
  rfl

theorem drop_getD_cons (arr : List T) (pos : Nat) (h : pos < arr.length) :
    arr.drop pos = arr.getD pos default :: arr.drop (pos + 1) := by
  rw [getD_eq_getElem_T arr pos h]
  exact List.drop_eq_getElem_cons h

/-- The main loop of the union.  Started on ascending arrays with everything before `pos`
below the current element of the argument, it leaves an array that, followed by the rest of
the argument, is ascending and holds the members of both. -/
theorem unionLoop_spec {cmp : CmpPolicy T} (L : cmp.Linear) (set : List T)
    (hset : Ascending cmp set) :
    ∀ (fuel : Nat) (arr : List T) (pos _size s_begin : Nat),
      Ascending cmp arr → _size = arr.length → pos ≤ _size → s_begin < set.length →
      set.length - s_begin ≤ fuel →
      (∀ y ∈ arr.take pos, cmp.gt (set.getD s_begin default) y = true) →
      Ascending cmp ((unionLoop cmp false set set.length fuel arr pos _size s_begin).1
          ++ set.drop (unionLoop cmp false set set.length fuel arr pos _size s_begin).2.2)
      ∧ (∀ y, Member cmp ((unionLoop cmp false set set.length fuel arr pos _size s_begin).1
            ++ set.drop (unionLoop cmp false set set.length fuel arr pos _size s_begin).2.2) y
          ↔ (Member cmp arr y ∨ Member cmp (set.drop s_begin) y))
      ∧ ((unionLoop cmp false set set.length fuel arr pos _size s_begin).2.2 ≠ set.length →
          (unionLoop cmp false set set.length fuel arr pos _size s_begin).2.1
            = (unionLoop cmp false set set.length fuel arr pos _size s_begin).1.length)
      ∧ (unionLoop cmp false set set.length fuel arr pos _size s_begin).2.2 ≤ set.length := by
  intro fuel
  induction fuel with
  | zero => intro arr pos _size s_begin _ _ _ h1 h2; omega
  | succ fuel ih =>
    intro arr pos _size s_begin hasc hsize hpos hs hfuel hlo
    rw [unionLoop_step, operand_false]
    obtain ⟨k1, k2, k3, k4⟩ := unionSkip_spec cmp arr (set.getD s_begin default) _size
      (_size + 1) pos hpos (by omega)
    generalize unionSkip cmp arr (set.getD s_begin default) _size (_size + 1) pos = pos1
      at k1 k2 k3 k4
    generalize hsv : set.getD s_begin default = s at *
    have hlo1 : ∀ y ∈ arr.take pos1, cmp.gt s y = true := by
      intro y hy
      obtain ⟨i, b1, b2, b3⟩ := (mem_take_iff_getD arr _ y).1 hy
      by_cases hi : i < pos
      · exact hlo y ((mem_take_iff_getD arr _ y).2 ⟨i, hi, b2, b3⟩)
      · rw [← b3]; exact k3 i (by omega) b1
    have hrest : ∀ y ∈ set.drop (s_begin + 1), cmp.gt y s = true := by
      intro y hy
      obtain ⟨i, b1, b2, b3⟩ := (mem_drop_iff_getD set _ y).1 hy
      rw [← b3, ← hsv]
      exact asc_getD hset s_begin i (by omega) b2
    have hdrop : set.drop s_begin = s :: set.drop (s_begin + 1) := by
      rw [← hsv]; exact drop_getD_cons set s_begin hs
    by_cases hbreak : pos1 = _size
    · rw [if_pos hbreak]
      simp only []
      refine ⟨?_, fun y => ?_, fun _ => by rw [hbreak, hsize], by omega⟩
      · apply asc_append hasc (asc_drop hset _)
        intro x hx y hy
        have hx1 : cmp.gt s x = true := by
          apply hlo1
          rw [hbreak, hsize, List.take_length]; exact hx
        rw [hdrop] at hy
        rcases List.mem_cons.1 hy with h | h
        · rw [h]; exact hx1
        · exact L.gt_trans _ _ _ (hrest y h) hx1
      · rw [member_append]
    · rw [if_neg hbreak]
      have hp1 : pos1 < arr.length := by omega
      have hng := k4 (by omega)
      -- the array after the optional insertion
      have harr1 : ∃ arr1 size1,
          (if cmp.eq s (arr.getD pos1 default) = true then arr else insertAt arr pos1 s) = arr1
          ∧ (if cmp.eq s (arr.getD pos1 default) = true then _size else _size + 1) = size1
          ∧ Ascending cmp arr1 ∧ size1 = arr1.length ∧ pos1 + 1 ≤ size1
          ∧ (∀ y, Member cmp arr1 y ↔ (Member cmp arr y ∨ cmp.eq s y = true))
          ∧ (∀ y ∈ arr1.take (pos1 + 1), cmp.gt s y = true ∨ cmp.eq s y = true) := by
        by_cases he : cmp.eq s (arr.getD pos1 default) = true
        · refine ⟨arr, _size, by rw [if_pos he], by rw [if_pos he], hasc, hsize, by omega,
            fun y => ⟨fun h => Or.inl h, fun h => ?_⟩, fun y hy => ?_⟩
          · rcases h with h | h
            · exact h
            · exact ⟨_, getD_mem arr pos1 hp1, L.eq_trans (L.eq_symm _ _ he) h⟩
          · rw [take_succ_getD arr pos1 hp1] at hy
            rcases List.mem_append.1 hy with h | h
            · exact Or.inl (hlo1 y h)
            · rw [List.mem_singleton.1 h]; exact Or.inr he
        · have he' : cmp.eq s (arr.getD pos1 default) = false := by
            cases hq : cmp.eq s (arr.getD pos1 default) with
            | false => rfl
            | true => exact absurd hq he
          have hgt : cmp.gt (arr.getD pos1 default) s = true := L.total _ _ he' hng
          have hhi : ∀ y ∈ arr.drop pos1, cmp.gt y s = true := by
            intro y hy
            obtain ⟨i, b1, b2, b3⟩ := (mem_drop_iff_getD arr _ y).1 hy
            rcases Nat.eq_or_lt_of_le b1 with h | h
            · rw [← b3, ← h]; exact hgt
            · rw [← b3]; exact L.gt_trans _ _ _ (asc_getD hasc pos1 i h b2) hgt
          obtain ⟨i1, i2⟩ := insertAt_spec L arr pos1 s hasc hlo1 hhi
          refine ⟨insertAt arr pos1 s, _size + 1, by rw [if_neg he], by rw [if_neg he], i1,
            by rw [insertAt_length arr pos1 s (by omega), hsize], by omega, i2,
            fun y hy => ?_⟩
          rw [insertAt_take_succ arr pos1 s (by omega)] at hy
          rcases List.mem_append.1 hy with h | h
          · exact Or.inl (hlo1 y h)
          · rw [List.mem_singleton.1 h]; exact Or.inr (L.eq_refl s)
      obtain ⟨arr1, size1, e1, e2, q1, q2, q3, q4, q5⟩ := harr1
      rw [e1, e2]
      have hmem : ∀ y, (Member cmp arr1 y ∨ Member cmp (set.drop (s_begin + 1)) y)
          ↔ (Member cmp arr y ∨ Member cmp (set.drop s_begin) y) := by
        intro y
        rw [q4, hdrop, member_cons]
        tauto
      by_cases hend : s_begin + 1 ≠ set.length
      · rw [if_pos hend]
        have hs1 : s_begin + 1 < set.length := by omega
        obtain ⟨r1, r2, r3, r4⟩ := ih arr1 (pos1 + 1) size1 (s_begin + 1) q1 q2 q3 hs1
          (by omega) (by
            intro y hy
            have hnext : cmp.gt (set.getD (s_begin + 1) default) s = true := by
              rw [← hsv]; exact asc_getD hset s_begin (s_begin + 1) (by omega) hs1
            rcases q5 y hy with h | h
            · exact L.gt_trans _ _ _ hnext h
            · exact L.gt_eq _ _ _ hnext h)
        refine ⟨r1, fun y => ?_, r3, r4⟩
        rw [r2, hmem]
      · rw [if_neg hend]
        simp only []
        have hse : s_begin + 1 = set.length := by
          by_cases h : s_begin + 1 = set.length
          · exact h
          · exact absurd h hend
        rw [hse, List.drop_length, List.append_nil]
        refine ⟨q1, fun y => ?_, fun h => absurd rfl h, Nat.le_refl _⟩
        rw [← hmem, hse, List.drop_length]
        constructor
        · intro h; exact Or.inl h
        · rintro (h | h)
          · exact h
          · exact absurd h (member_nil y)

/-- With the object itself as argument the loop of the union finds every element in place
and changes nothing. -/
theorem unionLoop_same {cmp : CmpPolicy T} (L : cmp.Linear) (set arr : List T) :
    ∀ (fuel s_begin : Nat), s_begin < arr.length → arr.length - s_begin ≤ fuel →
      unionLoop cmp true set arr.length fuel arr s_begin arr.length s_begin
        = (arr, arr.length, arr.length) := by
  intro fuel
  induction fuel with
  | zero => intro s_begin h1 h2; omega
  | succ fuel ih =>
    intro s_begin h1 h2
    have hskip : unionSkip cmp arr (arr.getD s_begin default) arr.length (arr.length + 1)
        s_begin = s_begin := by
      rw [unionSkip, if_neg]
      rw [L.gt_irrefl]
      simp
    rw [unionLoop_step, operand_true, hskip, if_neg (by omega), if_pos (L.eq_refl _),
      if_pos (L.eq_refl _)]
    by_cases hend : s_begin + 1 ≠ arr.length
    · rw [if_pos hend]
      exact ih (s_begin + 1) (by omega) (by omega)
    · rw [if_neg hend]
      have : s_begin + 1 = arr.length := by
        by_cases h : s_begin + 1 = arr.length
        · exact h
        · exact absurd h hend
      rw [this]

/-- The union with a distinct argument. -/
theorem addSet_spec {cmp : CmpPolicy T} (L : cmp.Linear) (junk : Nat → T) (a b : List T)
    (ha : Ascending cmp a) (hb : Ascending cmp b) :
    Ascending cmp (Set.addSet cmp false junk a b)
    ∧ ∀ y, Member cmp (Set.addSet cmp false junk a b) y ↔ (Member cmp a y ∨ Member cmp b y) := by
  unfold Set.addSet
  rw [operand_false]
  by_cases hb0 : b.length = 0
  · rw [if_pos hb0]
    have : b = [] := List.length_eq_zero.1 hb0
    subst this
    exact ⟨ha, fun y => ⟨fun h => Or.inl h, fun h => h.elim id (fun h => absurd h (member_nil y))⟩⟩
  · rw [if_neg hb0]
    by_cases ha0 : a.length = 0
    · rw [if_pos ha0]
      have : a = [] := List.length_eq_zero.1 ha0
      subst this
      exact ⟨hb, fun y => ⟨fun h => Or.inr h, fun h => h.elim (fun h => absurd h (member_nil y)) id⟩⟩
    · rw [if_neg ha0]
      obtain ⟨r1, r2, r3, r4⟩ := unionLoop_spec L b hb b.length a 0 a.length 0 ha rfl
        (Nat.zero_le _) (by omega) (by omega) (fun y hy => by simp at hy)
      simp only []
      generalize unionLoop cmp false b b.length b.length a 0 a.length 0 = r at r1 r2 r3 r4
      have hfin : (if r.2.2 ≠ b.length then
            copyRest false b (b.length - r.2.2)
              (resizeElems junk r.1 (r.1.length + (b.length - r.2.2))) r.2.1 r.2.2
          else r.1) = r.1 ++ b.drop r.2.2 := by
        by_cases hq : r.2.2 ≠ b.length
        · rw [if_pos hq, r3 hq, copyRest_resize junk b r.1 r.2.2 r4]
        · rw [if_neg hq]
          have : r.2.2 = b.length := by
            by_cases h : r.2.2 = b.length
            · exact h
            · exact absurd h hq
          rw [this, List.drop_length, List.append_nil]
      rw [hfin]
      refine ⟨r1, fun y => ?_⟩
      rw [r2, List.drop_zero]

/-- The union of an object with itself leaves it as it is. -/
theorem addSet_same {cmp : CmpPolicy T} (L : cmp.Linear) (junk : Nat → T) (a set : List T) :
    Set.addSet cmp true junk a set = a := by
  unfold Set.addSet
  rw [operand_true]
  by_cases ha0 : a.length = 0
  · rw [if_pos ha0]
  · rw [if_neg ha0, if_neg ha0]
    simp only []
    rw [unionLoop_same L set a a.length 0 (by omega) (by omega)]
    simp

/-- Two ascending arrays with the same members agree element by element under the
policy. -/
theorem asc_ext {cmp : CmpPolicy T} (L : cmp.Linear) :
    ∀ (l m : List T), Ascending cmp l → Ascending cmp m →
      (∀ y, Member cmp l y ↔ Member cmp m y) →
      List.Forall₂ (fun x y => cmp.eq x y = true) l m
  | [], [], _, _, _ => List.Forall₂.nil
  | [], y :: ys, _, _, h => by
    exact absurd ((h y).2 ⟨y, List.mem_cons_self _ _, L.eq_refl y⟩) (member_nil y)
  | x :: xs, [], _, _, h => by
    exact absurd ((h x).1 ⟨x, List.mem_cons_self _ _, L.eq_refl x⟩) (member_nil x)
  | x :: xs, y :: ys, hl, hm, h => by
    have hx := List.pairwise_cons.1 hl
    have hy := List.pairwise_cons.1 hm
    have hxy : cmp.eq x y = true := by
      obtain ⟨z, hz, hzx⟩ := (h x).1 ⟨x, List.mem_cons_self _ _, L.eq_refl x⟩
      obtain ⟨w, hw, hwy⟩ := (h y).2 ⟨y, List.mem_cons_self _ _, L.eq_refl y⟩
      rcases List.mem_cons.1 hz with hz1 | hz1
      · rw [hz1] at hzx; exact L.eq_symm _ _ hzx
      · rcases List.mem_cons.1 hw with hw1 | hw1
        · rw [hw1] at hwy; exact hwy
        · exfalso
          have g1 : cmp.gt x y = true := L.eq_gt _ _ _ (L.eq_symm _ _ hzx) (hy.1 z hz1)
          have g2 : cmp.gt y x = true := L.eq_gt _ _ _ (L.eq_symm _ _ hwy) (hx.1 w hw1)
          rw [L.gt_asymm _ _ g1] at g2; cases g2
    refine List.Forall₂.cons hxy (asc_ext L xs ys hx.2 hy.2 (fun t => ?_))
    constructor
    · rintro ⟨w, hw, hwt⟩
      rcases (member_cons y ys t).1 ((h t).1 ⟨w, List.mem_cons_of_mem _ hw, hwt⟩) with h1 | h1
      · exfalso
        have e1 : cmp.eq w x = true := L.eq_trans hwt (L.eq_symm _ _ (L.eq_trans hxy h1))
        have g := hx.1 w hw
        rw [L.gt_ne _ _ g] at e1; cases e1
      · exact h1
    · rintro ⟨w, hw, hwt⟩
      rcases (member_cons x xs t).1 ((h t).2 ⟨w, List.mem_cons_of_mem _ hw, hwt⟩) with h1 | h1
      · exfalso
        have e1 : cmp.eq w y = true := L.eq_trans hwt (L.eq_symm _ _ (L.eq_trans (L.eq_symm _ _ hxy) h1))
        have g := hy.1 w hw
        rw [L.gt_ne _ _ g] at e1; cases e1
      · exact h1

theorem forall2_exact {cmp : CmpPolicy T} (E : cmp.Exact) {l m : List T}
    (h : List.Forall₂ (fun x y => cmp.eq x y = true) l m) : l = m := by
  induction h with
  | nil => rfl
  | cons h1 _ ih => rw [E _ _ h1, ih]

/-- C24: Set union.  For ascending arrays `a` and `b` under a linear-order policy, after
`a.add(b)` the array of `a` is ascending and `x` is a member exactly when it was a member of
`a` or of `b`, also when the argument is the object itself.  `a.add(b)` and `b.add(a)` give
sequences that agree element by element under the policy, and equal sequences when only
identical elements compare equal. -/
theorem C24_set_union {cmp : CmpPolicy T} (L : cmp.Linear) (junk junk2 : Nat → T)
    (same : Bool) (a b : List T) (ha : Ascending cmp a) (hb : Ascending cmp b) :
    Ascending cmp (Set.addSet cmp same junk a b)
    ∧ (∀ x, Member cmp (Set.addSet cmp same junk a b) x
        ↔ (Member cmp a x ∨ Member cmp (operand same a b) x))
    ∧ List.Forall₂ (fun x y => cmp.eq x y = true) (Set.addSet cmp false junk a b)
        (Set.addSet cmp false junk2 b a)
    ∧ (cmp.Exact → Set.addSet cmp false junk a b = Set.addSet cmp false junk2 b a) := by
  obtain ⟨u1, u2⟩ := addSet_spec L junk a b ha hb
  obtain ⟨v1, v2⟩ := addSet_spec L junk2 b a hb ha
  have hf := asc_ext L _ _ u1 v1 (fun y => by rw [u2, v2]; tauto)
  refine ⟨?_, ?_, hf, fun E => forall2_exact E hf⟩
  · cases same
    · exact u1
    · rw [addSet_same L]; exact ha
  · cases same
    · exact u2
    · intro x
      rw [addSet_same L, operand_true]
      tauto

/-- The scenario of the specification: the union of 1, 3, 5 and 3, 4 is 1, 3, 4, 5, in
either order of the operands. -/
theorem C24_set_union_witness :
    Ascending default_cmp_policy [1, 3, 5] ∧ Ascending default_cmp_policy [3, 4]
    ∧ Set.addSet default_cmp_policy false (fun _ => 0) [1, 3, 5] [3, 4] = [1, 3, 4, 5]
    ∧ Set.addSet default_cmp_policy false (fun _ => 0) [3, 4] [1, 3, 5] = [1, 3, 4, 5]
    ∧ Set.addSet default_cmp_policy false (fun _ => 0) [1, 3, 5] [3, 4]
        = Set.addSet default_cmp_policy false (fun _ => 7) [3, 4] [1, 3, 5] :=
  ⟨by decide, by decide, by decide, by decide,
    (C24_set_union default_linear (fun _ => 0) (fun _ => 7) false [1, 3, 5] [3, 4]
      (by decide) (by decide)).2.2.2 default_exact⟩

end SetUnion

section SetMerge

theorem any_iff_member {cmp : CmpPolicy T} (b : List T) (x : T) :
    b.any (fun y => cmp.eq y x) = true ↔ Member cmp b x := by
  unfold Member
  rw [List.any_eq_true]

theorem member_congr {cmp : CmpPolicy T} (L : cmp.Linear) (b : List T) {x z : T}
    (h : cmp.eq z x = true) : Member cmp b z ↔ Member cmp b x := by
  constructor
  · rintro ⟨w, hw, he⟩; exact ⟨w, hw, L.eq_trans he h⟩
  · rintro ⟨w, hw, he⟩; exact ⟨w, hw, L.eq_trans he (L.eq_symm _ _ h)⟩

/-- An element between the part of `b` already passed and the current element of `b` is not
a member of `b`. -/
theorem not_member_of_lt {cmp : CmpPolicy T} (L : cmp.Linear) (b : List T) (s_begin : Nat)
    (d : T) (hb : Ascending cmp b) (hs : s_begin < b.length)
    (hlo : ∀ y ∈ b.take s_begin, cmp.gt d y = true)
    (hgt : cmp.gt (b.getD s_begin default) d = true) : ¬ Member cmp b d := by
  rintro ⟨w, hw, he⟩
  rw [← List.take_append_drop s_begin b, List.mem_append] at hw
  rcases hw with hw | hw
  · have := hlo w hw
    rw [(L.eq_not_gt he).2] at this; cases this
  · obtain ⟨i, b1, b2, b3⟩ := (mem_drop_iff_getD b _ w).1 hw
    have hg : cmp.gt w d = true := by
      rcases Nat.eq_or_lt_of_le b1 with h | h
      · rw [← b3, ← h]; exact hgt
      · rw [← b3]; exact L.gt_trans _ _ _ (asc_getD hb s_begin i h b2) hgt
    rw [(L.eq_not_gt he).1] at hg; cases hg

/-- An element above all of `b` is not a member of `b`. -/
theorem not_member_of_above {cmp : CmpPolicy T} (L : cmp.Linear) (b : List T) (d : T)
    (hlo : ∀ y ∈ b, cmp.gt d y = true) : ¬ Member cmp b d := by
  rintro ⟨w, hw, he⟩
  have := hlo w hw
  rw [(L.eq_not_gt he).2] at this; cases this

theorem mergeInv_data_getD {cmp : CmpPolicy T} {keep : T → Bool} {a b buf : List T}
    {it data s_begin : Nat} (h : MergeInv cmp keep a b buf it data s_begin)
    (hd : data < a.length) : buf.getD data default = a.getD data default := by
  obtain ⟨h1, h2, h3, h4, h5, h6, h7⟩ := h
  have e1 := drop_getD_cons buf data (by omega)
  have e2 := drop_getD_cons a data hd
  rw [h6, e2] at e1
  injection e1 with e1 _
  exact e1.symm

/-- Passing an element of `b` that is below the current element of `a`. -/
theorem mergeInv_advance {cmp : CmpPolicy T} (L : cmp.Linear) {keep : T → Bool}
    {a b buf : List T} {it data s_begin : Nat} (ha : Ascending cmp a)
    (h : MergeInv cmp keep a b buf it data s_begin)
    (hs : s_begin < b.length) (hd : data < a.length)
    (hgt : cmp.gt (a.getD data default) (b.getD s_begin default) = true) :
    MergeInv cmp keep a b buf it data (s_begin + 1) := by
  obtain ⟨h1, h2, h3, h4, h5, h6, h7⟩ := h
  refine ⟨h1, h2, h3, by omega, h5, h6, fun y hy x hx => ?_⟩
  rw [take_succ_getD b s_begin hs] at hy
  rcases List.mem_append.1 hy with hy | hy
  · exact h7 y hy x hx
  · rw [List.mem_singleton.1 hy]
    obtain ⟨i, b1, b2, b3⟩ := (mem_drop_iff_getD a _ x).1 hx
    rcases Nat.eq_or_lt_of_le b1 with e | e
    · rw [← b3, ← e]; exact hgt
    · rw [← b3]; exact L.gt_trans _ _ _ (asc_getD ha data i e b2) hgt

/-- The elements of `b` passed so far, with the current one when it equals the current
element of `a`, lie below the later elements of `a`. -/
theorem below_after_eq {cmp : CmpPolicy T} (L : cmp.Linear) {keep : T → Bool}
    {a b buf : List T} {it data s_begin : Nat} (ha : Ascending cmp a)
    (h : MergeInv cmp keep a b buf it data s_begin)
    (hs : s_begin < b.length) (hd : data < a.length)
    (heq : cmp.eq (a.getD data default) (b.getD s_begin default) = true) :
    ∀ y ∈ b.take (s_begin + 1), ∀ x ∈ a.drop (data + 1), cmp.gt x y = true := by
  obtain ⟨h1, h2, h3, h4, h5, h6, h7⟩ := h
  intro y hy x hx
  obtain ⟨i, b1, b2, b3⟩ := (mem_drop_iff_getD a _ x).1 hx
  have hxd : cmp.gt x (a.getD data default) = true := by
    rw [← b3]; exact asc_getD ha data i (by omega) b2
  rw [take_succ_getD b s_begin hs] at hy
  rcases List.mem_append.1 hy with hy | hy
  · exact h7 y hy x ((mem_drop_iff_getD a _ x).2 ⟨i, by omega, b2, b3⟩)
  · rw [List.mem_singleton.1 hy]
    exact L.gt_eq _ _ _ hxd heq

theorem below_after_lt {cmp : CmpPolicy T} {keep : T → Bool}
    {a b buf : List T} {it data s_begin : Nat}
    (h : MergeInv cmp keep a b buf it data s_begin) :
    ∀ y ∈ b.take s_begin, ∀ x ∈ a.drop (data + 1), cmp.gt x y = true := by
  obtain ⟨h1, h2, h3, h4, h5, h6, h7⟩ := h
  intro y hy x hx
  obtain ⟨i, b1, b2, b3⟩ := (mem_drop_iff_getD a _ x).1 hx
  exact h7 y hy x ((mem_drop_iff_getD a _ x).2 ⟨i, by omega, b2, b3⟩)

/-- Leaving out the current element of `a`. -/
theorem mergeInv_skip {cmp : CmpPolicy T} {keep : T → Bool}
    {a b buf : List T} {it data s_begin s1 : Nat}
    (h : MergeInv cmp keep a b buf it data s_begin) (hd : data < a.length)
    (hk : keep (a.getD data default) = false) (hs1 : s1 ≤ b.length)
    (hbelow : ∀ y ∈ b.take s1, ∀ x ∈ a.drop (data + 1), cmp.gt x y = true) :
    MergeInv cmp keep a b buf it (data + 1) s1 := by
  obtain ⟨h1, h2, h3, h4, h5, h6, h7⟩ := h
  refine ⟨h1, by omega, by omega, hs1, ?_, ?_, hbelow⟩
  · rw [take_succ_getD a data hd, List.filter_append, h5,
      List.filter_cons_of_neg (by rw [hk]; simp), List.filter_nil, List.append_nil]
  · have e1 := drop_getD_cons buf data (by omega)
    have e2 := drop_getD_cons a data hd
    rw [h6, e2] at e1
    injection e1 with _ e1
    exact e1.symm

/-- Storing the current element of `a` at `it`:
`if (it!=data) *it = *data; ++it; ++data;`. -/
theorem mergeInv_store {cmp : CmpPolicy T} {keep : T → Bool}
    {a b buf : List T} {it data s_begin s1 : Nat}
    (h : MergeInv cmp keep a b buf it data s_begin) (hd : data < a.length)
    (hk : keep (a.getD data default) = true) (hs1 : s1 ≤ b.length)
    (hbelow : ∀ y ∈ b.take s1, ∀ x ∈ a.drop (data + 1), cmp.gt x y = true) :
    MergeInv cmp keep a b (if it ≠ data then buf.set it (buf.getD data default) else buf)
      (it + 1) (data + 1) s1 := by
  have hbd := mergeInv_data_getD h hd
  obtain ⟨h1, h2, h3, h4, h5, h6, h7⟩ := h
  have hrest : buf.drop (data + 1) = a.drop (data + 1) := by
    have e1 := drop_getD_cons buf data (by omega)
    have e2 := drop_getD_cons a data hd
    rw [h6, e2] at e1
    injection e1 with _ e1
    exact e1.symm
  have hf : (a.take (data + 1)).filter keep = (a.take data).filter keep ++ [a.getD data default] := by
    rw [take_succ_getD a data hd, List.filter_append, List.filter_cons_of_pos hk,
      List.filter_nil]
  by_cases hne : it ≠ data
  · rw [if_pos hne]
    have hlt : it < data := by omega
    refine ⟨by rw [List.length_set]; exact h1, by omega, by omega, hs1, ?_, ?_, hbelow⟩
    · rw [hf, ← h5, List.take_succ, List.set_take,
        List.set_eq_of_length_le (by rw [List.length_take]; omega),
        List.getElem?_set_self (by omega), hbd]
      rfl
    · rw [List.drop_set_of_lt _ _ (by omega), hrest]
  · rw [if_neg hne]
    have he : it = data := by
      by_cases h : it = data
      · exact h
      · exact absurd h hne
    refine ⟨h1, by omega, by omega, hs1, ?_, hrest, hbelow⟩
    rw [hf, ← h5, he, take_succ_getD buf data (by omega), hbd]

/-- The loop `while (data!=data_end) *it++ = *data++;` moves the rest of the block down. -/
theorem moveDown_spec : ∀ (n : Nat) (buf : List T) (it data : Nat),
    it ≤ data → data + n = buf.length →
    (moveDown n buf it data).2 = it + n
    ∧ (moveDown n buf it data).1.length = buf.length
    ∧ (moveDown n buf it data).1.take (it + n) = buf.take it ++ buf.drop data
  | 0, buf, it, data, h1, h2 => by
    refine ⟨rfl, rfl, ?_⟩
    rw [moveDown, List.drop_of_length_le (by omega)]
    simp
  | n + 1, buf, it, data, h1, h2 => by
    obtain ⟨a1, a2, a3⟩ := moveDown_spec n (buf.set it (buf.getD data default)) (it + 1)
      (data + 1) (by omega) (by rw [List.length_set]; omega)
    rw [moveDown]
    refine ⟨by rw [a1]; omega, by rw [a2, List.length_set], ?_⟩
    have e : it + (n + 1) = it + 1 + n := by omega
    rw [e, a3, List.take_succ, List.set_take,
      List.set_eq_of_length_le (by rw [List.length_take]; omega),
      List.getElem?_set_self (by omega), List.drop_set_of_lt _ _ (by omega),
      drop_getD_cons buf data (by omega)]
    simp

theorem shrinkByElems_eq (buf : List T) (len m : Nat) (h1 : buf.length = len) (h2 : m ≤ len) :
    shrinkByElems buf (len - m) = buf.take m := by
  unfold shrinkByElems
  by_cases h : len - m ≥ buf.length
  · rw [if_pos h]
    have : m = 0 := by omega
    rw [this, List.take_zero]
  · rw [if_neg h]
    congr 1
    omega

/-- At the end of a merge loop the elements of `a` still to come are not members of `b`. -/
theorem mergeInv_exit {cmp : CmpPolicy T} (L : cmp.Linear) {keep : T → Bool}
    {a b buf : List T} {it data s_begin : Nat}
    (h : MergeInv cmp keep a b buf it data s_begin)
    (hx : s_begin = b.length ∨ data = a.length) :
    ∀ x ∈ a.drop data, ¬ Member cmp b x := by
  obtain ⟨h1, h2, h3, h4, h5, h6, h7⟩ := h
  intro x hxm
  rcases hx with e | e
  · apply not_member_of_above L
    intro y hy
    apply h7 y _ x hxm
    rw [e, List.take_length]; exact hy
  · rw [e, List.drop_length] at hxm
    cases hxm

end SetMerge

section SetDifference

theorem complementLoop_gt (cmp : CmpPolicy T) (same : Bool) (set : List T)
    (s_end data_end fuel : Nat) (buf : List T) (it data s_begin : Nat)
    (h : cmp.gt (buf.getD data default) ((operand same buf set).getD s_begin default) = true) :
    complementLoop cmp same set s_end data_end (fuel + 1) buf it data s_begin =
      if s_begin + 1 ≠ s_end ∧ data ≠ data_end then
        complementLoop cmp same set s_end data_end fuel buf it data (s_begin + 1)
      else (buf, it, data, s_begin + 1) := by
  rw [complementLoop]
  simp only [h, if_true]

theorem complementLoop_eq (cmp : CmpPolicy T) (same : Bool) (set : List T)
    (s_end data_end fuel : Nat) (buf : List T) (it data s_begin : Nat)
    (h1 : cmp.gt (buf.getD data default) ((operand same buf set).getD s_begin default) = false)
    (h2 : cmp.eq (buf.getD data default) ((operand same buf set).getD s_begin default) = true) :
    complementLoop cmp same set s_end data_end (fuel + 1) buf it data s_begin =
      if s_begin + 1 ≠ s_end ∧ data + 1 ≠ data_end then
        complementLoop cmp same set s_end data_end fuel buf it (data + 1) (s_begin + 1)
      else (buf, it, data + 1, s_begin + 1) := by
  rw [complementLoop]
  simp only [h1, h2, if_true, Bool.false_eq_true, if_false]

theorem complementLoop_lt (cmp : CmpPolicy T) (same : Bool) (set : List T)
    (s_end data_end fuel : Nat) (buf : List T) (it data s_begin : Nat)
    (h1 : cmp.gt (buf.getD data default) ((operand same buf set).getD s_begin default) = false)
    (h2 : cmp.eq (buf.getD data default) ((operand same buf set).getD s_begin default) = false) :
    complementLoop cmp same set s_end data_end (fuel + 1) buf it data s_begin =
      if s_begin ≠ s_end ∧ data + 1 ≠ data_end then
        complementLoop cmp same set s_end data_end fuel
          (if it ≠ data then buf.set it (buf.getD data default) else buf) (it + 1) (data + 1)
          s_begin
      else (if it ≠ data then buf.set it (buf.getD data default) else buf, it + 1, data + 1,
        s_begin) := by
  rw [complementLoop]
  simp only [h1, h2, Bool.false_eq_true, if_false]

/-- The loop of the complement keeps the merge invariant, with the elements to keep being
those that are not members of the argument, until one of the arrays is exhausted. -/
theorem complementLoop_spec {cmp : CmpPolicy T} (L : cmp.Linear) (a b : List T)
    (ha : Ascending cmp a) (hb : Ascending cmp b) :
    ∀ (fuel : Nat) (buf : List T) (it data s_begin : Nat),
      MergeInv cmp (fun x => !b.any (fun y => cmp.eq y x)) a b buf it data s_begin →
      s_begin < b.length → data < a.length →
      (b.length - s_begin) + (a.length - data) ≤ fuel →
      MergeInv cmp (fun x => !b.any (fun y => cmp.eq y x)) a b
        (complementLoop cmp false b b.length a.length fuel buf it data s_begin).1
        (complementLoop cmp false b b.length a.length fuel buf it data s_begin).2.1
        (complementLoop cmp false b b.length a.length fuel buf it data s_begin).2.2.1
        (complementLoop cmp false b b.length a.length fuel buf it data s_begin).2.2.2
      ∧ ((complementLoop cmp false b b.length a.length fuel buf it data s_begin).2.2.2
            = b.length
          ∨ (complementLoop cmp false b b.length a.length fuel buf it data s_begin).2.2.1
            = a.length) := by
  intro fuel
  induction fuel with
  | zero => intro buf it data s_begin _ h1 h2 h3; omega
  | succ fuel ih =>
    intro buf it data s_begin hinv hs hd hfuel
    have hbd := mergeInv_data_getD hinv hd
    have hlo : ∀ y ∈ b.take s_begin, cmp.gt (a.getD data default) y = true := by
      intro y hy
      exact hinv.2.2.2.2.2.2 y hy _
        ((mem_drop_iff_getD a _ _).2 ⟨data, Nat.le_refl _, hd, rfl⟩)
    rcases L.cases3 (a.getD data default) (b.getD s_begin default) with
      ⟨c1, c2, c3⟩ | ⟨c1, c2, c3⟩ | ⟨c1, c2, c3⟩
    · rw [complementLoop_gt cmp false b _ _ _ _ _ _ _ (by rw [operand_false, hbd]; exact c1)]
      have hnew := mergeInv_advance L ha hinv hs hd c1
      by_cases hc : s_begin + 1 ≠ b.length ∧ data ≠ a.length
      · rw [if_pos hc]
        exact ih buf it data (s_begin + 1) hnew (by omega) hd (by omega)
      · rw [if_neg hc]
        exact ⟨hnew, by simp only []; omega⟩
    · rw [complementLoop_eq cmp false b _ _ _ _ _ _ _ (by rw [operand_false, hbd]; exact c1)
        (by rw [operand_false, hbd]; exact c2)]
      have hk : (fun x => !b.any (fun y => cmp.eq y x)) (a.getD data default) = false := by
        have : b.any (fun y => cmp.eq y (a.getD data default)) = true :=
          (any_iff_member b _).2 ⟨_, getD_mem b s_begin hs, L.eq_symm _ _ c2⟩
        simp only [this, Bool.not_true]
      have hnew := mergeInv_skip hinv hd hk (show s_begin + 1 ≤ b.length by omega)
        (below_after_eq L ha hinv hs hd c2)
      by_cases hc : s_begin + 1 ≠ b.length ∧ data + 1 ≠ a.length
      · rw [if_pos hc]
        exact ih buf it (data + 1) (s_begin + 1) hnew (by omega) (by omega) (by omega)
      · rw [if_neg hc]
        exact ⟨hnew, by simp only []; omega⟩
    · rw [complementLoop_lt cmp false b _ _ _ _ _ _ _ (by rw [operand_false, hbd]; exact c1)
        (by rw [operand_false, hbd]; exact c2)]
      have hk : (fun x => !b.any (fun y => cmp.eq y x)) (a.getD data default) = true := by
        have hn := not_member_of_lt L b s_begin _ hb hs hlo c3
        cases hq : b.any (fun y => cmp.eq y (a.getD data default)) with
        | false => simp only [hq, Bool.not_false]
        | true => exact absurd ((any_iff_member b _).1 hq) hn
      have hnew := mergeInv_store hinv hd hk (show s_begin ≤ b.length by omega)
        (below_after_lt hinv)
      by_cases hc : s_begin ≠ b.length ∧ data + 1 ≠ a.length
      · rw [if_pos hc]
        exact ih _ (it + 1) (data + 1) s_begin hnew hs (by omega) (by omega)
      · rw [if_neg hc]
        exact ⟨hnew, by simp only []; omega⟩

theorem mergeInv_init (cmp : CmpPolicy T) (keep : T → Bool) (a b : List T) :
    MergeInv cmp keep a b a 0 0 0 :=
  ⟨rfl, Nat.le_refl _, Nat.zero_le _, Nat.zero_le _, by simp, by simp,
    fun y hy => by simp at hy⟩

/-- The part of `a` that a finished merge loop has not visited is kept as it is by the
filter of the complement. -/
theorem filter_rest_complement {cmp : CmpPolicy T} (a b : List T) (data : Nat)
    (h : ∀ x ∈ a.drop data, ¬ Member cmp b x) :
    (a.drop data).filter (fun x => !b.any (fun y => cmp.eq y x)) = a.drop data := by
  apply List.filter_eq_self.2
  intro x hx
  cases hq : b.any (fun y => cmp.eq y x) with
  | false => rfl
  | true => exact absurd ((any_iff_member b x).1 hq) (h x hx)

/-- The complement with a distinct argument keeps exactly the elements that are not members
of the argument. -/
theorem subSet_spec {cmp : CmpPolicy T} (L : cmp.Linear) (a b : List T)
    (ha : Ascending cmp a) (hb : Ascending cmp b) :
    Set.subSet cmp false a b = a.filter (fun x => !b.any (fun y => cmp.eq y x)) := by
  unfold Set.subSet
  rw [operand_false]
  by_cases h0 : a.length = 0 ∨ b.length = 0
  · rw [if_pos h0]
    rcases h0 with h | h
    · rw [List.length_eq_zero.1 h]; rfl
    · rw [List.length_eq_zero.1 h]
      symm
      apply List.filter_eq_self.2
      intro x _
      rfl
  · rw [if_neg h0]
    obtain ⟨hinv, hexit⟩ := complementLoop_spec L a b ha hb (a.length + b.length) a 0 0 0
      (mergeInv_init cmp _ a b) (by omega) (by omega) (by omega)
    simp only []
    generalize complementLoop cmp false b b.length a.length (a.length + b.length) a 0 0 0 = r
      at hinv hexit
    have hrest := filter_rest_complement a b r.2.2.1 (mergeInv_exit L hinv hexit)
    obtain ⟨h1, h2, h3, h4, h5, h6, h7⟩ := hinv
    have hsplit : a.filter (fun x => !b.any (fun y => cmp.eq y x))
        = r.1.take r.2.1 ++ a.drop r.2.2.1 := by
      conv_lhs => rw [← List.take_append_drop r.2.2.1 a, List.filter_append, hrest, ← h5]
    by_cases he : r.2.1 = r.2.2.1
    · rw [if_pos he, hsplit, he, ← h6, List.take_append_drop]
    · rw [if_neg he]
      obtain ⟨m1, m2, m3⟩ := moveDown_spec (a.length - r.2.2.1) r.1 r.2.1 r.2.2.1 h2 (by omega)
      rw [shrinkByElems_eq _ a.length _ (by rw [m2, h1]) (by rw [m1]; omega), m1, m3, hsplit,
        h6]

theorem complementLoop_same {cmp : CmpPolicy T} (L : cmp.Linear) (set arr : List T) :
    ∀ (fuel data : Nat), data < arr.length → arr.length - data ≤ fuel →
      complementLoop cmp true set arr.length arr.length fuel arr 0 data data
        = (arr, 0, arr.length, arr.length) := by
  intro fuel
  induction fuel with
  | zero => intro data h1 h2; omega
  | succ fuel ih =>
    intro data h1 h2
    rw [complementLoop_eq cmp true set _ _ _ _ _ _ _ (by rw [operand_true]; exact L.gt_irrefl _)
      (by rw [operand_true]; exact L.eq_refl _)]
    by_cases hc : data + 1 ≠ arr.length ∧ data + 1 ≠ arr.length
    · rw [if_pos hc]
      exact ih (data + 1) (by omega) (by omega)
    · rw [if_neg hc]
      have : data + 1 = arr.length := by omega
      rw [this]

/-- The complement of an object with itself is empty. -/
theorem subSet_same {cmp : CmpPolicy T} (L : cmp.Linear) (a set : List T) :
    Set.subSet cmp true a set = [] := by
  unfold Set.subSet
  rw [operand_true]
  by_cases h0 : a.length = 0 ∨ a.length = 0
  · rw [if_pos h0]
    exact List.length_eq_zero.1 (by omega)
  · rw [if_neg h0]
    simp only []
    rw [complementLoop_same L set a (a.length + a.length) 0 (by omega) (by omega)]
    simp only []
    rw [if_neg (by omega)]
    simp [moveDown, shrinkByElems]

theorem member_filter_not {cmp : CmpPolicy T} (L : cmp.Linear) (a b : List T) (x : T) :
    Member cmp (a.filter (fun x => !b.any (fun y => cmp.eq y x))) x
      ↔ (Member cmp a x ∧ ¬ Member cmp b x) := by
  rw [member_filter]
  constructor
  · rintro ⟨z, h1, h2, h3⟩
    refine ⟨⟨z, h1, h3⟩, fun hm => ?_⟩
    have := (any_iff_member b z).2 ((member_congr L b h3).2 hm)
    rw [this] at h2; cases h2
  · rintro ⟨⟨z, h1, h3⟩, hn⟩
    refine ⟨z, h1, ?_, h3⟩
    cases hq : b.any (fun y => cmp.eq y z) with
    | false => rfl
    | true => exact absurd ((member_congr L b h3).1 ((any_iff_member b z).1 hq)) hn

/-- C26: Set difference.  For ascending arrays `a` and `b` under a linear-order policy,
after `a.sub(b)` the array of `a` holds exactly the elements of the original `a` that are
not members of `b`, in their original order, so it is ascending, and `x` is a member exactly
when it was a member of `a` and is not a member of `b`; this covers the runs in which `b` is
exhausted first or no element is removed, and the argument being the object itself. -/
theorem C26_set_difference {cmp : CmpPolicy T} (L : cmp.Linear) (same : Bool)
    (a b : List T) (ha : Ascending cmp a) (hb : Ascending cmp b) :
    Set.subSet cmp same a b
      = a.filter (fun x => !(operand same a b).any (fun y => cmp.eq y x))
    ∧ Ascending cmp (Set.subSet cmp same a b)
    ∧ List.Sublist (Set.subSet cmp same a b) a
    ∧ (∀ x, Member cmp (Set.subSet cmp same a b) x
        ↔ (Member cmp a x ∧ ¬ Member cmp (operand same a b) x)) := by
  have key : Set.subSet cmp same a b
      = a.filter (fun x => !(operand same a b).any (fun y => cmp.eq y x)) := by
    cases same
    · rw [operand_false]; exact subSet_spec L a b ha hb
    · rw [operand_true, subSet_same L]
      symm
      apply List.filter_eq_nil_iff.2
      intro x hx
      have := (any_iff_member a x).2 ⟨x, hx, L.eq_refl x⟩
      simp [this]
  refine ⟨key, ?_, ?_, fun x => ?_⟩
  · rw [key]; exact List.Pairwise.sublist (List.filter_sublist a) ha
  · rw [key]; exact List.filter_sublist a
  · rw [key]; exact member_filter_not L a _ x

/-- Removing 3, 4 from 1, 3, 5 leaves 1, 5; removing 0, 1 from 1, 3, 5 exhausts the argument
first and leaves 3, 5; removing 2, 4 removes nothing. -/
theorem C26_set_difference_witness :
    Ascending default_cmp_policy [1, 3, 5] ∧ Ascending default_cmp_policy [3, 4]
    ∧ Set.subSet default_cmp_policy false [1, 3, 5] [3, 4] = [1, 5]
    ∧ Set.subSet default_cmp_policy false [1, 3, 5] [0, 1] = [3, 5]
    ∧ Set.subSet default_cmp_policy false [1, 3, 5] [2, 4] = [1, 3, 5]
    ∧ Set.subSet default_cmp_policy true [1, 3, 5] [] = []
    ∧ (∀ x, Member default_cmp_policy (Set.subSet default_cmp_policy false [1, 3, 5] [3, 4]) x
        ↔ (Member default_cmp_policy [1, 3, 5] x ∧ ¬ Member default_cmp_policy [3, 4] x)) :=
  ⟨by decide, by decide, by decide, by decide, by decide, by decide,
    (C26_set_difference default_linear false [1, 3, 5] [3, 4] (by decide) (by decide)).2.2.2⟩

end SetDifference

section SetIntersection

theorem intersectLoop_gt (cmp : CmpPolicy T) (same : Bool) (set : List T)
    (s_end data_end fuel : Nat) (buf : List T) (it data s_begin : Nat)
    (h : cmp.gt (buf.getD data default) ((operand same buf set).getD s_begin default) = true) :
    intersectLoop cmp same set s_end data_end (fuel + 1) buf it data s_begin =
      if s_begin + 1 ≠ s_end ∧ data ≠ data_end then
        intersectLoop cmp same set s_end data_end fuel buf it data (s_begin + 1)
      else (buf, it, data, s_begin + 1) := by
  rw [intersectLoop]
  simp only [h, if_true]

theorem intersectLoop_eq (cmp : CmpPolicy T) (same : Bool) (set : List T)
    (s_end data_end fuel : Nat) (buf : List T) (it data s_begin : Nat)
    (h1 : cmp.gt (buf.getD data default) ((operand same buf set).getD s_begin default) = false)
    (h2 : cmp.eq (buf.getD data default) ((operand same buf set).getD s_begin default) = true) :
    intersectLoop cmp same set s_end data_end (fuel + 1) buf it data s_begin =
      if s_begin + 1 ≠ s_end ∧ data + 1 ≠ data_end then
        intersectLoop cmp same set s_end data_end fuel
          (if it ≠ data then buf.set it (buf.getD data default) else buf) (it + 1) (data + 1)
          (s_begin + 1)
      else (if it ≠ data then buf.set it (buf.getD data default) else buf, it + 1, data + 1,
        s_begin + 1) := by
  rw [intersectLoop]
  simp only [h1, h2, if_true, Bool.false_eq_true, if_false]

theorem intersectLoop_lt (cmp : CmpPolicy T) (same : Bool) (set : List T)
    (s_end data_end fuel : Nat) (buf : List T) (it data s_begin : Nat)
    (h1 : cmp.gt (buf.getD data default) ((operand same buf set).getD s_begin default) = false)
    (h2 : cmp.eq (buf.getD data default) ((operand same buf set).getD s_begin default) = false) :
    intersectLoop cmp same set s_end data_end (fuel + 1) buf it data s_begin =
      if s_begin ≠ s_end ∧ data + 1 ≠ data_end then
        intersectLoop cmp same set s_end data_end fuel buf it (data + 1) s_begin
      else (buf, it, data + 1, s_begin) := by
  rw [intersectLoop]
  simp only [h1, h2, Bool.false_eq_true, if_false]

/-- The loop of the intersection keeps the merge invariant, with the elements to keep being
the members of the argument, until one of the arrays is exhausted. -/
theorem intersectLoop_spec {cmp : CmpPolicy T} (L : cmp.Linear) (a b : List T)
    (ha : Ascending cmp a) (hb : Ascending cmp b) :
    ∀ (fuel : Nat) (buf : List T) (it data s_begin : Nat),
      MergeInv cmp (fun x => b.any (fun y => cmp.eq y x)) a b buf it data s_begin →
      s_begin < b.length → data < a.length →
      (b.length - s_begin) + (a.length - data) ≤ fuel →
      MergeInv cmp (fun x => b.any (fun y => cmp.eq y x)) a b
        (intersectLoop cmp false b b.length a.length fuel buf it data s_begin).1
        (intersectLoop cmp false b b.length a.length fuel buf it data s_begin).2.1
        (intersectLoop cmp false b b.length a.length fuel buf it data s_begin).2.2.1
        (intersectLoop cmp false b b.length a.length fuel buf it data s_begin).2.2.2
      ∧ ((intersectLoop cmp false b b.length a.length fuel buf it data s_begin).2.2.2
            = b.length
          ∨ (intersectLoop cmp false b b.length a.length fuel buf it data s_begin).2.2.1
            = a.length) := by
  intro fuel
  induction fuel with
  | zero => intro buf it data s_begin _ h1 h2 h3; omega
  | succ fuel ih =>
    intro buf it data s_begin hinv hs hd hfuel
    have hbd := mergeInv_data_getD hinv hd
    have hlo : ∀ y ∈ b.take s_begin, cmp.gt (a.getD data default) y = true := by
      intro y hy
      exact hinv.2.2.2.2.2.2 y hy _
        ((mem_drop_iff_getD a _ _).2 ⟨data, Nat.le_refl _, hd, rfl⟩)
    rcases L.cases3 (a.getD data default) (b.getD s_begin default) with
      ⟨c1, c2, c3⟩ | ⟨c1, c2, c3⟩ | ⟨c1, c2, c3⟩
    · rw [intersectLoop_gt cmp false b _ _ _ _ _ _ _ (by rw [operand_false, hbd]; exact c1)]
      have hnew := mergeInv_advance L ha hinv hs hd c1
      by_cases hc : s_begin + 1 ≠ b.length ∧ data ≠ a.length
      · rw [if_pos hc]
        exact ih buf it data (s_begin + 1) hnew (by omega) hd (by omega)
      · rw [if_neg hc]
        exact ⟨hnew, by simp only []; omega⟩
    · rw [intersectLoop_eq cmp false b _ _ _ _ _ _ _ (by rw [operand_false, hbd]; exact c1)
        (by rw [operand_false, hbd]; exact c2)]
      have hk : (fun x => b.any (fun y => cmp.eq y x)) (a.getD data default) = true :=
        (any_iff_member b _).2 ⟨_, getD_mem b s_begin hs, L.eq_symm _ _ c2⟩
      have hnew := mergeInv_store hinv hd hk (show s_begin + 1 ≤ b.length by omega)
        (below_after_eq L ha hinv hs hd c2)
      by_cases hc : s_begin + 1 ≠ b.length ∧ data + 1 ≠ a.length
      · rw [if_pos hc]
        exact ih _ (it + 1) (data + 1) (s_begin + 1) hnew (by omega) (by omega) (by omega)
      · rw [if_neg hc]
        exact ⟨hnew, by simp only []; omega⟩
    · rw [intersectLoop_lt cmp false b _ _ _ _ _ _ _ (by rw [operand_false, hbd]; exact c1)
        (by rw [operand_false, hbd]; exact c2)]
      have hk : (fun x => b.any (fun y => cmp.eq y x)) (a.getD data default) = false := by
        have hn := not_member_of_lt L b s_begin _ hb hs hlo c3
        cases hq : b.any (fun y => cmp.eq y (a.getD data default)) with
        | false => exact hq
        | true => exact absurd ((any_iff_member b _).1 hq) hn
      have hnew := mergeInv_skip hinv hd hk (show s_begin ≤ b.length by omega)
        (below_after_lt hinv)
      by_cases hc : s_begin ≠ b.length ∧ data + 1 ≠ a.length
      · rw [if_pos hc]
        exact ih buf it (data + 1) s_begin hnew hs (by omega) (by omega)
      · rw [if_neg hc]
        exact ⟨hnew, by simp only []; omega⟩

/-- The intersection with a distinct argument keeps exactly the elements that are members
of the argument. -/
theorem mul_spec {cmp : CmpPolicy T} (L : cmp.Linear) (a b : List T)
    (ha : Ascending cmp a) (hb : Ascending cmp b) :
    Set.mul cmp false a b = a.filter (fun x => b.any (fun y => cmp.eq y x)) := by
  unfold Set.mul
  rw [operand_false]
  by_cases h0 : a.length = 0 ∨ b.length = 0
  · rw [if_pos h0]
    rcases h0 with h | h
    · rw [List.length_eq_zero.1 h]; rfl
    · rw [List.length_eq_zero.1 h]
      symm
      apply List.filter_eq_nil_iff.2
      intro x _
      simp
  · rw [if_neg h0]
    obtain ⟨hinv, hexit⟩ := intersectLoop_spec L a b ha hb (a.length + b.length) a 0 0 0
      (mergeInv_init cmp _ a b) (by omega) (by omega) (by omega)
    simp only []
    generalize intersectLoop cmp false b b.length a.length (a.length + b.length) a 0 0 0 = r
      at hinv hexit
    have hnone := mergeInv_exit L hinv hexit
    obtain ⟨h1, h2, h3, h4, h5, h6, h7⟩ := hinv
    have hrest : (a.drop r.2.2.1).filter (fun x => b.any (fun y => cmp.eq y x)) = [] := by
      apply List.filter_eq_nil_iff.2
      intro x hx hq
      exact hnone x hx ((any_iff_member b x).1 hq)
    rw [shrinkByElems_eq _ a.length _ h1 (by omega), h5]
    conv_rhs => rw [← List.take_append_drop r.2.2.1 a, List.filter_append, hrest,
      List.append_nil]

theorem intersectLoop_same {cmp : CmpPolicy T} (L : cmp.Linear) (set arr : List T) :
    ∀ (fuel data : Nat), data < arr.length → arr.length - data ≤ fuel →
      intersectLoop cmp true set arr.length arr.length fuel arr data data data
        = (arr, arr.length, arr.length, arr.length) := by
  intro fuel
  induction fuel with
  | zero => intro data h1 h2; omega
  | succ fuel ih =>
    intro data h1 h2
    rw [intersectLoop_eq cmp true set _ _ _ _ _ _ _ (by rw [operand_true]; exact L.gt_irrefl _)
      (by rw [operand_true]; exact L.eq_refl _)]
    have hid : (if data ≠ data then arr.set data (arr.getD data default) else arr) = arr :=
      if_neg (by simp)
    rw [hid]
    by_cases hc : data + 1 ≠ arr.length ∧ data + 1 ≠ arr.length
    · rw [if_pos hc]
      exact ih (data + 1) (by omega) (by omega)
    · rw [if_neg hc]
      have : data + 1 = arr.length := by omega
      rw [this]

/-- The intersection of an object with itself leaves it as it is. -/
theorem mul_same {cmp : CmpPolicy T} (L : cmp.Linear) (a set : List T) :
    Set.mul cmp true a set = a := by
  unfold Set.mul
  rw [operand_true]
  by_cases h0 : a.length = 0 ∨ a.length = 0
  · rw [if_pos h0]
    exact (List.length_eq_zero.1 (by omega)).symm
  · rw [if_neg h0]
    simp only []
    rw [intersectLoop_same L set a (a.length + a.length) 0 (by omega) (by omega)]
    simp only []
    rw [shrinkByElems_eq a a.length a.length rfl (Nat.le_refl _), List.take_length]

theorem member_filter_in {cmp : CmpPolicy T} (L : cmp.Linear) (a b : List T) (x : T) :
    Member cmp (a.filter (fun x => b.any (fun y => cmp.eq y x))) x
      ↔ (Member cmp a x ∧ Member cmp b x) := by
  rw [member_filter]
  constructor
  · rintro ⟨z, h1, h2, h3⟩
    exact ⟨⟨z, h1, h3⟩, (member_congr L b h3).1 ((any_iff_member b z).1 h2)⟩
  · rintro ⟨⟨z, h1, h3⟩, hm⟩
    exact ⟨z, h1, (any_iff_member b z).2 ((member_congr L b h3).2 hm), h3⟩

/-- C25: Set intersection.  For ascending arrays `a` and `b` under a linear-order policy,
after `a.mul(b)` the array of `a` holds exactly the elements of the original `a` that are
members of `b`, in their original order, so it is ascending, and `x` is a member exactly
when it was a member of both; the result is empty when either operand is empty; the argument
may be the object itself. -/
theorem C25_set_intersection {cmp : CmpPolicy T} (L : cmp.Linear) (same : Bool)
    (a b : List T) (ha : Ascending cmp a) (hb : Ascending cmp b) :
    Set.mul cmp same a b
      = a.filter (fun x => (operand same a b).any (fun y => cmp.eq y x))
    ∧ Ascending cmp (Set.mul cmp same a b)
    ∧ List.Sublist (Set.mul cmp same a b) a
    ∧ (∀ x, Member cmp (Set.mul cmp same a b) x
        ↔ (Member cmp a x ∧ Member cmp (operand same a b) x))
    ∧ (a = [] ∨ operand same a b = [] → Set.mul cmp same a b = []) := by
  have key : Set.mul cmp same a b
      = a.filter (fun x => (operand same a b).any (fun y => cmp.eq y x)) := by
    cases same
    · rw [operand_false]; exact mul_spec L a b ha hb
    · rw [operand_true, mul_same L]
      symm
      apply List.filter_eq_self.2
      intro x hx
      exact (any_iff_member a x).2 ⟨x, hx, L.eq_refl x⟩
  refine ⟨key, ?_, ?_, fun x => ?_, fun h => ?_⟩
  · rw [key]; exact List.Pairwise.sublist (List.filter_sublist a) ha
  · rw [key]; exact List.filter_sublist a
  · rw [key]; exact member_filter_in L a _ x
  · unfold Set.mul
    rw [if_pos]
    rcases h with h | h
    · left; rw [h]; rfl
    · right; rw [h]; rfl

/-- The intersection of 1, 3, 5 and 3, 4 is 3; of 1, 3, 5 and 3, 5, 7 it is 3, 5; with an
empty operand it is empty. -/
theorem C25_set_intersection_witness :
    Ascending default_cmp_policy [1, 3, 5] ∧ Ascending default_cmp_policy [3, 4]
    ∧ Set.mul default_cmp_policy false [1, 3, 5] [3, 4] = [3]
    ∧ Set.mul default_cmp_policy false [1, 3, 5] [3, 5, 7] = [3, 5]
    ∧ Set.mul default_cmp_policy false [1, 3, 5] [] = []
    ∧ Set.mul default_cmp_policy true [1, 3, 5] [] = [1, 3, 5]
    ∧ (∀ x, Member default_cmp_policy (Set.mul default_cmp_policy false [1, 3, 5] [3, 4]) x
        ↔ (Member default_cmp_policy [1, 3, 5] x ∧ Member default_cmp_policy [3, 4] x)) :=
  ⟨by decide, by decide, by decide, by decide, by decide, by decide,
    (C25_set_intersection default_linear false [1, 3, 5] [3, 4] (by decide)
      (by decide)).2.2.2.1⟩

end SetIntersection

section SetSymmetricDifference

theorem diffLoop_gt (cmp : CmpPolicy T) (arr set : List T) (fuel : Nat) (tmp : List T)
    (data s_begin : Nat)
    (h : cmp.gt (arr.getD data default) (set.getD s_begin default) = true) :
    diffLoop cmp arr set (fuel + 1) tmp data s_begin =
      if s_begin + 1 ≠ set.length ∧ data ≠ arr.length then
        diffLoop cmp arr set fuel (tmp ++ [set.getD s_begin default]) data (s_begin + 1)
      else (tmp ++ [set.getD s_begin default], data, s_begin + 1) := by
  rw [diffLoop]
  simp only [h, if_true]

theorem diffLoop_eq (cmp : CmpPolicy T) (arr set : List T) (fuel : Nat) (tmp : List T)
    (data s_begin : Nat)
    (h1 : cmp.gt (arr.getD data default) (set.getD s_begin default) = false)
    (h2 : cmp.eq (arr.getD data default) (set.getD s_begin default) = true) :
    diffLoop cmp arr set (fuel + 1) tmp data s_begin =
      if s_begin + 1 ≠ set.length ∧ data + 1 ≠ arr.length then
        diffLoop cmp arr set fuel tmp (data + 1) (s_begin + 1)
      else (tmp, data + 1, s_begin + 1) := by
  rw [diffLoop]
  simp only [h1, h2, if_true, Bool.false_eq_true, if_false]

theorem diffLoop_lt (cmp : CmpPolicy T) (arr set : List T) (fuel : Nat) (tmp : List T)
    (data s_begin : Nat)
    (h1 : cmp.gt (arr.getD data default) (set.getD s_begin default) = false)
    (h2 : cmp.eq (arr.getD data default) (set.getD s_begin default) = false) :
    diffLoop cmp arr set (fuel + 1) tmp data s_begin =
      if s_begin ≠ set.length ∧ data + 1 ≠ arr.length then
        diffLoop cmp arr set fuel (tmp ++ [arr.getD data default]) (data + 1) s_begin
      else (tmp ++ [arr.getD data default], data + 1, s_begin) := by
  rw [diffLoop]
  simp only [h1, h2, Bool.false_eq_true, if_false]

/-- The invariant of the symmetric difference is symmetric in the two arrays. -/
theorem diffInv_symm {cmp : CmpPolicy T} {a b tmp : List T} {data s_begin : Nat}
    (h : DiffInv cmp a b tmp data s_begin) : DiffInv cmp b a tmp s_begin data := by
  obtain ⟨h1, h2, h3, h4, h5, h6, h7⟩ := h
  refine ⟨h2, h1, h3, fun t ht => ⟨(h4 t ht).2, (h4 t ht).1⟩, h6, h5, fun x => ?_⟩
  rw [h7]
  tauto

theorem mem_drop_succ (l : List T) (n : Nat) (x : T) (h : x ∈ l.drop (n + 1)) :
    x ∈ l.drop n := by
  obtain ⟨i, b1, b2, b3⟩ := (mem_drop_iff_getD l _ x).1 h
  exact (mem_drop_iff_getD l _ x).2 ⟨i, by omega, b2, b3⟩

/-- The elements from index `n` on are the element at `n` or above it. -/
theorem asc_drop_ge {cmp : CmpPolicy T} {l : List T} (hl : Ascending cmp l) (n : Nat)
    (hn : n < l.length) (x : T) (hx : x ∈ l.drop n) :
    x = l.getD n default ∨ cmp.gt x (l.getD n default) = true := by
  obtain ⟨i, b1, b2, b3⟩ := (mem_drop_iff_getD l _ x).1 hx
  rcases Nat.eq_or_lt_of_le b1 with e | e
  · left; rw [← b3, e]
  · right; rw [← b3]; exact asc_getD hl n i e b2

theorem asc_drop_succ_gt {cmp : CmpPolicy T} {l : List T} (hl : Ascending cmp l) (n : Nat)
    (x : T) (hx : x ∈ l.drop (n + 1)) : cmp.gt x (l.getD n default) = true := by
  obtain ⟨i, b1, b2, b3⟩ := (mem_drop_iff_getD l _ x).1 hx
  rw [← b3]; exact asc_getD hl n i (by omega) b2

theorem member_take_succ {cmp : CmpPolicy T} (l : List T) (n : Nat) (hn : n < l.length)
    (x : T) :
    Member cmp (l.take (n + 1)) x ↔ (Member cmp (l.take n) x ∨ cmp.eq (l.getD n default) x = true) := by
  rw [take_succ_getD l n hn, member_append, member_cons]
  constructor
  · rintro (h | h | h)
    · exact Or.inl h
    · exact Or.inr h
    · exact absurd h (member_nil x)
  · rintro (h | h)
    · exact Or.inl h
    · exact Or.inr (Or.inl h)

/-- Appending the current element of `b` when it is below the current element of `a`. -/
theorem diffInv_push {cmp : CmpPolicy T} (L : cmp.Linear) {a b tmp : List T}
    {data s_begin : Nat} (ha : Ascending cmp a) (hb : Ascending cmp b)
    (h : DiffInv cmp a b tmp data s_begin) (hs : s_begin < b.length) (hd : data < a.length)
    (hgt : cmp.gt (a.getD data default) (b.getD s_begin default) = true) :
    DiffInv cmp a b (tmp ++ [b.getD s_begin default]) data (s_begin + 1) := by
  obtain ⟨h1, h2, h3, h4, h5, h6, h7⟩ := h
  have hsb : b.getD s_begin default ∈ b.drop s_begin :=
    (mem_drop_iff_getD b _ _).2 ⟨s_begin, Nat.le_refl _, hs, rfl⟩
  have habove : ∀ x ∈ a.drop data, cmp.gt x (b.getD s_begin default) = true := by
    intro x hx
    rcases asc_drop_ge ha data hd x hx with e | e
    · rw [e]; exact hgt
    · exact L.gt_trans _ _ _ e hgt
  have hnot : ¬ Member cmp a (b.getD s_begin default) := by
    rintro ⟨w, hw, he⟩
    rw [← List.take_append_drop data a, List.mem_append] at hw
    rcases hw with hw | hw
    · have := h6 w hw _ hsb
      rw [(L.eq_not_gt he).2] at this; cases this
    · have := habove w hw
      rw [(L.eq_not_gt he).1] at this; cases this
  refine ⟨h1, by omega, ?_, ?_, ?_, ?_, fun x => ?_⟩
  · apply asc_append h3 (List.pairwise_singleton _ _)
    intro t ht y hy
    rw [List.mem_singleton.1 hy]
    exact (h4 t ht).2 _ hsb
  · intro t ht
    rcases List.mem_append.1 ht with ht | ht
    · exact ⟨(h4 t ht).1, fun y hy => (h4 t ht).2 y (mem_drop_succ b _ y hy)⟩
    · rw [List.mem_singleton.1 ht]
      exact ⟨habove, fun y hy => asc_drop_succ_gt hb s_begin y hy⟩
  · intro y hy x hx
    rw [take_succ_getD b s_begin hs] at hy
    rcases List.mem_append.1 hy with hy | hy
    · exact h5 y hy x hx
    · rw [List.mem_singleton.1 hy]; exact habove x hx
  · intro x hx y hy
    exact h6 x hx y (mem_drop_succ b _ y hy)
  · rw [member_append, member_cons, h7, member_take_succ b s_begin hs]
    constructor
    · rintro (h | h | h)
      · rcases h with h | h
        · exact Or.inl h
        · exact Or.inr ⟨Or.inl h.1, h.2⟩
      · exact Or.inr ⟨Or.inr h, fun hm => hnot ((member_congr L a h).2 hm)⟩
      · exact absurd h (member_nil x)
    · rintro (h | ⟨h | h, hn⟩)
      · exact Or.inl (Or.inl h)
      · exact Or.inl (Or.inr ⟨h, hn⟩)
      · exact Or.inr (Or.inl h)

/-- Passing an element that is in both arrays. -/
theorem diffInv_skip {cmp : CmpPolicy T} (L : cmp.Linear) {a b tmp : List T}
    {data s_begin : Nat} (ha : Ascending cmp a) (hb : Ascending cmp b)
    (h : DiffInv cmp a b tmp data s_begin) (hs : s_begin < b.length) (hd : data < a.length)
    (heq : cmp.eq (a.getD data default) (b.getD s_begin default) = true) :
    DiffInv cmp a b tmp (data + 1) (s_begin + 1) := by
  obtain ⟨h1, h2, h3, h4, h5, h6, h7⟩ := h
  refine ⟨by omega, by omega, h3, ?_, ?_, ?_, fun x => ?_⟩
  · intro t ht
    exact ⟨fun x hx => (h4 t ht).1 x (mem_drop_succ a _ x hx),
      fun y hy => (h4 t ht).2 y (mem_drop_succ b _ y hy)⟩
  · intro y hy x hx
    rw [take_succ_getD b s_begin hs] at hy
    rcases List.mem_append.1 hy with hy | hy
    · exact h5 y hy x (mem_drop_succ a _ x hx)
    · rw [List.mem_singleton.1 hy]
      exact L.gt_eq _ _ _ (asc_drop_succ_gt ha data x hx) heq
  · intro x hx y hy
    rw [take_succ_getD a data hd] at hx
    rcases List.mem_append.1 hx with hx | hx
    · exact h6 x hx y (mem_drop_succ b _ y hy)
    · rw [List.mem_singleton.1 hx]
      exact L.gt_eq _ _ _ (asc_drop_succ_gt hb s_begin y hy) (L.eq_symm _ _ heq)
  · rw [h7, member_take_succ a data hd, member_take_succ b s_begin hs]
    constructor
    · rintro (h | h)
      · exact Or.inl ⟨Or.inl h.1, h.2⟩
      · exact Or.inr ⟨Or.inl h.1, h.2⟩
    · rintro (⟨h | h, hn⟩ | ⟨h | h, hn⟩)
      · exact Or.inl ⟨h, hn⟩
      · exact absurd ⟨_, getD_mem b s_begin hs, L.eq_trans (L.eq_symm _ _ heq) h⟩ hn
      · exact Or.inr ⟨h, hn⟩
      · exact absurd ⟨_, getD_mem a data hd, L.eq_trans heq h⟩ hn

/-- The loop of the symmetric difference keeps its invariant until one of the arrays is
exhausted. -/
theorem diffLoop_spec {cmp : CmpPolicy T} (L : cmp.Linear) (a b : List T)
    (ha : Ascending cmp a) (hb : Ascending cmp b) :
    ∀ (fuel : Nat) (tmp : List T) (data s_begin : Nat),
      DiffInv cmp a b tmp data s_begin → s_begin < b.length → data < a.length →
      (b.length - s_begin) + (a.length - data) ≤ fuel →
      DiffInv cmp a b (diffLoop cmp a b fuel tmp data s_begin).1
        (diffLoop cmp a b fuel tmp data s_begin).2.1
        (diffLoop cmp a b fuel tmp data s_begin).2.2
      ∧ ((diffLoop cmp a b fuel tmp data s_begin).2.2 = b.length
          ∨ (diffLoop cmp a b fuel tmp data s_begin).2.1 = a.length) := by
  intro fuel
  induction fuel with
  | zero => intro tmp data s_begin _ h1 h2 h3; omega
  | succ fuel ih =>
    intro tmp data s_begin hinv hs hd hfuel
    rcases L.cases3 (a.getD data default) (b.getD s_begin default) with
      ⟨c1, c2, c3⟩ | ⟨c1, c2, c3⟩ | ⟨c1, c2, c3⟩
    · rw [diffLoop_gt cmp a b _ _ _ _ c1]
      have hnew := diffInv_push L ha hb hinv hs hd c1
      by_cases hc : s_begin + 1 ≠ b.length ∧ data ≠ a.length
      · rw [if_pos hc]
        exact ih _ data (s_begin + 1) hnew (by omega) hd (by omega)
      · rw [if_neg hc]
        exact ⟨hnew, by simp only []; omega⟩
    · rw [diffLoop_eq cmp a b _ _ _ _ c1 c2]
      have hnew := diffInv_skip L ha hb hinv hs hd c2
      by_cases hc : s_begin + 1 ≠ b.length ∧ data + 1 ≠ a.length
      · rw [if_pos hc]
        exact ih _ (data + 1) (s_begin + 1) hnew (by omega) (by omega) (by omega)
      · rw [if_neg hc]
        exact ⟨hnew, by simp only []; omega⟩
    · rw [diffLoop_lt cmp a b _ _ _ _ c1 c2]
      have hnew := diffInv_symm (diffInv_push L hb ha (diffInv_symm hinv) hd hs c3)
      by_cases hc : s_begin ≠ b.length ∧ data + 1 ≠ a.length
      · rw [if_pos hc]
        exact ih _ (data + 1) s_begin hnew hs (by omega) (by omega)
      · rw [if_neg hc]
        exact ⟨hnew, by simp only []; omega⟩

theorem diffInv_init (cmp : CmpPolicy T) (a b : List T) : DiffInv cmp a b [] 0 0 := by
  refine ⟨Nat.zero_le _, Nat.zero_le _, List.Pairwise.nil, fun t ht => (by cases ht),
    fun y hy => (by simp at hy), fun x hx => (by simp at hx), fun x => ?_⟩
  simp only [List.take_zero]
  constructor
  · intro h; exact absurd h (member_nil x)
  · rintro (h | h)
    · exact absurd h.1 (member_nil x)
    · exact absurd h.1 (member_nil x)

/-- The result of `diff` in terms of the final state of its loop. -/
theorem diff_eq (cmp : CmpPolicy T) (junk : Nat → T) (a b : List T)
    (ha0 : a.length ≠ 0) (hb0 : b.length ≠ 0)
    (hle : (diffLoop cmp a b (a.length + b.length) [] 0 0).2.2 ≤ b.length)
    (hla : (diffLoop cmp a b (a.length + b.length) [] 0 0).2.1 ≤ a.length)
    (hx : (diffLoop cmp a b (a.length + b.length) [] 0 0).2.2 = b.length
      ∨ (diffLoop cmp a b (a.length + b.length) [] 0 0).2.1 = a.length) :
    Set.diff cmp junk a b = (diffLoop cmp a b (a.length + b.length) [] 0 0).1
      ++ (a.drop (diffLoop cmp a b (a.length + b.length) [] 0 0).2.1
        ++ b.drop (diffLoop cmp a b (a.length + b.length) [] 0 0).2.2) := by
  unfold Set.diff
  rw [if_neg hb0, if_neg ha0]
  simp only []
  generalize diffLoop cmp a b (a.length + b.length) [] 0 0 = r at hle hla hx
  by_cases h1 : r.2.2 ≠ b.length
  · rw [if_pos h1, copyRest_resize junk b r.1 r.2.2 hle]
    have : r.2.1 = a.length := by
      rcases hx with h | h
      · exact absurd h h1
      · exact h
    rw [this, List.drop_length, List.nil_append]
  · rw [if_neg h1]
    have e1 : r.2.2 = b.length := by
      by_cases h : r.2.2 = b.length
      · exact h
      · exact absurd h h1
    rw [e1, List.drop_length, List.append_nil]
    by_cases h2 : r.2.1 ≠ a.length
    · rw [if_pos h2, copyRest_resize junk a r.1 r.2.1 hla]
    · rw [if_neg h2]
      have e2 : r.2.1 = a.length := by
        by_cases h : r.2.1 = a.length
        · exact h
        · exact absurd h h2
      rw [e2, List.drop_length, List.append_nil]

/-- The symmetric difference of two ascending arrays is ascending and holds the elements
that are members of exactly one of them. -/
theorem diff_spec {cmp : CmpPolicy T} (L : cmp.Linear) (junk : Nat → T) (a b : List T)
    (ha : Ascending cmp a) (hb : Ascending cmp b) :
    Ascending cmp (Set.diff cmp junk a b)
    ∧ ∀ x, Member cmp (Set.diff cmp junk a b) x
        ↔ ((Member cmp a x ∧ ¬ Member cmp b x) ∨ (Member cmp b x ∧ ¬ Member cmp a x)) := by
  by_cases hb0 : b.length = 0
  · have hbn : b = [] := List.length_eq_zero.1 hb0
    unfold Set.diff
    rw [if_pos hb0]
    refine ⟨ha, fun x => ?_⟩
    rw [hbn]
    constructor
    · intro h; exact Or.inl ⟨h, member_nil x⟩
    · rintro (h | h)
      · exact h.1
      · exact absurd h.1 (member_nil x)
  · by_cases ha0 : a.length = 0
    · have han : a = [] := List.length_eq_zero.1 ha0
      unfold Set.diff
      rw [if_neg hb0, if_pos ha0]
      refine ⟨hb, fun x => ?_⟩
      rw [han]
      constructor
      · intro h; exact Or.inr ⟨h, member_nil x⟩
      · rintro (h | h)
        · exact absurd h.1 (member_nil x)
        · exact h.1
    · obtain ⟨hinv, hexit⟩ := diffLoop_spec L a b ha hb (a.length + b.length) [] 0 0
        (diffInv_init cmp a b) (by omega) (by omega) (by omega)
      rw [diff_eq cmp junk a b ha0 hb0 hinv.2.1 hinv.1 hexit]
      generalize diffLoop cmp a b (a.length + b.length) [] 0 0 = r at hinv hexit
      obtain ⟨h1, h2, h3, h4, h5, h6, h7⟩ := hinv
      have hna : ∀ x, Member cmp (a.drop r.2.1) x → ¬ Member cmp b x := by
        rintro x ⟨w, hw, he⟩ hm
        rcases hexit with e | e
        · apply not_member_of_above L b w _ ((member_congr L b he).2 hm)
          intro y hy
          apply h5 y _ w hw
          rw [e, List.take_length]; exact hy
        · rw [e, List.drop_length] at hw; cases hw
      have hnb : ∀ x, Member cmp (b.drop r.2.2) x → ¬ Member cmp a x := by
        rintro x ⟨w, hw, he⟩ hm
        rcases hexit with e | e
        · rw [e, List.drop_length] at hw; cases hw
        · apply not_member_of_above L a w _ ((member_congr L a he).2 hm)
          intro y hy
          apply h6 y _ w hw
          rw [e, List.take_length]; exact hy
      have hone : a.drop r.2.1 = [] ∨ b.drop r.2.2 = [] := by
        rcases hexit with e | e
        · right; rw [e, List.drop_length]
        · left; rw [e, List.drop_length]
      refine ⟨?_, fun x => ?_⟩
      · apply asc_append h3
        · rcases hone with e | e
          · rw [e, List.nil_append]; exact asc_drop hb _
          · rw [e, List.append_nil]; exact asc_drop ha _
        · intro t ht y hy
          rcases List.mem_append.1 hy with hy | hy
          · exact (h4 t ht).1 y hy
          · exact (h4 t ht).2 y hy
      · rw [member_append, member_append, h7]
        have hsa : Member cmp a x ↔ (Member cmp (a.take r.2.1) x ∨ Member cmp (a.drop r.2.1) x) := by
          conv_lhs => rw [← List.take_append_drop r.2.1 a, member_append]
        have hsb : Member cmp b x ↔ (Member cmp (b.take r.2.2) x ∨ Member cmp (b.drop r.2.2) x) := by
          conv_lhs => rw [← List.take_append_drop r.2.2 b, member_append]
        have i1 := hna x
        have i2 := hnb x
        constructor
        · rintro ((h | h) | h | h)
          · exact Or.inl ⟨hsa.2 (Or.inl h.1), h.2⟩
          · exact Or.inr ⟨hsb.2 (Or.inl h.1), h.2⟩
          · exact Or.inl ⟨hsa.2 (Or.inr h), i1 h⟩
          · exact Or.inr ⟨hsb.2 (Or.inr h), i2 h⟩
        · rintro (⟨h, hn⟩ | ⟨h, hn⟩)
          · rcases hsa.1 h with h' | h'
            · exact Or.inl (Or.inl ⟨h', hn⟩)
            · exact Or.inr (Or.inl h')
          · rcases hsb.1 h with h' | h'
            · exact Or.inl (Or.inr ⟨h', hn⟩)
            · exact Or.inr (Or.inr h')

/-- C27: Set symmetric difference.  For ascending arrays `a` and `b` under a linear-order
policy, after `a.diff(b)` the array of `a` is ascending and `x` is a member exactly when it
was a member of exactly one of `a` and `b`; `a.diff(a)` leaves `a` empty. -/
theorem C27_set_symmetric_difference {cmp : CmpPolicy T} (L : cmp.Linear) (junk : Nat → T)
    (a b : List T) (ha : Ascending cmp a) (hb : Ascending cmp b) :
    Ascending cmp (Set.diff cmp junk a b)
    ∧ (∀ x, Member cmp (Set.diff cmp junk a b) x
        ↔ ((Member cmp a x ∧ ¬ Member cmp b x) ∨ (Member cmp b x ∧ ¬ Member cmp a x)))
    ∧ Set.diff cmp junk a a = [] := by
  obtain ⟨d1, d2⟩ := diff_spec L junk a b ha hb
  refine ⟨d1, d2, ?_⟩
  obtain ⟨_, e2⟩ := diff_spec L junk a a ha ha
  cases hr : Set.diff cmp junk a a with
  | nil => rfl
  | cons x xs =>
    exfalso
    have hm : Member cmp (Set.diff cmp junk a a) x := by
      rw [hr]; exact ⟨x, List.mem_cons_self _ _, L.eq_refl x⟩
    rcases (e2 x).1 hm with h | h
    · exact h.2 h.1
    · exact h.2 h.1

/-- The symmetric difference of 1, 3, 5 and 3, 4 is 1, 4, 5, and that of 1, 3, 5 with itself
is empty. -/
theorem C27_set_symmetric_difference_witness :
    Ascending default_cmp_policy [1, 3, 5] ∧ Ascending default_cmp_policy [3, 4]
    ∧ Set.diff default_cmp_policy (fun _ => 0) [1, 3, 5] [3, 4] = [1, 4, 5]
    ∧ Set.diff default_cmp_policy (fun _ => 0) [3, 4] [1, 3, 5] = [1, 4, 5]
    ∧ Set.diff default_cmp_policy (fun _ => 0) [1, 3, 5] [1, 3, 5] = [] :=
  ⟨by decide, by decide, by decide, by decide,
    (C27_set_symmetric_difference default_linear (fun _ => 0) [1, 3, 5] [3, 4] (by decide)
      (by decide)).2.2⟩

end SetSymmetricDifference

section SetSubset

/-- An ascending array whose elements are all members of another ascending array is not
longer than it, and when the lengths agree the two have the same members. -/
theorem subset_length {cmp : CmpPolicy T} (L : cmp.Linear) :
    ∀ (b a : List T), Ascending cmp a → Ascending cmp b → (∀ x ∈ a, Member cmp b x) →
      a.length ≤ b.length ∧ (a.length = b.length → ∀ y ∈ b, Member cmp a y)
  | [], [], _, _, _ => ⟨Nat.le_refl _, fun _ y hy => by cases hy⟩
  | [], x :: a', _, _, h => absurd (h x (List.mem_cons_self _ _)) (member_nil x)
  | y :: b', [], _, _, _ => ⟨Nat.zero_le _, fun h => by simp at h⟩
  | y :: b', x :: a', ha, hb, h => by
    have hx := List.pairwise_cons.1 ha
    have hy := List.pairwise_cons.1 hb
    by_cases hyx : cmp.eq y x = true
    · have hsub : ∀ x' ∈ a', Member cmp b' x' := by
        intro x' hx'
        rcases (member_cons y b' x').1 (h x' (List.mem_cons_of_mem _ hx')) with h1 | h1
        · exfalso
          have e : cmp.eq x' x = true := L.eq_trans (L.eq_symm _ _ h1) hyx
          rw [L.gt_ne _ _ (hx.1 x' hx')] at e; cases e
        · exact h1
      obtain ⟨i1, i2⟩ := subset_length L b' a' hx.2 hy.2 hsub
      refine ⟨by simp only [List.length_cons]; omega, fun hl y' hy' => ?_⟩
      rcases List.mem_cons.1 hy' with e | e
      · rw [e]; exact ⟨x, List.mem_cons_self _ _, L.eq_symm _ _ hyx⟩
      · obtain ⟨w, hw, he⟩ := i2 (by simp only [List.length_cons] at hl; omega) y' e
        exact ⟨w, List.mem_cons_of_mem _ hw, he⟩
    · have hxb : Member cmp b' x := by
        rcases (member_cons y b' x).1 (h x (List.mem_cons_self _ _)) with h1 | h1
        · exact absurd h1 hyx
        · exact h1
      obtain ⟨w, hw, hwx⟩ := hxb
      have hxy : cmp.gt x y = true := L.eq_gt _ _ _ (L.eq_symm _ _ hwx) (hy.1 w hw)
      have hsub : ∀ x' ∈ x :: a', Member cmp b' x' := by
        intro x' hx'
        rcases (member_cons y b' x').1 (h x' hx') with h1 | h1
        · exfalso
          have g : cmp.gt x' y = true := by
            rcases List.mem_cons.1 hx' with e | e
            · rw [e]; exact hxy
            · exact L.gt_trans _ _ _ (hx.1 x' e) hxy
          rw [(L.eq_not_gt h1).2] at g; cases g
        · exact h1
      obtain ⟨i1, i2⟩ := subset_length L b' (x :: a') ha hy.2 hsub
      refine ⟨by simp only [List.length_cons] at i1 ⊢; omega, fun hl => ?_⟩
      simp only [List.length_cons] at i1 hl
      omega

theorem forall2_getD {cmp : CmpPolicy T} :
    ∀ (l m : List T), List.Forall₂ (fun x y => cmp.eq x y = true) l m →
      l.length = m.length
      ∧ ∀ i, i < l.length → cmp.eq (l.getD i default) (m.getD i default) = true
  | [], [], _ => ⟨rfl, fun i hi => by cases hi⟩
  | x :: l, y :: m, h => by
    cases h with
    | cons h1 h2 =>
      obtain ⟨i1, i2⟩ := forall2_getD l m h2
      refine ⟨by simp only [List.length_cons]; omega, fun i hi => ?_⟩
      cases i with
      | zero => exact h1
      | succ i => exact i2 i (by simp only [List.length_cons] at hi; omega)

/-- The loop of `isSubsetOf` for arrays of equal length runs to the end exactly when the
arrays agree at every index. -/
theorem subsetEqRun_spec (cmp : CmpPolicy T) (arr set : List T) :
    ∀ (fuel d : Nat), d ≤ arr.length → arr.length - d < fuel →
      (subsetEqRun cmp arr set fuel d = arr.length
        ↔ ∀ i, d ≤ i → i < arr.length →
            cmp.eq (set.getD i default) (arr.getD i default) = true) := by
  intro fuel
  induction fuel with
  | zero => intro d _ h; omega
  | succ fuel ih =>
    intro d h1 h2
    rw [subsetEqRun]
    by_cases hc : d ≠ arr.length ∧ cmp.eq (set.getD d default) (arr.getD d default) = true
    · rw [if_pos hc, ih (d + 1) (by omega) (by omega)]
      constructor
      · intro h i hi hil
        rcases Nat.eq_or_lt_of_le hi with e | e
        · rw [← e]; exact hc.2
        · exact h i (by omega) hil
      · intro h i hi hil
        exact h i (by omega) hil
    · rw [if_neg hc]
      constructor
      · intro h i hi hil
        omega
      · intro h
        by_cases hd : d = arr.length
        · exact hd
        · exact absurd ⟨hd, h d (Nat.le_refl _) (by omega)⟩ hc

/-- The inner loop of `isSubsetOf` stops at the first element of the argument that is not
below `d`. -/
theorem subsetSkip_spec (cmp : CmpPolicy T) (set : List T) (d : T) :
    ∀ (fuel s : Nat), s ≤ set.length → set.length - s < fuel →
      s ≤ subsetSkip cmp set d fuel s
      ∧ subsetSkip cmp set d fuel s ≤ set.length
      ∧ (∀ i, s ≤ i → i < subsetSkip cmp set d fuel s →
          cmp.gt d (set.getD i default) = true)
      ∧ (subsetSkip cmp set d fuel s < set.length →
          cmp.gt d (set.getD (subsetSkip cmp set d fuel s) default) = false) := by
  intro fuel
  induction fuel with
  | zero => intro s _ h; omega
  | succ fuel ih =>
    intro s h1 h2
    rw [subsetSkip]
    by_cases hc : s ≠ set.length ∧ cmp.gt d (set.getD s default) = true
    · rw [if_pos hc]
      obtain ⟨a1, a2, a3, a4⟩ := ih (s + 1) (by omega) (by omega)
      refine ⟨by omega, a2, fun i hi hlt => ?_, a4⟩
      rcases Nat.eq_or_lt_of_le hi with h | h
      · rw [← h]; exact hc.2
      · exact a3 i (by omega) hlt
    · rw [if_neg hc]
      refine ⟨Nat.le_refl _, h1, fun i hi hlt => by omega, fun hlt => ?_⟩
      cases hg : cmp.gt d (set.getD s default) with
      | false => rfl
      | true => exact absurd ⟨by omega, hg⟩ hc

/-- The main loop of `isSubsetOf`: it returns true exactly when the elements of `a` from
index `d` on are members of `b`. -/
theorem subsetLoop_spec {cmp : CmpPolicy T} (L : cmp.Linear) (a b : List T)
    (ha : Ascending cmp a) (hb : Ascending cmp b) :
    ∀ (fuel d s : Nat), d < a.length → a.length - d ≤ fuel → s ≤ b.length →
      (∀ y ∈ b.take s, ∀ x ∈ a.drop d, cmp.gt x y = true) →
      (subsetLoop cmp a b fuel d s = true ↔ ∀ x ∈ a.drop d, Member cmp b x) := by
  intro fuel
  induction fuel with
  | zero => intro d s h1 h2; omega
  | succ fuel ih =>
    intro d s hd hfuel hs hbelow
    rw [subsetLoop]
    obtain ⟨k1, k2, k3, k4⟩ := subsetSkip_spec cmp b (a.getD d default) (b.length + 1) s hs
      (by omega)
    generalize subsetSkip cmp b (a.getD d default) (b.length + 1) s = s1 at k1 k2 k3 k4
    have hdm : a.getD d default ∈ a.drop d :=
      (mem_drop_iff_getD a _ _).2 ⟨d, Nat.le_refl _, hd, rfl⟩
    have hlo : ∀ y ∈ b.take s1, cmp.gt (a.getD d default) y = true := by
      intro y hy
      obtain ⟨i, b1, b2, b3⟩ := (mem_take_iff_getD b _ y).1 hy
      by_cases hi : i < s
      · exact hbelow y ((mem_take_iff_getD b _ y).2 ⟨i, hi, b2, b3⟩) _ hdm
      · rw [← b3]; exact k3 i (by omega) b1
    by_cases hend : s1 = b.length
    · rw [if_pos (Or.inl hend)]
      constructor
      · intro h; cases h
      · intro h
        exfalso
        apply not_member_of_above L b (a.getD d default) _ (h _ hdm)
        intro y hy
        apply hlo
        rw [hend, List.take_length]; exact hy
    · have hs1 : s1 < b.length := by omega
      by_cases heq : cmp.eq (a.getD d default) (b.getD s1 default) = false
      · rw [if_pos (Or.inr heq)]
        constructor
        · intro h; cases h
        · intro h
          exfalso
          exact not_member_of_lt L b s1 _ hb hs1 hlo (L.total _ _ heq (k4 hs1)) (h _ hdm)
      · have heq' : cmp.eq (a.getD d default) (b.getD s1 default) = true := by
          cases hq : cmp.eq (a.getD d default) (b.getD s1 default) with
          | true => rfl
          | false => exact absurd hq heq
        rw [if_neg (by rintro (h | h); exact hend h; exact heq h)]
        have hmem : Member cmp b (a.getD d default) :=
          ⟨_, getD_mem b s1 hs1, L.eq_symm _ _ heq'⟩
        rw [drop_getD_cons a d hd]
        by_cases hlast : d + 1 ≠ a.length
        · rw [if_pos hlast, ih (d + 1) (s1 + 1) (by omega) (by omega) (by omega)]
          · constructor
            · intro h x hx
              rcases List.mem_cons.1 hx with e | e
              · rw [e]; exact hmem
              · exact h x e
            · intro h x hx
              exact h x (List.mem_cons_of_mem _ hx)
          · intro y hy x hx
            have hxd := asc_drop_succ_gt ha d x hx
            rw [take_succ_getD b s1 hs1] at hy
            rcases List.mem_append.1 hy with hy | hy
            · exact L.gt_trans _ _ _ hxd (hlo y hy)
            · rw [List.mem_singleton.1 hy]
              exact L.gt_eq _ _ _ hxd heq'
        · rw [if_neg hlast]
          have : d + 1 = a.length := by
            by_cases h : d + 1 = a.length
            · exact h
            · exact absurd h hlast
          rw [this, List.drop_length]
          constructor
          · intro _ x hx
            rw [List.mem_singleton.1 hx]; exact hmem
          · intro _; rfl

/-- The method `isSubsetOf` decides whether every element of `a` is a member of `b`. -/
theorem isSubsetOf_spec {cmp : CmpPolicy T} (L : cmp.Linear) (a b : List T)
    (ha : Ascending cmp a) (hb : Ascending cmp b) :
    Set.isSubsetOf cmp a b = true ↔ ∀ x ∈ a, Member cmp b x := by
  unfold Set.isSubsetOf
  by_cases ha0 : a.length = 0
  · rw [if_pos ha0, List.length_eq_zero.1 ha0]
    exact ⟨fun _ x hx => (by cases hx), fun _ => rfl⟩
  · rw [if_neg ha0]
    by_cases hlt : b.length < a.length
    · rw [if_pos hlt]
      constructor
      · intro h; cases h
      · intro h
        have := (subset_length L b a ha hb h).1
        omega
    · rw [if_neg hlt]
      by_cases heq : b.length = a.length
      · rw [if_pos heq, decide_eq_true_eq,
          subsetEqRun_spec cmp a b (a.length + 1) 0 (Nat.zero_le _) (by omega)]
        constructor
        · intro h x hx
          obtain ⟨i, hi, he⟩ := (mem_iff_getD a x).1 hx
          exact ⟨_, getD_mem b i (by omega), by rw [← he]; exact h i (Nat.zero_le _) hi⟩
        · intro h i _ hi
          have hback := (subset_length L b a ha hb h).2 heq.symm
          have hsame : ∀ y, Member cmp a y ↔ Member cmp b y := by
            intro y
            constructor
            · rintro ⟨z, hz, he⟩
              exact (member_congr L b he).1 (h z hz)
            · rintro ⟨z, hz, he⟩
              exact (member_congr L a he).1 (hback z hz)
          exact L.eq_symm _ _ ((forall2_getD a b (asc_ext L a b ha hb hsame)).2 i hi)
      · rw [if_neg heq, subsetLoop_spec L a b ha hb a.length 0 0 (by omega) (by omega)
          (Nat.zero_le _) (fun y hy => by simp at hy), List.drop_zero]

/-- C28: Subset test.  For ascending arrays `a` and `b` under a linear-order policy,
`a.isSubsetOf(b)` is true exactly when every element of `a` is a member of `b`, so
`a.isSubsetOf(a)` is true; `a.isProperSubsetOf(b)` is true exactly when in addition `b` has
an element that is not a member of `a`, so it is false for `b = a`. -/
theorem C28_subset_test {cmp : CmpPolicy T} (L : cmp.Linear) (a b : List T)
    (ha : Ascending cmp a) (hb : Ascending cmp b) :
    (Set.isSubsetOf cmp a b = true ↔ ∀ x ∈ a, Member cmp b x)
    ∧ Set.isSubsetOf cmp a a = true
    ∧ (Set.isProperSubsetOf cmp a b = true
        ↔ ((∀ x ∈ a, Member cmp b x) ∧ ∃ y ∈ b, ¬ Member cmp a y))
    ∧ Set.isProperSubsetOf cmp a a = false := by
  have hsub := isSubsetOf_spec L a b ha hb
  have hself : ∀ x ∈ a, Member cmp a x := fun x hx => ⟨x, hx, L.eq_refl x⟩
  refine ⟨hsub, (isSubsetOf_spec L a a ha ha).2 hself, ?_, ?_⟩
  · unfold Set.isProperSubsetOf
    rw [Bool.and_eq_true, decide_eq_true_eq, hsub]
    constructor
    · rintro ⟨hlt, h⟩
      refine ⟨h, ?_⟩
      by_contra hn
      have hall : ∀ y ∈ b, Member cmp a y := by
        intro y hy
        by_contra hm
        exact hn ⟨y, hy, hm⟩
      have := (subset_length L a b hb ha hall).1
      omega
    · rintro ⟨h, y, hy, hn⟩
      obtain ⟨i1, i2⟩ := subset_length L b a ha hb h
      refine ⟨?_, h⟩
      rcases Nat.eq_or_lt_of_le i1 with e | e
      · exact absurd (i2 e y hy) hn
      · exact e
  · unfold Set.isProperSubsetOf
    simp

/-- The scenario of the specification: 1, 2 is a proper subset of 1, 2, 3, and 1, 2, 3 is a
subset but not a proper subset of itself. -/
theorem C28_subset_test_witness :
    Ascending default_cmp_policy [1, 2] ∧ Ascending default_cmp_policy [1, 2, 3]
    ∧ Set.isSubsetOf default_cmp_policy [1, 2] [1, 2, 3] = true
    ∧ Set.isProperSubsetOf default_cmp_policy [1, 2] [1, 2, 3] = true
    ∧ Set.isSubsetOf default_cmp_policy [1, 2, 3] [1, 2, 3] = true
    ∧ Set.isProperSubsetOf default_cmp_policy [1, 2, 3] [1, 2, 3] = false
    ∧ Set.isSubsetOf default_cmp_policy [1, 4] [1, 2, 3] = false
    ∧ (Set.isProperSubsetOf default_cmp_policy [1, 2] [1, 2, 3] = true
        ↔ ((∀ x ∈ [1, 2], Member default_cmp_policy [1, 2, 3] x)
          ∧ ∃ y ∈ [1, 2, 3], ¬ Member default_cmp_policy [1, 2] y)) :=
  ⟨by decide, by decide, by decide, by decide, by decide, by decide, by decide,
    (C28_subset_test default_linear [1, 2] [1, 2, 3] (by decide) (by decide)).2.2.1⟩

end SetSubset

section SetInvariant

theorem add_length_le (cmp : CmpPolicy T) (arr : List T) (x : T) :
    (Set.add cmp arr x).length ≤ arr.length + 1 := by
  unfold Set.add
  split_ifs
  · unfold insertAt
    rw [List.length_append, List.length_cons, List.length_take, List.length_drop]
    omega
  · omega

/-- The loop of the constructor from a raw array keeps the array ascending. -/
theorem foldl_add_ascending {cmp : CmpPolicy T} (L : cmp.Linear) :
    ∀ (array arr : List T), Ascending cmp arr → arr.length + array.length < 2147483648 →
      Ascending cmp (array.foldl (Set.add cmp) arr)
  | [], arr, h, _ => h
  | x :: rest, arr, h, hl => by
    rw [List.foldl_cons]
    simp only [List.length_cons] at hl
    apply foldl_add_ascending L rest _ (add_elem_spec L arr x h (by omega)).1
    have := add_length_le cmp arr x
    omega

/-- Every reachable set is ascending. -/
theorem reachable_ascending {cmp : CmpPolicy T} (L : cmp.Linear) {s : List T}
    (h : Set.Reachable cmp s) : Ascending cmp s := by
  induction h with
  | ctor => exact List.Pairwise.nil
  | ofArray array hl =>
    exact foldl_add_ascending L array [] List.Pairwise.nil (by simpa using hl)
  | add arr x _ hl ih => exact (add_elem_spec L arr x ih hl).1
  | sub arr x _ hl ih => exact (sub_elem_spec L arr x ih hl).1
  | addSet same junk arr set _ _ ih1 ih2 =>
    cases same
    · exact (addSet_spec L junk arr set ih1 ih2).1
    · rw [addSet_same L]; exact ih1
  | subSet same arr set _ _ ih1 ih2 =>
    cases same
    · rw [subSet_spec L arr set ih1 ih2]
      exact List.Pairwise.sublist (List.filter_sublist arr) ih1
    · rw [subSet_same L]; exact List.Pairwise.nil
  | mul same arr set _ _ ih1 ih2 =>
    cases same
    · rw [mul_spec L arr set ih1 ih2]
      exact List.Pairwise.sublist (List.filter_sublist arr) ih1
    · rw [mul_same L]; exact ih1
  | diff junk arr set _ _ ih1 ih2 => exact (diff_spec L junk arr set ih1 ih2).1
  | clear arr _ _ => exact List.Pairwise.nil

/-- C22: Sorted Set invariant.  Under a linear-order policy every set reachable from the
empty set or from the raw-list constructor through `add` and `sub` (element and set forms),
`mul`, `diff` and `clear` stores its elements in strictly ascending order: a later element is
greater than an earlier one, so no two stored elements compare equal. -/
theorem C22_sorted_set_invariant {cmp : CmpPolicy T} (L : cmp.Linear) (s : List T)
    (h : Set.Reachable cmp s) :
    Ascending cmp s
    ∧ (∀ i j, i < j → j < s.length →
        cmp.gt (s.getD j default) (s.getD i default) = true)
    ∧ (∀ i j, i < s.length → j < s.length → i ≠ j →
        cmp.eq (s.getD i default) (s.getD j default) = false) := by
  have hasc := reachable_ascending L h
  refine ⟨hasc, fun i j hij hj => asc_getD hasc i j hij hj, fun i j hi hj hne => ?_⟩
  cases hq : cmp.eq (s.getD i default) (s.getD j default) with
  | false => rfl
  | true => exact absurd (asc_no_duplicates L hasc i j hi hj hq) hne

/-- The set built from the raw array 5, 1, 3, 1, united with 3, 4, is 1, 3, 4, 5. -/
theorem C22_sorted_set_invariant_witness :
    Set.addSet default_cmp_policy false (fun _ => 0)
        (Set.ofArray default_cmp_policy [5, 1, 3, 1]) (Set.ofArray default_cmp_policy [4, 3])
      = [1, 3, 4, 5]
    ∧ Ascending default_cmp_policy
        (Set.addSet default_cmp_policy false (fun _ => 0)
          (Set.ofArray default_cmp_policy [5, 1, 3, 1])
          (Set.ofArray default_cmp_policy [4, 3])) :=
  ⟨by decide,
    (C22_sorted_set_invariant default_linear _
      (Set.Reachable.addSet false (fun _ => 0) _ _
        (Set.Reachable.ofArray [5, 1, 3, 1] (by decide))
        (Set.Reachable.ofArray [4, 3] (by decide)))).1⟩

end SetInvariant

section SetElements

theorem linear_eq_false_symm {cmp : CmpPolicy T} (L : cmp.Linear) {a b : T}
    (h : cmp.eq a b = false) : cmp.eq b a = false := by
  cases hq : cmp.eq b a with
  | false => rfl
  | true => rw [L.eq_symm b a hq] at h; cases h

/-- The policy of pairs built from two linear orders is a linear order. -/
theorem pair_linear {T1 T2 : Type} [Inhabited T1] [Inhabited T2] {cmp1 : CmpPolicy T1}
    {cmp2 : CmpPolicy T2}
    (L1 : cmp1.Linear) (L2 : cmp2.Linear) : (Pair.cmp_policy cmp1 cmp2).Linear := by
  refine ⟨?_, ?_, ?_, ?_, ?_, ?_, ?_, ?_⟩
  · intro a
    show (cmp1.eq a.left a.left && cmp2.eq a.right a.right) = true
    rw [L1.eq_refl, L2.eq_refl]; rfl
  · intro a b h
    have h' : (cmp1.eq a.left b.left && cmp2.eq a.right b.right) = true := h
    rw [Bool.and_eq_true] at h'
    show (cmp1.eq b.left a.left && cmp2.eq b.right a.right) = true
    rw [L1.eq_symm _ _ h'.1, L2.eq_symm _ _ h'.2]; rfl
  · intro a b h
    have h' : (cmp1.gt a.left b.left
        || (cmp1.eq a.left b.left && cmp2.gt a.right b.right)) = true := h
    rw [Bool.or_eq_true, Bool.and_eq_true] at h'
    show (cmp1.gt b.left a.left || (cmp1.eq b.left a.left && cmp2.gt b.right a.right)) = false
    rcases h' with h1 | ⟨h1, h2⟩
    · rw [L1.gt_asymm _ _ h1, linear_eq_false_symm L1 (L1.gt_ne _ _ h1)]; rfl
    · rw [(L1.eq_not_gt h1).2, L2.gt_asymm _ _ h2, Bool.and_false]; rfl
  · intro a b h
    have h' : (cmp1.gt a.left b.left
        || (cmp1.eq a.left b.left && cmp2.gt a.right b.right)) = true := h
    rw [Bool.or_eq_true, Bool.and_eq_true] at h'
    show (cmp1.eq a.left b.left && cmp2.eq a.right b.right) = false
    rcases h' with h1 | ⟨h1, h2⟩
    · rw [L1.gt_ne _ _ h1]; rfl
    · rw [L2.gt_ne _ _ h2, Bool.and_false]
  · intro a b he hg
    have he' : (cmp1.eq a.left b.left && cmp2.eq a.right b.right) = false := he
    have hg' : (cmp1.gt a.left b.left
        || (cmp1.eq a.left b.left && cmp2.gt a.right b.right)) = false := hg
    rw [Bool.or_eq_false_iff] at hg'
    show (cmp1.gt b.left a.left || (cmp1.eq b.left a.left && cmp2.gt b.right a.right)) = true
    cases h1 : cmp1.eq a.left b.left with
    | false => rw [L1.total _ _ h1 hg'.1]; rfl
    | true =>
      rw [h1, Bool.true_and] at he'
      have h2 := hg'.2
      rw [h1, Bool.true_and] at h2
      rw [L1.eq_symm _ _ h1, L2.total _ _ he' h2, Bool.and_self, Bool.or_true]
  · intro a b c hab hbc
    have hab' : (cmp1.gt a.left b.left
        || (cmp1.eq a.left b.left && cmp2.gt a.right b.right)) = true := hab
    have hbc' : (cmp1.gt b.left c.left
        || (cmp1.eq b.left c.left && cmp2.gt b.right c.right)) = true := hbc
    rw [Bool.or_eq_true, Bool.and_eq_true] at hab' hbc'
    show (cmp1.gt a.left c.left || (cmp1.eq a.left c.left && cmp2.gt a.right c.right)) = true
    rcases hab' with h1 | ⟨h1, h2⟩
    · rcases hbc' with g1 | ⟨g1, g2⟩
      · rw [L1.gt_trans _ _ _ h1 g1]; rfl
      · rw [L1.gt_eq _ _ _ h1 g1]; rfl
    · rcases hbc' with g1 | ⟨g1, g2⟩
      · rw [L1.eq_gt _ _ _ h1 g1]; rfl
      · rw [L1.eq_trans h1 g1, L2.gt_trans _ _ _ h2 g2, Bool.and_self, Bool.or_true]
  · intro a b c hab hbc
    have hab' : (cmp1.gt a.left b.left
        || (cmp1.eq a.left b.left && cmp2.gt a.right b.right)) = true := hab
    have hbc' : (cmp1.eq b.left c.left && cmp2.eq b.right c.right) = true := hbc
    rw [Bool.or_eq_true, Bool.and_eq_true] at hab'
    rw [Bool.and_eq_true] at hbc'
    show (cmp1.gt a.left c.left || (cmp1.eq a.left c.left && cmp2.gt a.right c.right)) = true
    rcases hab' with h1 | ⟨h1, h2⟩
    · rw [L1.gt_eq _ _ _ h1 hbc'.1]; rfl
    · rw [L1.eq_trans h1 hbc'.1, L2.gt_eq _ _ _ h2 hbc'.2, Bool.and_self, Bool.or_true]
  · intro a b c hab hbc
    have hab' : (cmp1.eq a.left b.left && cmp2.eq a.right b.right) = true := hab
    have hbc' : (cmp1.gt b.left c.left
        || (cmp1.eq b.left c.left && cmp2.gt b.right c.right)) = true := hbc
    rw [Bool.or_eq_true, Bool.and_eq_true] at hbc'
    rw [Bool.and_eq_true] at hab'
    show (cmp1.gt a.left c.left || (cmp1.eq a.left c.left && cmp2.gt a.right c.right)) = true
    rcases hbc' with h1 | ⟨h1, h2⟩
    · rw [L1.eq_gt _ _ _ hab'.1 h1]; rfl
    · rw [L1.eq_trans hab'.1 h1, L2.eq_gt _ _ _ hab'.2 h2, Bool.and_self, Bool.or_true]

theorem insertAt_mem (arr : List T) (pos : Nat) (x y : T) (h : y ∈ insertAt arr pos x) :
    y ∈ arr ∨ y = x := by
  unfold insertAt at h
  rcases List.mem_append.1 h with h | h
  · exact Or.inl (List.mem_of_mem_take h)
  · rcases List.mem_cons.1 h with h | h
    · exact Or.inr h
    · exact Or.inl (List.mem_of_mem_drop h)

/-- The elements after `add(element)` are the old ones and `element`. -/
theorem add_mem (cmp : CmpPolicy T) (arr : List T) (x y : T) (h : y ∈ Set.add cmp arr x) :
    y ∈ arr ∨ y = x := by
  unfold Set.add at h
  split_ifs at h
  · exact insertAt_mem arr _ x y h
  · exact Or.inl h

/-- The elements after `sub(element)` are old ones. -/
theorem sub_mem (cmp : CmpPolicy T) (arr : List T) (x y : T) (h : y ∈ Set.sub cmp arr x) :
    y ∈ arr := by
  unfold Set.sub at h
  split_ifs at h
  · exact List.mem_of_mem_eraseIdx h
  · exact h

/-- The loop of the union stores only elements of the two arrays, whatever their order. -/
theorem unionLoop_mem (cmp : CmpPolicy T) (set : List T) (P : T → Prop)
    (hset : ∀ y ∈ set, P y) :
    ∀ (fuel : Nat) (arr : List T) (pos _size s_begin : Nat),
      _size = arr.length → pos ≤ _size → s_begin < set.length →
      set.length - s_begin ≤ fuel → (∀ y ∈ arr, P y) →
      (∀ y ∈ (unionLoop cmp false set set.length fuel arr pos _size s_begin).1, P y)
      ∧ ((unionLoop cmp false set set.length fuel arr pos _size s_begin).2.2 ≠ set.length →
          (unionLoop cmp false set set.length fuel arr pos _size s_begin).2.1
            = (unionLoop cmp false set set.length fuel arr pos _size s_begin).1.length)
      ∧ (unionLoop cmp false set set.length fuel arr pos _size s_begin).2.2 ≤ set.length := by
  intro fuel
  induction fuel with
  | zero => intro arr pos _size s_begin _ _ h1 h2; omega
  | succ fuel ih =>
    intro arr pos _size s_begin hsize hpos hs hfuel harr
    rw [unionLoop_step, operand_false]
    obtain ⟨k1, k2, k3, k4⟩ := unionSkip_spec cmp arr (set.getD s_begin default) _size
      (_size + 1) pos hpos (by omega)
    generalize unionSkip cmp arr (set.getD s_begin default) _size (_size + 1) pos = pos1
      at k1 k2 k3 k4
    have hsP : P (set.getD s_begin default) := hset _ (getD_mem set s_begin hs)
    by_cases hbreak : pos1 = _size
    · rw [if_pos hbreak]
      exact ⟨harr, fun _ => by rw [hbreak, hsize], by simp only []; omega⟩
    · rw [if_neg hbreak]
      have harr1 : ∃ arr1 size1,
          (if cmp.eq (set.getD s_begin default) (arr.getD pos1 default) = true then arr
            else insertAt arr pos1 (set.getD s_begin default)) = arr1
          ∧ (if cmp.eq (set.getD s_begin default) (arr.getD pos1 default) = true then _size
            else _size + 1) = size1
          ∧ size1 = arr1.length ∧ pos1 + 1 ≤ size1 ∧ (∀ y ∈ arr1, P y) := by
        by_cases he : cmp.eq (set.getD s_begin default) (arr.getD pos1 default) = true
        · exact ⟨arr, _size, by rw [if_pos he], by rw [if_pos he], hsize, by omega, harr⟩
        · refine ⟨_, _size + 1, by rw [if_neg he], by rw [if_neg he],
            by rw [insertAt_length arr pos1 _ (by omega), hsize], by omega, fun y hy => ?_⟩
          rcases insertAt_mem arr pos1 _ y hy with h | h
          · exact harr y h
          · rw [h]; exact hsP
      obtain ⟨arr1, size1, e1, e2, q1, q2, q3⟩ := harr1
      rw [e1, e2]
      by_cases hend : s_begin + 1 ≠ set.length
      · rw [if_pos hend]
        exact ih arr1 (pos1 + 1) size1 (s_begin + 1) q1 q2 (by omega) (by omega) q3
      · rw [if_neg hend]
        have hse : s_begin + 1 = set.length := by
          by_cases h : s_begin + 1 = set.length
          · exact h
          · exact absurd h hend
        exact ⟨q3, fun h => absurd hse h, by simp only []; omega⟩

/-- The elements after the union are elements of the two arrays, whatever their order. -/
theorem addSet_mem (cmp : CmpPolicy T) (junk : Nat → T) (a b : List T) (y : T)
    (h : y ∈ Set.addSet cmp false junk a b) : y ∈ a ∨ y ∈ b := by
  unfold Set.addSet at h
  rw [operand_false] at h
  by_cases hb0 : b.length = 0
  · rw [if_pos hb0] at h; exact Or.inl h
  · rw [if_neg hb0] at h
    by_cases ha0 : a.length = 0
    · rw [if_pos ha0] at h; exact Or.inr h
    · rw [if_neg ha0] at h
      obtain ⟨r1, r3, r4⟩ := unionLoop_mem cmp b (fun y => y ∈ a ∨ y ∈ b)
        (fun y hy => Or.inr hy) b.length a 0 a.length 0 rfl (Nat.zero_le _) (by omega)
        (by omega) (fun y hy => Or.inl hy)
      simp only [] at h
      generalize unionLoop cmp false b b.length b.length a 0 a.length 0 = r at r1 r3 r4 h
      by_cases hq : r.2.2 ≠ b.length
      · rw [if_pos hq, r3 hq, copyRest_resize junk b r.1 r.2.2 r4] at h
        rcases List.mem_append.1 h with h | h
        · exact r1 y h
        · exact Or.inr (List.mem_of_mem_drop h)
      · rw [if_neg hq] at h
        exact r1 y h

theorem set_getD_mem (buf : List T) (it data : Nat) (P : T → Prop) (hd : data < buf.length)
    (h : ∀ y ∈ buf, P y) : ∀ y ∈ buf.set it (buf.getD data default), P y := by
  intro y hy
  rcases List.mem_or_eq_of_mem_set hy with h1 | h1
  · exact h y h1
  · rw [h1]; exact h _ (getD_mem buf data hd)

/-- The loop of the complement stores only elements of the array, whatever the order. -/
theorem complementLoop_mem (cmp : CmpPolicy T) (set : List T) (s_end n : Nat)
    (P : T → Prop) :
    ∀ (fuel : Nat) (buf : List T) (it data s_begin : Nat),
      buf.length = n → data < n → (∀ y ∈ buf, P y) →
      (∀ y ∈ (complementLoop cmp false set s_end n fuel buf it data s_begin).1, P y)
      ∧ (complementLoop cmp false set s_end n fuel buf it data s_begin).1.length = n
      ∧ (complementLoop cmp false set s_end n fuel buf it data s_begin).2.2.1 ≤ n := by
  intro fuel
  induction fuel with
  | zero =>
    intro buf it data s_begin h1 h2 h3
    exact ⟨h3, h1, by rw [complementLoop]; simp only []; omega⟩
  | succ fuel ih =>
    intro buf it data s_begin hlen hd hP
    cases c1 : cmp.gt (buf.getD data default) ((operand false buf set).getD s_begin default) with
    | true =>
      rw [complementLoop_gt cmp false set _ _ _ _ _ _ _ c1]
      split_ifs
      · exact ih buf it data (s_begin + 1) hlen hd hP
      · exact ⟨hP, hlen, by simp only []; omega⟩
    | false =>
      cases c2 : cmp.eq (buf.getD data default) ((operand false buf set).getD s_begin default) with
      | true =>
        rw [complementLoop_eq cmp false set _ _ _ _ _ _ _ c1 c2]
        split_ifs with hc
        · exact ih buf it (data + 1) (s_begin + 1) hlen (by omega) hP
        · exact ⟨hP, hlen, by simp only []; omega⟩
      | false =>
        rw [complementLoop_lt cmp false set _ _ _ _ _ _ _ c1 c2]
        have hnew : (if it ≠ data then buf.set it (buf.getD data default) else buf).length = n
            ∧ ∀ y ∈ (if it ≠ data then buf.set it (buf.getD data default) else buf), P y := by
          by_cases hne : it ≠ data
          · rw [if_pos hne]
            exact ⟨by rw [List.length_set]; exact hlen,
              set_getD_mem buf it data P (by omega) hP⟩
          · rw [if_neg hne]; exact ⟨hlen, hP⟩
        by_cases hc : s_begin ≠ s_end ∧ data + 1 ≠ n
        · rw [if_pos hc]
          exact ih _ (it + 1) (data + 1) s_begin hnew.1 (by omega) hnew.2
        · rw [if_neg hc]
          exact ⟨hnew.2, hnew.1, by simp only []; omega⟩

/-- The loop of the intersection stores only elements of the array, whatever the order. -/
theorem intersectLoop_mem (cmp : CmpPolicy T) (set : List T) (s_end n : Nat)
    (P : T → Prop) :
    ∀ (fuel : Nat) (buf : List T) (it data s_begin : Nat),
      buf.length = n → data < n → (∀ y ∈ buf, P y) →
      (∀ y ∈ (intersectLoop cmp false set s_end n fuel buf it data s_begin).1, P y)
      ∧ (intersectLoop cmp false set s_end n fuel buf it data s_begin).1.length = n := by
  intro fuel
  induction fuel with
  | zero =>
    intro buf it data s_begin h1 h2 h3
    exact ⟨h3, h1⟩
  | succ fuel ih =>
    intro buf it data s_begin hlen hd hP
    cases c1 : cmp.gt (buf.getD data default) ((operand false buf set).getD s_begin default) with
    | true =>
      rw [intersectLoop_gt cmp false set _ _ _ _ _ _ _ c1]
      split_ifs
      · exact ih buf it data (s_begin + 1) hlen hd hP
      · exact ⟨hP, hlen⟩
    | false =>
      cases c2 : cmp.eq (buf.getD data default) ((operand false buf set).getD s_begin default) with
      | true =>
        rw [intersectLoop_eq cmp false set _ _ _ _ _ _ _ c1 c2]
        have hnew : (if it ≠ data then buf.set it (buf.getD data default) else buf).length = n
            ∧ ∀ y ∈ (if it ≠ data then buf.set it (buf.getD data default) else buf), P y := by
          by_cases hne : it ≠ data
          · rw [if_pos hne]
            exact ⟨by rw [List.length_set]; exact hlen,
              set_getD_mem buf it data P (by omega) hP⟩
          · rw [if_neg hne]; exact ⟨hlen, hP⟩
        by_cases hc : s_begin + 1 ≠ s_end ∧ data + 1 ≠ n
        · rw [if_pos hc]
          exact ih _ (it + 1) (data + 1) (s_begin + 1) hnew.1 (by omega) hnew.2
        · rw [if_neg hc]
          exact ⟨hnew.2, hnew.1⟩
      | false =>
        rw [intersectLoop_lt cmp false set _ _ _ _ _ _ _ c1 c2]
        by_cases hc : s_begin ≠ s_end ∧ data + 1 ≠ n
        · rw [if_pos hc]
          exact ih buf it (data + 1) s_begin hlen (by omega) hP
        · rw [if_neg hc]
          exact ⟨hP, hlen⟩

theorem moveDown_mem (P : T → Prop) : ∀ (n : Nat) (buf : List T) (it data : Nat),
    data + n ≤ buf.length → (∀ y ∈ buf, P y) → ∀ y ∈ (moveDown n buf it data).1, P y
  | 0, buf, it, data, _, h => h
  | n + 1, buf, it, data, hl, h => by
    rw [moveDown]
    exact moveDown_mem P n _ (it + 1) (data + 1) (by rw [List.length_set]; omega)
      (set_getD_mem buf it data P (by omega) h)

theorem shrinkByElems_mem (l : List T) (n : Nat) (y : T) (h : y ∈ shrinkByElems l n) :
    y ∈ l := by
  unfold shrinkByElems at h
  split_ifs at h
  · cases h
  · exact List.mem_of_mem_take h

/-- The elements after the complement are elements of the array, whatever the order. -/
theorem subSet_mem (cmp : CmpPolicy T) (a b : List T) (y : T)
    (h : y ∈ Set.subSet cmp false a b) : y ∈ a := by
  unfold Set.subSet at h
  rw [operand_false] at h
  by_cases h0 : a.length = 0 ∨ b.length = 0
  · rw [if_pos h0] at h; exact h
  · rw [if_neg h0] at h
    obtain ⟨r1, r2, r3⟩ := complementLoop_mem cmp b b.length a.length (fun y => y ∈ a)
      (a.length + b.length) a 0 0 0 rfl (by omega) (fun y hy => hy)
    simp only [] at h
    generalize complementLoop cmp false b b.length a.length (a.length + b.length) a 0 0 0 = r
      at r1 r2 r3 h
    split_ifs at h
    · exact r1 y h
    · exact moveDown_mem (fun y => y ∈ a) _ r.1 r.2.1 r.2.2.1 (by omega) r1 y
        (shrinkByElems_mem _ _ y h)

/-- The elements after the intersection are elements of the array, whatever the order. -/
theorem mul_mem (cmp : CmpPolicy T) (a b : List T) (y : T)
    (h : y ∈ Set.mul cmp false a b) : y ∈ a := by
  unfold Set.mul at h
  rw [operand_false] at h
  by_cases h0 : a.length = 0 ∨ b.length = 0
  · rw [if_pos h0] at h; cases h
  · rw [if_neg h0] at h
    obtain ⟨r1, r2⟩ := intersectLoop_mem cmp b b.length a.length (fun y => y ∈ a)
      (a.length + b.length) a 0 0 0 rfl (by omega) (fun y hy => hy)
    exact r1 y (shrinkByElems_mem _ _ y h)

/-- The loop of the symmetric difference stores only elements of the two arrays, whatever
their order. -/
theorem diffLoop_mem (cmp : CmpPolicy T) (a b : List T) (P : T → Prop)
    (ha : ∀ y ∈ a, P y) (hb : ∀ y ∈ b, P y) :
    ∀ (fuel : Nat) (tmp : List T) (data s_begin : Nat),
      data < a.length → s_begin < b.length → (∀ y ∈ tmp, P y) →
      (∀ y ∈ (diffLoop cmp a b fuel tmp data s_begin).1, P y)
      ∧ (diffLoop cmp a b fuel tmp data s_begin).2.1 ≤ a.length
      ∧ (diffLoop cmp a b fuel tmp data s_begin).2.2 ≤ b.length := by
  intro fuel
  induction fuel with
  | zero =>
    intro tmp data s_begin h1 h2 h3
    exact ⟨h3, by rw [diffLoop]; simp only []; omega, by rw [diffLoop]; simp only []; omega⟩
  | succ fuel ih =>
    intro tmp data s_begin hd hs hP
    have hpush : ∀ x, P x → ∀ y ∈ tmp ++ [x], P y := by
      intro x hx y hy
      rcases List.mem_append.1 hy with h | h
      · exact hP y h
      · rw [List.mem_singleton.1 h]; exact hx
    cases c1 : cmp.gt (a.getD data default) (b.getD s_begin default) with
    | true =>
      rw [diffLoop_gt cmp a b _ _ _ _ c1]
      have hnew := hpush _ (hb _ (getD_mem b s_begin hs))
      by_cases hc : s_begin + 1 ≠ b.length ∧ data ≠ a.length
      · rw [if_pos hc]
        exact ih _ data (s_begin + 1) hd (by omega) hnew
      · rw [if_neg hc]
        exact ⟨hnew, by simp only []; omega, by simp only []; omega⟩
    | false =>
      cases c2 : cmp.eq (a.getD data default) (b.getD s_begin default) with
      | true =>
        rw [diffLoop_eq cmp a b _ _ _ _ c1 c2]
        by_cases hc : s_begin + 1 ≠ b.length ∧ data + 1 ≠ a.length
        · rw [if_pos hc]
          exact ih _ (data + 1) (s_begin + 1) (by omega) (by omega) hP
        · rw [if_neg hc]
          exact ⟨hP, by simp only []; omega, by simp only []; omega⟩
      | false =>
        rw [diffLoop_lt cmp a b _ _ _ _ c1 c2]
        have hnew := hpush _ (ha _ (getD_mem a data hd))
        by_cases hc : s_begin ≠ b.length ∧ data + 1 ≠ a.length
        · rw [if_pos hc]
          exact ih _ (data + 1) s_begin (by omega) hs hnew
        · rw [if_neg hc]
          exact ⟨hnew, by simp only []; omega, by simp only []; omega⟩

/-- The elements after the symmetric difference are elements of the two arrays, whatever
their order. -/
theorem diff_mem (cmp : CmpPolicy T) (junk : Nat → T) (a b : List T) (y : T)
    (h : y ∈ Set.diff cmp junk a b) : y ∈ a ∨ y ∈ b := by
  unfold Set.diff at h
  by_cases hb0 : b.length = 0
  · rw [if_pos hb0] at h; exact Or.inl h
  · rw [if_neg hb0] at h
    by_cases ha0 : a.length = 0
    · rw [if_pos ha0] at h; exact Or.inr h
    · rw [if_neg ha0] at h
      obtain ⟨r1, r2, r3⟩ := diffLoop_mem cmp a b (fun y => y ∈ a ∨ y ∈ b)
        (fun y hy => Or.inl hy) (fun y hy => Or.inr hy) (a.length + b.length) [] 0 0
        (by omega) (by omega) (fun y hy => by cases hy)
      simp only [] at h
      generalize diffLoop cmp a b (a.length + b.length) [] 0 0 = r at r1 r2 r3 h
      by_cases h1 : r.2.2 ≠ b.length
      · rw [if_pos h1, copyRest_resize junk b r.1 r.2.2 r3] at h
        rcases List.mem_append.1 h with h | h
        · exact r1 y h
        · exact Or.inr (List.mem_of_mem_drop h)
      · rw [if_neg h1] at h
        by_cases h2 : r.2.1 ≠ a.length
        · rw [if_pos h2, copyRest_resize junk a r.1 r.2.1 r2] at h
          rcases List.mem_append.1 h with h | h
          · exact r1 y h
          · exact Or.inl (List.mem_of_mem_drop h)
        · rw [if_neg h2] at h
          exact r1 y h

end SetElements

section RelationClaims

variable {T1 T2 : Type} [Inhabited T1] [Inhabited T2]

theorem checkPair_none (cmp1 : CmpPolicy T1) (cmp2 : CmpPolicy T2) (r : Relation T1 T2)
    (p : Pair T1 T2) (h : r.checkPair cmp1 cmp2 p = none) :
    Set.exists_ cmp1 r.X p.left = true ∧ Set.exists_ cmp2 r.Y p.right = true := by
  unfold Relation.checkPair at h
  split_ifs at h with hc
  constructor
  · cases hq : Set.exists_ cmp1 r.X p.left with
    | true => rfl
    | false => exact absurd (Or.inl hq) hc
  · cases hq : Set.exists_ cmp2 r.Y p.right with
    | true => rfl
    | false => exact absurd (Or.inr hq) hc

/-- A graph that `checkGraph` accepts has all its pairs within domain and codomain. -/
theorem checkGraph_none (cmp1 : CmpPolicy T1) (cmp2 : CmpPolicy T2) (r : Relation T1 T2) :
    ∀ (g : List (Pair T1 T2)), r.checkGraph cmp1 cmp2 g = none →
      ∀ p ∈ g, Set.exists_ cmp1 r.X p.left = true ∧ Set.exists_ cmp2 r.Y p.right = true
  | [], _, p, hp => by cases hp
  | q :: rest, h, p, hp => by
    rw [Relation.checkGraph] at h
    cases hq : r.checkPair cmp1 cmp2 q with
    | some e => rw [hq] at h; cases h
    | none =>
      rw [hq] at h
      rcases List.mem_cons.1 hp with e | e
      · rw [e]; exact checkPair_none cmp1 cmp2 r q hq
      · exact checkGraph_none cmp1 cmp2 r rest h p e

theorem setDomainLoop_none (cmp1 : CmpPolicy T1) (x : List T1) :
    ∀ (g : List (Pair T1 T2)), setDomainLoop cmp1 x g = none →
      ∀ p ∈ g, Set.exists_ cmp1 x p.left = true
  | [], _, p, hp => by cases hp
  | q :: rest, h, p, hp => by
    rw [setDomainLoop] at h
    split_ifs at h with hc
    rcases List.mem_cons.1 hp with e | e
    · rw [e]
      cases hq : Set.exists_ cmp1 x q.left with
      | true => rfl
      | false => exact absurd hq hc
    · exact setDomainLoop_none cmp1 x rest h p e

theorem setCodomainLoop_none (cmp2 : CmpPolicy T2) (y : List T2) :
    ∀ (g : List (Pair T1 T2)), setCodomainLoop cmp2 y g = none →
      ∀ p ∈ g, Set.exists_ cmp2 y p.right = true
  | [], _, p, hp => by cases hp
  | q :: rest, h, p, hp => by
    rw [setCodomainLoop] at h
    split_ifs at h with hc
    rcases List.mem_cons.1 hp with e | e
    · rw [e]
      cases hq : Set.exists_ cmp2 y q.right with
      | true => rfl
      | false => exact absurd hq hc
    · exact setCodomainLoop_none cmp2 y rest h p e

/-- Every mutator keeps the invariant of the relation, whether it throws or not. -/
theorem run_inv {cmp1 : CmpPolicy T1} {cmp2 : CmpPolicy T2} (L1 : cmp1.Linear)
    (L2 : cmp2.Linear) (op : RelationOp T1 T2) (r : Relation T1 T2)
    (h : r.inv cmp1 cmp2) : ((op.run cmp1 cmp2 r).2).inv cmp1 cmp2 := by
  have LP := pair_linear L1 L2
  cases op with
  | setDomain x =>
    show ((r.setDomain cmp1 x).2).inv cmp1 cmp2
    unfold Relation.setDomain
    cases hq : setDomainLoop cmp1 x r.G with
    | some p => exact h
    | none =>
      intro p hp
      exact ⟨setDomainLoop_none cmp1 x r.G hq p hp, (h p hp).2⟩
  | setCodomain y =>
    show ((r.setCodomain cmp2 y).2).inv cmp1 cmp2
    unfold Relation.setCodomain
    cases hq : setCodomainLoop cmp2 y r.G with
    | some p => exact h
    | none =>
      intro p hp
      exact ⟨(h p hp).1, setCodomainLoop_none cmp2 y r.G hq p hp⟩
  | setGraph graph =>
    show ((r.setGraph cmp1 cmp2 graph).2).inv cmp1 cmp2
    unfold Relation.setGraph
    cases hq : r.checkGraph cmp1 cmp2 graph with
    | some e => exact h
    | none =>
      intro p hp
      exact checkGraph_none cmp1 cmp2 r graph hq p hp
  | clear =>
    intro p hp
    cases hp
  | add pair =>
    show ((r.add cmp1 cmp2 pair).2).inv cmp1 cmp2
    unfold Relation.add
    cases hq : r.checkPair cmp1 cmp2 pair with
    | some e => exact h
    | none =>
      intro p hp
      rcases add_mem _ r.G pair p hp with e | e
      · exact h p e
      · rw [e]; exact checkPair_none cmp1 cmp2 r pair hq
  | sub pair =>
    intro p hp
    exact h p (sub_mem _ r.G pair p hp)
  | addGraph same junk graph =>
    show ((r.addGraph cmp1 cmp2 same junk graph).2).inv cmp1 cmp2
    unfold Relation.addGraph
    cases hq : r.checkGraph cmp1 cmp2 (operand same r.G graph) with
    | some e => exact h
    | none =>
      intro p hp
      cases same with
      | false =>
        rcases addSet_mem _ junk r.G graph p hp with e | e
        · exact h p e
        · exact checkGraph_none cmp1 cmp2 r graph hq p e
      | true =>
        have hp' : p ∈ Set.addSet (Pair.cmp_policy cmp1 cmp2) true junk r.G graph := hp
        rw [addSet_same LP] at hp'
        exact h p hp'
  | subGraph same graph =>
    intro p hp
    cases same with
    | false => exact h p (subSet_mem _ r.G graph p hp)
    | true =>
      have hp' : p ∈ Set.subSet (Pair.cmp_policy cmp1 cmp2) true r.G graph := hp
      rw [subSet_same LP] at hp'
      cases hp'
  | mulGraph same graph =>
    intro p hp
    cases same with
    | false => exact h p (mul_mem _ r.G graph p hp)
    | true =>
      have hp' : p ∈ Set.mul (Pair.cmp_policy cmp1 cmp2) true r.G graph := hp
      rw [mul_same LP] at hp'
      exact h p hp'
  | diffGraph same junk graph =>
    show ((r.diffGraph cmp1 cmp2 same junk graph).2).inv cmp1 cmp2
    unfold Relation.diffGraph
    cases hq : r.checkGraph cmp1 cmp2 (operand same r.G graph) with
    | some e => exact h
    | none =>
      intro p hp
      rcases diff_mem _ junk r.G (operand same r.G graph) p hp with e | e
      · exact h p e
      · exact checkGraph_none cmp1 cmp2 r _ hq p e

/-- A mutator that throws leaves the relation as it was. -/
theorem run_error (cmp1 : CmpPolicy T1) (cmp2 : CmpPolicy T2) (op : RelationOp T1 T2)
    (r : Relation T1 T2) (e : RelationError T1 T2)
    (h : (op.run cmp1 cmp2 r).1 = some e) : (op.run cmp1 cmp2 r).2 = r := by
  cases op with
  | setDomain x =>
    have h' : (r.setDomain cmp1 x).1 = some e := h
    show (r.setDomain cmp1 x).2 = r
    unfold Relation.setDomain at h' ⊢
    cases hq : setDomainLoop cmp1 x r.G with
    | some p => rfl
    | none => rw [hq] at h'; cases h'
  | setCodomain y =>
    have h' : (r.setCodomain cmp2 y).1 = some e := h
    show (r.setCodomain cmp2 y).2 = r
    unfold Relation.setCodomain at h' ⊢
    cases hq : setCodomainLoop cmp2 y r.G with
    | some p => rfl
    | none => rw [hq] at h'; cases h'
  | setGraph graph =>
    have h' : (r.setGraph cmp1 cmp2 graph).1 = some e := h
    show (r.setGraph cmp1 cmp2 graph).2 = r
    unfold Relation.setGraph at h' ⊢
    cases hq : r.checkGraph cmp1 cmp2 graph with
    | some p => rfl
    | none => rw [hq] at h'; cases h'
  | clear => cases h
  | add pair =>
    have h' : (r.add cmp1 cmp2 pair).1 = some e := h
    show (r.add cmp1 cmp2 pair).2 = r
    unfold Relation.add at h' ⊢
    cases hq : r.checkPair cmp1 cmp2 pair with
    | some p => rfl
    | none => rw [hq] at h'; cases h'
  | sub pair => cases h
  | addGraph same junk graph =>
    have h' : (r.addGraph cmp1 cmp2 same junk graph).1 = some e := h
    show (r.addGraph cmp1 cmp2 same junk graph).2 = r
    unfold Relation.addGraph at h' ⊢
    cases hq : r.checkGraph cmp1 cmp2 (operand same r.G graph) with
    | some p => rfl
    | none => rw [hq] at h'; cases h'
  | subGraph same graph => cases h
  | mulGraph same graph => cases h
  | diffGraph same junk graph =>
    have h' : (r.diffGraph cmp1 cmp2 same junk graph).1 = some e := h
    show (r.diffGraph cmp1 cmp2 same junk graph).2 = r
    unfold Relation.diffGraph at h' ⊢
    cases hq : r.checkGraph cmp1 cmp2 (operand same r.G graph) with
    | some p => rfl
    | none => rw [hq] at h'; cases h'

theorem runAll_inv {cmp1 : CmpPolicy T1} {cmp2 : CmpPolicy T2} (L1 : cmp1.Linear)
    (L2 : cmp2.Linear) : ∀ (ops : List (RelationOp T1 T2)) (r : Relation T1 T2),
      r.inv cmp1 cmp2 → (Relation.runAll cmp1 cmp2 ops r).inv cmp1 cmp2
  | [], r, h => h
  | op :: rest, r, h => by
    unfold Relation.runAll
    rw [List.foldl_cons]
    exact runAll_inv L1 L2 rest _ (run_inv L1 L2 op r h)

/-- C29: Relation invariant.  With linear-order policies, after any sequence of calls of
`setDomain`, `setCodomain`, `setGraph`, `clear`, `add`, `sub`, `mul` and `diff` (pair and
graph forms, calls that throw included) on an empty relation, every pair of the graph has its
left element in the domain and its right element in the codomain; each call keeps that
property; and a call that throws leaves the relation as it was. -/
theorem C29_relation_invariant {cmp1 : CmpPolicy T1} {cmp2 : CmpPolicy T2}
    (L1 : cmp1.Linear) (L2 : cmp2.Linear) (ops : List (RelationOp T1 T2))
    (flags checked : Nat) :
    (Relation.runAll cmp1 cmp2 ops (Relation.ctor flags checked)).inv cmp1 cmp2
    ∧ (∀ (op : RelationOp T1 T2) (r : Relation T1 T2), r.inv cmp1 cmp2 →
        ((op.run cmp1 cmp2 r).2).inv cmp1 cmp2)
    ∧ (∀ (op : RelationOp T1 T2) (r : Relation T1 T2) (e : RelationError T1 T2),
        (op.run cmp1 cmp2 r).1 = some e →
        (op.run cmp1 cmp2 r).2.X = r.X ∧ (op.run cmp1 cmp2 r).2.Y = r.Y
          ∧ (op.run cmp1 cmp2 r).2.G = r.G) := by
  refine ⟨runAll_inv L1 L2 ops _ (fun p hp => by cases hp), fun op r h => run_inv L1 L2 op r h,
    fun op r e h => ?_⟩
  rw [run_error cmp1 cmp2 op r e h]
  exact ⟨rfl, rfl, rfl⟩

/-- A relation on 1, 2 and 5: adding (1, 5) succeeds, adding (3, 5) throws `BadPair`,
shrinking the domain to 2 throws `BadSet`, and the graph stays within domain and codomain. -/
theorem C29_relation_invariant_witness :
    Relation.runAll default_cmp_policy default_cmp_policy
        [.setDomain [1, 2], .setCodomain [5], .add ⟨1, 5⟩, .add ⟨3, 5⟩, .setDomain [2]]
        (Relation.ctor 7 9)
      = ⟨[1, 2], [5], [⟨1, 5⟩], 7, 0⟩
    ∧ (RelationOp.run default_cmp_policy default_cmp_policy (.add ⟨3, 5⟩)
        (⟨[1, 2], [5], [⟨1, 5⟩], 7, 0⟩ : Relation Nat Nat)).1 = some (.BadPair ⟨3, 5⟩)
    ∧ (Relation.runAll default_cmp_policy default_cmp_policy
        [.setDomain [1, 2], .setCodomain [5], .add ⟨1, 5⟩, .add ⟨3, 5⟩, .setDomain [2]]
        (Relation.ctor 7 9)).inv default_cmp_policy default_cmp_policy :=
  ⟨by decide, by decide,
    (C29_relation_invariant default_linear default_linear
      [.setDomain [1, 2], .setCodomain [5], .add ⟨1, 5⟩, .add ⟨3, 5⟩, .setDomain [2]] 7 9).1⟩

/-- C30: Cache invalidation.  Every mutator of `Relation` (`setDomain`, `setCodomain`,
`setGraph`, `clear`, `add`, `sub`, `mul`, `diff`, pair and graph forms) that completes
without throwing leaves `checked == 0`, whatever the cache held before. -/
theorem C30_cache_invalidation (cmp1 : CmpPolicy T1) (cmp2 : CmpPolicy T2)
    (op : RelationOp T1 T2) (r : Relation T1 T2)
    (h : (op.run cmp1 cmp2 r).1 = none) : (op.run cmp1 cmp2 r).2.checked = 0 := by
  cases op with
  | setDomain x =>
    have h' : (r.setDomain cmp1 x).1 = none := h
    show (r.setDomain cmp1 x).2.checked = 0
    unfold Relation.setDomain at h' ⊢
    cases hq : setDomainLoop cmp1 x r.G with
    | some p => rw [hq] at h'; cases h'
    | none => rfl
  | setCodomain y =>
    have h' : (r.setCodomain cmp2 y).1 = none := h
    show (r.setCodomain cmp2 y).2.checked = 0
    unfold Relation.setCodomain at h' ⊢
    cases hq : setCodomainLoop cmp2 y r.G with
    | some p => rw [hq] at h'; cases h'
    | none => rfl
  | setGraph graph =>
    have h' : (r.setGraph cmp1 cmp2 graph).1 = none := h
    show (r.setGraph cmp1 cmp2 graph).2.checked = 0
    unfold Relation.setGraph at h' ⊢
    cases hq : r.checkGraph cmp1 cmp2 graph with
    | some p => rw [hq] at h'; cases h'
    | none => rfl
  | clear => rfl
  | add pair =>
    have h' : (r.add cmp1 cmp2 pair).1 = none := h
    show (r.add cmp1 cmp2 pair).2.checked = 0
    unfold Relation.add at h' ⊢
    cases hq : r.checkPair cmp1 cmp2 pair with
    | some p => rw [hq] at h'; cases h'
    | none => rfl
  | sub pair => rfl
  | addGraph same junk graph =>
    have h' : (r.addGraph cmp1 cmp2 same junk graph).1 = none := h
    show (r.addGraph cmp1 cmp2 same junk graph).2.checked = 0
    unfold Relation.addGraph at h' ⊢
    cases hq : r.checkGraph cmp1 cmp2 (operand same r.G graph) with
    | some p => rw [hq] at h'; cases h'
    | none => rfl
  | subGraph same graph => rfl
  | mulGraph same graph => rfl
  | diffGraph same junk graph =>
    have h' : (r.diffGraph cmp1 cmp2 same junk graph).1 = none := h
    show (r.diffGraph cmp1 cmp2 same junk graph).2.checked = 0
    unfold Relation.diffGraph at h' ⊢
    cases hq : r.checkGraph cmp1 cmp2 (operand same r.G graph) with
    | some p => rw [hq] at h'; cases h'
    | none => rfl

/-- Adding (1, 5) to a relation on 1, 2 and 5 whose cache marks every property as known
leaves `checked == 0`, and so does `sub` of a pair that is not in the graph. -/
theorem C30_cache_invalidation_witness :
    (RelationOp.run default_cmp_policy default_cmp_policy (.add ⟨1, 5⟩)
        (⟨[1, 2], [5], [], 3, 65535⟩ : Relation Nat Nat)).1 = none
    ∧ (RelationOp.run default_cmp_policy default_cmp_policy (.add ⟨1, 5⟩)
        (⟨[1, 2], [5], [], 3, 65535⟩ : Relation Nat Nat)).2.checked = 0
    ∧ (RelationOp.run default_cmp_policy default_cmp_policy (.sub ⟨2, 5⟩)
        (⟨[1, 2], [5], [], 3, 65535⟩ : Relation Nat Nat)).2 = ⟨[1, 2], [5], [], 3, 0⟩ :=
  ⟨by decide,
    C30_cache_invalidation default_cmp_policy default_cmp_policy (.add ⟨1, 5⟩)
      ⟨[1, 2], [5], [], 3, 65535⟩ (by decide),
    by decide⟩

end RelationClaims

section ResizeClaims

variable [RawStorage T]

/-- After `resize(n, capacity)` with `capacity` not below `n`, the capacity lies between
`capacity` and `capacity + 256`. -/
theorem resize_capacity_bounds {w : World T} {self : Nat} (n c : Nat)
    (hv : Array.valid w self) (hn : n ≤ c) (hc : c < 4294967296) :
    c ≤ Array.getCapacity (Array.resize w self n c) self
      ∧ Array.getCapacity (Array.resize w self n c) self ≤ c + 256 := by
  have hu : uadd c 256 ≤ c + 256 := by unfold uadd; omega
  have hu2 : uadd c 256 = c + 256 ∨ uadd c 256 < 256 := by unfold uadd; omega
  have hcap : (w.body self).capacity < 4294967296 := hv.2.2.1.2.2
  unfold Array.resize Array.getCapacity
  simp only []
  rw [if_neg (show ¬ c < n by omega)]
  by_cases h1 : n = (w.body self).size ∧ (w.body self).capacity ≥ c
      ∧ (w.body self).capacity ≤ uadd c 256
      ∧ (w.body self).capacity ≤ uadd (w.body self).size 256
  · rw [if_pos h1]; omega
  · rw [if_neg h1]
    by_cases h2 : (!(w.body self).isOwn) = true
    · rw [if_pos h2, body_rebind _ hv]
      show c ≤ c ∧ c ≤ c + 256
      omega
    · rw [if_neg h2]
      by_cases h3 : c ≥ (w.body self).capacity ∨ uadd c 256 ≤ (w.body self).capacity
      · rw [if_pos h3, body_store _ (valid_ptr_lt hv)]
        show c ≤ c ∧ c ≤ c + 256
        omega
      · rw [if_neg h3, body_store _ (valid_ptr_lt hv)]
        show c ≤ (w.body self).capacity ∧ (w.body self).capacity ≤ c + 256
        omega

/-- C36: reserve bounds.  For a valid array (shared or uniquely owned) of size `n` and a
requested capacity `c` with `n <= c` (an `unsigned`, so below `2^32`), after `reserve(c)`
the capacity satisfies `c <= getCapacity() <= c + 256`, and the size and every element are
unchanged. -/
theorem C36_reserve_bounds (w : World T) (self c : Nat) (hv : Array.valid w self)
    (hn : Array.size w self ≤ c) (hc : c < 4294967296) :
    c ≤ Array.getCapacity (Array.reserve w self c) self
      ∧ Array.getCapacity (Array.reserve w self c) self ≤ c + 256
      ∧ Array.size (Array.reserve w self c) self = Array.size w self
      ∧ (∀ i, i < Array.size w self →
          Array.get (Array.reserve w self c) self i = Array.get w self i)
      ∧ Array.elems (Array.reserve w self c) self = Array.elems w self := by
  obtain ⟨b1, b2⟩ := resize_capacity_bounds (Array.size w self) c hv hn hc
  obtain ⟨r1, r2, r3⟩ := resize_spec (Array.size w self) c hv hc (fun h => by omega)
  refine ⟨b1, b2, r2, fun i hi => r3 i hi hi, ?_⟩
  have := elems_take (Array.size w self) (Nat.le_refl _) r2 (fun i hi => r3 i hi hi)
  rw [Array.reserve, this, List.take_of_length_le (by rw [elems_length])]

/-- Reserving 10 slots through the second handle of the shared array `[5, 6, 7]`, and 2
slots in the uniquely owned array `[5, 6]` of capacity 3 (which is left alone). -/
theorem C36_reserve_bounds_witness :
    (10 ≤ Array.getCapacity (Array.reserve sharedPair 1 10) 1
      ∧ Array.getCapacity (Array.reserve sharedPair 1 10) 1 ≤ 10 + 256
      ∧ Array.size (Array.reserve sharedPair 1 10) 1 = 3
      ∧ Array.elems (Array.reserve sharedPair 1 10) 1 = [5, 6, 7])
    ∧ (2 ≤ Array.getCapacity (Array.reserve ownRoom 0 2) 0
      ∧ Array.getCapacity (Array.reserve ownRoom 0 2) 0 ≤ 2 + 256
      ∧ Array.elems (Array.reserve ownRoom 0 2) 0 = [5, 6]) := by
  obtain ⟨a1, a2, a3, _, a5⟩ :=
    C36_reserve_bounds sharedPair 1 10 (by decide) (by decide) (by decide)
  obtain ⟨b1, b2, _, _, b5⟩ :=
    C36_reserve_bounds ownRoom 0 2 (by decide) (by decide) (by decide)
  exact ⟨⟨a1, a2, a3.trans (by decide), a5.trans (by decide)⟩,
    ⟨b1, b2, b5.trans (by decide)⟩⟩

theorem newArr_getD (c i : Nat) (h : i < c) :
    (newArr c : List T).getD i default = RawStorage.raw i := by
  unfold newArr
  rw [List.getD_eq_getElem?_getD, List.getElem?_map, List.getElem?_range h]
  rfl

/-- The slots a growing `resize` adds: when a new block is allocated they are slots of
that block which the call does not assign, and otherwise they hold whatever the block
already held there. -/
theorem resize_padding {w : World T} {self : Nat} (n c : Nat) (hv : Array.valid w self)
    (hc : c < 4294967296) (hfit : n + 8 < 4294967296) :
    (Array.resizeReallocates w self n c → ∀ i, Array.size w self ≤ i → i < n →
        Array.get (Array.resize w self n c) self i = RawStorage.raw i)
      ∧ (¬ Array.resizeReallocates w self n c → ∀ i,
        Array.get (Array.resize w self n c) self i = Array.get w self i) := by
  obtain ⟨hs, hlive, ⟨hsc, hlen, hcap⟩, hr1, hr2⟩ := id hv
  have hc1 : n ≤ (if c < n then uadd n 8 else c) := by
    unfold uadd; split_ifs with h <;> omega
  unfold Array.resizeReallocates Array.resize Array.get Array.size
  simp only []
  generalize (if c < n then uadd n 8 else c) = c1 at *
  constructor
  · rintro ⟨h1, h2⟩ i hi1 hi2
    rw [if_neg h1]
    have hmin : (if n ≤ (w.body self).size then n else (w.body self).size) ≤ i := by
      split_ifs <;> omega
    by_cases ho : (!(w.body self).isOwn) = true
    · rw [if_pos ho, body_rebind _ hv]
      show (copyLoop _ _ _ _).getD i default = _
      rw [Data.ofCapacity, copyLoop_getD _ _ _ _ _ (by rw [newArr_length]; omega),
        if_neg (by omega)]
      exact newArr_getD _ _ (by omega)
    · rw [if_neg ho]
      have h3 : c1 ≥ (w.body self).capacity ∨ uadd c1 256 ≤ (w.body self).capacity := by
        rcases h2 with h | h
        · exact absurd h ho
        · exact h
      rw [if_pos h3, body_store _ (valid_ptr_lt hv)]
      show (copyLoop _ _ _ _).getD i default = _
      rw [copyLoop_getD _ _ _ _ _ (by rw [newArr_length]; omega), if_neg (by omega)]
      exact newArr_getD _ _ (by omega)
  · intro hno i
    by_cases h1 : n = (w.body self).size ∧ (w.body self).capacity ≥ c
        ∧ (w.body self).capacity ≤ uadd c 256
        ∧ (w.body self).capacity ≤ uadd (w.body self).size 256
    · rw [if_pos h1]
    · rw [if_neg h1]
      have h2 : ¬ ((!(w.body self).isOwn) = true
          ∨ c1 ≥ (w.body self).capacity ∨ uadd c1 256 ≤ (w.body self).capacity) :=
        fun h => hno ⟨h1, h⟩
      rw [if_neg (fun h => h2 (Or.inl h)), if_neg (fun h => h2 (Or.inr h)),
        body_store _ (valid_ptr_lt hv)]

/-- C35 (counterexample): after `Array<T> a; a.push(5); a.push(6); a.pop();` the array is
`[5]` and `a.resize(2)` makes the element at index 1 the old 6, not the default value. -/
theorem C35_resize_shows_stale_slot :
    Array.valid staleSlot 0 ∧ Array.elems staleSlot 0 = [5]
      ∧ Array.size (Array.resize staleSlot 0 2 0) 0 = 2
      ∧ Array.get (Array.resize staleSlot 0 2 0) 0 1 = 6
      ∧ Array.get (Array.resize staleSlot 0 2 0) 0 1 ≠ (default : Nat) := by
  decide

/-- C35 (amended): for a valid array of size `n` and `newSize > n` (with `newSize + 8` below
`2^32`), `resize(newSize, capacity)` ends with size `newSize` and keeps the elements below
`n`, and it assigns nothing to the elements at `n <= i < newSize`: when the call does not
allocate a new block every slot keeps what it held before the call, so the added elements
show the values stored there earlier; when it allocates a new block the added elements
are slots of that block as `new T[capacity]` left them (default-constructed objects of a
class type, indeterminate values of a scalar type). -/
theorem C35_resize_padding (w : World T) (self newSize capacity : Nat)
    (hv : Array.valid w self) (hgrow : Array.size w self < newSize)
    (hc : capacity < 4294967296) (hfit : newSize + 8 < 4294967296) :
    Array.size (Array.resize w self newSize capacity) self = newSize
      ∧ (∀ i, i < Array.size w self →
          Array.get (Array.resize w self newSize capacity) self i = Array.get w self i)
      ∧ (¬ Array.resizeReallocates w self newSize capacity →
          ∀ i, Array.get (Array.resize w self newSize capacity) self i = Array.get w self i)
      ∧ (Array.resizeReallocates w self newSize capacity →
          ∀ i, Array.size w self ≤ i → i < newSize →
            Array.get (Array.resize w self newSize capacity) self i = RawStorage.raw i) := by
  obtain ⟨_, r2, r3⟩ := resize_spec newSize capacity hv hc (fun _ => hfit)
  obtain ⟨p1, p2⟩ := resize_padding newSize capacity hv hc hfit
  exact ⟨r2, fun i hi => r3 i (by omega) hi, p2, p1⟩

/-- Growing the array `[5]` with a stale 6 in slot 1 from size 1 to size 2 in place: the
new element is the 6. -/
theorem C35_resize_padding_witness :
    Array.elems staleSlot 0 = [5]
      ∧ ¬ Array.resizeReallocates staleSlot 0 2 0
      ∧ Array.elems (Array.resize staleSlot 0 2 0) 0 = [5, 6] := by
  refine ⟨by decide, by decide, ?_⟩
  obtain ⟨h1, _, h3, _⟩ :=
    C35_resize_padding staleSlot 0 2 0 (by decide) (by decide) (by decide) (by decide)
  have e0 := h3 (by decide) 0
  have e1 := h3 (by decide) 1
  unfold Array.elems
  rw [h1]
  show [Array.get (Array.resize staleSlot 0 2 0) 0 0,
    Array.get (Array.resize staleSlot 0 2 0) 0 1] = [5, 6]
  rw [e0, e1]
  decide

/-- C40: removing from the end can grow storage.  For a valid, uniquely owned array of
size `n >= 2` whose capacity `c` is below `n + 7`, `pop()` succeeds and the capacity
afterwards is `n + 7`, which is more than `c`: `resize(n - 1)` replaces the requested
capacity 0 by `n - 1 + 8` and allocates a new block because that is not below `c`. -/
theorem C40_pop_grows_capacity (w : World T) (self : Nat) (hv : Array.valid w self)
    (hown : (w.body self).isOwn = true) (hn : 2 ≤ Array.size w self)
    (hc : Array.getCapacity w self < Array.size w self + 7)
    (hfit : Array.size w self + 7 < 4294967296) :
    ∃ x w1, Array.pop w self = .ok (x, w1)
      ∧ Array.getCapacity w1 self = Array.size w self + 7
      ∧ Array.getCapacity w self < Array.getCapacity w1 self := by
  have hu : usub (Array.size w self) 1 = Array.size w self - 1 := by unfold usub; omega
  have hshr : Array.shrinkBy w self 1 = Array.resize w self (Array.size w self - 1) 0 := by
    unfold Array.shrinkBy
    rw [if_neg (by omega), hu]
  have hr : Array.resizeReallocates w self (Array.size w self - 1) 0 := by
    unfold Array.resizeReallocates
    unfold Array.size Array.getCapacity at *
    simp only []
    refine ⟨fun h => by omega, Or.inr (Or.inl ?_)⟩
    rw [if_pos (by omega)]
    unfold uadd
    omega
  have hcap := resize_capacity _ _ hv hr
  rw [if_pos (by omega)] at hcap
  have hu8 : uadd (Array.size w self - 1) 8 = Array.size w self + 7 := by unfold uadd; omega
  rw [hu8] at hcap
  refine ⟨Array.get w self (Array.size w self - 1),
    Array.resize w self (Array.size w self - 1) 0, ?_, hcap, by rw [hcap]; exact hc⟩
  unfold Array.pop
  rw [if_neg (by omega)]
  simp only [hu, hshr]

/-- After `Array<T> a(2); a.push(5); a.push(6);` the capacity is 2, and `a.pop()` leaves
capacity 9. -/
theorem C40_pop_grows_capacity_witness :
    Array.valid fullTwo 0 ∧ Array.size fullTwo 0 = 2 ∧ Array.getCapacity fullTwo 0 = 2
      ∧ ∃ x w1, Array.pop fullTwo 0 = .ok (x, w1) ∧ Array.getCapacity w1 0 = 9
        ∧ Array.getCapacity fullTwo 0 < Array.getCapacity w1 0 := by
  refine ⟨by decide, by decide, by decide, ?_⟩
  obtain ⟨x, w1, h1, h2, h3⟩ :=
    C40_pop_grows_capacity fullTwo 0 (by decide) (by decide) (by decide) (by decide)
      (by decide)
  exact ⟨x, w1, h1, h2.trans (by decide), h3⟩

end ResizeClaims

section DoublePolicy

/-- The three tests of `default_cmp_policy<double>` in terms of the difference `a - b`. -/
theorem double_policy_tests (a b : ℚ) :
    (default_cmp_policy_double.eq a b = true
        ↔ -(1 / 1000000000) < a - b ∧ a - b < 1 / 1000000000)
      ∧ (default_cmp_policy_double.ge a b = true ↔ -(1 / 1000000000) ≤ a - b)
      ∧ (default_cmp_policy_double.gt a b = true ↔ 1 / 1000000000 < a - b) := by
  simp only [default_cmp_policy_double, decide_eq_true_eq, abs_lt]
  refine ⟨trivial, ?_, ?_⟩
  · constructor <;> intro h <;> linarith
  · constructor <;> intro h <;> linarith

/-- C37: the default policy of `double` is not consistent on the boundary of its tolerance.
`ge(1e-9, 0)` is true while `gt(1e-9, 0)` and `eq(1e-9, 0)` are both false (and likewise
`ge(0, 1e-9)`); in general `ge(a, b)` is `gt(a, b) || eq(a, b) || fabs(a - b) == 1e-9`, and
on that boundary `gt` and `eq` are both false. -/
theorem C37_double_policy_boundary :
    (default_cmp_policy_double.ge (1 / 1000000000) 0 = true
      ∧ default_cmp_policy_double.gt (1 / 1000000000) 0 = false
      ∧ default_cmp_policy_double.eq (1 / 1000000000) 0 = false)
    ∧ (default_cmp_policy_double.ge 0 (1 / 1000000000) = true
      ∧ default_cmp_policy_double.gt 0 (1 / 1000000000) = false
      ∧ default_cmp_policy_double.eq 0 (1 / 1000000000) = false)
    ∧ (∀ a b : ℚ, default_cmp_policy_double.ge a b
        = (default_cmp_policy_double.gt a b || default_cmp_policy_double.eq a b
            || decide (|a - b| = 1 / 1000000000)))
    ∧ (∀ a b : ℚ, |a - b| = 1 / 1000000000 →
        default_cmp_policy_double.ge a b = true
        ∧ default_cmp_policy_double.gt a b = false
        ∧ default_cmp_policy_double.eq a b = false) := by
  have hbd : ∀ a b : ℚ, |a - b| = 1 / 1000000000 →
      default_cmp_policy_double.ge a b = true
      ∧ default_cmp_policy_double.gt a b = false
      ∧ default_cmp_policy_double.eq a b = false := by
    intro a b h
    obtain ⟨e1, e2, e3⟩ := double_policy_tests a b
    have hpos : (0 : ℚ) < 1 / 1000000000 := by norm_num
    rcases abs_eq (le_of_lt hpos) |>.1 h with h1 | h1
    · refine ⟨e2.2 (by linarith), ?_, ?_⟩
      · rw [Bool.eq_false_iff]; intro hc; have := e3.1 hc; linarith
      · rw [Bool.eq_false_iff]; intro hc; have := (e1.1 hc).2; linarith
    · refine ⟨e2.2 (by linarith), ?_, ?_⟩
      · rw [Bool.eq_false_iff]; intro hc; have := e3.1 hc; linarith
      · rw [Bool.eq_false_iff]; intro hc; have := (e1.1 hc).1; linarith
  refine ⟨hbd _ _ (by norm_num), hbd _ _ (by norm_num), ?_, hbd⟩
  intro a b
  obtain ⟨e1, e2, e3⟩ := double_policy_tests a b
  rw [Bool.eq_iff_iff]
  simp only [Bool.or_eq_true, decide_eq_true_eq]
  rw [e1, e2, e3]
  have hpos : (0 : ℚ) < 1 / 1000000000 := by norm_num
  constructor
  · intro h
    by_cases h1 : 1 / 1000000000 < a - b
    · exact Or.inl (Or.inl h1)
    · by_cases h2 : a - b = 1 / 1000000000
      · exact Or.inr (by rw [h2]; exact abs_of_pos hpos)
      · by_cases h3 : a - b = -(1 / 1000000000)
        · exact Or.inr (by rw [h3, abs_neg]; exact abs_of_pos hpos)
        · refine Or.inl (Or.inr ⟨lt_of_le_of_ne h (Ne.symm h3), ?_⟩)
          exact lt_of_le_of_ne (not_lt.1 h1) h2
  · rintro ((h | h) | h)
    · linarith
    · linarith [h.1]
    · rcases abs_eq (le_of_lt hpos) |>.1 h with h1 | h1 <;> linarith

end DoublePolicy

section ArrayPolicy

variable [RawStorage T]

/-- The loop of `eq` and `ge` stops at the first index whose elements are not equal, or at
the end. -/
theorem eqRun_spec (cmp : CmpPolicy T) (w : World T) (a b : Nat) (fuel : Nat) :
    ∀ e, e + fuel = Array.size w a →
      (∀ i, i < e → cmp.eq (Array.get w a i) (Array.get w b i) = true) →
      (eqRun cmp w a b fuel e = Array.size w a
        ↔ ∀ i, i < Array.size w a → cmp.eq (Array.get w a i) (Array.get w b i) = true) := by
  induction fuel with
  | zero =>
    intro e he hall
    rw [eqRun]
    constructor
    · intro _ i hi; exact hall i (by omega)
    · intro _; omega
  | succ fuel ih =>
    intro e he hall
    rw [eqRun]
    by_cases hc : cmp.eq (Array.get w a e) (Array.get w b e) = true
    · rw [if_pos ⟨by omega, hc⟩]
      refine ih (e + 1) (by omega) ?_
      intro i hi
      by_cases hie : i = e
      · rw [hie]; exact hc
      · exact hall i (by omega)
    · rw [if_neg (fun h => hc h.2)]
      constructor
      · intro h; omega
      · intro h; exact absurd (h e (by omega)) hc

/-- C38: the ordering policy of `Array` ignores the order of the elements.  When `gt` of
the element policy is irreflexive, `Array::cmp_policy::ge(x, y)` is true exactly when
`x.size() > y.size()`, or the sizes are equal and the handles share the body or all
elements are pairwise equal; it is false whenever the arrays differ at some index, also
when `x` has the greater element there, because the last line compares `*e1` with
itself. -/
theorem C38_array_ge_ignores_order (cmp : CmpPolicy T) (hirr : ∀ x, cmp.gt x x = false)
    (w : World T) (x y : Nat) :
    (Array.cmp_policy cmp w).ge x y = true
      ↔ Array.size w x > Array.size w y
        ∨ (Array.size w x = Array.size w y
          ∧ (w.ptr x = w.ptr y
            ∨ ∀ i, i < Array.size w x →
                cmp.eq (Array.get w x i) (Array.get w y i) = true)) := by
  have hrun := eqRun_spec cmp w x y (Array.size w x) 0 (by omega) (fun i hi => by omega)
  simp only [Array.cmp_policy]
  by_cases h1 : Array.size w x < Array.size w y
  · rw [if_pos h1]
    constructor
    · intro h; cases h
    · rintro (h | ⟨h, _⟩) <;> omega
  · rw [if_neg h1]
    by_cases h2 : Array.size w x > Array.size w y
    · rw [if_pos h2]
      exact ⟨fun _ => Or.inl h2, fun _ => rfl⟩
    · rw [if_neg h2]
      have hsz : Array.size w x = Array.size w y := by omega
      by_cases h3 : w.ptr x = w.ptr y
      · rw [if_pos h3]
        exact ⟨fun _ => Or.inr ⟨hsz, Or.inl h3⟩, fun _ => rfl⟩
      · rw [if_neg h3, hirr, Bool.or_false, beq_iff_eq, hrun]
        constructor
        · intro h; exact Or.inr ⟨hsz, Or.inr h⟩
        · rintro (h | ⟨_, h | h⟩)
          · omega
          · exact absurd h h3
          · exact h

/-- For `x = [2]` and `y = [1]`, two arrays of equal size that differ at index 0 where
`x` has the greater element, `ge(x, y)` is false. -/
theorem C38_array_ge_ignores_order_witness :
    Array.elems twoArrays 0 = [2] ∧ Array.elems twoArrays 1 = [1]
      ∧ default_cmp_policy.gt (Array.get twoArrays 0 0) (Array.get twoArrays 1 0) = true
      ∧ (Array.cmp_policy default_cmp_policy twoArrays).ge 0 1 = false := by
  refine ⟨by decide, by decide, by decide, ?_⟩
  rw [Bool.eq_false_iff]
  intro h
  have := (C38_array_ge_ignores_order default_cmp_policy (fun x => by
    simp [default_cmp_policy]) twoArrays 0 1).1 h
  revert this
  decide

end ArrayPolicy

section RelationRemoval

variable {T1 T2 : Type} [Inhabited T1] [Inhabited T2]

/-- What `checkGraph` throws is `BadPair` with a pair of the graph that is outside domain
or codomain. -/
theorem checkGraph_some (cmp1 : CmpPolicy T1) (cmp2 : CmpPolicy T2) (r : Relation T1 T2) :
    ∀ (g : List (Pair T1 T2)) (e : RelationError T1 T2), r.checkGraph cmp1 cmp2 g = some e →
      ∃ p ∈ g, e = .BadPair p
        ∧ (Set.exists_ cmp1 r.X p.left = false ∨ Set.exists_ cmp2 r.Y p.right = false)
  | [], e, h => by cases h
  | q :: rest, e, h => by
    rw [Relation.checkGraph] at h
    cases hq : r.checkPair cmp1 cmp2 q with
    | some e1 =>
      rw [hq] at h
      unfold Relation.checkPair at hq
      split_ifs at hq with hc
      refine ⟨q, List.mem_cons_self _ _, ?_, hc⟩
      cases hq; cases h; rfl
    | none =>
      rw [hq] at h
      obtain ⟨p, hp, h1, h2⟩ := checkGraph_some cmp1 cmp2 r rest e h
      exact ⟨p, List.mem_cons_of_mem _ hp, h1, h2⟩

/-- A graph within domain and codomain passes `checkGraph`. -/
theorem checkGraph_of_valid (cmp1 : CmpPolicy T1) (cmp2 : CmpPolicy T2) (r : Relation T1 T2)
    (g : List (Pair T1 T2))
    (h : ∀ p ∈ g, Set.exists_ cmp1 r.X p.left = true ∧ Set.exists_ cmp2 r.Y p.right = true) :
    r.checkGraph cmp1 cmp2 g = none := by
  cases hq : r.checkGraph cmp1 cmp2 g with
  | none => rfl
  | some e =>
    obtain ⟨p, hp, _, h2⟩ := checkGraph_some cmp1 cmp2 r g e hq
    obtain ⟨h3, h4⟩ := h p hp
    rcases h2 with h2 | h2
    · rw [h3] at h2; cases h2
    · rw [h4] at h2; cases h2

/-- C32 (counterexample): on the relation with domain `{1}`, codomain `{1}` and empty
graph, `diff` with the graph `{(2, 2)}` raises `BadPair` for `(2, 2)` and leaves the
relation as it was, while `sub` and `mul` with the same graph complete. -/
theorem C32_diff_raises_bad_pair :
    Relation.diffGraph default_cmp_policy default_cmp_policy false (fun _ => ⟨0, 0⟩)
        (⟨[1], [1], [], 0, 0⟩ : Relation Nat Nat) [⟨2, 2⟩]
      = (some (.BadPair ⟨2, 2⟩), ⟨[1], [1], [], 0, 0⟩)
    ∧ Relation.subGraph default_cmp_policy default_cmp_policy false
        (⟨[1], [1], [], 0, 0⟩ : Relation Nat Nat) [⟨2, 2⟩]
      = (none, ⟨[1], [1], [], 0, 0⟩)
    ∧ Relation.mulGraph default_cmp_policy default_cmp_policy false
        (⟨[1], [1], [], 0, 0⟩ : Relation Nat Nat) [⟨2, 2⟩]
      = (none, ⟨[1], [1], [], 0, 0⟩) := by
  decide

/-- C32 (amended): `sub` and `mul` with a graph, and `sub` with a pair, never fail,
whatever the argument holds.  `diff` with a graph completes when every pair of the
argument has its left element in the domain and its right element in the codomain;
otherwise it raises `BadPair` for a pair of the argument that is outside, and leaves the
relation as it was. -/
theorem C32_removal_never_fails (cmp1 : CmpPolicy T1) (cmp2 : CmpPolicy T2) (same : Bool)
    (junk : Nat → Pair T1 T2) (r : Relation T1 T2) (graph : List (Pair T1 T2)) :
    (r.subGraph cmp1 cmp2 same graph).1 = none
      ∧ (r.mulGraph cmp1 cmp2 same graph).1 = none
      ∧ (∀ pair, (r.sub cmp1 cmp2 pair).1 = none)
      ∧ ((∀ p ∈ operand same r.G graph,
            Set.exists_ cmp1 r.X p.left = true ∧ Set.exists_ cmp2 r.Y p.right = true) →
          (r.diffGraph cmp1 cmp2 same junk graph).1 = none)
      ∧ (∀ e, (r.diffGraph cmp1 cmp2 same junk graph).1 = some e →
          (r.diffGraph cmp1 cmp2 same junk graph).2 = r
          ∧ ∃ p ∈ operand same r.G graph, e = .BadPair p
            ∧ (Set.exists_ cmp1 r.X p.left = false
              ∨ Set.exists_ cmp2 r.Y p.right = false)) := by
  refine ⟨rfl, rfl, fun _ => rfl, ?_, ?_⟩
  · intro h
    unfold Relation.diffGraph
    rw [checkGraph_of_valid cmp1 cmp2 r _ h]
  · intro e h
    unfold Relation.diffGraph at h ⊢
    cases hq : r.checkGraph cmp1 cmp2 (operand same r.G graph) with
    | none => rw [hq] at h; cases h
    | some e1 =>
      rw [hq] at h
      have he : e1 = e := by cases h; rfl
      rw [he] at hq
      exact ⟨rfl, checkGraph_some cmp1 cmp2 r _ e hq⟩

/-- On the relation `{(1, 1)}` over `{1, 2}`, `diff` with `{(1, 1), (2, 2)}` completes and
leaves the graph `{(2, 2)}`. -/
theorem C32_removal_never_fails_witness :
    Relation.diffGraph default_cmp_policy default_cmp_policy false (fun _ => ⟨0, 0⟩)
        (⟨[1, 2], [1, 2], [⟨1, 1⟩], 0, 5⟩ : Relation Nat Nat) [⟨1, 1⟩, ⟨2, 2⟩]
      = (none, ⟨[1, 2], [1, 2], [⟨2, 2⟩], 0, 0⟩) := by
  have h := (C32_removal_never_fails default_cmp_policy default_cmp_policy false
    (fun _ => ⟨0, 0⟩) (⟨[1, 2], [1, 2], [⟨1, 1⟩], 0, 5⟩ : Relation Nat Nat)
    [⟨1, 1⟩, ⟨2, 2⟩]).2.2.2.1 (by decide)
  exact Prod.ext h (by decide)

end RelationRemoval

section MulSteps

/-- Every round of the inner loop of `mul` stays in the block; its sum is at most 99. -/
theorem mulInnerSteps_ok (di : Nat) (hdi : di ≤ 9) (nd : List Nat) (hn : ∀ d ∈ nd, d ≤ 9)
    (i cnt : Nat) :
    ∀ (vec : List Nat) (ni memory : Nat), i + ni + cnt ≤ vec.length → memory ≤ 9 →
      (∀ d ∈ vec, d ≤ 9) →
      ∀ s ∈ mulInnerSteps vec di nd i ni memory cnt, s.ok vec.length := by
  induction cnt with
  | zero =>
    intro vec ni memory hk hm hd s hs
    rw [mulInnerSteps] at hs
    cases hs
  | succ cnt ih =>
    intro vec ni memory hk hm hd s hs
    have hv := getD_le_nine vec (i + ni) hd
    have hnk := getD_le_nine nd ni hn
    have hprod : di * nd.getD ni 0 ≤ 81 := by
      have := Nat.mul_le_mul hdi hnk
      omega
    rw [mulInnerSteps] at hs
    generalize ht : vec.getD (i + ni) 0 + di * nd.getD ni 0 + memory = t at hs
    have ht99 : t ≤ 99 := by omega
    have hmod : t % 256 = t := Nat.mod_eq_of_lt (by omega)
    simp only [hmod] at hs
    rcases List.mem_cons.1 hs with e | e
    · rw [e]
      exact ⟨by show i + ni < vec.length; omega, ht99, by show t / 10 ≤ 9; omega,
        by show t % 10 ≤ 9; omega⟩
    · have := ih (vec.set (i + ni) (t % 10)) (ni + 1) (t / 10)
        (by rw [List.length_set]; omega) (by omega) (digits_ok_set _ _ _ hd (by omega)) s e
      rw [List.length_set] at this
      exact this

/-- The carry loop of `mul` ends inside the block when the sum fits the block, and every
round of it stays in the block. -/
theorem mulCarrySteps_ok (fuel : Nat) :
    ∀ (vec : List Nat) (ni memory : Nat), vec.length ≤ ni + fuel → memory ≤ 9 →
      (∀ d ∈ vec, d ≤ 9) →
      digitsVal vec + 10 ^ ni * memory < 10 ^ vec.length →
      ∃ cs, mulCarrySteps vec ni memory fuel = some cs ∧ ∀ s ∈ cs, s.ok vec.length := by
  have hin : ∀ (vec : List Nat) (ni memory : Nat), memory ≠ 0 →
      digitsVal vec + 10 ^ ni * memory < 10 ^ vec.length → ni < vec.length := by
    intro vec ni memory hm hfit
    by_contra hc
    have h1 : 10 ^ vec.length ≤ 10 ^ ni := Nat.pow_le_pow_right (by omega) (by omega)
    have h2 : 10 ^ ni ≤ 10 ^ ni * memory := Nat.le_mul_of_pos_right _ (by omega)
    omega
  induction fuel with
  | zero =>
    intro vec ni memory hf hm hd hfit
    have hm0 : memory = 0 := by
      by_contra hc
      have := hin vec ni memory hc hfit
      omega
    subst hm0
    exact ⟨[], by simp [mulCarrySteps], fun s hs => by cases hs⟩
  | succ fuel ih =>
    intro vec ni memory hf hm hd hfit
    rw [mulCarrySteps]
    by_cases hm0 : memory ≠ 0
    · rw [if_pos hm0]
      have hni := hin vec ni memory hm0 hfit
      have hv := getD_le_nine vec ni hd
      generalize ht : vec.getD ni 0 + memory = t
      have hmod : t % 256 = t := Nat.mod_eq_of_lt (by omega)
      simp only [hmod]
      have hset := digitsVal_set vec ni (t % 10) hni
      have hdm : t % 10 + 10 * (t / 10) = t := Nat.mod_add_div t 10
      have hpow : 10 ^ (ni + 1) = 10 ^ ni * 10 := pow_succ 10 ni
      have e1 : 10 ^ ni * t = 10 ^ ni * (t % 10) + 10 ^ ni * 10 * (t / 10) := by
        conv_lhs => rw [← hdm]
        ring
      have e2 : 10 ^ ni * t = 10 ^ ni * vec.getD ni 0 + 10 ^ ni * memory := by
        rw [← ht]; ring
      have htot : digitsVal (vec.set ni (t % 10)) + 10 ^ (ni + 1) * (t / 10)
          = digitsVal vec + 10 ^ ni * memory := by
        rw [hpow]; omega
      obtain ⟨cs, c1, c2⟩ := ih (vec.set ni (t % 10)) (ni + 1) (t / 10)
        (by rw [List.length_set]; omega) (by omega) (digits_ok_set _ _ _ hd (by omega))
        (by rw [List.length_set, htot]; exact hfit)
      rw [List.length_set] at c2
      refine ⟨_ :: cs, by rw [c1]; rfl, ?_⟩
      intro s hs
      rcases List.mem_cons.1 hs with e | e
      · rw [e]
        exact ⟨hni, by show t ≤ 99; omega, by show t / 10 ≤ 9; omega,
          by show t % 10 ≤ 9; omega⟩
      · exact c2 s e
    · rw [if_neg hm0]
      exact ⟨[], rfl, fun s hs => by cases hs⟩

/-- Every round of `mul` stays in the block of `l + nl` slots. -/
theorem mulOuterSteps_ok (d nd : List Nat) (hd : ∀ x ∈ d, x ≤ 9) (hn : ∀ x ∈ nd, x ≤ 9)
    (cnt : Nat) :
    ∀ (vec : List Nat) (i : Nat), i + cnt ≤ d.length → vec.length = d.length + nd.length →
      (∀ x ∈ vec, x ≤ 9) →
      digitsVal vec = digitsVal (d.take i) * digitsVal nd →
      ∃ steps, mulOuterSteps vec d nd i cnt = some steps
        ∧ ∀ s ∈ steps, s.ok (d.length + nd.length) := by
  induction cnt with
  | zero =>
    intro vec i hi hl hv hval
    exact ⟨[], rfl, fun s hs => by cases hs⟩
  | succ cnt ih =>
    intro vec i hi hl hv hval
    have htake := digitsVal_take_succ d i (by omega)
    rw [mulOuterSteps]
    by_cases h0 : d.getD i 0 = 0
    · rw [if_pos h0]
      exact ih vec (i + 1) (by omega) hl hv (by rw [htake, h0, hval]; simp)
    · rw [if_neg h0]
      have hdi := getD_le_nine d i hd
      have hinner := mulInnerSteps_ok (d.getD i 0) hdi nd hn i nd.length vec 0 0
        (by omega) (by omega) hv
      obtain ⟨r1, r2, r3, r4, r5⟩ := mulInner_spec (d.getD i 0) hdi nd hn i nd.length vec 0 0
        (by omega) (by omega) hv
      simp only [Nat.add_zero, Nat.zero_add, List.drop_zero, List.take_length] at r1 r5
      generalize mulInnerSteps vec (d.getD i 0) nd i 0 0 nd.length = is at *
      generalize mulInner vec (d.getD i 0) nd i 0 0 nd.length = r at *
      obtain ⟨rb, rk, rm⟩ := r
      simp only at r1 r2 r3 r4 r5 ⊢
      have hnew : digitsVal rb + 10 ^ (i + nd.length) * rm
          = digitsVal (d.take (i + 1)) * digitsVal nd := by
        rw [r5, hval, htake]; ring
      have hlt1 := digitsVal_lt (d.take (i + 1)) (digits_ok_take d _ hd)
      have hlt2 := digitsVal_lt nd hn
      rw [List.length_take, Nat.min_eq_left (by omega)] at hlt1
      have hfit : digitsVal rb + 10 ^ (rk + i) * rm < 10 ^ rb.length := by
        rw [r1, Nat.add_comm nd.length i, hnew, r2, hl]
        calc digitsVal (d.take (i + 1)) * digitsVal nd
            < 10 ^ (i + 1) * 10 ^ nd.length := Nat.mul_lt_mul'' hlt1 hlt2
          _ = 10 ^ (i + 1 + nd.length) := (pow_add 10 _ _).symm
          _ ≤ 10 ^ (d.length + nd.length) := Nat.pow_le_pow_right (by omega) (by omega)
      obtain ⟨c1, c2, c3⟩ := mulCarry_spec vec.length rb (rk + i) rm (by rw [r2]; omega) r3 r4
        hfit
      obtain ⟨cs, k1, k2⟩ := mulCarrySteps_ok vec.length rb (rk + i) rm (by rw [r2]; omega)
        r3 r4 hfit
      obtain ⟨rest, i1, i2⟩ := ih (mulCarry rb (rk + i) rm vec.length) (i + 1) (by omega)
        (by rw [c1, r2, hl]) c2
        (by rw [c3, r1, Nat.add_comm nd.length i, hnew])
      rw [k1]
      simp only []
      rw [i1]
      refine ⟨is ++ cs ++ rest, rfl, ?_⟩
      intro s hs
      rw [r2, hl] at k2
      rw [hl] at hinner
      rcases List.mem_append.1 hs with h | h
      · rcases List.mem_append.1 h with h | h
        · exact hinner s h
        · exact k2 s h
      · exact i2 s h

/-- C39: `BigInt::mul` stays within its buffers.  For operands of `l` and `nl` digits with
every digit in 0..9 (also when the argument is the object itself), the run of `mul`
completes, and in every round of the inner loop and of the carry loop the index of `vec`
that is read and written is below `l + nl`, the sum is at most 99 (so the narrowing to
`unsigned char` does not change it), the carry is at most 9 and the value stored is in
0..9; in particular each carry loop ends before it reaches the end of `vec`. -/
theorem C39_mul_within_buffers (al : Alias) (a n : BigInt)
    (ha : ∀ x ∈ a.digits, x ≤ 9) (hn : ∀ x ∈ (cur al a n).digits, x ≤ 9) :
    ∃ steps, BigInt.mulSteps al a n = some steps
      ∧ ∀ s ∈ steps, s.index < a.digits.length + (cur al a n).digits.length
          ∧ s.sum ≤ 99 ∧ s.sum % 256 = s.sum ∧ s.carry ≤ 9 ∧ s.stored ≤ 9 := by
  have key : ∃ steps, BigInt.mulSteps al a n = some steps
      ∧ ∀ s ∈ steps, s.ok (a.digits.length + (cur al a n).digits.length) := by
    unfold BigInt.mulSteps
    by_cases h1 : a.sign = 0
    · rw [if_pos h1]
      exact ⟨[], rfl, fun s hs => by cases hs⟩
    · rw [if_neg h1]
      by_cases h2 : (cur al a n).sign = 0
      · rw [if_pos h2]
        exact ⟨[], rfl, fun s hs => by cases hs⟩
      · rw [if_neg h2]
        exact mulOuterSteps_ok a.digits (cur al a n).digits ha hn a.digits.length
          (List.replicate (a.digits.length + (cur al a n).digits.length) 0) 0 (by omega)
          (by simp) (digits_ok_replicate_zero _)
          (by simp [digitsVal_replicate_zero, digitsVal])
  obtain ⟨steps, h1, h2⟩ := key
  refine ⟨steps, h1, fun s hs => ?_⟩
  obtain ⟨k1, k2, k3, k4⟩ := h2 s hs
  exact ⟨k1, k2, Nat.mod_eq_of_lt (by omega), k3, k4⟩

/-- The run of `99 * 99`: six rounds, the greatest sum being `9 + 9 * 9 + 8 = 98`. -/
theorem C39_mul_within_buffers_witness :
    BigInt.mulSteps .distinct ⟨1, [9, 9]⟩ ⟨1, [9, 9]⟩
      = some [⟨0, 81, 1, 8⟩, ⟨1, 89, 9, 8⟩, ⟨2, 8, 8, 0⟩,
              ⟨1, 90, 0, 9⟩, ⟨2, 98, 8, 9⟩, ⟨3, 9, 9, 0⟩]
    ∧ ∃ steps, BigInt.mulSteps .distinct ⟨1, [9, 9]⟩ ⟨1, [9, 9]⟩ = some steps
      ∧ ∀ s ∈ steps, s.index < 2 + 2
          ∧ s.sum ≤ 99 ∧ s.sum % 256 = s.sum ∧ s.carry ≤ 9 ∧ s.stored ≤ 9 :=
  ⟨by decide, C39_mul_within_buffers .distinct ⟨1, [9, 9]⟩ ⟨1, [9, 9]⟩ (by decide) (by decide)⟩

end MulSteps

section Reflexive

/-- The inner loop of `isReflexive` stops at the first pair from `p` on that is not below
`pair`. -/
theorem reflexiveSkip_spec (cmp : CmpPolicy T) (G : List (Pair T T)) (pair : Pair T T)
    (fuel : Nat) :
    ∀ p, p ≤ G.length → G.length ≤ p + fuel →
      p ≤ reflexiveSkip cmp G pair fuel p
      ∧ reflexiveSkip cmp G pair fuel p ≤ G.length
      ∧ (∀ j, p ≤ j → j < reflexiveSkip cmp G pair fuel p →
          (Pair.cmp_policy cmp cmp).gt pair (G.getD j default) = true)
      ∧ (reflexiveSkip cmp G pair fuel p < G.length →
          (Pair.cmp_policy cmp cmp).gt pair
            (G.getD (reflexiveSkip cmp G pair fuel p) default) = false) := by
  induction fuel with
  | zero =>
    intro p h1 h2
    rw [reflexiveSkip]
    exact ⟨Nat.le_refl _, h1, fun j a b => by omega, fun h => by omega⟩
  | succ fuel ih =>
    intro p h1 h2
    rw [reflexiveSkip]
    by_cases hc : p ≠ G.length
        ∧ (Pair.cmp_policy cmp cmp).gt pair (G.getD p default) = true
    · rw [if_pos hc]
      obtain ⟨i1, i2, i3, i4⟩ := ih (p + 1) (by omega) (by omega)
      refine ⟨by omega, i2, ?_, i4⟩
      intro j a b
      by_cases hj : j = p
      · rw [hj]; exact hc.2
      · exact i3 j (by omega) b
    · rw [if_neg hc]
      refine ⟨Nat.le_refl _, h1, fun j a b => by omega, ?_⟩
      intro hlt
      cases hq : (Pair.cmp_policy cmp cmp).gt pair (G.getD p default) with
      | false => rfl
      | true => exact absurd ⟨by omega, hq⟩ hc

/-- The pair `(y, y)` lies above the pair `(x, x)` when `y` lies above `x`. -/
theorem diagonal_gt (cmp : CmpPolicy T) (x y : T) (h : cmp.gt y x = true) :
    (Pair.cmp_policy cmp cmp).gt ⟨y, y⟩ ⟨x, x⟩ = true := by
  show (cmp.gt y x || (cmp.eq y x && cmp.gt y x)) = true
  rw [h]; rfl

/-- The loop of `isReflexive` runs to the end of the domain exactly when every pair
`(x, x)` with `x` in the domain is in the graph. -/
theorem reflexiveLoop_spec {cmp : CmpPolicy T} (L : cmp.Linear) (X : List T)
    (G : List (Pair T T)) (hX : Ascending cmp X)
    (hG : Ascending (Pair.cmp_policy cmp cmp) G) (fuel : Nat) :
    ∀ el p, el + fuel = X.length → p ≤ G.length →
      (el < X.length → ∀ j, j < p →
        (Pair.cmp_policy cmp cmp).gt ⟨X.getD el default, X.getD el default⟩
          (G.getD j default) = true) →
      (∀ i, i < el →
        Member (Pair.cmp_policy cmp cmp) G ⟨X.getD i default, X.getD i default⟩) →
      (reflexiveLoop cmp X G fuel el p = X.length
        ↔ ∀ i, i < X.length →
          Member (Pair.cmp_policy cmp cmp) G ⟨X.getD i default, X.getD i default⟩) := by
  have LP := pair_linear L L
  induction fuel with
  | zero =>
    intro el p he hp hlow hall
    rw [reflexiveLoop]
    exact ⟨fun _ i hi => hall i (by omega), fun _ => by omega⟩
  | succ fuel ih =>
    intro el p he hp hlow hall
    have hel : el < X.length := by omega
    rw [reflexiveLoop, if_pos (by omega)]
    obtain ⟨s1, s2, s3, s4⟩ := reflexiveSkip_spec cmp G
      ⟨X.getD el default, X.getD el default⟩ G.length p hp (by omega)
    generalize reflexiveSkip cmp G ⟨X.getD el default, X.getD el default⟩ G.length p = p1
      at s1 s2 s3 s4 ⊢
    have hbelow : ∀ j, j < p1 →
        (Pair.cmp_policy cmp cmp).gt ⟨X.getD el default, X.getD el default⟩
          (G.getD j default) = true := by
      intro j hj
      by_cases hjp : j < p
      · exact hlow hel j hjp
      · exact s3 j (by omega) hj
    by_cases hc : p1 = G.length
        ∨ (Pair.cmp_policy cmp cmp).eq ⟨X.getD el default, X.getD el default⟩
            (G.getD p1 default) = false
    · rw [if_pos hc]
      have hnot : ¬ Member (Pair.cmp_policy cmp cmp) G
          ⟨X.getD el default, X.getD el default⟩ := by
        by_cases hlim : p1 = G.length
        · apply not_member_of_above LP
          intro y hy
          obtain ⟨j, hj, hje⟩ := (mem_iff_getD G y).1 hy
          rw [← hje]
          exact hbelow j (by omega)
        · have hlt : p1 < G.length := by omega
          have hne : (Pair.cmp_policy cmp cmp).eq ⟨X.getD el default, X.getD el default⟩
              (G.getD p1 default) = false := by
            rcases hc with h | h
            · exact absurd h hlim
            · exact h
          have hgt := LP.total _ _ hne (s4 hlt)
          apply not_member_of_lt LP G p1 _ hG hlt ?_ hgt
          intro y hy
          obtain ⟨j, hj1, hj2, hje⟩ := (mem_take_iff_getD G p1 y).1 hy
          rw [← hje]
          exact hbelow j hj1
      constructor
      · intro h; omega
      · intro h; exact absurd (h el hel) hnot
    · rw [if_neg hc]
      have hlt : p1 < G.length := by
        by_contra h
        exact hc (Or.inl (by omega))
      have heq : (Pair.cmp_policy cmp cmp).eq ⟨X.getD el default, X.getD el default⟩
          (G.getD p1 default) = true := by
        cases hq : (Pair.cmp_policy cmp cmp).eq ⟨X.getD el default, X.getD el default⟩
            (G.getD p1 default) with
        | true => rfl
        | false => exact absurd (Or.inr hq) hc
      refine ih (el + 1) p1 (by omega) s2 ?_ ?_
      · intro hel1 j hj
        have hup := diagonal_gt cmp _ _ (asc_getD hX el (el + 1) (by omega) hel1)
        exact LP.gt_trans _ _ _ hup (hbelow j hj)
      · intro i hi
        by_cases hie : i = el
        · rw [hie]
          exact ⟨G.getD p1 default, getD_mem G p1 hlt, LP.eq_symm _ _ heq⟩
        · exact hall i (by omega)

/-- With an empty cache, equal domain and codomain and ascending sets, `isReflexive()`
answers whether every pair `(x, x)` with `x` in the domain is in the graph. -/
theorem isReflexive_spec {cmp : CmpPolicy T} (dflt : CmpPolicy T) (L : cmp.Linear)
    (shared : Bool) (r : Relation T T) (hX : Ascending cmp r.X)
    (hG : Ascending (Pair.cmp_policy cmp cmp) r.G)
    (hsame : Set.eq dflt shared r.X r.Y = true) (hc : r.checked = 0) :
    ∃ b r1, r.isReflexive dflt cmp shared = some (b, r1)
      ∧ (b = true ↔ ∀ x ∈ r.X, Member (Pair.cmp_policy cmp cmp) r.G ⟨x, x⟩)
      ∧ r1.X = r.X ∧ r1.Y = r.Y ∧ r1.G = r.G := by
  have hloop := reflexiveLoop_spec L r.X r.G hX hG r.X.length 0 0 (by omega) (by omega)
    (fun _ j hj => by omega) (fun i hi => by omega)
  have hmem : (∀ i, i < r.X.length →
        Member (Pair.cmp_policy cmp cmp) r.G ⟨r.X.getD i default, r.X.getD i default⟩)
      ↔ ∀ x ∈ r.X, Member (Pair.cmp_policy cmp cmp) r.G ⟨x, x⟩ := by
    constructor
    · intro h x hx
      obtain ⟨i, hi, he⟩ := (mem_iff_getD r.X x).1 hx
      rw [← he]; exact h i hi
    · intro h i hi
      exact h _ (getD_mem r.X i hi)
  unfold Relation.isReflexive
  by_cases h0 : r.X.length = 0 ∧ r.Y.length = 0
  · rw [if_pos h0]
    refine ⟨true, r, rfl, ?_, rfl, rfl, rfl⟩
    have : r.X = [] := List.length_eq_zero.1 h0.1
    rw [this]
    exact ⟨fun _ x hx => (by cases hx), fun _ => rfl⟩
  · rw [if_neg h0, hc, if_neg (by simp)]
    unfold Relation.checkSetsAreEqual
    rw [hc, if_neg (by simp), hsame, if_neg (by simp)]
    simp only []
    refine ⟨_, _, rfl, ?_, rfl, rfl, rfl⟩
    show decide _ = true ↔ _
    rw [decide_eq_true_eq, hloop, hmem]

/-- C33: `isReflexive`.  For a relation over one element type with a linear-order policy
whose domain compares equal to its codomain, whose domain and graph are ascending (the
graph in left-then-right order) and whose cache is empty, `isReflexive()` completes,
changes only the cache, and returns true if and only if the pair `(x, x)` is in the graph
for every `x` in the domain; and after `sub` removes `(x, x)` with `x` in the domain
(graph below `2^31` pairs), whatever the cache held, the next `isReflexive()` returns
false. -/
theorem C33_is_reflexive {cmp : CmpPolicy T} (dflt : CmpPolicy T) (L : cmp.Linear)
    (shared : Bool) (r : Relation T T) (hX : Ascending cmp r.X)
    (hG : Ascending (Pair.cmp_policy cmp cmp) r.G)
    (hsame : Set.eq dflt shared r.X r.Y = true) (hc : r.checked = 0) :
    (∃ b r1, r.isReflexive dflt cmp shared = some (b, r1)
      ∧ (b = true ↔ ∀ x ∈ r.X, Member (Pair.cmp_policy cmp cmp) r.G ⟨x, x⟩)
      ∧ r1.X = r.X ∧ r1.Y = r.Y ∧ r1.G = r.G)
    ∧ (r.G.length < 2147483648 → ∀ flags checked, ∀ x ∈ r.X,
        ∃ r2, (({ r with flags := flags, checked := checked }.sub cmp cmp
          ⟨x, x⟩).2).isReflexive dflt cmp shared = some (false, r2)) := by
  have LP := pair_linear L L
  refine ⟨isReflexive_spec dflt L shared r hX hG hsame hc, ?_⟩
  intro hlen flags checked x hx
  obtain ⟨a1, a2⟩ := sub_elem_spec LP r.G ⟨x, x⟩ hG hlen
  obtain ⟨b, r2, h1, h2, _⟩ := isReflexive_spec dflt L shared
    ({ r with flags := flags, checked := checked }.sub cmp cmp ⟨x, x⟩).2 hX a1 hsame rfl
  refine ⟨r2, ?_⟩
  rw [h1]
  cases b with
  | false => rfl
  | true =>
    exfalso
    obtain ⟨y, hy, he⟩ := h2.1 rfl x hx
    have hy' : y ∈ Set.sub (Pair.cmp_policy cmp cmp) r.G ⟨x, x⟩ := hy
    rw [a2, List.mem_filter] at hy'
    rw [he] at hy'
    exact absurd hy'.2 (by simp)

/-- The relation with domain `{1, 2}`, codomain `{1, 2}` and graph `{(1,1), (2,2)}` is
reported reflexive, and no longer after `(2, 2)` is removed. -/
theorem C33_is_reflexive_witness :
    Relation.isReflexive default_cmp_policy default_cmp_policy false
        (⟨[1, 2], [1, 2], [⟨1, 1⟩, ⟨2, 2⟩], 0, 0⟩ : Relation Nat Nat)
      = some (true, ⟨[1, 2], [1, 2], [⟨1, 1⟩, ⟨2, 2⟩], 71, 18631⟩)
    ∧ Relation.sub default_cmp_policy default_cmp_policy
        (⟨[1, 2], [1, 2], [⟨1, 1⟩, ⟨2, 2⟩], 71, 18631⟩ : Relation Nat Nat) ⟨2, 2⟩
      = (none, ⟨[1, 2], [1, 2], [⟨1, 1⟩], 71, 0⟩)
    ∧ ∃ r2, Relation.isReflexive default_cmp_policy default_cmp_policy false
        (Relation.sub default_cmp_policy default_cmp_policy
          (⟨[1, 2], [1, 2], [⟨1, 1⟩, ⟨2, 2⟩], 71, 18631⟩ : Relation Nat Nat) ⟨2, 2⟩).2
      = some (false, r2) :=
  ⟨by decide, by decide,
    (C33_is_reflexive default_cmp_policy default_linear false
      (⟨[1, 2], [1, 2], [⟨1, 1⟩, ⟨2, 2⟩], 0, 0⟩ : Relation Nat Nat)
      (by decide) (by decide) (by decide) rfl).2 (by decide) 71 18631 2 (by decide)⟩

end Reflexive

section Totality

/-- C34: `isLeftTotal` reports a left-total relation as not left-total, and reads the
graph past its end.  For domain `{1}`, codomain `{1}` and graph `{(1, 1)}` (invariant
holds, cache empty, every domain element is the left element of a pair) the loop leaves
`p` on `limit` after the match and `isLeftTotal()` returns `p != limit`, that is false,
recording `FL_LEFT_TOTAL` and `FL_REFLEXIVE` as known and unset.  For domain `{1, 3}`,
codomain `{1, 2}` and graph `{(1, 1), (1, 2)}` the inner loop stops at `p == limit` while
looking for 3, and `p->left()` is evaluated there. -/
theorem C34_left_total_reported_false :
    (oneLoop.inv default_cmp_policy default_cmp_policy ∧ oneLoop.checked = 0
      ∧ (∀ x ∈ oneLoop.X, ∃ p ∈ oneLoop.G, p.left = x)
      ∧ leftTotalLoop default_cmp_policy oneLoop.X oneLoop.G 1 0 0 = some oneLoop.G.length
      ∧ oneLoop.isLeftTotal default_cmp_policy
          = some (false, ⟨[1], [1], [⟨1, 1⟩], 0, 66⟩))
    ∧ (oneToTwo.inv default_cmp_policy default_cmp_policy ∧ oneToTwo.checked = 0
      ∧ leftTotalLoop default_cmp_policy oneToTwo.X oneToTwo.G 1 1 1 = none
      ∧ leftTotalSkip default_cmp_policy oneToTwo.G 3 2 1 = oneToTwo.G.length
      ∧ oneToTwo.isLeftTotal default_cmp_policy = none) := by
  decide

/-- C31: the cache is not coherent.  On the relation with domain `{1}`, codomain
`{1, 2, 3}` and graph `{(1, 1), (1, 2)}` (invariant holds, cache empty) `isLeftTotal()`
as the first query returns true; but `isRightTotal()` as the first query finds fewer
pairs than codomain elements and calls `unsetFlag(FL_LEFT_TOTAL)`, which records
`FL_LEFT_TOTAL` (and `FL_REFLEXIVE`) as known and unset, so that a following
`isLeftTotal()` returns false from the cache. -/
theorem C31_right_total_unsets_left_total :
    oneToThree.inv default_cmp_policy default_cmp_policy ∧ oneToThree.checked = 0
    ∧ oneToThree.isLeftTotal default_cmp_policy
        = some (true, ⟨[1], [1, 2, 3], [⟨1, 1⟩, ⟨1, 2⟩], 2, 2⟩)
    ∧ oneToThree.isRightTotal default_cmp_policy
        = (false, ⟨[1], [1, 2, 3], [⟨1, 1⟩, ⟨1, 2⟩], 0, 66⟩)
    ∧ (oneToThree.isRightTotal default_cmp_policy).2.checked &&& FL_LEFT_TOTAL ≠ 0
    ∧ (oneToThree.isRightTotal default_cmp_policy).2.flags &&& FL_LEFT_TOTAL = 0
    ∧ (oneToThree.isRightTotal default_cmp_policy).2.isLeftTotal default_cmp_policy
        = some (false, ⟨[1], [1, 2, 3], [⟨1, 1⟩, ⟨1, 2⟩], 0, 66⟩) := by
  decide

end Totality

end mina86
